import Mathlib

/-!
# genelab: the sharded trie of reads and the overlap locator

A shallow embedding of `maketrie.c` (construction, sorted walk, trie dump) and of
`findoverlaps.c` (suffix probes against the persisted trie).

Conventions of the embedding.

* Machine words (`EDGE`, `INDEX`, `unsigned long long`) are natural numbers; the one
  place where the code increments an index (`++last_used_edge`) is reduced modulo `2^64`.
* A peer (MPI rank) is a record of the process-local globals of the C program; the
  cluster is a function from ranks to peers.  A remote procedure call is modelled by
  running the callee on the state of the target rank, since every call is a synchronous
  round trip and at most one request is in flight.
* `assert` failures, `exit (EXIT_FAILURE)` paths and sends to a rank that cannot answer
  are values of `Fault`.
* C strings are lists of characters; the terminating NUL is the end of the list.
* The statistics that only feed `stderr` (`letters`, `freq`, progress lines) are not modelled.
* Ranks and lengths are assumed to fit the C type `int`.
-/

namespace ReadTrie

/-! ## Edge words and cells (`maketrie.c` lines 27-53) -/

/-- `#define ENDS_WORD (1ULL<<63ULL)` -/
def ENDS_WORD : Nat := 1 <<< 63

/-- `#define EDGE_MASK (ENDS_WORD-1UL)` -/
def EDGE_MASK : Nat := ENDS_WORD - 1

/-- `#define ROOT_CELL ((INDEX)1L)` -/
def ROOT_CELL : Nat := 1

/-- `#define MAX_LINE 1024` -/
def MAX_LINE : Nat := 1024

/-- `typedef struct cell { EDGE edge[5]; } CELL;` -/
structure CELL where
  e0 : Nat
  e1 : Nat
  e2 : Nat
  e3 : Nat
  e4 : Nat
deriving DecidableEq

/-- Reading `cell.edge[i]`. -/
def CELL.edge (x : CELL) (i : Fin 5) : Nat :=
  match i with
  | 0 => x.e0
  | 1 => x.e1
  | 2 => x.e2
  | 3 => x.e3
  | 4 => x.e4

/-- Writing `cell.edge[i] = v`. -/
def CELL.setEdge (x : CELL) (i : Fin 5) (v : Nat) : CELL :=
  match i with
  | 0 => { x with e0 := v }
  | 1 => { x with e1 := v }
  | 2 => { x with e2 := v }
  | 3 => { x with e3 := v }
  | 4 => { x with e4 := v }

/-- The cell `empty` of `maketrie.c` (all five edges `0LL`). -/
def empty : CELL := ⟨0, 0, 0, 0, 0⟩

/-- The letter translation at the head of `local_add_read`:
`A`, `C`, `G`, `T` map to `0..3` and every other character to `_N_ = 4`. -/
def code (c : Char) : Fin 5 :=
  if c = 'A' then 0
  else if c = 'C' then 1
  else if c = 'G' then 2
  else if c = 'T' then 3
  else 4

/-- `char *trt = "ACGTN";` -/
def trt (i : Fin 5) : Char :=
  match i with
  | 0 => 'A'
  | 1 => 'C'
  | 2 => 'G'
  | 3 => 'T'
  | 4 => 'N'

/-- The test `(*s == 0) || (*s == newline) || (*s == carriage return)` on a C string. -/
def at_end (s : List Char) : Bool :=
  match s with
  | [] => true
  | c :: _ => c = Char.ofNat 0 || c = Char.ofNat 10 || c = Char.ofNat 13

/-! ## Cluster configuration and process state -/

/-- The values fixed at start-up: the shard exponent and the number of ranks. -/
structure Config where
  CHUNKBITS : Nat
  mpisize : Nat

/-- `CHUNKSIZE = (1ULL << CHUNKBITS)` -/
def Config.CHUNKSIZE (cfg : Config) : Nat := 1 <<< cfg.CHUNKBITS

/-- `CHUNKMASK = (CHUNKSIZE - 1ULL)` -/
def Config.CHUNKMASK (cfg : Config) : Nat := cfg.CHUNKSIZE - 1

/-- `MAX_SIZE = CHUNKSIZE * mpisize` -/
def Config.MAX_SIZE (cfg : Config) : Nat := cfg.CHUNKSIZE * cfg.mpisize

/-- The ways a run of `maketrie` stops early. -/
inductive Fault where
  /-- an `assert` failed -/
  | assertion
  /-- `PROGRAM BUG: ... assert that we never feed backwards` -/
  | feedBackwards
  /-- `ERROR: array bounds exceeded!` -/
  | arrayBounds
  /-- `Ran out of free edges` -/
  | ranOut
  /-- a message was sent to a rank that does not exist or that runs no dispatcher -/
  | noSuchRank
  /-- a chain of forwarded calls did not end -/
  | fuel
  /-- an array was read or written outside its bounds -/
  | outOfBounds
deriving DecidableEq

/-- The process-local globals of one rank of `maketrie`. -/
structure Peer where
  /-- `CELL *trie_cell`, indexed by local offset -/
  trie_cell : Nat → CELL
  /-- `static INDEX last_used_edge` -/
  last_used_edge : Nat
  /-- `static int next_guy` of `get_next_free_edge` -/
  next_guy : Nat
  /-- `static int init` of `get_next_free_edge` -/
  init : Bool
  /-- the lines `original:0 new` written to the `-dups-` file of this rank -/
  duplicates : List (Nat × Nat)
  /-- `static int dups` -/
  dups : Nat
  /-- `static int seq` -/
  seq : Nat
  /-- `static long length[MAX_LINE]` -/
  length : Nat → Nat
  /-- the lines written to the `-sorted` file by this rank -/
  sorted_and_unique_reads : List (List Char × Nat)

/-- The cluster: one process state per rank, and a history variable. -/
structure World where
  /-- the process state of each rank -/
  peer : Nat → Peer
  /-- history variable, not program state: the indices handed out by the statement
  `return ++last_used_edge`, oldest first, each with the rank that executed it -/
  served : List (Nat × Nat)

/-- Replace the state of one rank. -/
def World.set (W : World) (rank : Nat) (p : Peer) : World :=
  { W with peer := fun r => if r = rank then p else W.peer r }

/-- The assignment `trie_cell[off].edge[c] = v` on rank `rank`. -/
def write_edge (W : World) (rank off : Nat) (c : Fin 5) (v : Nat) : World :=
  W.set rank { W.peer rank with
    trie_cell := fun o => if o = off then ((W.peer rank).trie_cell off).setEdge c v
                          else (W.peer rank).trie_cell o }

/-- The loop `for (i = 0; i < 5; i++) trie_cell[off].edge[i] = value.edge[i]` on rank `rank`. -/
def write_cell (W : World) (rank off : Nat) (value : CELL) : World :=
  W.set rank { W.peer rank with
    trie_cell := fun o => if o = off then value else (W.peer rank).trie_cell o }

/-- The state of rank `mpirank` when `main` reaches the ingestion loop: the shard is
zeroed by `calloc`, `last_used_edge` is `ROOT_CELL` on rank 0 and
`mpirank * CHUNKSIZE - 1` on the others. -/
def initial_peer (cfg : Config) (mpirank : Nat) : Peer :=
  { trie_cell := fun _ => empty
    last_used_edge := if mpirank = 0 then ROOT_CELL else mpirank * cfg.CHUNKSIZE - 1
    next_guy := 1
    init := false
    duplicates := []
    dups := 0
    seq := 0
    length := fun _ => 0
    sorted_and_unique_reads := [] }

/-- The cluster before the first read is inserted. -/
def initial_world (cfg : Config) : World :=
  { peer := fun r => initial_peer cfg r, served := [] }

/-! ## The allocator (`get_next_free_edge`, lines 498-520) -/

/-- `get_next_free_edge` on rank `mpirank`.  When the next index is not in the shard of
this rank the call is forwarded to `next_guy` (`remote_get_next_free_edge`, served by
`accept_get_next_free_edge` there); the first argument bounds the length of that chain. -/
def get_next_free_edge (cfg : Config) : Nat → World → Nat → Except Fault (World × Nat)
  | 0, _, _ => .error .fuel
  | fuel + 1, W, mpirank =>
    let me := W.peer mpirank
    if ((me.last_used_edge + 1) % 2 ^ 64) >>> cfg.CHUNKBITS ≠ mpirank then
      let me1 : Peer := if me.init then me else { me with next_guy := mpirank + 1, init := true }
      let W1 := W.set mpirank me1
      let target_rank := me1.next_guy
      if target_rank = mpirank then .error .assertion
      else if target_rank = 0 ∨ cfg.mpisize ≤ target_rank then .error .noSuchRank
      else
        match get_next_free_edge cfg fuel W1 target_rank with
        | .error e => .error e
        | .ok (W2, edge) =>
          .ok (W2.set mpirank { W2.peer mpirank with next_guy := edge >>> cfg.CHUNKBITS }, edge)
    else
      let e := (me.last_used_edge + 1) % 2 ^ 64
      .ok ({ W.set mpirank { me with last_used_edge := e } with
              served := W.served ++ [(mpirank, e)] }, e)

/-! ## Cell writes across shards (`setread`, lines 170-199) -/

/-- `setread (index, value)` on rank `mpirank`; the remote branch is served on the owning
rank by the `TAG_WRITE_READ` case of its dispatcher, which calls `setread` there. -/
def setread (cfg : Config) (W : World) (mpirank index : Nat) (value : CELL) :
    Except Fault World :=
  let target_rank := index >>> cfg.CHUNKBITS
  if target_rank = mpirank then
    .ok (write_cell W mpirank (index &&& cfg.CHUNKMASK) value)
  else if target_rank < mpirank then .error .feedBackwards
  else if cfg.mpisize ≤ target_rank then .error .arrayBounds
  else .ok (write_cell W target_rank (index &&& cfg.CHUNKMASK) value)

/-! ## Insertion (`local_add_read` lines 235-296, `add_read` lines 522-545) -/

/-- `(long long) edge >> CHUNKBITS`: a word with the top bit set gives a negative value,
which is no rank. -/
def signed_rank (cfg : Config) (edge : Nat) : Option Nat :=
  if edge < 2 ^ 63 then some (edge >>> cfg.CHUNKBITS) else none

/-- `local_add_read (s, edge, read_number, len)` on rank `mpirank`.  The argument
`add_read_tail` is the call `add_read (s, ...)` made after `s++`, that is, `add_read`
on the rest of the string. -/
def local_add_read (cfg : Config)
    (add_read_tail : World → Nat → Nat → Nat → Nat → Except Fault (World × Nat))
    (s : List Char) (W : World) (mpirank edge read_number len : Nat) :
    Except Fault (World × Nat) :=
  if edge >>> cfg.CHUNKBITS ≠ mpirank then .error .assertion
  else
    match s with
    | [] => .error .assertion
    | ch :: s1 =>
      if at_end (ch :: s1) then .error .assertion
      else
        let c := code ch
        let off := edge &&& cfg.CHUNKMASK
        let w := ((W.peer mpirank).trie_cell off).edge c
        if at_end s1 then
          if w &&& ENDS_WORD ≠ 0 then
            let original_read := w &&& EDGE_MASK
            let me := W.peer mpirank
            .ok (W.set mpirank { me with
                    duplicates := me.duplicates ++ [(original_read, read_number)]
                    dups := me.dups + 1 }, len + 1)
          else if w &&& EDGE_MASK ≠ 0 then .error .assertion
          else .ok (write_edge W mpirank off c (ENDS_WORD ||| read_number), len + 1)
        else if w = 0 then
          match get_next_free_edge cfg cfg.mpisize W mpirank with
          | .error e => .error e
          | .ok (W1, new_edge) =>
            match setread cfg W1 mpirank new_edge empty with
            | .error e => .error e
            | .ok W2 =>
              let W3 := write_edge W2 mpirank off c new_edge
              if cfg.MAX_SIZE ≤ new_edge then .error .ranOut
              else add_read_tail W3 mpirank (((W3.peer mpirank).trie_cell off).edge c)
                     read_number (len + 1)
        else add_read_tail W mpirank w read_number (len + 1)

/-- The part of `add_read` before the rank test: `if (len == 0) { assert ...; seq++; }`. -/
def add_read_enter (W : World) (mpirank edge read_number len : Nat) : Except Fault World :=
  if len = 0 then
    if edge ≠ ROOT_CELL then .error .assertion
    else if EDGE_MASK < read_number then .error .assertion
    else .ok (W.set mpirank { W.peer mpirank with seq := (W.peer mpirank).seq + 1 })
  else .ok W

/-- The branch `target_rank == mpirank` of `add_read`:
`len2 = local_add_read (...); if (len == 0) length[len2]++; return len2;`. -/
def add_read_local (cfg : Config)
    (add_read_tail : World → Nat → Nat → Nat → Nat → Except Fault (World × Nat))
    (s : List Char) (W : World) (mpirank edge read_number len : Nat) :
    Except Fault (World × Nat) :=
  match local_add_read cfg add_read_tail s W mpirank edge read_number len with
  | .error e => .error e
  | .ok (W1, len2) =>
    if len = 0 then
      let me := W1.peer mpirank
      .ok (W1.set mpirank { me with
              length := fun i => if i = len2 then me.length i + 1 else me.length i }, len2)
    else .ok (W1, len2)

/-- The body of `add_read` on rank `mpirank`, the recursive call being `add_read_tail`.
In the remote branch (`remote_add_read`, served by `accept_add_read`) the target rank
runs `add_read` on the same arguments, where the rank test succeeds. -/
def add_read_body (cfg : Config)
    (add_read_tail : World → Nat → Nat → Nat → Nat → Except Fault (World × Nat))
    (s : List Char) (W : World) (mpirank edge read_number len : Nat) :
    Except Fault (World × Nat) :=
  match add_read_enter W mpirank edge read_number len with
  | .error e => .error e
  | .ok W1 =>
    match signed_rank cfg edge with
    | none => .error .noSuchRank
    | some target_rank =>
      if target_rank = mpirank then
        add_read_local cfg add_read_tail s W1 mpirank edge read_number len
      else if target_rank = 0 ∨ cfg.mpisize ≤ target_rank then .error .noSuchRank
      else
        match add_read_enter W1 target_rank edge read_number len with
        | .error e => .error e
        | .ok W2 => add_read_local cfg add_read_tail s W2 target_rank edge read_number len

/-- `add_read (s, edge, read_number, len)` on rank `mpirank`; the result is the new
state of the cluster and the returned length. -/
def add_read (cfg : Config) :
    List Char → World → Nat → Nat → Nat → Nat → Except Fault (World × Nat)
  | [], W, mpirank, edge, read_number, len =>
    add_read_body cfg (fun _ _ _ _ _ => .error .assertion) [] W mpirank edge read_number len
  | ch :: s1, W, mpirank, edge, read_number, len =>
    add_read_body cfg (add_read cfg s1) (ch :: s1) W mpirank edge read_number len

/-- The ingestion loop of `main` on rank 0 (lines 874-919), for the sequence lines of the
input: `add_read (line, ROOT_CELL, read_number++, 0)` for each of them in turn. -/
def ingest (cfg : Config) : List (List Char) → World → Nat → Except Fault (World × Nat)
  | [], W, read_number => .ok (W, read_number)
  | line :: more, W, read_number =>
    match add_read cfg line W 0 ROOT_CELL read_number 0 with
    | .error e => .error e
    | .ok (W1, _) => ingest cfg more W1 (read_number + 1)

/-- Construction from the start: the reads are inserted in input order with
identifiers `0, 1, 2, ...`. -/
def construct (cfg : Config) (reads : List (List Char)) : Except Fault World :=
  match ingest cfg reads (initial_world cfg) 0 with
  | .error e => .error e
  | .ok (W, _) => .ok W


/-! ## Global reading of a cluster state -/

/-- The cell with global index `i`: the cell at local offset `i & CHUNKMASK` of the
shard of rank `i >> CHUNKBITS`. -/
def cell_at (cfg : Config) (W : World) (i : Nat) : CELL :=
  (W.peer (i >>> cfg.CHUNKBITS)).trie_cell (i &&& cfg.CHUNKMASK)

/-- The largest index handed out so far, the root counting as handed out. -/
def largest_served (W : World) : Nat :=
  (W.served.map Prod.snd).foldl max ROOT_CELL

/-- The allocated global indices: the root and every index returned by the allocator. -/
def allocated (W : World) (i : Nat) : Prop :=
  i = ROOT_CELL ∨ i ∈ W.served.map Prod.snd

/-- The allocated local offsets of the shard of rank `r`. -/
def allocated_local (cfg : Config) (W : World) (r : Nat) (off : Nat) : Prop :=
  ∃ i, allocated W i ∧ i >>> cfg.CHUNKBITS = r ∧ i &&& cfg.CHUNKMASK = off

/-- The allocator state of a cluster whose largest allocated index is `G`: ranks below
the shard of `G + 1` are full, the rank of that shard stands at `G`, later ranks are
untouched; a cached `next_guy` points forward and not past the shard of `G + 1`;
the history lists `2 .. G`. -/
structure AllocInv (cfg : Config) (W : World) (G : Nat) : Prop where
  root_le : 1 ≤ G
  lt_max : G < cfg.mpisize * 2 ^ cfg.CHUNKBITS
  last : ∀ r, r < cfg.mpisize →
    (W.peer r).last_used_edge =
      if r < (G + 1) / 2 ^ cfg.CHUNKBITS then (r + 1) * 2 ^ cfg.CHUNKBITS - 1
      else if r = (G + 1) / 2 ^ cfg.CHUNKBITS then G
      else r * 2 ^ cfg.CHUNKBITS - 1
  next : ∀ r, r < cfg.mpisize → (W.peer r).init = true →
    r < (W.peer r).next_guy ∧
      ((W.peer r).next_guy ≤ (G + 1) / 2 ^ cfg.CHUNKBITS ∨ (W.peer r).next_guy = r + 1)
  served : W.served = (List.range' 2 (G - 1)).map (fun i => (i / 2 ^ cfg.CHUNKBITS, i))

/-- Two cluster states that differ at most in the allocator variables and the history. -/
def SameCells (W W1 : World) : Prop :=
  ∀ r, (W1.peer r).trie_cell = (W.peer r).trie_cell ∧
    (W1.peer r).duplicates = (W.peer r).duplicates ∧
    (W1.peer r).dups = (W.peer r).dups ∧
    (W1.peer r).seq = (W.peer r).seq ∧
    (W1.peer r).length = (W.peer r).length ∧
    (W1.peer r).sorted_and_unique_reads = (W.peer r).sorted_and_unique_reads


/-! ## The trie as one flat array

The insertion of `local_add_read` read on a single array of cells indexed by global
index, with one allocation counter.  The theorems below relate every cluster run to
a run on this flat array. -/

/-- A flat trie: the cell of every global index and the largest allocated index. -/
structure Flat where
  mem : Nat → CELL
  last : Nat

/-- The flat trie before the first insertion. -/
def Flat.initial : Flat := ⟨fun _ => empty, ROOT_CELL⟩

/-- The assignment `mem[i].edge[c] = v`. -/
def Flat.write (mem : Nat → CELL) (i : Nat) (c : Fin 5) (v : Nat) : Nat → CELL :=
  fun j => if j = i then (mem i).setEdge c v else mem j

/-- The steps of `local_add_read` on a flat trie with room for the indices below `cap`.
The result is the new trie and, for a duplicate, the identifier found in the leaf;
`none` stands for every run that stops with a fault. -/
def flat_add (cap : Nat) : List Char → Flat → Nat → Nat → Option (Flat × Option Nat)
  | [], _, _, _ => none
  | ch :: s1, F, edge, read_number =>
    if at_end (ch :: s1) then none
    else
      let c := code ch
      let w := (F.mem edge).edge c
      if at_end s1 then
        if w &&& ENDS_WORD ≠ 0 then some (F, some (w &&& EDGE_MASK))
        else if w &&& EDGE_MASK ≠ 0 then none
        else some ({ F with mem := Flat.write F.mem edge c (ENDS_WORD ||| read_number) }, none)
      else if w = 0 then
        if cap ≤ F.last + 1 then none
        else
          let n := F.last + 1
          let mem1 : Nat → CELL := fun i => if i = n then empty else F.mem i
          flat_add cap s1 ⟨Flat.write mem1 edge c n, n⟩ n read_number
      else if 2 ^ 63 ≤ w then none
      else flat_add cap s1 F w read_number

/-- The length of a C string: the characters before the first NUL, newline or
carriage return. -/
def c_strlen : List Char → Nat
  | [] => 0
  | c :: s => if at_end (c :: s) then 0 else c_strlen s + 1

/-- A cluster state read as a flat trie. -/
def Rel (cfg : Config) (W : World) (F : Flat) : Prop :=
  AllocInv cfg W F.last ∧ F.mem = cell_at cfg W

/-- Every edge of an allocated cell is empty, a leaf word, or the index of a later
allocated cell. -/
def Bounded (F : Flat) : Prop :=
  ∀ i, 1 ≤ i → i ≤ F.last → ∀ c : Fin 5,
    (F.mem i).edge c = 0 ∨ (F.mem i).edge c &&& ENDS_WORD ≠ 0 ∨
      (i < (F.mem i).edge c ∧ (F.mem i).edge c ≤ F.last)

/-- Two cluster states with the same allocator variables and history. -/
def SameAlloc (W W1 : World) : Prop :=
  W1.served = W.served ∧
  ∀ r, (W1.peer r).last_used_edge = (W.peer r).last_used_edge ∧
    (W1.peer r).next_guy = (W.peer r).next_guy ∧ (W1.peer r).init = (W.peer r).init


/-- How the outcome `out` of a call on the cluster matches the outcome `res` of the flat
insertion: both succeed, with the returned length `n` and a cluster that reads as the
new flat trie, or both stop with a fault. -/
def SimResult (cfg : Config) (res : Option (Flat × Option Nat))
    (out : Except Fault (World × Nat)) (n : Nat) : Prop :=
  match res with
  | some (F1, _) => ∃ W1, out = .ok (W1, n) ∧ Rel cfg W1 F1
  | none => ∃ e, out = .error e

/-- The statement that a function on cluster states follows `flat_add` on the string `s`. -/
def Simulates (cfg : Config)
    (f : World → Nat → Nat → Nat → Nat → Except Fault (World × Nat)) (s : List Char) : Prop :=
  ∀ (W : World) (F : Flat) (p edge rn len : Nat),
    Rel cfg W F → Bounded F → 1 ≤ edge → edge ≤ F.last → p ≤ edge / 2 ^ cfg.CHUNKBITS →
    (len = 0 → edge = ROOT_CELL ∧ rn ≤ EDGE_MASK) →
    SimResult cfg (flat_add (cfg.mpisize * 2 ^ cfg.CHUNKBITS) s F edge rn)
      (f W p edge rn len) (len + c_strlen s)

/-- The statement that a function on cluster states stops with a fault when it is asked
to continue from a leaf word. -/
def RejectsLeaf (f : World → Nat → Nat → Nat → Nat → Except Fault (World × Nat)) : Prop :=
  ∀ (W : World) (p edge rn len : Nat), 2 ^ 63 ≤ edge → len ≠ 0 →
    ∃ e, f W p edge rn len = .error e


/-! ## Paths in the trie -/

/-- `spells mem e cs path w`: starting in cell `e` and following the letters `cs`, the
cells visited are `path` (one per letter, `e` first), every edge but the last is a child
edge, and the last edge is the leaf word `w` (its terminator bit is set). -/
def spells (mem : Nat → CELL) : Nat → List (Fin 5) → List Nat → Nat → Prop
  | e, [c], [e1], w => e1 = e ∧ (mem e).edge c = w ∧ w &&& ENDS_WORD ≠ 0
  | e, c :: c2 :: cs, e1 :: path, w =>
    e1 = e ∧ (mem e).edge c ≠ 0 ∧ (mem e).edge c &&& ENDS_WORD = 0 ∧
      spells mem ((mem e).edge c) (c2 :: cs) path w
  | _, _, _, _ => False

/-- Whether a list of cells is the path to a leaf can be computed. -/
instance spells_decidable (mem : Nat → CELL) :
    ∀ (e : Nat) (cs : List (Fin 5)) (path : List Nat) (w : Nat),
      Decidable (spells mem e cs path w)
  | _, [], _, _ => isFalse (by simp [spells])
  | _, [_], [], _ => isFalse (by simp [spells])
  | e, [c], [e1], w =>
    if h : e1 = e ∧ (mem e).edge c = w ∧ w &&& ENDS_WORD ≠ 0 then isTrue (by simpa [spells] using h)
    else isFalse (by simpa [spells] using h)
  | _, [_], _ :: _ :: _, _ => isFalse (by simp [spells])
  | _, _ :: _ :: _, [], _ => isFalse (by simp [spells])
  | e, c :: c2 :: cs, e1 :: path, w =>
    match spells_decidable mem ((mem e).edge c) (c2 :: cs) path w with
    | isTrue hrest =>
      if h : e1 = e ∧ (mem e).edge c ≠ 0 ∧ (mem e).edge c &&& ENDS_WORD = 0 then
        isTrue (by simp only [spells]; exact ⟨h.1, h.2.1, h.2.2, hrest⟩)
      else isFalse (by simp only [spells]; intro h1; exact h ⟨h1.1, h1.2.1, h1.2.2.1⟩)
    | isFalse hrest => isFalse (by simp only [spells]; intro h1; exact hrest h1.2.2.2)

/-- `reach mem e cs e1`: following the letters `cs` from cell `e` through child edges
leads to cell `e1`. -/
def reach (mem : Nat → CELL) : Nat → List (Fin 5) → Nat → Prop
  | e, [], e1 => e1 = e
  | e, c :: cs, e1 =>
    (mem e).edge c ≠ 0 ∧ (mem e).edge c &&& ENDS_WORD = 0 ∧ reach mem ((mem e).edge c) cs e1

/-- The symbols of a read. -/
def codes (s : List Char) : List (Fin 5) := s.map code

/-- The position of the first occurrence of `x` in `ids` (the length of `ids` when there
is none): the identifier under which a read was first inserted. -/
def first_index {α : Type} [DecidableEq α] (x : α) : List α → Nat
  | [] => 0
  | y :: ys => if y = x then 0 else first_index x ys + 1

/-- No edge that is set in an allocated cell of `F` differs in `F1`. -/
def Frame (F F1 : Flat) : Prop :=
  ∀ i c, 1 ≤ i → i ≤ F.last → (F.mem i).edge c ≠ 0 → (F1.mem i).edge c = (F.mem i).edge c

/-- The shape of a flat trie that holds the reads with symbol strings `ids` (in input
order, all of length `L`); `str i` is the string that leads from the root to cell `i`. -/
structure TrieInv (L : Nat) (ids : List (List (Fin 5))) (F : Flat)
    (str : Nat → List (Fin 5)) : Prop where
  root_le : 1 ≤ F.last
  bounded : Bounded F
  str_root : str ROOT_CELL = []
  str_len : ∀ i, 1 ≤ i → i ≤ F.last → (str i).length < L
  str_child : ∀ i c, 1 ≤ i → i ≤ F.last → (F.mem i).edge c ≠ 0 →
    (F.mem i).edge c &&& ENDS_WORD = 0 → str ((F.mem i).edge c) = str i ++ [c]
  inner : ∀ i c, 1 ≤ i → i ≤ F.last → (str i).length + 1 < L →
    (F.mem i).edge c &&& ENDS_WORD = 0
  bottom : ∀ i c, 1 ≤ i → i ≤ F.last → (str i).length + 1 = L → (F.mem i).edge c ≠ 0 →
    (F.mem i).edge c &&& ENDS_WORD ≠ 0
  leaf : ∀ i c, 1 ≤ i → i ≤ F.last → (F.mem i).edge c &&& ENDS_WORD ≠ 0 →
    (F.mem i).edge c = ENDS_WORD ||| first_index (str i ++ [c]) ids ∧ str i ++ [c] ∈ ids
  present : ∀ x, x ∈ ids → ∃ path w, spells F.mem ROOT_CELL x path w

/-- A read as `main` passes it to `add_read`: no NUL, newline or carriage return in it. -/
def Clean (s : List Char) : Prop := ∀ c ∈ s, at_end [c] = false

/-- A read over the alphabet `A`, `C`, `G`, `T`, `N`. -/
def Alphabet (s : List Char) : Prop :=
  ∀ c ∈ s, c = 'A' ∨ c = 'C' ∨ c = 'G' ∨ c = 'T' ∨ c = 'N'


/-- The text of one line of the duplicates log: `fprintf (duplicates, "%ld:0 %ld\n", ...)`
without the newline. -/
def dup_line (rec : Nat × Nat) : String :=
  toString rec.1 ++ ":0 " ++ toString rec.2

/-- Two cluster states that differ at most in the counters `seq` and `length`. -/
def StatsOnly (W W1 : World) : Prop :=
  SameAlloc W W1 ∧
  ∀ r, (W1.peer r).trie_cell = (W.peer r).trie_cell ∧
    (W1.peer r).sorted_and_unique_reads = (W.peer r).sorted_and_unique_reads ∧
    (W1.peer r).duplicates = (W.peer r).duplicates ∧ (W1.peer r).dups = (W.peer r).dups

/-- The effect of inserting a duplicate: the shards, the allocator variables, the history
and the sorted output are as before, and exactly one rank has appended the record
`(f, n)` to its duplicates log. -/
def DupEffect (W W1 : World) (f n : Nat) : Prop :=
  SameAlloc W W1 ∧
  (∀ r, (W1.peer r).trie_cell = (W.peer r).trie_cell ∧
    (W1.peer r).sorted_and_unique_reads = (W.peer r).sorted_and_unique_reads) ∧
  ∃ t, ∀ r,
    (W1.peer r).duplicates = (W.peer r).duplicates ++ (if r = t then [(f, n)] else []) ∧
    (W1.peer r).dups = (W.peer r).dups + (if r = t then 1 else 0)

/-- The statement that a function on cluster states treats the string `s` as a duplicate
when the trie holds a path to a leaf for it. -/
def FindsDuplicate (cfg : Config)
    (f : World → Nat → Nat → Nat → Nat → Except Fault (World × Nat)) (s : List Char) : Prop :=
  ∀ (W : World) (F : Flat) (p edge rn len : Nat) (path : List Nat) (w : Nat),
    Rel cfg W F → Bounded F → 1 ≤ edge → edge ≤ F.last → p ≤ edge / 2 ^ cfg.CHUNKBITS →
    (len = 0 → edge = ROOT_CELL ∧ rn ≤ EDGE_MASK) → Clean s →
    spells F.mem edge (codes s) path w →
    ∃ W1, f W p edge rn len = .ok (W1, len + s.length) ∧ DupEffect W W1 (w &&& EDGE_MASK) rn


/-! ## The trie image (`dump_trie`, lines 570-622) -/

/-- `sizeof (CELL)`: five words of eight bytes. -/
def sizeof_CELL : Nat := 40

/-- `dump_trie (filename)` on rank `mpirank`; the file is the list of the cells written
to it.  Rank 0 opens the file for writing and so empties it, the other ranks append.
`fwrite (trie_cell, count, sizeof (CELL), trie_file)` writes the first `count` cells of
the shard.  The first argument bounds the chain of `remote_dump_trie` calls. -/
def dump_trie (cfg : Config) : Nat → World → Nat → List CELL → Except Fault (List CELL)
  | 0, _, _, _ => .error .fuel
  | fuel + 1, W, mpirank, trie_file =>
    let opened : List CELL := if mpirank = 0 then [] else trie_file
    let last_used_edge := (W.peer mpirank).last_used_edge
    if last_used_edge = (mpirank * cfg.CHUNKSIZE + 2 ^ 64 - 1) % 2 ^ 64 then .ok opened
    else
      let count := (last_used_edge + 1 + 2 ^ 64 - mpirank * cfg.CHUNKSIZE) % 2 ^ 64
      if cfg.CHUNKSIZE < count then .error .outOfBounds
      else
        let written := opened ++ (List.range count).map (W.peer mpirank).trie_cell
        if last_used_edge = (mpirank + 1) * cfg.CHUNKSIZE - 1 then
          if mpirank ≠ cfg.mpisize - 1 then
            if cfg.mpisize ≤ mpirank + 1 then .error .noSuchRank
            else dump_trie cfg fuel W (mpirank + 1) written
          else .ok written
        else .ok written

/-- The length in bytes of a file of cells. -/
def file_bytes (trie_file : List CELL) : Nat := sizeof_CELL * trie_file.length

/-! ## The sorted walk (`output_read` lines 472-496, `walk_and_print_trie_internal`
lines 547-568) -/

/-- The C string held in a character array: the characters before the first NUL. -/
def c_string : List Char → List Char
  | [] => []
  | c :: s => if c = Char.ofNat 0 then [] else c :: c_string s

/-- Appending one line to the `-sorted` file of rank `rank`. -/
def append_sorted (W : World) (rank : Nat) (line : List Char × Nat) : World :=
  W.set rank { W.peer rank with
    sorted_and_unique_reads := (W.peer rank).sorted_and_unique_reads ++ [line] }

/-- `output_read (s, readindex)` on rank `mpirank`: the last rank prints the line
`s readindex`, every other rank hands it to the last rank (`remote_output_read`). -/
def output_read (cfg : Config) (W : World) (mpirank : Nat) (s : List Char) (readindex : Nat) :
    Except Fault World :=
  if mpirank = cfg.mpisize - 1 then .ok (append_sorted W mpirank (c_string s, readindex))
  else if cfg.mpisize - 1 = 0 ∨ cfg.mpisize ≤ cfg.mpisize - 1 then .error .noSuchRank
  else .ok (append_sorted W (cfg.mpisize - 1) (c_string s, readindex))

/-- The array `char s[MAX_LINE]` of `accept_walk_and_print_trie_internal` after it has
received the `strlen (s) + 1` bytes of the caller's string; `stack` is what the array
held before. -/
def received_string (stack s : List Char) : List Char :=
  c_string s ++ [Char.ofNat 0] ++ stack.drop ((c_string s).length + 1)

/-- One round of the loop `for (i = 0; i < 5; i++)` of `walk_and_print_trie_internal`,
the recursive call being `walk`. -/
def walk_edge (cfg : Config)
    (walk : World → Nat → List Char → Nat → Nat → Except Fault (World × List Char))
    (mpirank edge len : Nat) (state : World × List Char) (i : Fin 5) :
    Except Fault (World × List Char) :=
  let W := state.1
  let s := state.2.set len (trt i)
  let w := ((W.peer mpirank).trie_cell (edge &&& cfg.CHUNKMASK)).edge i
  if w &&& ENDS_WORD ≠ 0 then
    match output_read cfg W mpirank s (w &&& EDGE_MASK) with
    | .error e => .error e
    | .ok W1 => .ok (W1, s)
  else if w ≠ 0 then walk W mpirank s w (len + 1)
  else .ok (W, s)

/-- The five rounds of the loop, in the order `A`, `C`, `G`, `T`, `N`. -/
def walk_edges (cfg : Config)
    (walk : World → Nat → List Char → Nat → Nat → Except Fault (World × List Char))
    (mpirank edge len : Nat) : List (Fin 5) → World × List Char →
    Except Fault (World × List Char)
  | [], state => .ok state
  | i :: more, state =>
    match walk_edge cfg walk mpirank edge len state i with
    | .error e => .error e
    | .ok state1 => walk_edges cfg walk mpirank edge len more state1

/-- The part of `walk_and_print_trie_internal` that runs on the rank owning `edge`:
`s[len + 1] = 0` and the loop. -/
def walk_here (cfg : Config)
    (walk : World → Nat → List Char → Nat → Nat → Except Fault (World × List Char))
    (W : World) (mpirank : Nat) (s : List Char) (edge len : Nat) :
    Except Fault (World × List Char) :=
  if s.length ≤ len + 1 then .error .outOfBounds
  else walk_edges cfg walk mpirank edge len [0, 1, 2, 3, 4] (W, s.set (len + 1) (Char.ofNat 0))

/-- `walk_and_print_trie_internal (s, edge, len)` on rank `mpirank`.  The result is the
new state of the cluster and the contents of the caller's array `s`.  A call for a cell
of another rank is served there on a copy of the string
(`remote_walk_and_print_trie_internal`), and the caller's array is not touched.  The
first argument bounds the depth of the recursion; `stack` is the unknown initial content
of a fresh array `char s[MAX_LINE]`. -/
def walk_and_print_trie_internal (cfg : Config) (stack : List Char) :
    Nat → World → Nat → List Char → Nat → Nat → Except Fault (World × List Char)
  | 0, _, _, _, _, _ => .error .fuel
  | fuel + 1, W, mpirank, s, edge, len =>
    let target_rank := edge >>> cfg.CHUNKBITS
    if target_rank ≠ mpirank then
      if target_rank = 0 ∨ cfg.mpisize ≤ target_rank then .error .noSuchRank
      else if stack.length < (c_string s).length + 1 then .error .outOfBounds
      else
        match walk_here cfg (walk_and_print_trie_internal cfg stack fuel) W target_rank
            (received_string stack s) edge len with
        | .error e => .error e
        | .ok (W1, _) => .ok (W1, s)
    else walk_here cfg (walk_and_print_trie_internal cfg stack fuel) W mpirank s edge len

/-- `walk_and_print_trie ()` on rank 0: the walk from the root on a fresh array. -/
def walk_and_print_trie (cfg : Config) (stack : List Char) (fuel : Nat) (W : World) :
    Except Fault World :=
  match walk_and_print_trie_internal cfg stack fuel W 0 stack ROOT_CELL 0 with
  | .error e => .error e
  | .ok (W1, _) => .ok W1

/-! ## The leaves below a cell, in the order of the walk -/

/-- The leaves that one edge of cell `e` leads to: the leaf itself for a leaf word, the
leaves below the child for a child edge; `pre` is the string that leads to `e` and `below`
lists the leaves below a cell. -/
def edge_leaves (mem : Nat → CELL) (below : Nat → List (Fin 5) → List (List (Fin 5) × Nat))
    (e : Nat) (pre : List (Fin 5)) (i : Fin 5) : List (List (Fin 5) × Nat) :=
  if (mem e).edge i &&& ENDS_WORD ≠ 0 then [(pre ++ [i], (mem e).edge i &&& EDGE_MASK)]
  else if (mem e).edge i ≠ 0 then below ((mem e).edge i) (pre ++ [i])
  else []

/-- The leaves at most `d` edges below cell `e`, each with the string that leads to it from
the root and its identifier, edges being taken in the order `A`, `C`, `G`, `T`, `N`. -/
def leaves (mem : Nat → CELL) : Nat → Nat → List (Fin 5) → List (List (Fin 5) × Nat)
  | 0, _, _ => []
  | d + 1, e, pre =>
    ([0, 1, 2, 3, 4] : List (Fin 5)).flatMap (edge_leaves mem (leaves mem d) e pre)

/-- The text of a symbol string. -/
def text (cs : List (Fin 5)) : List Char := cs.map trt

/-- The cluster after rank `rank` has appended `lines` to its `-sorted` file. -/
def append_lines (W : World) (rank : Nat) (lines : List (List Char × Nat)) : World :=
  W.set rank { W.peer rank with
    sorted_and_unique_reads := (W.peer rank).sorted_and_unique_reads ++ lines }

/-- The lines of the `-sorted` file for a list of leaves. -/
def sorted_lines (ls : List (List (Fin 5) × Nat)) : List (List Char × Nat) :=
  ls.map (fun x => (text x.1, x.2))


/-- The array `s` holds the characters `t`, then any characters `m`, then a NUL, and the
NUL is at an index of at most `L`. -/
def NulFrom (s t : List Char) (L : Nat) : Prop :=
  ∃ m rest, s = t ++ m ++ Char.ofNat 0 :: rest ∧ t.length + m.length ≤ L

/-- The statement that a walk function lists, for a cell `d` edges above the leaves of a
trie of reads of length `L`, the leaves below that cell on the last rank, and leaves in
the caller's array the string of the cell followed somewhere by a NUL. -/
def WalkSpec (cfg : Config) (L : Nat) (F : Flat) (str : Nat → List (Fin 5))
    (walk : World → Nat → List Char → Nat → Nat → Except Fault (World × List Char))
    (d : Nat) : Prop :=
  ∀ (W : World) (p : Nat) (s : List Char) (edge : Nat) (pre : List (Fin 5))
    (rest0 : List Char),
    cell_at cfg W = F.mem → 1 ≤ edge → edge ≤ F.last → p ≤ edge / 2 ^ cfg.CHUNKBITS →
    str edge = pre → pre.length + d = L → 1 ≤ d → s = text pre ++ rest0 → L < s.length →
    (edge / 2 ^ cfg.CHUNKBITS ≠ p → NulFrom s (text pre) L) →
    ∃ s1, walk W p s edge pre.length =
        .ok (append_lines W (cfg.mpisize - 1) (sorted_lines (leaves F.mem d edge pre)), s1) ∧
      s1.length = s.length ∧ NulFrom s1 (text pre) L


/-- Two cluster states with the same `-sorted` files. -/
def SameOutput (W W1 : World) : Prop :=
  ∀ r, (W1.peer r).sorted_and_unique_reads = (W.peer r).sorted_and_unique_reads


/-! # The overlap phase (`findoverlaps.c`) -/

/-- The compile-time choices of `findoverlaps.c`: whether `AMOS_OVERLAPS` is defined, and
the two user-tweakable parameters. -/
structure Build where
  /-- `#ifdef AMOS_OVERLAPS` -/
  AMOS_OVERLAPS : Bool
  /-- `#define MIN_OVERLAP` -/
  MIN_OVERLAP : Nat
  /-- `#define MAX_OVERLAPS` -/
  MAX_OVERLAPS : Nat

/-- The build with `AMOS_OVERLAPS` defined: `MIN_OVERLAP 14`, `MAX_OVERLAPS 8`. -/
def amos_build : Build := { AMOS_OVERLAPS := true, MIN_OVERLAP := 14, MAX_OVERLAPS := 8 }

/-- The build without `AMOS_OVERLAPS`: `MIN_OVERLAP 1`, `MAX_OVERLAPS 999999`. -/
def default_build : Build :=
  { AMOS_OVERLAPS := false, MIN_OVERLAP := 1, MAX_OVERLAPS := 999999 }

/-- One record of an overlaps file. -/
inductive Record where
  /-- the line `read_number:matching_offset @edge` of the default build -/
  | node (read_number matching_offset edge : Nat)
  /-- the AMOS record `OVL` with its fields `rds` (two numbers), `ahg` and `bhg` -/
  | OVL (rds1 rds2 ahg bhg : Nat)
deriving DecidableEq

/-- The text of a record as `fprintf` writes it. -/
def Record.text : Record → String
  | .node r d c => toString r ++ ":" ++ toString d ++ " @" ++ toString c ++ "\n"
  | .OVL a b ahg bhg =>
    "\x7bOVL\nadj:N\nrds:" ++ toString a ++ "," ++ toString b ++ "\nscr:0\nahg:" ++
      toString ahg ++ "\nbhg:" ++ toString bhg ++ "\n\x7d\n"

/-- The process-local state of one rank of `findoverlaps`. -/
structure Finder where
  /-- `CELL *trie_cell`: the segment of the trie file that this rank has loaded -/
  trie_cell : List CELL
  /-- the records written to the overlaps file of this rank -/
  overlaps : List Record

/-- The ranks of a run of `findoverlaps`, and a history variable. -/
structure Cluster where
  /-- the process state of each rank -/
  rank : Nat → Finder
  /-- history variable, not program state: the records in the order in which they were
  written, each with the rank that wrote it -/
  log : List (Nat × Record)

/-- The statement `fprintf (overlaps, ...)` on rank `mpirank`. -/
def emit (W : Cluster) (mpirank : Nat) (r : Record) : Cluster :=
  { rank := fun q =>
      if q = mpirank then { W.rank q with overlaps := (W.rank q).overlaps ++ [r] }
      else W.rank q
    log := W.log ++ [(mpirank, r)] }

/-- `last_used_edge = file_length / sizeof (CELL) - 1LL` for a trie file of the cells
`image`. -/
def image_last_used_edge (image : List CELL) : Nat := (image.length + 2 ^ 64 - 1) % 2 ^ 64

/-- `cluster_size = (last_used_edge + (CHUNKSIZE - 1)) / CHUNKSIZE` -/
def cluster_size (cfg : Config) (last_used_edge : Nat) : Nat :=
  ((last_used_edge + (cfg.CHUNKSIZE - 1)) % 2 ^ 64) / cfg.CHUNKSIZE

/-- `cluster_base = (mpirank / cluster_size) * cluster_size` -/
def cluster_base (cs mpirank : Nat) : Nat := (mpirank / cs) * cs

/-- How the start-up of one rank ends. -/
inductive Start where
  /-- the rank has loaded its segment and goes on -/
  | run (f : Finder)
  /-- the rank calls `exit (status)` -/
  | exit (status : Nat)
  /-- the division by a `cluster_size` of 0 -/
  | crash

/-- The start-up of rank `mpirank` in `main`, from the computation of `last_used_edge` to
the loading of the segment, for a trie file that holds the cells `image`. -/
def startup (cfg : Config) (image : List CELL) (mpirank : Nat) : Start :=
  let last_used_edge := image_last_used_edge image
  let cs := cluster_size cfg last_used_edge
  if cfg.mpisize < cs then .exit 0
  else if cs = 0 then .crash
  else if (cfg.mpisize / cs) * cs ≤ mpirank then .exit 0
  else
    let segment_size :=
      if mpirank % cs < cs - 1 then cfg.CHUNKSIZE else (last_used_edge &&& cfg.CHUNKMASK) + 1
    let loaded := (image.drop ((mpirank % cs) * cfg.CHUNKSIZE)).take segment_size
    if loaded.length ≠ segment_size then .exit 1
    else .run { trie_cell := loaded, overlaps := [] }

/-- The cluster when every rank has finished its start-up. -/
def start_cluster (cfg : Config) (image : List CELL) : Cluster :=
  { rank := fun q =>
      match startup cfg image q with
      | .run f => f
      | _ => { trie_cell := [], overlaps := [] }
    log := [] }

/-- Whether rank `t` runs the accept/dispatch loop: it is a rank of a cluster-group and
not the first of its group. -/
def dispatches (cfg : Config) (cs t : Nat) : Bool :=
  decide (t % cs ≠ 0) && decide (t < (cfg.mpisize / cs) * cs)

/-- The loop of `local_print_overlaps (edge, read_number, matching_offset,
number_printed)` on rank `mpirank` for the symbols that are left; `print` is
`print_overlaps`, and the result is the new cluster and the new `*number_printed`. -/
def local_print_overlaps (cfg : Config) (b : Build)
    (print : Cluster → Nat → Nat → Nat → Nat → Nat → Except Fault (Cluster × Nat))
    (mpirank edge read_number matching_offset : Nat) :
    List (Fin 5) → Cluster → Nat → Except Fault (Cluster × Nat)
  | [], W, number_printed => .ok (W, number_printed)
  | i :: more, W, number_printed =>
    if b.MAX_OVERLAPS ≤ number_printed then .ok (W, number_printed)
    else
      match (W.rank mpirank).trie_cell[edge &&& cfg.CHUNKMASK]? with
      | none => .error .outOfBounds
      | some cell =>
        if cell.edge i &&& ENDS_WORD ≠ 0 then
          local_print_overlaps cfg b print mpirank edge read_number matching_offset more
            (emit W mpirank (.OVL (1 + read_number) (1 + (cell.edge i &&& EDGE_MASK))
              matching_offset matching_offset))
            (1 + number_printed)
        else if cell.edge i ≠ 0 then
          if number_printed < b.MAX_OVERLAPS then
            match print W mpirank (cell.edge i) read_number matching_offset number_printed with
            | .error e => .error e
            | .ok (W1, n1) =>
              local_print_overlaps cfg b print mpirank edge read_number matching_offset more
                W1 n1
          else
            local_print_overlaps cfg b print mpirank edge read_number matching_offset more
              W number_printed
        else
          local_print_overlaps cfg b print mpirank edge read_number matching_offset more
            W number_printed

/-- `print_overlaps (edge, read_number, matching_offset, number_printed)` on rank
`mpirank` of a cluster with groups of `cs` ranks.  With `AMOS_OVERLAPS` the cell is
walked on the rank that holds it (`remote_print_overlaps`, served by
`accept_print_overlaps`, which calls `print_overlaps` there); without, one line is
written for the cell.  The first argument bounds the depth of the recursion. -/
def print_overlaps (cfg : Config) (cs : Nat) (b : Build) :
    Nat → Cluster → Nat → Nat → Nat → Nat → Nat → Except Fault (Cluster × Nat)
  | 0, _, _, _, _, _, _ => .error .fuel
  | fuel + 1, W, mpirank, edge, read_number, matching_offset, number_printed =>
    if b.AMOS_OVERLAPS then
      match signed_rank cfg edge with
      | none => .error .noSuchRank
      | some target_rank =>
        if target_rank = mpirank % cs then
          local_print_overlaps cfg b (print_overlaps cfg cs b fuel) mpirank edge read_number
            matching_offset [0, 1, 2, 3, 4] W number_printed
        else if dispatches cfg cs (target_rank + cluster_base cs mpirank) then
          print_overlaps cfg cs b fuel W (target_rank + cluster_base cs mpirank) edge
            read_number matching_offset number_printed
        else .error .noSuchRank
    else .ok (emit W mpirank (.node read_number matching_offset edge), number_printed)

/-- `local_locate_overlaps (s, edge, read_number, matching_offset)` on rank `mpirank`;
`s` is the string up to its NUL, `locate` is `locate_overlaps` and `print` is
`print_overlaps`.  For the empty string the loop reads the NUL as a letter that is none
of `A`, `C`, `G`, `T` and then looks at the byte after it, which is outside the string. -/
def local_locate_overlaps (cfg : Config) (cs : Nat)
    (locate : Cluster → Nat → List Char → Nat → Nat → Nat → Except Fault Cluster)
    (print : Cluster → Nat → Nat → Nat → Nat → Nat → Except Fault (Cluster × Nat)) :
    List Char → Cluster → Nat → Nat → Nat → Nat → Except Fault Cluster
  | [], W, mpirank, edge, _, _ =>
    match (W.rank mpirank).trie_cell[edge &&& cfg.CHUNKMASK]? with
    | none => .error .outOfBounds
    | some cell => if cell.edge 4 &&& EDGE_MASK = 0 then .ok W else .error .outOfBounds
  | ch :: s1, W, mpirank, edge, read_number, matching_offset =>
    match (W.rank mpirank).trie_cell[edge &&& cfg.CHUNKMASK]? with
    | none => .error .outOfBounds
    | some cell =>
      let edge1 := cell.edge (code ch) &&& EDGE_MASK
      if edge1 = 0 then .ok W
      else if at_end s1 then
        match print W mpirank edge1 read_number matching_offset 0 with
        | .error e => .error e
        | .ok (W1, _) => .ok W1
      else if edge1 >>> cfg.CHUNKBITS ≠ mpirank % cs then
        locate W mpirank s1 edge1 read_number matching_offset
      else
        local_locate_overlaps cfg cs locate print s1 W mpirank edge1 read_number
          matching_offset

/-- `locate_overlaps (s, edge, read_number, matching_offset)` on rank `mpirank`.  The
remote branch (`remote_locate_overlaps`) sends the `strlen (s) + 1` bytes of the string
to the array `char s[MAX_LINE]` of `accept_locate_overlaps` on the target rank, which
calls `locate_overlaps` there.  The first argument bounds the number of calls, the second
is the bound given to `print_overlaps`. -/
def locate_overlaps (cfg : Config) (cs : Nat) (b : Build) :
    Nat → Nat → Cluster → Nat → List Char → Nat → Nat → Nat → Except Fault Cluster
  | 0, _, _, _, _, _, _, _ => .error .fuel
  | fuel + 1, pfuel, W, mpirank, s, edge, read_number, matching_offset =>
    match signed_rank cfg edge with
    | none => .error .noSuchRank
    | some target_rank =>
      if target_rank = mpirank % cs then
        local_locate_overlaps cfg cs (locate_overlaps cfg cs b fuel pfuel)
          (print_overlaps cfg cs b pfuel) s W mpirank edge read_number matching_offset
      else if dispatches cfg cs (target_rank + cluster_base cs mpirank) then
        if MAX_LINE < s.length + 1 then .error .outOfBounds
        else
          locate_overlaps cfg cs b fuel pfuel W (target_rank + cluster_base cs mpirank) s edge
            read_number matching_offset
      else .error .noSuchRank


/-! ## The overlap phase on a flat trie -/

/-- The cell that the symbols `cs` lead to from cell `e`, as `local_locate_overlaps`
finds it: every edge word is masked with `EDGE_MASK`, and a word that is then 0 ends the
search. -/
def anchor (mem : Nat → CELL) : Nat → List (Fin 5) → Option Nat
  | _, [] => none
  | e, [c] =>
    if (mem e).edge c &&& EDGE_MASK = 0 then none else some ((mem e).edge c &&& EDGE_MASK)
  | e, c :: c2 :: cs =>
    if (mem e).edge c &&& EDGE_MASK = 0 then none
    else anchor mem ((mem e).edge c &&& EDGE_MASK) (c2 :: cs)

/-- A sequence of `fprintf (overlaps, ...)`, each on its rank. -/
def emit_all (W : Cluster) (prs : List (Nat × Record)) : Cluster :=
  prs.foldl (fun V p => emit V p.1 p.2) W

/-- The cluster `W1` is `W` after the records `recs` have been written, in this order, by
ranks of the group that starts at rank `base` and has `cs` ranks. -/
def Emits (base cs : Nat) (W W1 : Cluster) (recs : List Record) : Prop :=
  ∃ prs : List (Nat × Record), W1 = emit_all W prs ∧ prs.map Prod.snd = recs ∧
    ∀ p ∈ prs, base ≤ p.1 ∧ p.1 < base + cs

/-- The AMOS records of source read `rn` at offset `mo` for a list of leaves. -/
def ovl_records (rn mo : Nat) (lv : List (List (Fin 5) × Nat)) : List Record :=
  lv.map (fun x => Record.OVL (1 + rn) (1 + x.2) mo mo)

/-- The records that a probe with the symbols `cs` from cell `e` (reached by `pre`) is
to write on a trie of reads of length `L`: nothing when the search ends early; else, with
`AMOS_OVERLAPS`, a record for each of the first `MAX_OVERLAPS` leaves below the cell found
and, without, the line for that cell. -/
def probe_records (b : Build) (mem : Nat → CELL) (L : Nat) (pre : List (Fin 5)) (e : Nat)
    (cs : List (Fin 5)) (rn mo : Nat) : List Record :=
  match anchor mem e cs with
  | none => []
  | some c =>
    if b.AMOS_OVERLAPS then
      ovl_records rn mo
        ((leaves mem (L - (pre.length + cs.length)) c (pre ++ cs)).take b.MAX_OVERLAPS)
    else [Record.node rn mo c]

/-- The group of `cs` ranks that starts at rank `base` holds the flat trie `F`: cell `i`
is at offset `i % CHUNKSIZE` of the segment of the rank `base + i / CHUNKSIZE`. -/
def Holds (cfg : Config) (base : Nat) (F : Flat) (W : Cluster) : Prop :=
  ∀ i, i ≤ F.last →
    (W.rank (base + i / 2 ^ cfg.CHUNKBITS)).trie_cell[i % 2 ^ cfg.CHUNKBITS]? = some (F.mem i)

/-- The group of `cs` ranks that starts at rank `base` is a cluster-group of the run and
has room for the flat trie `F`. -/
structure Group (cfg : Config) (cs base : Nat) (F : Flat) : Prop where
  cs_pos : 0 < cs
  base_mod : base % cs = 0
  base_lt : base + cs ≤ (cfg.mpisize / cs) * cs
  fits : F.last < cs * 2 ^ cfg.CHUNKBITS
  small : F.last < 2 ^ 63

/-- The statement that a function `print` behaves as `print_overlaps` with
`AMOS_OVERLAPS` is to behave on a cell `d` edges above the leaves. -/
def PrintSpec (cfg : Config) (cs : Nat) (b : Build) (base L : Nat) (F : Flat)
    (str : Nat → List (Fin 5))
    (print : Cluster → Nat → Nat → Nat → Nat → Nat → Except Fault (Cluster × Nat))
    (d : Nat) : Prop :=
  ∀ (W : Cluster) (r c rn mo n : Nat), Holds cfg base F W → 1 ≤ c → c ≤ F.last →
    r ≤ c / 2 ^ cfg.CHUNKBITS → (str c).length + d = L → 1 ≤ d →
    ∃ W1, print W (base + r) c rn mo n =
        .ok (W1, n + ((leaves F.mem d c (str c)).take (b.MAX_OVERLAPS - n)).length) ∧
      Emits base cs W W1
        (ovl_records rn mo ((leaves F.mem d c (str c)).take (b.MAX_OVERLAPS - n)))

/-- The statement that a function `locate` behaves as `locate_overlaps` is to behave on
clean strings of at most `m` letters. -/
def LocateSpec (cfg : Config) (cs : Nat) (b : Build) (base L : Nat) (F : Flat)
    (str : Nat → List (Fin 5))
    (locate : Cluster → Nat → List Char → Nat → Nat → Nat → Except Fault Cluster)
    (m : Nat) : Prop :=
  ∀ (W : Cluster) (r : Nat) (s : List Char) (e rn mo : Nat), Holds cfg base F W →
    1 ≤ e → e ≤ F.last → r ≤ e / 2 ^ cfg.CHUNKBITS → Clean s → s ≠ [] → s.length ≤ m →
    (str e).length + s.length < L → s.length < MAX_LINE →
    ∃ W1, locate W (base + r) s e rn mo = .ok W1 ∧
      Emits base cs W W1 (probe_records b F.mem L (str e) e (codes s) rn mo)


/-! ## The main loop of `findoverlaps` (lines 722-790) -/

/-- `atoll (s)` for a string that starts with a digit: the value of its leading digits. -/
def atoll (s : List Char) : Nat :=
  (s.takeWhile Char.isDigit).foldl (fun n c => 10 * n + (c.toNat - 48)) 0

/-- The loop `for (len = read_length - 1; len >= MIN_OVERLAP; len--) locate_overlaps
(s - len + read_length, ROOT_CELL, original_read_number, read_length - len)` on rank
`mpirank` for the values of `len` that are left; `line` is the line after
`line[read_length] = 0`. -/
def probe_loop (cfg : Config) (cs : Nat) (b : Build) (fuel pfuel mpirank : Nat)
    (line : List Char) (read_length original_read_number : Nat) :
    List Nat → Cluster → Except Fault Cluster
  | [], W => .ok W
  | len :: more, W =>
    match locate_overlaps cfg cs b fuel pfuel W mpirank (line.drop (read_length - len))
        ROOT_CELL original_read_number (read_length - len) with
    | .error e => .error e
    | .ok W1 =>
      probe_loop cfg cs b fuel pfuel mpirank line read_length original_read_number more W1

/-- The values that `len` takes in the loop of the probes: `read_length - 1` down to
`MIN_OVERLAP`. -/
def probe_lengths (b : Build) (read_length : Nat) : List Nat :=
  (List.range' b.MIN_OVERLAP (read_length - b.MIN_OVERLAP)).reverse

/-- The variables of the main loop: `read_length`, `read_number` and the cluster. -/
structure Driver where
  read_length : Nat
  read_number : Nat
  cluster : Cluster

/-- One round of the main loop on the rank `mpirank`, for a line of the `-sorted` file
given without its newline. -/
def process_line (cfg : Config) (cs : Nat) (b : Build) (fuel pfuel mpirank : Nat)
    (st : Driver) (line : List Char) : Except Fault Driver :=
  if MAX_LINE < line.length + 1 then .error .outOfBounds
  else
    let text := c_string line
    if st.read_length = 0 ∧ ' ' ∉ text then .error .outOfBounds
    else
      let read_length :=
        if st.read_length = 0 then (text.takeWhile (fun c => c ≠ ' ')).length
        else st.read_length
      let read_number := st.read_number + 1
      let skipped : Driver :=
        { read_length := read_length, read_number := read_number, cluster := st.cluster }
      if text.length ≠ read_length + 13 then .ok skipped
      else
        let number := (text.drop (read_length + 1)).dropWhile (fun c => c = ' ')
        if ¬ (number.head?.map Char.isDigit = some true) then .ok skipped
        else
          let original_read_number := atoll number
          if read_number % (cfg.mpisize / cs) = cluster_base cs mpirank / cs then
            match probe_loop cfg cs b fuel pfuel mpirank (text.take read_length) read_length
                original_read_number (probe_lengths b read_length) st.cluster with
            | .error e => .error e
            | .ok W1 =>
              .ok { read_length := read_length, read_number := read_number, cluster := W1 }
          else .ok skipped

/-- The main loop on the first rank `mpirank` of a cluster-group, for the lines of the
`-sorted` file. -/
def main_loop (cfg : Config) (cs : Nat) (b : Build) (fuel pfuel mpirank : Nat) :
    List (List Char) → Driver → Except Fault Driver
  | [], st => .ok st
  | line :: more, st =>
    match process_line cfg cs b fuel pfuel mpirank st line with
    | .error e => .error e
    | .ok st1 => main_loop cfg cs b fuel pfuel mpirank more st1

/-- The overlap pass of the group whose first rank is `mpirank`, after start-up on the
trie file `image`: the main loop from `read_length = 0` and `read_number = 0`. -/
def overlap_pass (cfg : Config) (b : Build) (fuel pfuel mpirank : Nat) (image : List CELL)
    (lines : List (List Char)) : Except Fault Cluster :=
  match main_loop cfg (cluster_size cfg (image_last_used_edge image)) b fuel pfuel mpirank
      lines { read_length := 0, read_number := 0, cluster := start_cluster cfg image } with
  | .error e => .error e
  | .ok st => .ok st.cluster

/-! ## The lines of the `-sorted` file -/

/-- The decimal digits of `n`, the last one first; the first argument bounds their
number. -/
def digits_rev : Nat → Nat → List Char
  | 0, _ => []
  | fuel + 1, n =>
    Char.ofNat (48 + n % 10) :: (if n / 10 = 0 then [] else digits_rev fuel (n / 10))

/-- The text that `%lld` prints for a number that is not negative. -/
def decimal (n : Nat) : List Char := (digits_rev (n + 1) n).reverse

/-- The line `fprintf (sorted_and_unique_reads, "%s %12lld\n", s, readindex)` of
`output_read`, without its newline. -/
def sorted_line (rec : List Char × Nat) : List Char :=
  rec.1 ++ ' ' :: (List.replicate (12 - (decimal rec.2).length) ' ' ++ decimal rec.2)


/-- Whether symbols label a path of child edges between two cells can be computed. -/
instance reach_decidable (mem : Nat → CELL) :
    ∀ (e : Nat) (cs : List (Fin 5)) (e1 : Nat), Decidable (reach mem e cs e1)
  | e, [], e1 =>
    if h : e1 = e then isTrue (by simpa [reach] using h)
    else isFalse (by simpa [reach] using h)
  | e, c :: cs, e1 =>
    match reach_decidable mem ((mem e).edge c) cs e1 with
    | isTrue hr =>
      if h : (mem e).edge c ≠ 0 ∧ (mem e).edge c &&& ENDS_WORD = 0 then
        isTrue (by simp only [reach]; exact ⟨h.1, h.2, hr⟩)
      else isFalse (by simp only [reach]; exact fun hh => h ⟨hh.1, hh.2.1⟩)
    | isFalse hr => isFalse (by simp only [reach]; exact fun hh => hr hh.2.2)


/-- An input for the cap on the records of one probe: nine reads of 16 letters that start
with the same 14 letters. -/
def nine_reads : List (List Char) :=
  [List.replicate 14 'A' ++ ['A', 'A'], List.replicate 14 'A' ++ ['A', 'C'],
   List.replicate 14 'A' ++ ['A', 'G'], List.replicate 14 'A' ++ ['A', 'T'],
   List.replicate 14 'A' ++ ['A', 'N'], List.replicate 14 'A' ++ ['C', 'A'],
   List.replicate 14 'A' ++ ['C', 'C'], List.replicate 14 'A' ++ ['C', 'G'],
   List.replicate 14 'A' ++ ['C', 'T']]


/-- The records that the probes of one line of the `-sorted` file are to write: the
records of the probe of each length `read_length - 1` down to `MIN_OVERLAP`. -/
def line_records (b : Build) (mem : Nat → CELL) (L : Nat) (t : List Char) (a : Nat) :
    List Record :=
  (probe_lengths b L).flatMap (fun len =>
    probe_records b mem L [] ROOT_CELL (codes (t.drop (L - len))) a (L - len))

/-- The records that the main loop of the group with index `g` among `R` groups is to
write for the lines `recs` of the `-sorted` file, `n` lines having been read before. -/
def pass_records (b : Build) (mem : Nat → CELL) (L R g : Nat) :
    List (List Char × Nat) → Nat → List Record
  | [], _ => []
  | rec :: more, n =>
    (if (n + 1) % R = g then line_records b mem L rec.1 rec.2 else []) ++
      pass_records b mem L R g more (n + 1)


/-! ## The ingestion loop on the flat trie -/

/-- The ingestion loop of `main` on a flat trie with room for the indices below `cap`:
the reads are inserted from the root in input order, with consecutive identifiers. -/
def flat_ingest (cap : Nat) : List (List Char) → Flat → Nat → Option (Flat × Nat)
  | [], F, read_number => some (F, read_number)
  | line :: more, F, read_number =>
    match flat_add cap line F ROOT_CELL read_number with
    | none => none
    | some (F1, _) => flat_ingest cap more F1 (read_number + 1)

/-- The cells that were never handed out are as `calloc` left them: cell 0 and every
cell above the allocation counter are empty. -/
def Fresh (F : Flat) : Prop := ∀ i, i = 0 ∨ F.last < i → F.mem i = empty


/-! ## Reads that take one fresh cell, and ranks with room -/

/-- Whether the insertion of the read `s` from cell `e` takes exactly one fresh cell: the
path of all its letters but the last two is there, and the edge of the last letter but
one is empty. -/
def needs_one (mem : Nat → CELL) : List Char → Nat → Bool
  | [], _ => false
  | [_], _ => false
  | [a, b], e => !at_end [a] && !at_end [b] && decide ((mem e).edge (code a) = 0)
  | a :: b :: c :: s, e =>
    !at_end [a] && decide ((mem e).edge (code a) ≠ 0) &&
      decide ((mem e).edge (code a) &&& ENDS_WORD = 0) &&
      needs_one mem (b :: c :: s) ((mem e).edge (code a))

/-- Whether each read of the list takes exactly one fresh cell in the state in which the
ingestion loop inserts it (the reads after a failed insertion are not looked at). -/
def fresh_each (cfg : Config) : List (List Char) → World → Nat → Bool
  | [], _, _ => true
  | line :: more, W, read_number =>
    needs_one (cell_at cfg W) line ROOT_CELL &&
      match add_read cfg line W 0 ROOT_CELL read_number 0 with
      | .ok (W1, _) => fresh_each cfg more W1 (read_number + 1)
      | .error _ => true

/-- Whether rank `r` has room: the test of `get_next_free_edge` finds the next index in
the shard of this rank. -/
def has_room (cfg : Config) (W : World) (r : Nat) : Bool :=
  decide ((((W.peer r).last_used_edge + 1) % 2 ^ 64) >>> cfg.CHUNKBITS = r)

/-- The strings of `n` letters over `A`, `C`, `G`, `T`. -/
def words4 : Nat → List (List Char)
  | 0 => [[]]
  | n + 1 => (words4 n).flatMap (fun w => [w ++ ['A'], w ++ ['C'], w ++ ['G'], w ++ ['T']])

/-- A list of `m` reads, each of which extends the trie of the reads before it by one cell:
the strings over `A`, `C`, `G`, `T` by length, each followed by the letter `N`. -/
def one_cell_reads (m : Nat) : List (List Char) :=
  ((words4 1 ++ words4 2 ++ words4 3 ++ words4 4).take m).map (fun w => w ++ ['N'])


/-! ## The share of a group in the `-sorted` file -/

/-- The entries of a file that the group with index `g` among `R` groups is to take, each
with its sequential position in the file (the first line has position 1), `n` lines
coming before `xs`: the entries whose position `p` has `p mod R = g`. -/
def group_share {α : Type} (R g : Nat) : List α → Nat → List (Nat × α)
  | [], _ => []
  | x :: more, n =>
    (if (n + 1) % R = g then [(n + 1, x)] else []) ++ group_share R g more (n + 1)

/-- The probes of the reads `recs` of length `L` in turn on rank `mpirank`: for each read
the loop of `locate_overlaps` on its suffixes. -/
def probe_reads (cfg : Config) (cs : Nat) (b : Build) (fuel pfuel mpirank L : Nat) :
    List (Nat × (List Char × Nat)) → Cluster → Except Fault Cluster
  | [], W => .ok W
  | rec :: more, W =>
    match probe_loop cfg cs b fuel pfuel mpirank rec.2.1 L rec.2.2 (probe_lengths b L) W with
    | .error e => .error e
    | .ok W1 => probe_reads cfg cs b fuel pfuel mpirank L more W1


/-! ## Construction and walk with a monitor on the direction of every message

The functions below are `get_next_free_edge`, `local_add_read`, `add_read`, the ingestion
loop and the walk once more, with one test added wherever a call is handed to another
rank: a target rank below the calling rank stops the run with the fault of the
`PROGRAM BUG ... never feed backwards` message (`setread` has this test in the source). -/

/-- `get_next_free_edge` with the monitor on the rank that the request is forwarded to. -/
def get_next_free_edge_fwd (cfg : Config) : Nat → World → Nat → Except Fault (World × Nat)
  | 0, _, _ => .error .fuel
  | fuel + 1, W, mpirank =>
    let me := W.peer mpirank
    if ((me.last_used_edge + 1) % 2 ^ 64) >>> cfg.CHUNKBITS ≠ mpirank then
      let me1 : Peer := if me.init then me else { me with next_guy := mpirank + 1, init := true }
      let W1 := W.set mpirank me1
      let target_rank := me1.next_guy
      if target_rank = mpirank then .error .assertion
      else if target_rank < mpirank then .error .feedBackwards
      else if target_rank = 0 ∨ cfg.mpisize ≤ target_rank then .error .noSuchRank
      else
        match get_next_free_edge_fwd cfg fuel W1 target_rank with
        | .error e => .error e
        | .ok (W2, edge) =>
          .ok (W2.set mpirank { W2.peer mpirank with next_guy := edge >>> cfg.CHUNKBITS }, edge)
    else
      let e := (me.last_used_edge + 1) % 2 ^ 64
      .ok ({ W.set mpirank { me with last_used_edge := e } with
              served := W.served ++ [(mpirank, e)] }, e)

/-- `local_add_read` with the monitored allocator. -/
def local_add_read_fwd (cfg : Config)
    (add_read_tail : World → Nat → Nat → Nat → Nat → Except Fault (World × Nat))
    (s : List Char) (W : World) (mpirank edge read_number len : Nat) :
    Except Fault (World × Nat) :=
  if edge >>> cfg.CHUNKBITS ≠ mpirank then .error .assertion
  else
    match s with
    | [] => .error .assertion
    | ch :: s1 =>
      if at_end (ch :: s1) then .error .assertion
      else
        let c := code ch
        let off := edge &&& cfg.CHUNKMASK
        let w := ((W.peer mpirank).trie_cell off).edge c
        if at_end s1 then
          if w &&& ENDS_WORD ≠ 0 then
            let original_read := w &&& EDGE_MASK
            let me := W.peer mpirank
            .ok (W.set mpirank { me with
                    duplicates := me.duplicates ++ [(original_read, read_number)]
                    dups := me.dups + 1 }, len + 1)
          else if w &&& EDGE_MASK ≠ 0 then .error .assertion
          else .ok (write_edge W mpirank off c (ENDS_WORD ||| read_number), len + 1)
        else if w = 0 then
          match get_next_free_edge_fwd cfg cfg.mpisize W mpirank with
          | .error e => .error e
          | .ok (W1, new_edge) =>
            match setread cfg W1 mpirank new_edge empty with
            | .error e => .error e
            | .ok W2 =>
              let W3 := write_edge W2 mpirank off c new_edge
              if cfg.MAX_SIZE ≤ new_edge then .error .ranOut
              else add_read_tail W3 mpirank (((W3.peer mpirank).trie_cell off).edge c)
                     read_number (len + 1)
        else add_read_tail W mpirank w read_number (len + 1)

/-- The branch `target_rank == mpirank` of `add_read`, on the monitored functions. -/
def add_read_local_fwd (cfg : Config)
    (add_read_tail : World → Nat → Nat → Nat → Nat → Except Fault (World × Nat))
    (s : List Char) (W : World) (mpirank edge read_number len : Nat) :
    Except Fault (World × Nat) :=
  match local_add_read_fwd cfg add_read_tail s W mpirank edge read_number len with
  | .error e => .error e
  | .ok (W1, len2) =>
    if len = 0 then
      let me := W1.peer mpirank
      .ok (W1.set mpirank { me with
              length := fun i => if i = len2 then me.length i + 1 else me.length i }, len2)
    else .ok (W1, len2)

/-- The body of `add_read` with the monitor on the rank of `remote_add_read`. -/
def add_read_body_fwd (cfg : Config)
    (add_read_tail : World → Nat → Nat → Nat → Nat → Except Fault (World × Nat))
    (s : List Char) (W : World) (mpirank edge read_number len : Nat) :
    Except Fault (World × Nat) :=
  match add_read_enter W mpirank edge read_number len with
  | .error e => .error e
  | .ok W1 =>
    match signed_rank cfg edge with
    | none => .error .noSuchRank
    | some target_rank =>
      if target_rank = mpirank then
        add_read_local_fwd cfg add_read_tail s W1 mpirank edge read_number len
      else if target_rank < mpirank then .error .feedBackwards
      else if target_rank = 0 ∨ cfg.mpisize ≤ target_rank then .error .noSuchRank
      else
        match add_read_enter W1 target_rank edge read_number len with
        | .error e => .error e
        | .ok W2 => add_read_local_fwd cfg add_read_tail s W2 target_rank edge read_number len

/-- `add_read` with the monitor. -/
def add_read_fwd (cfg : Config) :
    List Char → World → Nat → Nat → Nat → Nat → Except Fault (World × Nat)
  | [], W, mpirank, edge, read_number, len =>
    add_read_body_fwd cfg (fun _ _ _ _ _ => .error .assertion) [] W mpirank edge read_number
      len
  | ch :: s1, W, mpirank, edge, read_number, len =>
    add_read_body_fwd cfg (add_read_fwd cfg s1) (ch :: s1) W mpirank edge read_number len

/-- The ingestion loop with the monitor. -/
def ingest_fwd (cfg : Config) : List (List Char) → World → Nat → Except Fault (World × Nat)
  | [], W, read_number => .ok (W, read_number)
  | line :: more, W, read_number =>
    match add_read_fwd cfg line W 0 ROOT_CELL read_number 0 with
    | .error e => .error e
    | .ok (W1, _) => ingest_fwd cfg more W1 (read_number + 1)

/-- `walk_and_print_trie_internal` with the monitor on the rank of
`remote_walk_and_print_trie_internal`. -/
def walk_and_print_trie_internal_fwd (cfg : Config) (stack : List Char) :
    Nat → World → Nat → List Char → Nat → Nat → Except Fault (World × List Char)
  | 0, _, _, _, _, _ => .error .fuel
  | fuel + 1, W, mpirank, s, edge, len =>
    let target_rank := edge >>> cfg.CHUNKBITS
    if target_rank ≠ mpirank then
      if target_rank < mpirank then .error .feedBackwards
      else if target_rank = 0 ∨ cfg.mpisize ≤ target_rank then .error .noSuchRank
      else if stack.length < (c_string s).length + 1 then .error .outOfBounds
      else
        match walk_here cfg (walk_and_print_trie_internal_fwd cfg stack fuel) W target_rank
            (received_string stack s) edge len with
        | .error e => .error e
        | .ok (W1, _) => .ok (W1, s)
    else walk_here cfg (walk_and_print_trie_internal_fwd cfg stack fuel) W mpirank s edge len

/-- `walk_and_print_trie ()` on rank 0 with the monitor. -/
def walk_and_print_trie_fwd (cfg : Config) (stack : List Char) (fuel : Nat) (W : World) :
    Except Fault World :=
  match walk_and_print_trie_internal_fwd cfg stack fuel W 0 stack ROOT_CELL 0 with
  | .error e => .error e
  | .ok (W1, _) => .ok W1

/-- Every cached `next_guy` points to a later rank. -/
def Forward (cfg : Config) (W : World) : Prop :=
  ∀ r, r < cfg.mpisize → (W.peer r).init = true → r < (W.peer r).next_guy

/-- The arguments of a call of `add_read` in a run of the ingestion loop: the cluster reads
as a flat trie with edges within bounds, and `edge` is an allocated cell whose rank is not
below the calling rank, or a leaf word. -/
def CallArgs (cfg : Config) (W : World) (p edge : Nat) : Prop :=
  ∃ F, Rel cfg W F ∧ Bounded F ∧
    ((1 ≤ edge ∧ edge ≤ F.last ∧ p ≤ edge / 2 ^ cfg.CHUNKBITS) ∨ 2 ^ 63 ≤ edge)

/-- The monitored function `f` and the function `g` of the source give the same result on
the arguments of every call of a run, and that result is not the fault of a message fed
backwards. -/
def Agrees (cfg : Config)
    (f g : World → Nat → Nat → Nat → Nat → Except Fault (World × Nat)) : Prop :=
  ∀ (W : World) (p edge rn len : Nat), CallArgs cfg W p edge →
    f W p edge rn len = g W p edge rn len ∧ g W p edge rn len ≠ .error .feedBackwards


/-! ## The end of `main` of `maketrie` (lines 874-1000) -/

namespace LocateRead

/-- `lookup_read (trie_index, s)` of `locate_read.c` on the trie file `image`.  The cell is
read from the mapped file or with `pread`, which give the same cell; an index past the end
of the file stops the run.  The result is the value returned: the cell index when the
string ends, 0 when the edge of the letter is empty after masking, the masked edge word
when its terminator bit is set. -/
def lookup_read (image : List CELL) : List Char → Nat → Except Fault Nat
  | [], trie_index =>
    match image[trie_index]? with
    | none => .error .outOfBounds
    | some _ => .ok trie_index
  | ch :: s1, trie_index =>
    match image[trie_index]? with
    | none => .error .outOfBounds
    | some this =>
      if ch = Char.ofNat 0 then .ok trie_index
      else
        let edge := this.edge (code ch) &&& EDGE_MASK
        if edge = 0 then .ok 0
        else if this.edge (code ch) &&& ENDS_WORD ≠ 0 then .ok edge
        else lookup_read image s1 edge

/-- What `main` of `locate_read.c` reports for the target string. -/
inductive Report where
  /-- the line `... (read #edge)` on `stdout` -/
  | read (edge : Nat)
  /-- `No match found.` on `stderr` -/
  | no_match
deriving DecidableEq

/-- The end of `main` of `locate_read.c`: `trie_index = lookup_read (ROOT_CELL, target)`
and the test `trie_index != 0ULL`. -/
def report (image : List CELL) (target : List Char) : Except Fault Report :=
  match lookup_read image target ROOT_CELL with
  | .error e => .error e
  | .ok trie_index => if trie_index ≠ 0 then .ok (.read trie_index) else .ok .no_match

end LocateRead


/-! ## The descent of the locator with a monitor on the edge words it follows

`local_locate_overlaps` and `locate_overlaps` once more, with one test added after the
edge word of a letter is read and found not to be empty under the mask: a word whose
terminator bit is set, or whose value is above `last_used_edge`, stops the run with the
fault of a failed assertion (which the locator of the source never raises). -/

/-- `local_locate_overlaps` with the monitor; `G` is `last_used_edge`. -/
def local_locate_overlaps_chk (cfg : Config) (cs G : Nat)
    (locate : Cluster → Nat → List Char → Nat → Nat → Nat → Except Fault Cluster)
    (print : Cluster → Nat → Nat → Nat → Nat → Nat → Except Fault (Cluster × Nat)) :
    List Char → Cluster → Nat → Nat → Nat → Nat → Except Fault Cluster
  | [], W, mpirank, edge, _, _ =>
    match (W.rank mpirank).trie_cell[edge &&& cfg.CHUNKMASK]? with
    | none => .error .outOfBounds
    | some cell => if cell.edge 4 &&& EDGE_MASK = 0 then .ok W else .error .outOfBounds
  | ch :: s1, W, mpirank, edge, read_number, matching_offset =>
    match (W.rank mpirank).trie_cell[edge &&& cfg.CHUNKMASK]? with
    | none => .error .outOfBounds
    | some cell =>
      let edge1 := cell.edge (code ch) &&& EDGE_MASK
      if edge1 = 0 then .ok W
      else if cell.edge (code ch) &&& ENDS_WORD ≠ 0 ∨ G < edge1 then .error .assertion
      else if at_end s1 then
        match print W mpirank edge1 read_number matching_offset 0 with
        | .error e => .error e
        | .ok (W1, _) => .ok W1
      else if edge1 >>> cfg.CHUNKBITS ≠ mpirank % cs then
        locate W mpirank s1 edge1 read_number matching_offset
      else
        local_locate_overlaps_chk cfg cs G locate print s1 W mpirank edge1 read_number
          matching_offset

/-- `locate_overlaps` with the monitor. -/
def locate_overlaps_chk (cfg : Config) (cs : Nat) (b : Build) (G : Nat) :
    Nat → Nat → Cluster → Nat → List Char → Nat → Nat → Nat → Except Fault Cluster
  | 0, _, _, _, _, _, _, _ => .error .fuel
  | fuel + 1, pfuel, W, mpirank, s, edge, read_number, matching_offset =>
    match signed_rank cfg edge with
    | none => .error .noSuchRank
    | some target_rank =>
      if target_rank = mpirank % cs then
        local_locate_overlaps_chk cfg cs G (locate_overlaps_chk cfg cs b G fuel pfuel)
          (print_overlaps cfg cs b pfuel) s W mpirank edge read_number matching_offset
      else if dispatches cfg cs (target_rank + cluster_base cs mpirank) then
        if MAX_LINE < s.length + 1 then .error .outOfBounds
        else
          locate_overlaps_chk cfg cs b G fuel pfuel W (target_rank + cluster_base cs mpirank) s
            edge read_number matching_offset
      else .error .noSuchRank


/-! ## A sequence of probes -/

/-- The calls `locate_overlaps (s, edge, read_number, matching_offset)` for the argument
tuples of a list, made one after the other on rank `mpirank`. -/
def issue_probes (cfg : Config) (cs : Nat) (b : Build) (fuel pfuel mpirank : Nat) :
    List (List Char × Nat × Nat × Nat) → Cluster → Except Fault Cluster
  | [], W => .ok W
  | p :: more, W =>
    match locate_overlaps cfg cs b fuel pfuel W mpirank p.1 p.2.1 p.2.2.1 p.2.2.2 with
    | .error e => .error e
    | .ok W1 => issue_probes cfg cs b fuel pfuel mpirank more W1


/-! # The near-match probe (`nearmatch.c`) -/

namespace NearMatch

/-- `#define ALLOWED_ERRORS 3` -/
def ALLOWED_ERRORS : Nat := 3

/-- `print_match (edge)`: the line `... (read #edge)` on `stdout`.  The output is modelled
as the list of the read numbers printed, oldest first; the text of the read, which is
fetched from the input file through the index, is not modelled. -/
def print_match (out : List Nat) (edge : Nat) : List Nat := out ++ [edge]

/-- One round of the loop `for (e = _A_; e <= _N_; e++)` of `print_remaining_trie`, the
recursive call being `rest`. -/
def print_remaining_edge (rest : Nat → List Nat → Except Fault (List Nat)) (this : CELL)
    (out : List Nat) (e : Fin 5) : Except Fault (List Nat) :=
  let edge := this.edge e &&& EDGE_MASK
  if this.edge e &&& ENDS_WORD ≠ 0 then
    if edge ≠ 0 then .ok (print_match out edge) else .ok out
  else if edge ≠ 0 then rest edge out
  else .ok out

/-- The rounds of the loop of `print_remaining_trie` for the symbols that are left. -/
def print_remaining_edges (rest : Nat → List Nat → Except Fault (List Nat)) (this : CELL) :
    List (Fin 5) → List Nat → Except Fault (List Nat)
  | [], out => .ok out
  | e :: more, out =>
    match print_remaining_edge rest this out e with
    | .error x => .error x
    | .ok out1 => print_remaining_edges rest this more out1

/-- `print_remaining_trie (trie_index, ...)` on the trie file `image`; the first argument
bounds the depth of the recursion.  A cell is read from the mapped file or with `pread`,
which give the same cell; an index past the end of the file stops the run. -/
def print_remaining_trie (image : List CELL) : Nat → Nat → List Nat → Except Fault (List Nat)
  | 0, _, _ => .error .fuel
  | fuel + 1, trie_index, out =>
    match image[trie_index]? with
    | none => .error .outOfBounds
    | some this =>
      print_remaining_edges (print_remaining_trie image fuel) this [0, 1, 2, 3, 4] out

/-- The block that `lookup_read` repeats for an edge `e` of the cell `this`:
`edge = this->edge[e] & EDGE_MASK; if (edge) { if (this->edge[e] & ENDS_WORD)
print_match (edge); else lookup_read (edge, s + 1, errors, allowed_errors); }`, the
recursive call being `look`. -/
def follow (look : Nat → Nat → List Nat → Except Fault (List Nat)) (this : CELL) (e : Fin 5)
    (errors : Nat) (out : List Nat) : Except Fault (List Nat) :=
  let edge := this.edge e &&& EDGE_MASK
  if edge ≠ 0 then
    if this.edge e &&& ENDS_WORD ≠ 0 then .ok (print_match out edge)
    else look edge errors out
  else .ok out

/-- The loop `for (e = _A_; e < _N_; e++)` of `lookup_read` with its test `c != e`, for
the symbols that are left. -/
def follow_others (look : Nat → Nat → List Nat → Except Fault (List Nat)) (this : CELL)
    (c : Fin 5) (errors : Nat) : List (Fin 5) → List Nat → Except Fault (List Nat)
  | [], out => .ok out
  | e :: more, out =>
    if c ≠ e then
      match follow look this e errors out with
      | .error x => .error x
      | .ok out1 => follow_others look this c errors more out1
    else follow_others look this c errors more out

/-- `lookup_read (trie_index, s, actual_errors, allowed_errors)` of `nearmatch.c` on the
trie file `image`; `pfuel` is the bound given to `print_remaining_trie`.  The statement
that fetches the cell again after a recursive call reads the same cell and is left out. -/
def lookup_read (image : List CELL) (pfuel allowed_errors : Nat) :
    List Char → Nat → Nat → List Nat → Except Fault (List Nat)
  | [], trie_index, _, out =>
    match image[trie_index]? with
    | none => .error .outOfBounds
    | some _ => print_remaining_trie image pfuel trie_index out
  | ch :: s1, trie_index, actual_errors, out =>
    match image[trie_index]? with
    | none => .error .outOfBounds
    | some this =>
      if ch = Char.ofNat 0 then print_remaining_trie image pfuel trie_index out
      else
        let c := code ch
        match follow (lookup_read image pfuel allowed_errors s1) this c actual_errors out with
        | .error x => .error x
        | .ok out1 =>
          if c ≠ 4 then
            match follow (lookup_read image pfuel allowed_errors s1) this 4 actual_errors
                out1 with
            | .error x => .error x
            | .ok out2 =>
              if actual_errors < allowed_errors then
                follow_others (lookup_read image pfuel allowed_errors s1) this c
                  (actual_errors + 1) [0, 1, 2, 3] out2
              else .ok out2
          else
            follow_others (lookup_read image pfuel allowed_errors s1) this c actual_errors
              [0, 1, 2, 3] out1

/-- `main` of `nearmatch.c` from the call
`lookup_read (ROOT_CELL, target, 0, ALLOWED_ERRORS)`: the read numbers printed. -/
def nearmatch (image : List CELL) (pfuel : Nat) (target : List Char) :
    Except Fault (List Nat) :=
  lookup_read image pfuel ALLOWED_ERRORS target ROOT_CELL 0 []

end NearMatch

/-! ## Counting the letters in which two reads differ -/

/-- Whether the symbols `c` and `e` count as an error: both are one of `A`, `C`, `G`, `T`
and they differ. -/
def miss (c e : Fin 5) : Nat := if c ≠ 4 ∧ e ≠ 4 ∧ c ≠ e then 1 else 0

/-- The number of positions at which two symbol strings both hold one of `A`, `C`, `G`, `T`
and differ. -/
def mismatches : List (Fin 5) → List (Fin 5) → Nat
  | c :: t, e :: cs => miss c e + mismatches t cs
  | _, _ => 0


/-! ## The edges that the near-match probe visits in one cell -/

/-- The edges that `lookup_read` of `nearmatch.c` visits in one cell, in the order of the
visits, for the symbol `c` of the target and `k` errors so far; each with the number of
errors that is passed on. -/
def branches (c : Fin 5) (k allowed : Nat) : List (Fin 5 × Nat) :=
  (c, k) ::
    (if c ≠ 4 then
      (4, k) ::
        (if k < allowed then
          (([0, 1, 2, 3] : List (Fin 5)).filter (fun e => decide (c ≠ e))).map
            (fun e => (e, k + 1))
        else [])
    else
      (([0, 1, 2, 3] : List (Fin 5)).filter (fun e => decide (c ≠ e))).map (fun e => (e, k)))

/-- The block `follow` for the edges of a list in turn. -/
def follow_all (look : Nat → Nat → List Nat → Except Fault (List Nat)) (this : CELL) :
    List (Fin 5 × Nat) → List Nat → Except Fault (List Nat)
  | [], out => .ok out
  | b :: more, out =>
    match NearMatch.follow look this b.1 b.2 out with
    | .error x => .error x
    | .ok out1 => follow_all look this more out1

/-- The read with identifier `id` is stored below the cell of the string `pre`, its
identifier is not 0, and its letters after `pre` differ from the symbols `t` in so few
positions that, with the `k` errors made before, at most `allowed` errors are made. -/
def Near (ids : List (List (Fin 5))) (allowed : Nat) (pre t : List (Fin 5)) (k id : Nat) :
    Prop :=
  ∃ cs, cs.length = t.length ∧ pre ++ cs ∈ ids ∧ id = first_index (pre ++ cs) ids ∧ id ≠ 0 ∧
    k + mismatches t cs ≤ allowed


/-! ## The input file and the index (`main` of `maketrie.c`, lines 874-919) -/

/-- The characters that `fgets` stores when `m` characters fit and the unread part of the
file is the argument: the characters up to and including the first newline. -/
def fgets_chars : Nat → List Char → List Char
  | 0, _ => []
  | _, [] => []
  | m + 1, c :: rest => if c = Char.ofNat 10 then [c] else c :: fgets_chars m rest

/-- A file open for reading: its unread part and the file position that `ftello`
returns (positions are assumed to fit the type `off_t`). -/
structure ReadFile where
  rest : List Char
  pos : Nat

/-- `fgets (line, MAX_LINE, read_file)`: the string in `line` and the file afterwards, and
whether the result is not `NULL`.  At the end of the file `line` keeps its contents. -/
def fgets (line : List Char) (f : ReadFile) : List Char × ReadFile × Bool :=
  let got := fgets_chars (MAX_LINE - 1) f.rest
  if got = [] then (line, f, false)
  else (got, ⟨f.rest.drop got.length, f.pos + got.length⟩, true)

/-- The string in `line` after `s = strchr (line, newline); if (s) *s = 0`. -/
def chomp (line : List Char) : List Char :=
  (c_string line).takeWhile (fun c => c ≠ Char.ofNat 10)

/-- How the ingestion loop of `main` ends. -/
inductive Ingested where
  /-- an insertion stops the run with a fault -/
  | fault (e : Fault)
  /-- `Input data format error in READ file line ...` and `exit (EXIT_FAILURE)` -/
  | format_error
  /-- the message for `read_number == 0x7FFFFFFF` and `exit (EXIT_FAILURE)` -/
  | too_many
  /-- the loop is left at the end of the file, in the cluster state `W`, with
  `read_number` reads counted and the entries `read_index` written to the index file -/
  | done (W : World) (read_number : Nat) (read_index : List Nat)

/-- The ingestion loop of `main` on rank 0 (lines 874-919) with its input: each round
writes the file position to the index file, reads the four lines of a record and inserts
the second.  The first argument bounds the number of rounds; `read_index` lists the
entries of `sizeof (off_t)` bytes written so far.  The line count of the error message is
not modelled. -/
def ingestion_loop (cfg : Config) :
    Nat → ReadFile → List Char → World → Nat → List Nat → Ingested
  | 0, _, _, _, _, _ => .fault .fuel
  | fuel + 1, f, line, W, read_number, read_index =>
    let read_start := f.pos
    let read_index1 := read_index ++ [read_start]
    let r1 := fgets line f
    if r1.2.2 = false then .done W read_number read_index1
    else
      let r2 := fgets r1.1 r1.2.1
      let s := chomp r2.1
      match add_read cfg s W 0 ROOT_CELL read_number 0 with
      | .error e => .fault e
      | .ok (W1, _) =>
        let r3 := fgets s r2.2.1
        if r3.1.head? ≠ some '+' then .format_error
        else
          let r4 := fgets r3.1 r3.2.1
          if read_number + 1 = 0x7FFFFFFF then .too_many
          else ingestion_loop cfg fuel r4.2.1 r4.1 W1 (read_number + 1) read_index1

/-- The size in bytes of an index file: `sizeof (off_t)` is 8. -/
def index_bytes (read_index : List Nat) : Nat := 8 * read_index.length

/-! ## Input files of four-line records -/

/-- The text of a record: its header, its sequence, its separator line and its quality
line, each followed by a newline. -/
def record_text (r : List Char × List Char × List Char × List Char) : List Char :=
  r.1 ++ Char.ofNat 10 :: (r.2.1 ++ Char.ofNat 10 :: (r.2.2.1 ++ Char.ofNat 10 ::
    (r.2.2.2 ++ [Char.ofNat 10])))

/-- The text of an input file that holds the records of a list. -/
def input_text (records : List (List Char × List Char × List Char × List Char)) :
    List Char :=
  records.flatMap record_text

/-- The byte offsets at which the records of a file start, the first one starting at
`pos`. -/
def record_offsets :
    List (List Char × List Char × List Char × List Char) → Nat → List Nat
  | [], _ => []
  | r :: more, pos => pos :: record_offsets more (pos + (record_text r).length)

/-- A line that `fgets` reads in one piece: it holds no newline and, with its newline, no
more than `MAX_LINE - 1` characters. -/
def LineOk (l : List Char) : Prop := (∀ c ∈ l, c ≠ Char.ofNat 10) ∧ l.length + 1 < MAX_LINE

/-- A record of four lines that are read in one piece each, with a sequence that holds no
NUL and a separator line that starts with `+`. -/
def RecordOk (r : List Char × List Char × List Char × List Char) : Prop :=
  LineOk r.1 ∧ LineOk r.2.1 ∧ (∀ c ∈ r.2.1, c ≠ Char.ofNat 0) ∧ LineOk r.2.2.1 ∧
    r.2.2.1.head? = some '+' ∧ LineOk r.2.2.2


/-! ## A trie file whose last cell is the first cell of the second shard -/

/-- The number of cells of a complete tree over `A`, `C`, `G`, `T` with `h` levels of
cells below its top cell. -/
def tree_size : Nat → Nat
  | 0 => 1
  | h + 1 => 1 + 4 * tree_size h

/-- The cells of a complete tree over `A`, `C`, `G`, `T` in the order in which construction
allocates them when the reads come in sorted order: the top cell has the index `base` and
`h` levels of cells below it; the cells of the lowest level hold one leaf each, on the edge
`A`, and the leaves carry the identifiers `id`, `id + 1`, ... from left to right. -/
def tree_cells : Nat → Nat → Nat → List CELL
  | 0, _, id => [⟨ENDS_WORD ||| id, 0, 0, 0, 0⟩]
  | h + 1, base, id =>
    ⟨base + 1, base + 1 + tree_size h, base + 1 + 2 * tree_size h,
      base + 1 + 3 * tree_size h, 0⟩ ::
      (tree_cells h (base + 1) id ++
        tree_cells h (base + 1 + tree_size h) (id + 4 ^ h) ++
        tree_cells h (base + 1 + 2 * tree_size h) (id + 2 * 4 ^ h) ++
        tree_cells h (base + 1 + 3 * tree_size h) (id + 3 * 4 ^ h))

/-- The trie file of the shape that construction writes for the reads `tree_reads h`: the
unused cell 0, the root and, below its edges `A`, `C` and `G`, three complete trees with
cells of depth 1 to `h + 1`. -/
def tree_image (h : Nat) : List CELL :=
  empty :: ⟨2, 2 + tree_size h, 2 + 2 * tree_size h, 0, 0⟩ ::
    (tree_cells h 2 0 ++ tree_cells h (2 + tree_size h) (4 ^ h) ++
      tree_cells h (2 + 2 * tree_size h) (2 * 4 ^ h))

/-- The `3 * 4^h` reads of `h + 2` letters `(A|C|G)(A|C|G|T)^h A`, in sorted order. -/
def tree_reads (h : Nat) : List (List Char) :=
  ((words4 (h + 1)).take (3 * 4 ^ h)).map (fun w => w ++ ['A'])

/-- A trie file of `2^16 + 1` cells (`last_used_edge = 2^16`): the file of the trie of the
`3 * 4^7` reads of 9 letters `(A|C|G)(A|C|G|T)^7 A`, numbered 0, 1, ... in sorted
order. -/
def full_tree_image : List CELL := tree_image 7


/-! ## An input whose trie needs two shards of `2^16` cells -/

/-- The three symbols of the number `i` (below 125) written in base 5. -/
def word3 (i : Nat) : List (Fin 5) := [Fin.ofNat (i / 25), Fin.ofNat (i / 5), Fin.ofNat i]

/-- The word `w` repeated `k` times. -/
def periodic (w : List (Fin 5)) : Nat → List (Fin 5)
  | 0 => []
  | k + 1 => w ++ periodic w k

/-- The 66 reads of 999 letters that repeat, 333 times each, the three-letter words `AAA`,
`AAC`, `AAG`, `AAT`, `AAN`, `ACA`, ... (the numbers 0 to 65 in base 5).  Their trie has
more than `2^16` and fewer than `2^17` cells. -/
def periodic_reads : List (List Char) :=
  (List.range 66).map (fun i => text (periodic (word3 i) 333))


/-! ## Arithmetic of shards -/

theorem shr_eq (cfg : Config) (i : Nat) : i >>> cfg.CHUNKBITS = i / 2 ^ cfg.CHUNKBITS :=
  Nat.shiftRight_eq_div_pow _ _

theorem chunksize_eq (cfg : Config) : cfg.CHUNKSIZE = 2 ^ cfg.CHUNKBITS := by
  simp [Config.CHUNKSIZE, Nat.shiftLeft_eq]

theorem mask_eq (cfg : Config) (i : Nat) : i &&& cfg.CHUNKMASK = i % 2 ^ cfg.CHUNKBITS := by
  simp [Config.CHUNKMASK, chunksize_eq, Nat.and_pow_two_sub_one_eq_mod]

theorem world_set_peer_same (W : World) (r : Nat) (p : Peer) : (W.set r p).peer r = p := by
  simp [World.set]

theorem world_set_peer_ne (W : World) (r r1 : Nat) (p : Peer) (h : r1 ≠ r) :
    (W.set r p).peer r1 = W.peer r1 := by
  simp [World.set, h]

theorem world_set_served (W : World) (r : Nat) (p : Peer) : (W.set r p).served = W.served := rfl

theorem sameCells_refl (W : World) : SameCells W W := fun _ => ⟨rfl, rfl, rfl, rfl, rfl, rfl⟩

theorem sameCells_trans {W W1 W2 : World} (h1 : SameCells W W1) (h2 : SameCells W1 W2) :
    SameCells W W2 := by
  intro r
  obtain ⟨a1, a2, a3, a4, a5, a6⟩ := h1 r
  obtain ⟨b1, b2, b3, b4, b5, b6⟩ := h2 r
  exact ⟨b1.trans a1, b2.trans a2, b3.trans a3, b4.trans a4, b5.trans a5, b6.trans a6⟩

/-- Quotient of the successor: the shard of `x + 1` is the shard of `x` or the next one,
and in the second case `x + 1` is the first index of that shard. -/
theorem succ_div_cases (S x : Nat) (hS : 0 < S) :
    ((x + 1) / S = x / S ∧ (x + 1) < (x / S + 1) * S) ∨
    ((x + 1) / S = x / S + 1 ∧ x + 1 = (x / S + 1) * S) := by
  have h1 := Nat.div_add_mod x S
  have h2 := Nat.mod_lt x hS
  have h3 : (x / S + 1) * S = S * (x / S) + S := by ring
  by_cases h : x % S + 1 = S
  · right
    have h4 : x + 1 = (x / S + 1) * S := by omega
    refine ⟨?_, h4⟩
    rw [h4]; exact Nat.mul_div_cancel _ hS
  · left
    have h4 : x + 1 < (x / S + 1) * S := by omega
    refine ⟨?_, h4⟩
    apply Nat.div_eq_of_lt_le
    · have : x / S * S = S * (x / S) := by ring
      omega
    · exact h4

theorem div_bounds (S x : Nat) (hS : 0 < S) : x / S * S ≤ x ∧ x < (x / S + 1) * S := by
  have h1 := Nat.div_add_mod x S
  have h2 := Nat.mod_lt x hS
  have h3 : (x / S + 1) * S = S * (x / S) + S := by ring
  have h4 : x / S * S = S * (x / S) := by ring
  omega


theorem range_succ_map (G : Nat) (hG : 1 ≤ G) (f : Nat → Nat × Nat) :
    (List.range' 2 (G + 1 - 1)).map f = (List.range' 2 (G - 1)).map f ++ [f (G + 1)] := by
  have h : G + 1 - 1 = (G - 1) + 1 := by omega
  rw [h, List.range'_concat]
  simp
  congr 1
  omega

/-- A successful allocation: on a rank at or below the shard of the next index, with
room left in the cluster, `get_next_free_edge` returns `G + 1`. -/
theorem get_next_free_edge_ok (cfg : Config) (hsz : cfg.mpisize * 2 ^ cfg.CHUNKBITS ≤ 2 ^ 63) :
    ∀ (fuel : Nat) (W : World) (p G : Nat), AllocInv cfg W G →
      p ≤ (G + 1) / 2 ^ cfg.CHUNKBITS → G + 1 < cfg.mpisize * 2 ^ cfg.CHUNKBITS →
      (G + 1) / 2 ^ cfg.CHUNKBITS - p < fuel →
      ∃ W1, get_next_free_edge cfg fuel W p = .ok (W1, G + 1) ∧ AllocInv cfg W1 (G + 1) ∧
        SameCells W W1 := by
  intro fuel
  induction fuel with
  | zero => intro W p G _ _ _ h; omega
  | succ fuel ih =>
    intro W p G inv hp hroom hfuel
    have hS : 0 < 2 ^ cfg.CHUNKBITS := Nat.two_pow_pos _
    have hq := div_bounds (2 ^ cfg.CHUNKBITS) (G + 1) hS
    have hqlt : (G + 1) / (2 ^ cfg.CHUNKBITS) < cfg.mpisize := by
      rw [Nat.div_lt_iff_lt_mul hS]; exact hroom
    have hpm : p < cfg.mpisize := by omega
    have hsucc := succ_div_cases (2 ^ cfg.CHUNKBITS) (G + 1) hS
    have hlast := inv.last p hpm
    rw [get_next_free_edge]
    by_cases hfront : p = (G + 1) / (2 ^ cfg.CHUNKBITS)
    · -- this rank serves the request
      have hL : (W.peer p).last_used_edge = G := by
        rw [hlast]; simp [hfront]
      have hmod : (G + 1) % 2 ^ 64 = G + 1 := Nat.mod_eq_of_lt (by omega)
      have hcond : ¬ (((W.peer p).last_used_edge + 1) % 2 ^ 64) >>> cfg.CHUNKBITS ≠ p := by
        rw [hL, hmod, shr_eq]; simp [hfront]
      dsimp only
      rw [if_neg hcond]
      simp only [hL, hmod]
      refine ⟨_, rfl, ?_, ?_⟩
      · constructor
        · omega
        · exact hroom
        · intro r hr
          simp only [World.set]
          by_cases hrp : r = p
          · subst hrp
            simp only [if_true]
            rcases hsucc with ⟨h1, h2⟩ | ⟨h1, h2⟩
            · rw [h1]; simp [← hfront]
            · rw [h1]; simp [← hfront]; rw [← hfront] at h2; omega
          · simp only [hrp, if_false]
            rw [inv.last r hr]
            rcases hsucc with ⟨h1, h2⟩ | ⟨h1, h2⟩
            · rw [h1]
              have c0 : r ≠ (G + 1) / 2 ^ cfg.CHUNKBITS := by omega
              simp [c0]
            · rw [h1]
              by_cases c1 : r < (G + 1) / (2 ^ cfg.CHUNKBITS)
              · have c2 : r < (G + 1) / (2 ^ cfg.CHUNKBITS) + 1 := by omega
                simp [c1, c2]
              · have c3 : r ≠ (G + 1) / (2 ^ cfg.CHUNKBITS) := by omega
                simp only [c1, c3, if_false]
                by_cases c4 : r = (G + 1) / (2 ^ cfg.CHUNKBITS) + 1
                · have c5 : ¬ r < (G + 1) / (2 ^ cfg.CHUNKBITS) + 1 := by omega
                  rw [if_neg c5, if_pos c4]
                  rw [← c4] at h2
                  omega
                · have c5 : ¬ r < (G + 1) / (2 ^ cfg.CHUNKBITS) + 1 := by omega
                  simp [c5, c4]
        · intro r hr hinit
          simp only [World.set] at hinit ⊢
          by_cases hrp : r = p
          · subst hrp
            simp only [if_true] at hinit ⊢
            have := inv.next r hr hinit
            rcases hsucc with ⟨h1, h2⟩ | ⟨h1, h2⟩ <;> rw [h1] <;> omega
          · simp only [hrp, if_false] at hinit ⊢
            have := inv.next r hr hinit
            rcases hsucc with ⟨h1, h2⟩ | ⟨h1, h2⟩ <;> rw [h1] <;> omega
        · show W.served ++ [(p, G + 1)] = _
          rw [range_succ_map G inv.root_le, ← inv.served, hfront]
      · intro r
        simp only [World.set]
        by_cases hrp : r = p
        · subst hrp; simp
        · simp [hrp]
    · -- this rank is full: the call is forwarded
      have hplt : p < (G + 1) / (2 ^ cfg.CHUNKBITS) := by omega
      have hL : (W.peer p).last_used_edge = (p + 1) * (2 ^ cfg.CHUNKBITS) - 1 := by
        rw [hlast]; simp [hplt]
      have hpS : (p + 1) * (2 ^ cfg.CHUNKBITS) ≤ (G + 1) / (2 ^ cfg.CHUNKBITS) * (2 ^ cfg.CHUNKBITS) := Nat.mul_le_mul_right (2 ^ cfg.CHUNKBITS) hplt
      have hpos : 1 ≤ (p + 1) * (2 ^ cfg.CHUNKBITS) := Nat.mul_pos (by omega) hS
      have hL1 : (W.peer p).last_used_edge + 1 = (p + 1) * (2 ^ cfg.CHUNKBITS) := by omega
      have hmod : ((p + 1) * (2 ^ cfg.CHUNKBITS)) % 2 ^ 64 = (p + 1) * (2 ^ cfg.CHUNKBITS) := Nat.mod_eq_of_lt (by omega)
      have hcond : (((W.peer p).last_used_edge + 1) % 2 ^ 64) >>> cfg.CHUNKBITS ≠ p := by
        rw [hL1, hmod, shr_eq, Nat.mul_div_cancel _ hS]; omega
      dsimp only
      rw [if_pos hcond]
      set me1 : Peer := if (W.peer p).init = true then W.peer p
        else { W.peer p with next_guy := p + 1, init := true } with hme1
      have hng : p < me1.next_guy ∧ me1.next_guy ≤ (G + 1) / (2 ^ cfg.CHUNKBITS) := by
        by_cases hi : (W.peer p).init = true
        · have := inv.next p hpm hi
          simp only [hme1, hi, if_true]; omega
        · simp only [hme1, hi]; simp; omega
      have hme1_init : me1.init = true := by
        by_cases hi : (W.peer p).init = true
        · simp only [hme1, hi, if_true]
        · simp only [hme1, hi]; simp
      have hme1_last : me1.last_used_edge = (W.peer p).last_used_edge := by
        by_cases hi : (W.peer p).init = true
        · simp only [hme1, hi, if_true]
        · simp only [hme1, hi]; simp
      have hme1_cells : me1.trie_cell = (W.peer p).trie_cell ∧
          me1.duplicates = (W.peer p).duplicates ∧ me1.dups = (W.peer p).dups ∧
          me1.seq = (W.peer p).seq ∧ me1.length = (W.peer p).length ∧
          me1.sorted_and_unique_reads = (W.peer p).sorted_and_unique_reads := by
        by_cases hi : (W.peer p).init = true
        · simp only [hme1, hi, if_true]; simp
        · simp only [hme1, hi]; simp
      have c1 : ¬ me1.next_guy = p := by omega
      have c2 : ¬ (me1.next_guy = 0 ∨ cfg.mpisize ≤ me1.next_guy) := by omega
      simp only [c1, c2, if_false]
      have inv1 : AllocInv cfg (W.set p me1) G := by
        constructor
        · exact inv.root_le
        · exact inv.lt_max
        · intro r hr
          simp only [World.set]
          by_cases hrp : r = p
          · subst hrp; simp only [if_true]; rw [hme1_last]; exact inv.last r hr
          · simp only [hrp, if_false]; exact inv.last r hr
        · intro r hr hinit
          simp only [World.set] at hinit ⊢
          by_cases hrp : r = p
          · subst hrp; simp only [if_true]; omega
          · simp only [hrp, if_false] at hinit ⊢; exact inv.next r hr hinit
        · exact inv.served
      obtain ⟨W2, hW2, inv2, same2⟩ :=
        ih (W.set p me1) me1.next_guy G inv1 hng.2 hroom (by omega)
      rw [hW2]
      refine ⟨_, rfl, ?_, ?_⟩
      · constructor
        · exact inv2.root_le
        · exact inv2.lt_max
        · intro r hr
          simp only [World.set]
          by_cases hrp : r = p
          · subst hrp; simp only [if_true]; exact inv2.last r hr
          · simp only [hrp, if_false]; exact inv2.last r hr
        · intro r hr hinit
          simp only [World.set] at hinit ⊢
          by_cases hrp : r = p
          · subst hrp
            simp only [if_true]
            rw [shr_eq]
            rcases hsucc with ⟨h1, h2⟩ | ⟨h1, h2⟩ <;> rw [h1] <;> omega
          · simp only [hrp, if_false] at hinit ⊢; exact inv2.next r hr hinit
        · exact inv2.served
      · intro r
        have h2 := same2 r
        simp only [World.set] at h2 ⊢
        by_cases hrp : r = p
        · subst hrp
          simp only [if_true] at h2 ⊢
          obtain ⟨a1, a2, a3, a4, a5, a6⟩ := h2
          obtain ⟨b1, b2, b3, b4, b5, b6⟩ := hme1_cells
          exact ⟨a1.trans b1, a2.trans b2, a3.trans b3, a4.trans b4, a5.trans b5, a6.trans b6⟩
        · simp only [hrp, if_false] at h2 ⊢; exact h2


/-- An exhausted cluster: when every shard is full, `get_next_free_edge` ends with a send
to the rank after the last one. -/
theorem get_next_free_edge_full (cfg : Config) (hsz : cfg.mpisize * 2 ^ cfg.CHUNKBITS ≤ 2 ^ 63) :
    ∀ (fuel : Nat) (W : World) (p G : Nat), AllocInv cfg W G →
      G + 1 = cfg.mpisize * 2 ^ cfg.CHUNKBITS → p < cfg.mpisize → cfg.mpisize - p ≤ fuel →
      get_next_free_edge cfg fuel W p = .error .noSuchRank := by
  intro fuel
  induction fuel with
  | zero => intro W p G _ _ hp h; omega
  | succ fuel ih =>
    intro W p G inv hfull hp hfuel
    have hS : 0 < 2 ^ cfg.CHUNKBITS := Nat.two_pow_pos _
    have hq : (G + 1) / 2 ^ cfg.CHUNKBITS = cfg.mpisize := by
      rw [hfull]; exact Nat.mul_div_cancel _ hS
    have hlast := inv.last p hp
    rw [hq] at hlast
    simp only [hp, if_true] at hlast
    have hpS : (p + 1) * 2 ^ cfg.CHUNKBITS ≤ cfg.mpisize * 2 ^ cfg.CHUNKBITS :=
      Nat.mul_le_mul_right _ hp
    have hpos : 1 ≤ (p + 1) * 2 ^ cfg.CHUNKBITS := Nat.mul_pos (by omega) hS
    have hL1 : (W.peer p).last_used_edge + 1 = (p + 1) * 2 ^ cfg.CHUNKBITS := by omega
    have hmod : ((p + 1) * 2 ^ cfg.CHUNKBITS) % 2 ^ 64 = (p + 1) * 2 ^ cfg.CHUNKBITS :=
      Nat.mod_eq_of_lt (by omega)
    have hcond : (((W.peer p).last_used_edge + 1) % 2 ^ 64) >>> cfg.CHUNKBITS ≠ p := by
      rw [hL1, hmod, shr_eq, Nat.mul_div_cancel _ hS]; omega
    rw [get_next_free_edge]
    dsimp only
    rw [if_pos hcond]
    set me1 : Peer := if (W.peer p).init = true then W.peer p
      else { W.peer p with next_guy := p + 1, init := true } with hme1
    have hng : p < me1.next_guy ∧ me1.next_guy ≤ cfg.mpisize := by
      by_cases hi : (W.peer p).init = true
      · have := inv.next p hp hi
        rw [hq] at this
        simp only [hme1, hi, if_true]; omega
      · simp only [hme1, hi]; simp; omega
    have hme1_last : me1.last_used_edge = (W.peer p).last_used_edge := by
      by_cases hi : (W.peer p).init = true
      · simp only [hme1, hi, if_true]
      · simp only [hme1, hi]; simp
    have c1 : ¬ me1.next_guy = p := by omega
    rw [if_neg c1]
    by_cases c2 : me1.next_guy = 0 ∨ cfg.mpisize ≤ me1.next_guy
    · rw [if_pos c2]
    · rw [if_neg c2]
      have inv1 : AllocInv cfg (W.set p me1) G := by
        constructor
        · exact inv.root_le
        · exact inv.lt_max
        · intro r hr
          simp only [World.set]
          by_cases hrp : r = p
          · subst hrp; simp only [if_true]; rw [hme1_last]; exact inv.last r hr
          · simp only [hrp, if_false]; exact inv.last r hr
        · intro r hr hinit
          simp only [World.set] at hinit ⊢
          by_cases hrp : r = p
          · subst hrp; simp only [if_true]; rw [hq]; omega
          · simp only [hrp, if_false] at hinit ⊢; exact inv.next r hr hinit
        · exact inv.served
      rw [ih (W.set p me1) me1.next_guy G inv1 hfull (by omega) (by omega)]


theorem sameAlloc_refl (W : World) : SameAlloc W W := ⟨rfl, fun _ => ⟨rfl, rfl, rfl⟩⟩

theorem sameAlloc_trans {W W1 W2 : World} (h1 : SameAlloc W W1) (h2 : SameAlloc W1 W2) :
    SameAlloc W W2 := by
  refine ⟨h2.1.trans h1.1, fun r => ?_⟩
  obtain ⟨a1, a2, a3⟩ := h1.2 r
  obtain ⟨b1, b2, b3⟩ := h2.2 r
  exact ⟨b1.trans a1, b2.trans a2, b3.trans a3⟩

theorem allocInv_of_same {cfg : Config} {W W1 : World} {G : Nat} (inv : AllocInv cfg W G)
    (h : SameAlloc W W1) : AllocInv cfg W1 G := by
  constructor
  · exact inv.root_le
  · exact inv.lt_max
  · intro r hr; rw [(h.2 r).1]; exact inv.last r hr
  · intro r hr hi
    rw [(h.2 r).2.1]
    rw [(h.2 r).2.2] at hi
    exact inv.next r hr hi
  · rw [h.1]; exact inv.served

theorem cell_at_of_same (cfg : Config) {W W1 : World} (h : SameCells W W1) :
    cell_at cfg W1 = cell_at cfg W := by
  funext i
  simp only [cell_at]
  rw [(h _).1]

theorem cell_edge_setEdge (x : CELL) (i j : Fin 5) (v : Nat) :
    (x.setEdge i v).edge j = if j = i then v else x.edge j := by
  fin_cases i <;> fin_cases j <;> simp [CELL.setEdge, CELL.edge]

theorem empty_edge (c : Fin 5) : empty.edge c = 0 := by
  fin_cases c <;> rfl

/-- A global index is determined by its rank and its local offset. -/
theorem index_eq_of_split (S i j : Nat) (h1 : i / S = j / S) (h2 : i % S = j % S) : i = j := by
  have a := Nat.div_add_mod i S
  have b := Nat.div_add_mod j S
  rw [h1, h2] at a
  omega

theorem write_edge_sameAlloc (W : World) (r off : Nat) (c : Fin 5) (v : Nat) :
    SameAlloc W (write_edge W r off c v) := by
  refine ⟨rfl, fun r1 => ?_⟩
  simp only [write_edge, World.set]
  by_cases h : r1 = r
  · subst h; simp
  · simp [h]

theorem write_cell_sameAlloc (W : World) (r off : Nat) (v : CELL) :
    SameAlloc W (write_cell W r off v) := by
  refine ⟨rfl, fun r1 => ?_⟩
  simp only [write_cell, World.set]
  by_cases h : r1 = r
  · subst h; simp
  · simp [h]

theorem cell_at_write_cell (cfg : Config) (W : World) (j : Nat) (v : CELL) :
    cell_at cfg (write_cell W (j >>> cfg.CHUNKBITS) (j &&& cfg.CHUNKMASK) v) =
      fun i => if i = j then v else cell_at cfg W i := by
  funext i
  simp only [cell_at, write_cell, World.set]
  by_cases hij : i = j
  · subst hij; simp
  · simp only [hij, if_false]
    by_cases hr : i >>> cfg.CHUNKBITS = j >>> cfg.CHUNKBITS
    · have ho : i &&& cfg.CHUNKMASK ≠ j &&& cfg.CHUNKMASK := by
        intro ho
        rw [mask_eq, mask_eq] at ho
        rw [shr_eq, shr_eq] at hr
        exact hij (index_eq_of_split _ _ _ hr ho)
      simp [hr, ho]
    · simp [hr]

theorem cell_at_write_edge (cfg : Config) (W : World) (j : Nat) (c : Fin 5) (v : Nat) :
    cell_at cfg (write_edge W (j >>> cfg.CHUNKBITS) (j &&& cfg.CHUNKMASK) c v) =
      Flat.write (cell_at cfg W) j c v := by
  funext i
  simp only [cell_at, write_edge, World.set, Flat.write]
  by_cases hij : i = j
  · subst hij; simp
  · simp only [hij, if_false]
    by_cases hr : i >>> cfg.CHUNKBITS = j >>> cfg.CHUNKBITS
    · have ho : i &&& cfg.CHUNKMASK ≠ j &&& cfg.CHUNKMASK := by
        intro ho
        rw [mask_eq, mask_eq] at ho
        rw [shr_eq, shr_eq] at hr
        exact hij (index_eq_of_split _ _ _ hr ho)
      simp [hr, ho]
    · simp [hr]

theorem c_strlen_cons (ch : Char) (s : List Char) (h : at_end (ch :: s) = false) :
    c_strlen (ch :: s) = c_strlen s + 1 := by
  simp [c_strlen, h]


theorem rel_of_benign {cfg : Config} {W W1 : World} {F : Flat} (h : Rel cfg W F)
    (ha : SameAlloc W W1) (hc : ∀ r, (W1.peer r).trie_cell = (W.peer r).trie_cell) :
    Rel cfg W1 F := by
  refine ⟨allocInv_of_same h.1 ha, ?_⟩
  rw [h.2]
  funext i
  simp only [cell_at]
  rw [hc]

theorem set_benign (W : World) (p : Nat) (q : Peer)
    (h1 : q.trie_cell = (W.peer p).trie_cell)
    (h2 : q.last_used_edge = (W.peer p).last_used_edge)
    (h3 : q.next_guy = (W.peer p).next_guy) (h4 : q.init = (W.peer p).init) :
    SameAlloc W (W.set p q) ∧ ∀ r, ((W.set p q).peer r).trie_cell = (W.peer r).trie_cell := by
  refine ⟨⟨rfl, fun r => ?_⟩, fun r => ?_⟩
  · simp only [World.set]
    by_cases h : r = p
    · subst h; simp [h2, h3, h4]
    · simp [h]
  · simp only [World.set]
    by_cases h : r = p
    · subst h; simp [h1]
    · simp [h]

theorem rel_set_benign {cfg : Config} {W : World} {F : Flat} (h : Rel cfg W F) (p : Nat)
    (q : Peer) (h1 : q.trie_cell = (W.peer p).trie_cell)
    (h2 : q.last_used_edge = (W.peer p).last_used_edge)
    (h3 : q.next_guy = (W.peer p).next_guy) (h4 : q.init = (W.peer p).init) :
    Rel cfg (W.set p q) F :=
  rel_of_benign h (set_benign W p q h1 h2 h3 h4).1 (set_benign W p q h1 h2 h3 h4).2

/-- The flat trie after one allocation step keeps every edge within bounds. -/
theorem bounded_alloc (F : Flat) (edge : Nat) (c : Fin 5) (hb : Bounded F) (h1 : 1 ≤ edge)
    (h2 : edge ≤ F.last) :
    Bounded ⟨Flat.write (fun i => if i = F.last + 1 then empty else F.mem i) edge c
      (F.last + 1), F.last + 1⟩ := by
  intro i hi1 hi2 c1
  simp only [Flat.write]
  by_cases hie : i = edge
  · subst hie
    have hne : ¬ i = F.last + 1 := by omega
    simp only [if_true, hne, if_false, cell_edge_setEdge]
    by_cases hc : c1 = c
    · simp only [hc, if_true]; right; right; omega
    · simp only [hc, if_false]
      rcases hb i h1 h2 c1 with h | h | h
      · left; exact h
      · right; left; exact h
      · right; right; omega
  · simp only [hie, if_false]
    by_cases hn : i = F.last + 1
    · left; rw [if_pos hn]; exact empty_edge c1
    · simp only [hn, if_false]
      have hi2' : i ≤ F.last + 1 := hi2
      have hi3 : i ≤ F.last := by omega
      rcases hb i hi1 hi3 c1 with h | h | h
      · left; exact h
      · right; left; exact h
      · right; right; exact ⟨h.1, Nat.le_succ_of_le h.2⟩

theorem bounded_write_leaf (F : Flat) (edge : Nat) (c : Fin 5) (v : Nat) (hb : Bounded F)
    (hv : v &&& ENDS_WORD ≠ 0) : Bounded { F with mem := Flat.write F.mem edge c v } := by
  intro i hi1 hi2 c1
  simp only [Flat.write]
  by_cases hie : i = edge
  · subst hie
    simp only [if_true, cell_edge_setEdge]
    by_cases hc : c1 = c
    · simp only [hc, if_true]; right; left; exact hv
    · simp only [hc, if_false]; exact hb i hi1 hi2 c1
  · simp only [hie, if_false]; exact hb i hi1 hi2 c1

theorem ends_word_eq : ENDS_WORD = 2 ^ 63 := by simp [ENDS_WORD, Nat.shiftLeft_eq]

theorem edge_mask_eq : EDGE_MASK = 2 ^ 63 - 1 := by simp [EDGE_MASK, ends_word_eq]

/-- The terminator test `w & ENDS_WORD` reads bit 63. -/
theorem terminal_iff_testBit (w : Nat) : w &&& ENDS_WORD ≠ 0 ↔ w.testBit 63 = true := by
  rw [ends_word_eq]
  constructor
  · intro h
    by_contra hb
    apply h
    apply Nat.eq_of_testBit_eq
    intro i
    simp only [Nat.testBit_and, Nat.zero_testBit, Nat.testBit_two_pow]
    by_cases hi : 63 = i
    · subst hi; simp at hb; simp [hb]
    · simp [hi]
  · intro h h0
    have : (w &&& 2 ^ 63).testBit 63 = true := by
      rw [Nat.testBit_and, h, Nat.testBit_two_pow_self]; rfl
    rw [h0] at this
    simp at this

theorem leaf_word_terminal (r : Nat) : (ENDS_WORD ||| r) &&& ENDS_WORD ≠ 0 := by
  rw [terminal_iff_testBit, ends_word_eq, Nat.testBit_or, Nat.testBit_two_pow_self]
  rfl

theorem not_terminal_of_lt (w : Nat) (h : w < 2 ^ 63) : ¬ (w &&& ENDS_WORD ≠ 0) := by
  rw [terminal_iff_testBit]
  simp [Nat.testBit_lt_two_pow h]

theorem ge_of_terminal (w : Nat) (h : w &&& ENDS_WORD ≠ 0) : 2 ^ 63 ≤ w := by
  rw [terminal_iff_testBit] at h
  exact Nat.testBit_implies_ge h

theorem leaf_word_payload (r : Nat) (h : r < 2 ^ 63) : (ENDS_WORD ||| r) &&& EDGE_MASK = r := by
  rw [edge_mask_eq, ends_word_eq, Nat.and_pow_two_sub_one_eq_mod]
  have h1 : 2 ^ 63 ||| r = 2 ^ 63 * 1 + r := by
    rw [Nat.mul_add_lt_is_or h]; simp
  rw [h1]
  omega


theorem setread_forward (cfg : Config) (W : World) (t j : Nat) (v : CELL)
    (h1 : t ≤ j / 2 ^ cfg.CHUNKBITS) (h2 : j / 2 ^ cfg.CHUNKBITS < cfg.mpisize) :
    setread cfg W t j v =
      .ok (write_cell W (j >>> cfg.CHUNKBITS) (j &&& cfg.CHUNKMASK) v) := by
  simp only [setread]
  rw [shr_eq]
  by_cases h : j / 2 ^ cfg.CHUNKBITS = t
  · simp [h]
  · have h3 : ¬ j / 2 ^ cfg.CHUNKBITS < t := by omega
    have h4 : ¬ cfg.mpisize ≤ j / 2 ^ cfg.CHUNKBITS := by omega
    simp [h, h3, h4]

theorem simResult_none {cfg : Config} {out : Except Fault (World × Nat)} {n : Nat} (e : Fault)
    (h : out = .error e) : SimResult cfg none out n := ⟨e, h⟩

theorem simResult_some {cfg : Config} {out : Except Fault (World × Nat)} {n : Nat} {F1 : Flat}
    {d : Option Nat} (W1 : World) (h : out = .ok (W1, n)) (hrel : Rel cfg W1 F1) :
    SimResult cfg (some (F1, d)) out n := ⟨W1, h, hrel⟩

theorem simResult_congr_len {cfg : Config} {res : Option (Flat × Option Nat)}
    {out : Except Fault (World × Nat)} {n m : Nat} (h : SimResult cfg res out n) (hnm : n = m) :
    SimResult cfg res out m := by
  subst hnm; exact h

/-- One call of `local_add_read` on the rank that owns `edge` follows the flat insertion,
provided the call on the rest of the string does. -/
theorem local_add_read_sim (cfg : Config) (hsz : cfg.mpisize * 2 ^ cfg.CHUNKBITS ≤ 2 ^ 63)
    (tail : World → Nat → Nat → Nat → Nat → Except Fault (World × Nat))
    (ch : Char) (s1 : List Char) (htail : Simulates cfg tail s1) (hrej : RejectsLeaf tail)
    (W : World) (F : Flat) (edge rn len : Nat)
    (hrel : Rel cfg W F) (hb : Bounded F) (he1 : 1 ≤ edge) (he2 : edge ≤ F.last) :
    SimResult cfg (flat_add (cfg.mpisize * 2 ^ cfg.CHUNKBITS) (ch :: s1) F edge rn)
      (local_add_read cfg tail (ch :: s1) W (edge >>> cfg.CHUNKBITS) edge rn len)
      (len + c_strlen (ch :: s1)) := by
  have hS : 0 < 2 ^ cfg.CHUNKBITS := Nat.two_pow_pos _
  have hG := hrel.1.lt_max
  rw [flat_add]
  by_cases hend : at_end (ch :: s1) = true
  · rw [if_pos hend]
    exact simResult_none .assertion (by simp [local_add_read, hend])
  have hend' : at_end (ch :: s1) = false := by simpa using hend
  rw [if_neg hend]
  have hw : ((W.peer (edge >>> cfg.CHUNKBITS)).trie_cell (edge &&& cfg.CHUNKMASK)).edge (code ch)
      = (F.mem edge).edge (code ch) := by
    rw [hrel.2]; rfl
  simp only [local_add_read, ne_eq, not_true_eq_false, if_false, hend', Bool.false_eq_true]
  rw [hw]
  rw [c_strlen_cons ch s1 hend']
  by_cases hend1 : at_end s1 = true
  · -- the last letter
    have hs1 : c_strlen s1 = 0 := by
      cases s1 with
      | nil => rfl
      | cons a s2 => simp [c_strlen, hend1]
    rw [if_pos hend1, if_pos hend1, hs1]
    by_cases hterm : (F.mem edge).edge (code ch) &&& ENDS_WORD ≠ 0
    · rw [if_pos hterm, if_pos hterm]
      exact simResult_some _ rfl (rel_set_benign hrel _ _ rfl rfl rfl rfl)
    · rw [if_neg hterm, if_neg hterm]
      by_cases hz : (F.mem edge).edge (code ch) &&& EDGE_MASK ≠ 0
      · rw [if_pos hz, if_pos hz]; exact simResult_none .assertion rfl
      · rw [if_neg hz, if_neg hz]
        refine simResult_some _ rfl ⟨allocInv_of_same hrel.1 (write_edge_sameAlloc _ _ _ _ _), ?_⟩
        show Flat.write F.mem edge (code ch) _ = _
        rw [cell_at_write_edge, hrel.2]
  · -- an inner letter
    rw [if_neg hend1, if_neg hend1]
    by_cases hz : (F.mem edge).edge (code ch) = 0
    · rw [if_pos hz, if_pos hz]
      have ht0 : edge / 2 ^ cfg.CHUNKBITS < cfg.mpisize := by
        rw [Nat.div_lt_iff_lt_mul hS]; omega
      by_cases hcap : cfg.mpisize * 2 ^ cfg.CHUNKBITS ≤ F.last + 1
      · rw [if_pos hcap]
        have hfull := get_next_free_edge_full cfg hsz cfg.mpisize W (edge >>> cfg.CHUNKBITS)
          F.last hrel.1 (by omega) (by rw [shr_eq]; exact ht0) (Nat.sub_le _ _)
        rw [hfull]
        exact simResult_none .noSuchRank rfl
      rw [if_neg hcap]
      have hroom : F.last + 1 < cfg.mpisize * 2 ^ cfg.CHUNKBITS := by omega
      have hq : (F.last + 1) / 2 ^ cfg.CHUNKBITS < cfg.mpisize := by
        rw [Nat.div_lt_iff_lt_mul hS]; exact hroom
      have ht : edge / 2 ^ cfg.CHUNKBITS ≤ (F.last + 1) / 2 ^ cfg.CHUNKBITS :=
        Nat.div_le_div_right (by omega)
      obtain ⟨Wa, hWa, inva, samea⟩ := get_next_free_edge_ok cfg hsz cfg.mpisize W
        (edge >>> cfg.CHUNKBITS) F.last hrel.1 (by rw [shr_eq]; exact ht) hroom
        (Nat.lt_of_le_of_lt (Nat.sub_le _ _) hq)
      rw [hWa]
      dsimp only
      rw [setread_forward cfg Wa _ _ empty (by rw [shr_eq]; exact ht) hq]
      dsimp only
      have hmax : ¬ cfg.MAX_SIZE ≤ F.last + 1 := by
        rw [Config.MAX_SIZE, chunksize_eq, Nat.mul_comm]; omega
      rw [if_neg hmax]
      set Wb := write_cell Wa ((F.last + 1) >>> cfg.CHUNKBITS) ((F.last + 1) &&& cfg.CHUNKMASK)
        empty with hWb
      set Wc := write_edge Wb (edge >>> cfg.CHUNKBITS) (edge &&& cfg.CHUNKMASK) (code ch)
        (F.last + 1) with hWc
      have hcells : cell_at cfg Wc =
          Flat.write (fun i => if i = F.last + 1 then empty else F.mem i) edge (code ch)
            (F.last + 1) := by
        rw [hWc, cell_at_write_edge, hWb, cell_at_write_cell, cell_at_of_same cfg samea, hrel.2]
      have hrelc : Rel cfg Wc ⟨Flat.write (fun i => if i = F.last + 1 then empty else F.mem i)
          edge (code ch) (F.last + 1), F.last + 1⟩ := by
        refine ⟨?_, hcells.symm⟩
        exact allocInv_of_same (allocInv_of_same inva (write_cell_sameAlloc _ _ _ _)) (write_edge_sameAlloc _ _ _ _ _)
      have hnew : ((Wc.peer (edge >>> cfg.CHUNKBITS)).trie_cell (edge &&& cfg.CHUNKMASK)).edge
          (code ch) = F.last + 1 := by
        have : (cell_at cfg Wc edge).edge (code ch) = F.last + 1 := by
          rw [hcells]; simp [Flat.write, cell_edge_setEdge]
        exact this
      rw [hnew]
      exact simResult_congr_len (htail Wc _ (edge >>> cfg.CHUNKBITS) (F.last + 1) rn (len + 1)
        hrelc (bounded_alloc F edge (code ch) hb he1 he2) (by omega) (le_refl _)
        (by rw [shr_eq]; exact ht) (by omega)) (by omega)
    · rw [if_neg hz, if_neg hz]
      by_cases h63 : 2 ^ 63 ≤ (F.mem edge).edge (code ch)
      · rw [if_pos h63]
        obtain ⟨e, he⟩ := hrej W (edge >>> cfg.CHUNKBITS) _ rn (len + 1) h63 (by omega)
        exact simResult_none e he
      rw [if_neg h63]
      have hchild : edge < (F.mem edge).edge (code ch) ∧ (F.mem edge).edge (code ch) ≤ F.last := by
        rcases hb edge he1 he2 (code ch) with h | h | h
        · exact absurd h hz
        · exact absurd (ge_of_terminal _ h) h63
        · exact h
      exact simResult_congr_len (htail W F (edge >>> cfg.CHUNKBITS) _ rn (len + 1)
        hrel hb (by omega) hchild.2
        (by rw [shr_eq]; exact Nat.div_le_div_right (by omega)) (by omega)) (by omega)


theorem add_read_enter_ok (cfg : Config) (W : World) (F : Flat) (p edge rn len : Nat)
    (hrel : Rel cfg W F) (hlen : len = 0 → edge = ROOT_CELL ∧ rn ≤ EDGE_MASK) :
    ∃ W1, add_read_enter W p edge rn len = .ok W1 ∧ Rel cfg W1 F := by
  simp only [add_read_enter]
  by_cases h0 : len = 0
  · obtain ⟨h1, h2⟩ := hlen h0
    have h3 : ¬ EDGE_MASK < rn := by omega
    simp only [h0, if_true, h1, ne_eq, not_true_eq_false, if_false, h3]
    exact ⟨_, rfl, rel_set_benign hrel _ _ rfl rfl rfl rfl⟩
  · simp only [h0, if_false]
    exact ⟨_, rfl, hrel⟩

theorem local_add_read_nil (cfg : Config)
    (tail : World → Nat → Nat → Nat → Nat → Except Fault (World × Nat))
    (W : World) (t edge rn len : Nat) :
    local_add_read cfg tail [] W t edge rn len = .error .assertion := by
  simp only [local_add_read]
  split <;> rfl

theorem add_read_local_sim (cfg : Config) (hsz : cfg.mpisize * 2 ^ cfg.CHUNKBITS ≤ 2 ^ 63)
    (tail : World → Nat → Nat → Nat → Nat → Except Fault (World × Nat))
    (s : List Char)
    (htail : ∀ ch s1, s = ch :: s1 → Simulates cfg tail s1 ∧ RejectsLeaf tail)
    (W : World) (F : Flat) (edge rn len : Nat)
    (hrel : Rel cfg W F) (hb : Bounded F) (he1 : 1 ≤ edge) (he2 : edge ≤ F.last) :
    SimResult cfg (flat_add (cfg.mpisize * 2 ^ cfg.CHUNKBITS) s F edge rn)
      (add_read_local cfg tail s W (edge >>> cfg.CHUNKBITS) edge rn len)
      (len + c_strlen s) := by
  cases s with
  | nil =>
    rw [flat_add]
    exact simResult_none .assertion (by simp [add_read_local, local_add_read_nil])
  | cons ch s1 =>
    have h := local_add_read_sim cfg hsz tail ch s1 (htail ch s1 rfl).1 (htail ch s1 rfl).2
      W F edge rn len hrel hb he1 he2
    cases hres : flat_add (cfg.mpisize * 2 ^ cfg.CHUNKBITS) (ch :: s1) F edge rn with
    | none =>
      rw [hres] at h
      obtain ⟨e, he⟩ := h
      exact simResult_none e (by simp [add_read_local, he])
    | some r =>
      obtain ⟨F1, d⟩ := r
      rw [hres] at h
      obtain ⟨W1, hW1, hrel1⟩ := h
      simp only [add_read_local, hW1]
      by_cases h0 : len = 0
      · simp only [h0, if_true]
        exact ⟨_, rfl, rel_set_benign hrel1 _ _ rfl rfl rfl rfl⟩
      · simp only [h0, if_false]
        exact ⟨_, rfl, hrel1⟩

theorem add_read_body_sim (cfg : Config) (hsz : cfg.mpisize * 2 ^ cfg.CHUNKBITS ≤ 2 ^ 63)
    (tail : World → Nat → Nat → Nat → Nat → Except Fault (World × Nat))
    (s : List Char)
    (htail : ∀ ch s1, s = ch :: s1 → Simulates cfg tail s1 ∧ RejectsLeaf tail) :
    Simulates cfg (add_read_body cfg tail s) s := by
  intro W F p edge rn len hrel hb he1 he2 hp hlen
  have hS : 0 < 2 ^ cfg.CHUNKBITS := Nat.two_pow_pos _
  have hG := hrel.1.lt_max
  have he63 : edge < 2 ^ 63 := by omega
  have hrank : edge / 2 ^ cfg.CHUNKBITS < cfg.mpisize := by
    rw [Nat.div_lt_iff_lt_mul hS]; omega
  obtain ⟨Wa, hWa, hrela⟩ := add_read_enter_ok cfg W F p edge rn len hrel hlen
  simp only [add_read_body, hWa, signed_rank, he63, if_true]
  by_cases hloc : edge >>> cfg.CHUNKBITS = p
  · rw [if_pos hloc]
    rw [← hloc]
    exact add_read_local_sim cfg hsz tail s htail Wa F edge rn len hrela hb he1 he2
  · rw [if_neg hloc]
    have hne : ¬ (edge >>> cfg.CHUNKBITS = 0 ∨ cfg.mpisize ≤ edge >>> cfg.CHUNKBITS) := by
      rw [shr_eq] at hloc ⊢; omega
    rw [if_neg hne]
    obtain ⟨Wb, hWb, hrelb⟩ :=
      add_read_enter_ok cfg Wa F (edge >>> cfg.CHUNKBITS) edge rn len hrela hlen
    simp only [hWb]
    exact add_read_local_sim cfg hsz tail s htail Wb F edge rn len hrelb hb he1 he2

theorem add_read_body_rejects (cfg : Config)
    (tail : World → Nat → Nat → Nat → Nat → Except Fault (World × Nat)) (s : List Char) :
    RejectsLeaf (add_read_body cfg tail s) := by
  intro W p edge rn len h63 hlen
  have h : ¬ edge < 2 ^ 63 := by omega
  exact ⟨.noSuchRank, by simp only [add_read_body, add_read_enter, hlen, if_false, signed_rank, h]⟩

theorem add_read_rejects (cfg : Config) (s : List Char) : RejectsLeaf (add_read cfg s) := by
  intro W p edge rn len h63 hlen
  cases s with
  | nil => rw [add_read]; exact add_read_body_rejects cfg _ _ W p edge rn len h63 hlen
  | cons ch s1 => rw [add_read]; exact add_read_body_rejects cfg _ _ W p edge rn len h63 hlen

/-- `add_read` on the cluster and the flat insertion succeed together, with matching
results, or stop together. -/
theorem add_read_sim (cfg : Config) (hsz : cfg.mpisize * 2 ^ cfg.CHUNKBITS ≤ 2 ^ 63)
    (s : List Char) : Simulates cfg (add_read cfg s) s := by
  induction s with
  | nil =>
    intro W F p edge rn len hrel hb he1 he2 hp hlen
    rw [add_read]
    exact add_read_body_sim cfg hsz _ [] (fun ch s1 h => by simp at h) W F p edge rn len
      hrel hb he1 he2 hp hlen
  | cons ch s1 ih =>
    intro W F p edge rn len hrel hb he1 he2 hp hlen
    rw [add_read]
    refine add_read_body_sim cfg hsz _ (ch :: s1) ?_ W F p edge rn len hrel hb he1 he2 hp hlen
    intro ch1 s2 h
    simp only [List.cons.injEq] at h
    rw [← h.2]
    exact ⟨ih, add_read_rejects cfg s1⟩


theorem frame_refl (F : Flat) : Frame F F := fun _ _ _ _ _ => rfl

theorem frame_trans {F F1 F2 : Flat} (h1 : Frame F F1) (h2 : Frame F1 F2)
    (hl : F.last ≤ F1.last) : Frame F F2 := by
  intro i c hi1 hi2 hne
  have a := h1 i c hi1 hi2 hne
  rw [← a]
  apply h2 i c hi1 (by omega)
  rw [a]; exact hne

theorem terminal_ne_zero (w : Nat) (h : w &&& ENDS_WORD ≠ 0) : w ≠ 0 := by
  intro h0; rw [h0] at h; simp at h

theorem child_of_bounded {F : Flat} (hb : Bounded F) {i : Nat} {c : Fin 5} (h1 : 1 ≤ i)
    (h2 : i ≤ F.last) (hne : (F.mem i).edge c ≠ 0) (hnt : (F.mem i).edge c &&& ENDS_WORD = 0) :
    i < (F.mem i).edge c ∧ (F.mem i).edge c ≤ F.last := by
  rcases hb i h1 h2 c with h | h | h
  · exact absurd h hne
  · exact absurd hnt h
  · exact h

/-- A path of `F` is a path of every later trie. -/
theorem spells_frame {F F1 : Flat} (hb : Bounded F) (hf : Frame F F1) :
    ∀ (cs : List (Fin 5)) (e : Nat) (path : List Nat) (w : Nat), 1 ≤ e → e ≤ F.last →
      spells F.mem e cs path w → spells F1.mem e cs path w := by
  intro cs
  induction cs with
  | nil => intro e path w _ _ h; simp [spells] at h
  | cons c cs ih =>
    intro e path w he1 he2 h
    cases cs with
    | nil =>
      cases path with
      | nil => simp [spells] at h
      | cons e1 p =>
        cases p with
        | nil =>
          simp only [spells] at h ⊢
          obtain ⟨h1, h2, h3⟩ := h
          refine ⟨h1, ?_, h3⟩
          rw [hf e c he1 he2 (by rw [h2]; exact terminal_ne_zero w h3)]
          exact h2
        | cons e2 p2 => simp [spells] at h
    | cons c2 cs2 =>
      cases path with
      | nil => simp [spells] at h
      | cons e1 p =>
        simp only [spells] at h ⊢
        obtain ⟨h1, h2, h3, h4⟩ := h
        have hc := child_of_bounded hb he1 he2 h2 h3
        have heq := hf e c he1 he2 h2
        rw [heq]
        exact ⟨h1, h2, h3, ih _ _ _ (by omega) hc.2 h4⟩

theorem reach_frame {F F1 : Flat} (hb : Bounded F) (hf : Frame F F1) :
    ∀ (cs : List (Fin 5)) (e e1 : Nat), 1 ≤ e → e ≤ F.last →
      reach F.mem e cs e1 → reach F1.mem e cs e1 := by
  intro cs
  induction cs with
  | nil => intro e e1 _ _ h; exact h
  | cons c cs ih =>
    intro e e1 he1 he2 h
    simp only [reach] at h ⊢
    obtain ⟨h2, h3, h4⟩ := h
    have hc := child_of_bounded hb he1 he2 h2 h3
    rw [hf e c he1 he2 h2]
    exact ⟨h2, h3, ih _ _ (by omega) hc.2 h4⟩

theorem reach_snoc (mem : Nat → CELL) :
    ∀ (cs : List (Fin 5)) (e e1 : Nat) (c : Fin 5), reach mem e cs e1 →
      (mem e1).edge c ≠ 0 → (mem e1).edge c &&& ENDS_WORD = 0 →
      reach mem e (cs ++ [c]) ((mem e1).edge c) := by
  intro cs
  induction cs with
  | nil =>
    intro e e1 c h h1 h2
    simp only [reach] at h
    subst h
    simp [reach, h1, h2]
  | cons c0 cs ih =>
    intro e e1 c h h1 h2
    simp only [reach, List.cons_append] at h ⊢
    exact ⟨h.1, h.2.1, ih _ _ _ h.2.2 h1 h2⟩

/-- A path to a leaf that extends a path to a cell. -/
theorem spells_of_reach (mem : Nat → CELL) :
    ∀ (pre : List (Fin 5)) (e e1 : Nat) (c : Fin 5), reach mem e pre e1 →
      (mem e1).edge c &&& ENDS_WORD ≠ 0 →
      ∃ path, spells mem e (pre ++ [c]) path ((mem e1).edge c) := by
  intro pre
  induction pre with
  | nil =>
    intro e e1 c h ht
    simp only [reach] at h
    subst h
    exact ⟨[e1], by simp [spells, ht]⟩
  | cons c0 cs ih =>
    intro e e1 c h ht
    simp only [reach] at h
    obtain ⟨path, hp⟩ := ih _ _ c h.2.2 ht
    refine ⟨e :: path, ?_⟩
    cases hcs : cs ++ [c] with
    | nil => simp at hcs
    | cons c2 cs2 =>
      rw [hcs] at hp
      simp only [List.cons_append, hcs, spells]
      exact ⟨trivial, h.1, h.2.1, hp⟩

/-- The last edge of a path to a leaf is the edge read after the cells before it. -/
theorem spells_last (mem : Nat → CELL) :
    ∀ (pre : List (Fin 5)) (e e1 : Nat) (c : Fin 5) (path : List Nat) (w : Nat),
      reach mem e pre e1 → spells mem e (pre ++ [c]) path w → (mem e1).edge c = w := by
  intro pre
  induction pre with
  | nil =>
    intro e e1 c path w h hs
    simp only [reach] at h
    subst h
    cases path with
    | nil => simp [spells] at hs
    | cons a p =>
      cases p with
      | nil => simp only [List.nil_append, spells] at hs; exact hs.2.1
      | cons b p2 => simp [spells] at hs
  | cons c0 cs ih =>
    intro e e1 c path w h hs
    simp only [reach] at h
    cases hcs : cs ++ [c] with
    | nil => simp at hcs
    | cons c2 cs2 =>
      cases path with
      | nil => simp [spells, hcs] at hs
      | cons a p =>
        simp only [List.cons_append, hcs, spells] at hs
        rw [← hcs] at hs
        exact ih _ _ c p w h.2.2 hs.2.2.2

/-- The word at the end of a path to a leaf has its terminator bit set. -/
theorem spells_terminal (mem : Nat → CELL) :
    ∀ (cs : List (Fin 5)) (e : Nat) (path : List Nat) (w : Nat),
      spells mem e cs path w → w &&& ENDS_WORD ≠ 0 := by
  intro cs
  induction cs with
  | nil => intro e path w h; simp [spells] at h
  | cons c cs ih =>
    intro e path w h
    cases cs with
    | nil =>
      cases path with
      | nil => simp [spells] at h
      | cons a p =>
        cases p with
        | nil => simp only [spells] at h; exact h.2.2
        | cons _ _ => simp [spells] at h
    | cons c2 cs2 =>
      cases path with
      | nil => simp [spells] at h
      | cons a p =>
        simp only [spells] at h
        exact ih _ p w h.2.2.2

/-- At most one path spells a given string from a given cell. -/
theorem spells_unique (mem : Nat → CELL) :
    ∀ (cs : List (Fin 5)) (e : Nat) (p1 p2 : List Nat) (w1 w2 : Nat),
      spells mem e cs p1 w1 → spells mem e cs p2 w2 → p1 = p2 ∧ w1 = w2 := by
  intro cs
  induction cs with
  | nil => intro e p1 p2 w1 w2 h; simp [spells] at h
  | cons c cs ih =>
    intro e p1 p2 w1 w2 h1 h2
    cases cs with
    | nil =>
      cases p1 with
      | nil => simp [spells] at h1
      | cons a1 q1 =>
        cases q1 with
        | cons _ _ => simp [spells] at h1
        | nil =>
          cases p2 with
          | nil => simp [spells] at h2
          | cons a2 q2 =>
            cases q2 with
            | cons _ _ => simp [spells] at h2
            | nil =>
              simp only [spells] at h1 h2
              refine ⟨?_, ?_⟩
              · rw [h1.1, h2.1]
              · rw [← h1.2.1, ← h2.2.1]
    | cons c2 cs2 =>
      cases p1 with
      | nil => simp [spells] at h1
      | cons a1 q1 =>
        cases p2 with
        | nil => simp [spells] at h2
        | cons a2 q2 =>
          simp only [spells] at h1 h2
          obtain ⟨hq, hw⟩ := ih _ q1 q2 w1 w2 h1.2.2.2 h2.2.2.2
          exact ⟨by rw [h1.1, h2.1, hq], hw⟩


/-- An inner edge on a path to a leaf is a child edge. -/
theorem spells_mid (mem : Nat → CELL) :
    ∀ (pre : List (Fin 5)) (e e1 : Nat) (c c2 : Fin 5) (cs : List (Fin 5)) (path : List Nat)
      (w : Nat), reach mem e pre e1 → spells mem e (pre ++ c :: c2 :: cs) path w →
      (mem e1).edge c ≠ 0 := by
  intro pre
  induction pre with
  | nil =>
    intro e e1 c c2 cs path w h hs
    simp only [reach] at h
    subst h
    cases path with
    | nil => simp [spells] at hs
    | cons a p => simp only [List.nil_append, spells] at hs; exact hs.2.1
  | cons c0 pre ih =>
    intro e e1 c c2 cs path w h hs
    simp only [reach] at h
    cases hcs : pre ++ c :: c2 :: cs with
    | nil => simp at hcs
    | cons x xs =>
      cases path with
      | nil => simp [spells, hcs] at hs
      | cons a p =>
        simp only [List.cons_append, hcs, spells] at hs
        rw [← hcs] at hs
        exact ih _ _ c c2 cs p w h.2.2 hs.2.2.2

theorem first_index_append_of_mem {α : Type} [DecidableEq α] (x : α) (l1 l2 : List α)
    (h : x ∈ l1) : first_index x (l1 ++ l2) = first_index x l1 := by
  induction l1 with
  | nil => simp at h
  | cons y ys ih =>
    show first_index x (y :: (ys ++ l2)) = first_index x (y :: ys)
    by_cases hy : y = x
    · simp [first_index, hy]
    · have : x ∈ ys := by
        rcases List.mem_cons.mp h with h1 | h1
        · exact absurd h1.symm hy
        · exact h1
      simp only [first_index, hy, if_false, ih this]

theorem first_index_append_of_not_mem {α : Type} [DecidableEq α] (x : α) (l1 l2 : List α)
    (h : x ∉ l1) : first_index x (l1 ++ l2) = l1.length + first_index x l2 := by
  induction l1 with
  | nil => simp
  | cons y ys ih =>
    show first_index x (y :: (ys ++ l2)) = (y :: ys).length + first_index x l2
    have hy : ¬ y = x := fun e => h (by simp [e])
    have hys : x ∉ ys := fun e => h (List.mem_cons_of_mem _ e)
    simp only [first_index, hy, if_false, ih hys, List.length_cons]
    omega

theorem first_index_le {α : Type} [DecidableEq α] (x : α) (l : List α) :
    first_index x l ≤ l.length := by
  induction l with
  | nil => simp [first_index]
  | cons y ys ih =>
    simp only [first_index, List.length_cons]
    split <;> omega

theorem first_index_lt_of_mem {α : Type} [DecidableEq α] (x : α) (l : List α) (h : x ∈ l) :
    first_index x l < l.length := by
  induction l with
  | nil => simp at h
  | cons y ys ih =>
    simp only [first_index, List.length_cons]
    by_cases hy : y = x
    · simp [hy]
    · simp only [hy, if_false]
      have : x ∈ ys := by
        rcases List.mem_cons.mp h with h1 | h1
        · exact absurd h1.symm hy
        · exact h1
      have := ih this
      omega

theorem clean_tail {ch : Char} {s : List Char} (h : Clean (ch :: s)) : Clean s :=
  fun c hc => h c (List.mem_cons_of_mem _ hc)

theorem clean_head_not_end {ch : Char} {s : List Char} (h : Clean (ch :: s)) :
    at_end (ch :: s) = false := by
  have := h ch (List.mem_cons_self _ _)
  simpa [at_end] using this

theorem at_end_nil : at_end [] = true := rfl

/-- A duplicate changes nothing in the trie. -/
theorem trieInv_extend_dup {L : Nat} {ids : List (List (Fin 5))} {F : Flat}
    {str : Nat → List (Fin 5)} (inv : TrieInv L ids F str) (full : List (Fin 5))
    (hmem : full ∈ ids) : TrieInv L (ids ++ [full]) F str := by
  constructor
  · exact inv.root_le
  · exact inv.bounded
  · exact inv.str_root
  · exact inv.str_len
  · exact inv.str_child
  · exact inv.inner
  · exact inv.bottom
  · intro i c h1 h2 ht
    obtain ⟨a, b⟩ := inv.leaf i c h1 h2 ht
    refine ⟨?_, List.mem_append_left _ b⟩
    rw [first_index_append_of_mem _ _ _ b]; exact a
  · intro x hx
    rcases List.mem_append.mp hx with h | h
    · exact inv.present x h
    · simp only [List.mem_singleton] at h
      subst h
      exact inv.present x hmem

theorem frame_write_zero (F : Flat) (edge : Nat) (c : Fin 5) (v : Nat)
    (hz : (F.mem edge).edge c = 0) : Frame F { F with mem := Flat.write F.mem edge c v } := by
  intro i c1 _ _ hne
  simp only [Flat.write]
  by_cases hie : i = edge
  · subst hie
    simp only [if_true, cell_edge_setEdge]
    by_cases hc : c1 = c
    · subst hc; exact absurd hz hne
    · simp [hc]
  · simp [hie]

theorem frame_alloc (F : Flat) (edge : Nat) (c : Fin 5) (hz : (F.mem edge).edge c = 0) :
    Frame F ⟨Flat.write (fun i => if i = F.last + 1 then empty else F.mem i) edge c
      (F.last + 1), F.last + 1⟩ := by
  intro i c1 _ hi2 hne
  have hn : ¬ i = F.last + 1 := by omega
  simp only [Flat.write]
  by_cases hie : i = edge
  · subst hie
    simp only [if_true, hn, if_false, cell_edge_setEdge]
    by_cases hc : c1 = c
    · subst hc; exact absurd hz hne
    · simp [hc]
  · simp [hie, hn]

/-- Writing the leaf of a read that is not yet stored. -/
theorem trieInv_write_leaf {L : Nat} {ids : List (List (Fin 5))} {F : Flat}
    {str : Nat → List (Fin 5)} (inv : TrieInv L ids F str) (edge : Nat) (c : Fin 5)
    (he1 : 1 ≤ edge) (he2 : edge ≤ F.last) (hlen : (str edge).length + 1 = L)
    (hz : (F.mem edge).edge c = 0) (hreach : reach F.mem ROOT_CELL (str edge) edge)
    (hnew : str edge ++ [c] ∉ ids) :
    TrieInv L (ids ++ [str edge ++ [c]])
      { F with mem := Flat.write F.mem edge c (ENDS_WORD ||| ids.length) } str := by
  have hfr := frame_write_zero F edge c (ENDS_WORD ||| ids.length) hz
  have hval : ∀ i c1, ((Flat.write F.mem edge c (ENDS_WORD ||| ids.length)) i).edge c1 =
      if i = edge ∧ c1 = c then ENDS_WORD ||| ids.length else (F.mem i).edge c1 := by
    intro i c1
    simp only [Flat.write]
    by_cases hie : i = edge
    · subst hie
      simp only [if_true, cell_edge_setEdge, true_and]
    · simp [hie]
  constructor
  · exact inv.root_le
  · exact bounded_write_leaf F edge c _ inv.bounded (leaf_word_terminal _)
  · exact inv.str_root
  · exact inv.str_len
  · intro i c1 h1 h2 hne hnt
    simp only [hval] at hne hnt ⊢
    by_cases hic : i = edge ∧ c1 = c
    · rw [if_pos hic] at hnt; exact absurd hnt (leaf_word_terminal _)
    · rw [if_neg hic] at hne hnt ⊢; exact inv.str_child i c1 h1 h2 hne hnt
  · intro i c1 h1 h2 hl
    simp only [hval]
    by_cases hic : i = edge ∧ c1 = c
    · rw [hic.1] at hl; omega
    · rw [if_neg hic]; exact inv.inner i c1 h1 h2 hl
  · intro i c1 h1 h2 hl hne
    simp only [hval] at hne ⊢
    by_cases hic : i = edge ∧ c1 = c
    · rw [if_pos hic]; exact leaf_word_terminal _
    · rw [if_neg hic] at hne ⊢; exact inv.bottom i c1 h1 h2 hl hne
  · intro i c1 h1 h2 ht
    simp only [hval] at ht ⊢
    by_cases hic : i = edge ∧ c1 = c
    · rw [if_pos hic, hic.1, hic.2]
      refine ⟨?_, List.mem_append_right _ (List.mem_singleton_self _)⟩
      rw [first_index_append_of_not_mem _ _ _ hnew]
      simp [first_index]
    · rw [if_neg hic] at ht ⊢
      obtain ⟨a, b⟩ := inv.leaf i c1 h1 h2 ht
      refine ⟨?_, List.mem_append_left _ b⟩
      rw [first_index_append_of_mem _ _ _ b]; exact a
  · intro x hx
    rcases List.mem_append.mp hx with h | h
    · obtain ⟨path, w, hp⟩ := inv.present x h
      exact ⟨path, w, spells_frame inv.bounded hfr x _ path w (le_refl _) inv.root_le hp⟩
    · simp only [List.mem_singleton] at h
      subst h
      have hr := reach_frame inv.bounded hfr (str edge) ROOT_CELL edge (le_refl _) inv.root_le
        hreach
      have ht : ((Flat.write F.mem edge c (ENDS_WORD ||| ids.length)) edge).edge c &&& ENDS_WORD
          ≠ 0 := by
        rw [hval]; simp only [and_self, if_true]; exact leaf_word_terminal _
      obtain ⟨path, hp⟩ := spells_of_reach _ (str edge) ROOT_CELL edge c hr ht
      exact ⟨path, _, hp⟩

/-- Allocating the cell below an empty inner edge. -/
theorem trieInv_alloc {L : Nat} {ids : List (List (Fin 5))} {F : Flat}
    {str : Nat → List (Fin 5)} (inv : TrieInv L ids F str) (edge : Nat) (c : Fin 5)
    (he1 : 1 ≤ edge) (he2 : edge ≤ F.last) (hlen : (str edge).length + 2 ≤ L)
    (hz : (F.mem edge).edge c = 0) (h63 : F.last + 1 < 2 ^ 63) :
    TrieInv L ids
      ⟨Flat.write (fun i => if i = F.last + 1 then empty else F.mem i) edge c (F.last + 1),
        F.last + 1⟩
      (fun i => if i = F.last + 1 then str edge ++ [c] else str i) := by
  have hfr := frame_alloc F edge c hz
  have hen : ¬ edge = F.last + 1 := by omega
  have hval : ∀ i c1,
      ((Flat.write (fun i => if i = F.last + 1 then empty else F.mem i) edge c (F.last + 1))
        i).edge c1 =
      if i = edge ∧ c1 = c then F.last + 1 else if i = F.last + 1 then 0
      else (F.mem i).edge c1 := by
    intro i c1
    simp only [Flat.write]
    by_cases hie : i = edge
    · subst hie
      simp only [if_true, hen, if_false, cell_edge_setEdge, true_and]
    · by_cases hn : i = F.last + 1
      · subst hn
        have hie' : ¬ (F.last + 1 = edge ∧ c1 = c) := fun h => hie h.1
        rw [if_neg hie, if_neg hie']
        simp [empty_edge]
      · simp [hie, hn]
  have hnt : (F.last + 1) &&& ENDS_WORD = 0 := by
    by_contra h; exact not_terminal_of_lt _ h63 h
  constructor
  · show 1 ≤ F.last + 1; omega
  · exact bounded_alloc F edge c inv.bounded he1 he2
  · have : ¬ ROOT_CELL = F.last + 1 := by have := inv.root_le; simp [ROOT_CELL]; omega
    simp only [this, if_false]; exact inv.str_root
  · intro i h1 h2
    have h2' : i ≤ F.last + 1 := h2
    by_cases hn : i = F.last + 1
    · simp only [hn, if_true, List.length_append, List.length_singleton]; omega
    · simp only [hn, if_false]; exact inv.str_len i h1 (by omega)
  · intro i c1 h1 h2 hne hnt1
    have h2' : i ≤ F.last + 1 := h2
    simp only [hval] at hne hnt1 ⊢
    by_cases hic : i = edge ∧ c1 = c
    · rw [if_pos hic, hic.1, hic.2]; simp [hen]
    · rw [if_neg hic] at hne hnt1 ⊢
      by_cases hn : i = F.last + 1
      · rw [if_pos hn] at hne; exact absurd rfl hne
      · rw [if_neg hn] at hne hnt1 ⊢
        have hi : i ≤ F.last := by omega
        have hc := child_of_bounded inv.bounded h1 hi hne hnt1
        have hcn : ¬ (F.mem i).edge c1 = F.last + 1 := by omega
        simp only [hcn, hn, if_false]
        exact inv.str_child i c1 h1 hi hne hnt1
  · intro i c1 h1 h2 hl
    have h2' : i ≤ F.last + 1 := h2
    simp only [hval]
    by_cases hic : i = edge ∧ c1 = c
    · rw [if_pos hic]; exact hnt
    · rw [if_neg hic]
      by_cases hn : i = F.last + 1
      · rw [if_pos hn]; simp
      · rw [if_neg hn]
        simp only [hn, if_false] at hl
        exact inv.inner i c1 h1 (by omega) hl
  · intro i c1 h1 h2 hl hne
    have h2' : i ≤ F.last + 1 := h2
    simp only [hval] at hne ⊢
    by_cases hic : i = edge ∧ c1 = c
    · rw [hic.1] at hl; simp only [hen, if_false] at hl; omega
    · rw [if_neg hic] at hne ⊢
      by_cases hn : i = F.last + 1
      · rw [if_pos hn] at hne; exact absurd rfl hne
      · rw [if_neg hn] at hne ⊢
        simp only [hn, if_false] at hl
        exact inv.bottom i c1 h1 (by omega) hl hne
  · intro i c1 h1 h2 ht
    have h2' : i ≤ F.last + 1 := h2
    simp only [hval] at ht ⊢
    by_cases hic : i = edge ∧ c1 = c
    · rw [if_pos hic] at ht; exact absurd hnt ht
    · rw [if_neg hic] at ht ⊢
      by_cases hn : i = F.last + 1
      · rw [if_pos hn] at ht; simp at ht
      · rw [if_neg hn] at ht ⊢
        simp only [hn, if_false]
        exact inv.leaf i c1 h1 (by omega) ht
  · intro x hx
    obtain ⟨path, w, hp⟩ := inv.present x hx
    exact ⟨path, w, spells_frame inv.bounded hfr x _ path w (le_refl _) inv.root_le hp⟩


/-- The flat insertion of a clean read of the common length into a well-shaped trie:
it stops only for want of room; otherwise it keeps the shape, allocates at most one
cell per letter but the last, and reports a duplicate exactly when the symbols were
inserted before. -/
theorem flat_add_spec (cap L : Nat) (hcap : cap ≤ 2 ^ 63) (full : List (Fin 5))
    (hfull : full.length = L) (ids : List (List (Fin 5))) (hrn : ids.length < 2 ^ 63) :
    ∀ (s : List Char) (F : Flat) (str : Nat → List (Fin 5)) (edge : Nat),
      TrieInv L ids F str → 1 ≤ edge → edge ≤ F.last →
      reach F.mem ROOT_CELL (str edge) edge → str edge ++ codes s = full → Clean s → s ≠ [] →
      F.last < cap →
      (flat_add cap s F edge ids.length = none ∧ cap < F.last + s.length) ∨
      ∃ F1 d str1, flat_add cap s F edge ids.length = some (F1, d) ∧
        TrieInv L (ids ++ [full]) F1 str1 ∧ F.last ≤ F1.last ∧
        F1.last + 1 ≤ F.last + s.length ∧ F1.last < cap ∧ Frame F F1 ∧
        (full ∈ ids → F1 = F ∧ d = some (first_index full ids)) ∧ (full ∉ ids → d = none) := by
  intro s
  induction s with
  | nil => intro F str edge _ _ _ _ _ _ h; exact absurd rfl h
  | cons ch s1 ih =>
    intro F str edge inv he1 he2 hreach hsplit hclean _ hroom
    have hhead := clean_head_not_end hclean
    have hlenfull : (str edge).length + (s1.length + 1) = L := by
      rw [← hfull, ← hsplit]; simp [codes]
    rw [flat_add]
    simp only [hhead, Bool.false_eq_true, if_false]
    cases s1 with
    | nil =>
      -- the last letter
      have hsplit' : str edge ++ [code ch] = full := by simpa [codes] using hsplit
      simp only [at_end_nil, if_true]
      by_cases hterm : (F.mem edge).edge (code ch) &&& ENDS_WORD ≠ 0
      · rw [if_pos hterm]
        obtain ⟨hval, hmem⟩ := inv.leaf edge (code ch) he1 he2 hterm
        rw [hsplit'] at hval hmem
        right
        refine ⟨F, _, str, rfl, trieInv_extend_dup inv full hmem, le_refl _, by simp, hroom,
          frame_refl F, ?_, fun h => absurd hmem h⟩
        intro _
        refine ⟨rfl, ?_⟩
        rw [hval, leaf_word_payload]
        have := first_index_le full ids
        omega
      · rw [if_neg hterm]
        have hz : (F.mem edge).edge (code ch) = 0 := by
          by_contra hne
          exact hterm (inv.bottom edge (code ch) he1 he2 (by simpa using hlenfull) hne)
        have hz2 : ¬ ((F.mem edge).edge (code ch) &&& EDGE_MASK ≠ 0) := by
          rw [hz]; simp
        rw [if_neg hz2]
        have hnew : full ∉ ids := by
          intro hmem
          obtain ⟨path, w, hp⟩ := inv.present full hmem
          rw [← hsplit'] at hp
          have hw := spells_last F.mem (str edge) ROOT_CELL edge (code ch) path w hreach hp
          rw [hz] at hw
          have ht : w &&& ENDS_WORD ≠ 0 := spells_terminal F.mem _ _ _ _ hp
          rw [← hw] at ht; simp at ht
        have inv1 := trieInv_write_leaf inv edge (code ch) he1 he2 (by simpa using hlenfull) hz hreach
          (by rw [hsplit']; exact hnew)
        rw [hsplit'] at inv1
        right
        refine ⟨_, none, str, rfl, inv1, le_refl _, by simp, hroom,
          frame_write_zero F edge (code ch) _ hz, fun h => absurd h hnew, fun _ => rfl⟩
    | cons c2 s2 =>
      -- an inner letter
      have hclean1 : Clean (c2 :: s2) := clean_tail hclean
      have hend1 := clean_head_not_end hclean1
      simp only [hend1, Bool.false_eq_true, if_false]
      have hsplit1 : (str edge ++ [code ch]) ++ codes (c2 :: s2) = full := by
        rw [← hsplit]; simp [codes]
      have hlen2 : (str edge).length + 2 ≤ L := by
        simp only [List.length_cons] at hlenfull; omega
      by_cases hz : (F.mem edge).edge (code ch) = 0
      · rw [if_pos hz]
        by_cases hcapc : cap ≤ F.last + 1
        · left
          rw [if_pos hcapc]
          exact ⟨rfl, by simp only [List.length_cons]; omega⟩
        rw [if_neg hcapc]
        have h63 : F.last + 1 < 2 ^ 63 := by omega
        have inv1 := trieInv_alloc inv edge (code ch) he1 he2 hlen2 hz h63
        have hfr := frame_alloc F edge (code ch) hz
        have hen : ¬ edge = F.last + 1 := by omega
        have hnewval : ((Flat.write (fun i => if i = F.last + 1 then empty else F.mem i) edge
            (code ch) (F.last + 1)) edge).edge (code ch) = F.last + 1 := by
          simp [Flat.write, cell_edge_setEdge]
        have hnt : (F.last + 1) &&& ENDS_WORD = 0 := by
          by_contra h; exact not_terminal_of_lt _ h63 h
        have hr1 := reach_frame inv.bounded hfr (str edge) ROOT_CELL edge (le_refl _)
          inv.root_le hreach
        have hr2 := reach_snoc _ (str edge) ROOT_CELL edge (code ch) hr1
          (by rw [hnewval]; omega) (by rw [hnewval]; exact hnt)
        rw [hnewval] at hr2
        rcases ih _ (fun i => if i = F.last + 1 then str edge ++ [code ch] else str i)
            (F.last + 1) inv1 (by omega) (le_refl _) (by simpa using hr2)
            (by simpa using hsplit1) hclean1 (by simp) (by show F.last + 1 < cap; omega) with
          ⟨hnone, hlt⟩ | ⟨F1, d, str1, hrun, inv2, hl1, hl2, hlt, hfr2, hdup, hnodup⟩
        · left
          refine ⟨hnone, ?_⟩
          have : cap < F.last + 1 + (c2 :: s2).length := hlt
          simp only [List.length_cons] at this ⊢
          omega
        right
        refine ⟨F1, d, str1, hrun, inv2, ?_, ?_, hlt, frame_trans hfr hfr2 (by simp), ?_, hnodup⟩
        · have : F.last + 1 ≤ F1.last := hl1
          omega
        · have : F1.last + 1 ≤ F.last + 1 + (c2 :: s2).length := hl2
          simp only [List.length_cons] at this ⊢
          omega
        · intro hmem
          obtain ⟨path, w, hp⟩ := inv.present full hmem
          have hsp : full = str edge ++ code ch :: code c2 :: codes s2 := by
            rw [← hsplit]; simp [codes]
          rw [hsp] at hp
          exact absurd hz (spells_mid F.mem (str edge) ROOT_CELL edge _ _ _ path w hreach hp)
      · rw [if_neg hz]
        have hnt := inv.inner edge (code ch) he1 he2 (by omega)
        have hc := child_of_bounded inv.bounded he1 he2 hz hnt
        have h63 : ¬ 2 ^ 63 ≤ (F.mem edge).edge (code ch) := by omega
        rw [if_neg h63]
        have hstr := inv.str_child edge (code ch) he1 he2 hz hnt
        have hr2 := reach_snoc _ (str edge) ROOT_CELL edge (code ch) hreach hz hnt
        rcases ih F str _ inv (by omega) hc.2 (by rw [hstr]; exact hr2)
            (by rw [hstr]; exact hsplit1) hclean1 (by simp) hroom with
          ⟨hnone, hlt⟩ | ⟨F1, d, str1, hrun, inv2, hl1, hl2, hlt, hfr2, hdup, hnodup⟩
        · left
          refine ⟨hnone, ?_⟩
          simp only [List.length_cons] at hlt ⊢
          omega
        right
        refine ⟨F1, d, str1, hrun, inv2, hl1, ?_, hlt, hfr2, hdup, hnodup⟩
        simp only [List.length_cons] at hl2 ⊢
        omega


theorem trieInv_initial (L : Nat) (hL : 1 ≤ L) : TrieInv L [] Flat.initial (fun _ => []) := by
  constructor
  · exact le_refl _
  · intro i _ _ c; left; exact empty_edge c
  · rfl
  · intro i _ _; simpa using hL
  · intro i c _ _ hne; exact absurd (empty_edge c) hne
  · intro i c _ _ _; show empty.edge c &&& ENDS_WORD = 0; rw [empty_edge]; simp
  · intro i c _ _ _ hne; exact absurd (empty_edge c) hne
  · intro i c _ _ ht; exfalso; apply ht; show empty.edge c &&& ENDS_WORD = 0; rw [empty_edge]; simp
  · intro x hx; simp at hx

theorem rel_initial (cfg : Config) (hk : 1 ≤ cfg.CHUNKBITS)
    (hroom : 1 < cfg.mpisize * 2 ^ cfg.CHUNKBITS) : Rel cfg (initial_world cfg) Flat.initial := by
  have hS : 2 ≤ 2 ^ cfg.CHUNKBITS := by
    calc 2 = 2 ^ 1 := by norm_num
      _ ≤ 2 ^ cfg.CHUNKBITS := Nat.pow_le_pow_right (by norm_num) hk
  refine ⟨?_, rfl⟩
  constructor
  · exact le_refl _
  · exact hroom
  · intro r hr
    show (initial_peer cfg r).last_used_edge = _
    simp only [initial_peer, Flat.initial, ROOT_CELL, chunksize_eq]
    have hq : (1 + 1) / 2 ^ cfg.CHUNKBITS ≤ 1 := by
      calc (1 + 1) / 2 ^ cfg.CHUNKBITS ≤ (1 + 1) / 2 := Nat.div_le_div_left hS (by norm_num)
        _ = 1 := by norm_num
    rcases Nat.eq_zero_or_pos ((1 + 1) / 2 ^ cfg.CHUNKBITS) with h0 | h1
    · rw [h0]
      by_cases hr0 : r = 0
      · simp [hr0]
      · have : ¬ r < 0 := by omega
        simp [hr0]
    · have hq1 : (1 + 1) / 2 ^ cfg.CHUNKBITS = 1 := by omega
      have hS2 : 2 ^ cfg.CHUNKBITS = 2 := by
        have := (Nat.le_div_iff_mul_le (Nat.two_pow_pos cfg.CHUNKBITS)).mp (le_of_eq hq1.symm)
        omega
      rw [hq1, hS2]
      by_cases hr0 : r = 0
      · simp [hr0]
      · by_cases hr1 : r = 1
        · simp [hr1]
        · have : ¬ r < 1 := by omega
          simp [hr0, hr1, this]
  · intro r _ hi
    simp [initial_world, initial_peer] at hi
  · simp [initial_world, Flat.initial, ROOT_CELL]

/-- The ingestion loop on clean reads of one length stops only for want of room (and
then the worst-case need of `L - 1` cells per read exceeds the capacity); otherwise the
cluster reads as a well-shaped trie of the reads. -/
theorem ingest_sim (cfg : Config) (hsz : cfg.mpisize * 2 ^ cfg.CHUNKBITS ≤ 2 ^ 63) (L : Nat)
    (hL : 1 ≤ L) :
    ∀ (reads : List (List Char)) (W : World) (F : Flat) (str : Nat → List (Fin 5))
      (ids : List (List (Fin 5))),
      Rel cfg W F → TrieInv L ids F str → (∀ r ∈ reads, r.length = L) →
      (∀ r ∈ reads, Clean r) → ids.length + reads.length ≤ 2 ^ 63 →
      ((∃ e, ingest cfg reads W ids.length = .error e) ∧
        cfg.mpisize * 2 ^ cfg.CHUNKBITS < F.last + reads.length * (L - 1) + 1) ∨
      ∃ W1 F1 str1, ingest cfg reads W ids.length = .ok (W1, ids.length + reads.length) ∧
        Rel cfg W1 F1 ∧ TrieInv L (ids ++ reads.map codes) F1 str1 ∧
        F1.last ≤ F.last + reads.length * (L - 1) ∧ F.last ≤ F1.last ∧ Frame F F1 := by
  intro reads
  induction reads with
  | nil =>
    intro W F str ids hrel inv _ _ _
    right
    exact ⟨W, F, str, rfl, hrel, by simpa using inv, by simp, le_refl _, frame_refl F⟩
  | cons r more ih =>
    intro W F str ids hrel inv hlen hclean hids
    have hrl : r.length = L := hlen r (List.mem_cons_self _ _)
    have hrc : Clean r := hclean r (List.mem_cons_self _ _)
    have hne : r ≠ [] := by
      intro h; rw [h] at hrl; simp at hrl; omega
    simp only [List.length_cons] at hids
    have hmul : (more.length + 1) * (L - 1) = more.length * (L - 1) + (L - 1) := by ring
    have hmask : ids.length ≤ EDGE_MASK := by rw [edge_mask_eq]; omega
    have hsim := add_read_sim cfg hsz r W F 0 ROOT_CELL ids.length 0 hrel
      inv.bounded (le_refl _) inv.root_le (Nat.zero_le _) (fun _ => ⟨rfl, hmask⟩)
    rcases flat_add_spec (cfg.mpisize * 2 ^ cfg.CHUNKBITS) L hsz (codes r)
        (by simp [codes, hrl]) ids (by omega) r F str ROOT_CELL
        inv (le_refl _) inv.root_le (by rw [inv.str_root]; rfl) (by rw [inv.str_root]; rfl) hrc hne
        hrel.1.lt_max with
      ⟨hnone, hlt⟩ | ⟨F1, d, str1, hrun, inv1, hl1, hl2, hlt, hfr, _, _⟩
    · left
      rw [hnone] at hsim
      obtain ⟨e, he⟩ := hsim
      refine ⟨⟨e, by rw [ingest, he]⟩, ?_⟩
      rw [hrl] at hlt
      simp only [List.length_cons]
      omega
    · rw [hrun] at hsim
      obtain ⟨W1, hW1, hrel1⟩ := hsim
      rw [hrl] at hl2
      rcases ih W1 F1 str1 (ids ++ [codes r]) hrel1 inv1
          (fun x hx => hlen x (List.mem_cons_of_mem _ hx))
          (fun x hx => hclean x (List.mem_cons_of_mem _ hx)) (by simp; omega) with
        ⟨⟨e, he⟩, hlt2⟩ | ⟨W2, F2, str2, hrunW, hrel2, inv2, hl3, hl4, hfr2⟩
      · left
        simp only [List.length_append, List.length_singleton] at he
        refine ⟨⟨e, by rw [ingest, hW1]; simp only; exact he⟩, ?_⟩
        simp only [List.length_cons]
        omega
      · right
        simp only [List.length_append, List.length_singleton] at hrunW
        refine ⟨W2, F2, str2, ?_, hrel2, by simpa using inv2, ?_, by omega, frame_trans hfr hfr2 hl1⟩
        · rw [ingest, hW1]
          simp only
          rw [hrunW]
          simp only [List.length_cons]
          congr 2; omega
        · simp only [List.length_cons]
          omega

/-- Construction from clean reads of one length: either it stops for want of room, or
the final cluster reads as a well-shaped trie of the reads. -/
theorem construct_spec (cfg : Config) (hk : 1 ≤ cfg.CHUNKBITS)
    (hsz : cfg.mpisize * 2 ^ cfg.CHUNKBITS ≤ 2 ^ 63) (hpeer : 1 ≤ cfg.mpisize) (L : Nat)
    (hL : 1 ≤ L) (reads : List (List Char)) (hlen : ∀ r ∈ reads, r.length = L)
    (hclean : ∀ r ∈ reads, Clean r) (hn : reads.length ≤ 2 ^ 63) :
    ((∃ e, construct cfg reads = .error e) ∧
      cfg.mpisize * 2 ^ cfg.CHUNKBITS < 2 + reads.length * (L - 1)) ∨
    ∃ W F str, construct cfg reads = .ok W ∧ Rel cfg W F ∧ TrieInv L (reads.map codes) F str ∧
      F.last ≤ 1 + reads.length * (L - 1) := by
  have hS : 2 ≤ 2 ^ cfg.CHUNKBITS := by
    calc 2 = 2 ^ 1 := by norm_num
      _ ≤ 2 ^ cfg.CHUNKBITS := Nat.pow_le_pow_right (by norm_num) hk
  have hroom : 1 < cfg.mpisize * 2 ^ cfg.CHUNKBITS := by
    calc 1 < 1 * 2 := by norm_num
      _ ≤ cfg.mpisize * 2 ^ cfg.CHUNKBITS := Nat.mul_le_mul hpeer hS
  rcases ingest_sim cfg hsz L hL reads (initial_world cfg) Flat.initial (fun _ => []) []
      (rel_initial cfg hk hroom) (trieInv_initial L hL) hlen hclean (by simpa using hn) with
    ⟨⟨e, he⟩, hlt⟩ | ⟨W1, F1, str1, hrun, hrel1, inv1, hl1, _, _⟩
  · left
    simp only [List.length_nil] at he
    refine ⟨⟨e, by rw [construct, he]⟩, ?_⟩
    have : Flat.initial.last = 1 := rfl
    omega
  · right
    simp only [List.length_nil, List.nil_append] at hrun inv1
    refine ⟨W1, F1, str1, by rw [construct, hrun], hrel1, inv1, ?_⟩
    have : Flat.initial.last = 1 := rfl
    omega


/-- The last edge of a path to a leaf belongs to an allocated cell whose string, extended
by the last letter, is the string of the path. -/
theorem spells_end {L : Nat} {ids : List (List (Fin 5))} {F : Flat} {str : Nat → List (Fin 5)}
    (inv : TrieInv L ids F str) :
    ∀ (cs : List (Fin 5)) (e : Nat) (path : List Nat) (w : Nat), 1 ≤ e → e ≤ F.last →
      spells F.mem e cs path w →
      ∃ i c, 1 ≤ i ∧ i ≤ F.last ∧ (F.mem i).edge c = w ∧ str i ++ [c] = str e ++ cs := by
  intro cs
  induction cs with
  | nil => intro e path w _ _ h; simp [spells] at h
  | cons c cs ih =>
    intro e path w he1 he2 h
    cases cs with
    | nil =>
      cases path with
      | nil => simp [spells] at h
      | cons a p =>
        cases p with
        | nil => simp only [spells] at h; exact ⟨e, c, he1, he2, h.2.1, rfl⟩
        | cons _ _ => simp [spells] at h
    | cons c2 cs2 =>
      cases path with
      | nil => simp [spells] at h
      | cons a p =>
        simp only [spells] at h
        obtain ⟨_, h2, h3, h4⟩ := h
        have hc := child_of_bounded inv.bounded he1 he2 h2 h3
        obtain ⟨i, c1, hi1, hi2, hw, hs⟩ := ih _ p w (by omega) hc.2 h4
        refine ⟨i, c1, hi1, hi2, hw, ?_⟩
        rw [hs, inv.str_child e c he1 he2 h2 h3]
        simp

theorem code_injOn (a b : Char)
    (ha : a = 'A' ∨ a = 'C' ∨ a = 'G' ∨ a = 'T' ∨ a = 'N')
    (hb : b = 'A' ∨ b = 'C' ∨ b = 'G' ∨ b = 'T' ∨ b = 'N') (h : code a = code b) : a = b := by
  rcases ha with ha | ha | ha | ha | ha <;> rcases hb with hb | hb | hb | hb | hb <;>
    subst ha <;> subst hb <;> first | rfl | (exact absurd h (by decide))

theorem codes_injOn : ∀ (x y : List Char), Alphabet x → Alphabet y → codes x = codes y → x = y := by
  intro x
  induction x with
  | nil =>
    intro y _ _ h
    cases y with
    | nil => rfl
    | cons b y => simp [codes] at h
  | cons a x ih =>
    intro y hx hy h
    cases y with
    | nil => simp [codes] at h
    | cons b y =>
      simp only [codes, List.map_cons, List.cons.injEq] at h
      have hab := code_injOn a b (hx a (List.mem_cons_self _ _)) (hy b (List.mem_cons_self _ _)) h.1
      have hxy := ih y (fun c hc => hx c (List.mem_cons_of_mem _ hc))
        (fun c hc => hy c (List.mem_cons_of_mem _ hc)) h.2
      rw [hab, hxy]

theorem first_index_codes (r : List Char) (hr : Alphabet r) :
    ∀ (reads : List (List Char)), (∀ x ∈ reads, Alphabet x) →
      first_index (codes r) (reads.map codes) = first_index r reads := by
  intro reads
  induction reads with
  | nil => intro _; rfl
  | cons y ys ih =>
    intro h
    have hy := h y (List.mem_cons_self _ _)
    simp only [List.map_cons, first_index]
    by_cases e : y = r
    · simp [e]
    · have e2 : ¬ codes y = codes r := fun h2 => e (codes_injOn y r hy hr h2)
      simp only [e, e2, if_false]
      rw [ih (fun x hx => h x (List.mem_cons_of_mem _ hx))]

/-- C1. For reads of one common length `L` (no NUL, newline or carriage return in them),
inserted in input order with identifiers `0, 1, 2, ...` into the empty trie: when the
cluster has room for `L - 1` cells per read construction succeeds, and in every cluster
that construction ends in, each read has exactly one root-to-leaf path that spells its
symbols; the last edge of that path has the terminator bit set and its payload is the
identifier of the first read of the input with these symbols (for reads over
`A`, `C`, `G`, `T`, `N`: the first occurrence of the read itself). -/
theorem construct_unique_leaf_path (cfg : Config) (L : Nat) (reads : List (List Char))
    (hk : 1 ≤ cfg.CHUNKBITS) (hsz : cfg.mpisize * 2 ^ cfg.CHUNKBITS ≤ 2 ^ 63)
    (hpeer : 1 ≤ cfg.mpisize) (hL : 1 ≤ L) (hlen : ∀ r ∈ reads, r.length = L)
    (hclean : ∀ r ∈ reads, Clean r) (hn : reads.length ≤ 2 ^ 63) :
    (2 + reads.length * (L - 1) ≤ cfg.mpisize * 2 ^ cfg.CHUNKBITS →
      ∃ W, construct cfg reads = .ok W) ∧
    ∀ W, construct cfg reads = .ok W → ∀ r ∈ reads,
      ∃ path w, spells (cell_at cfg W) ROOT_CELL (codes r) path w ∧
        (∀ path1 w1, spells (cell_at cfg W) ROOT_CELL (codes r) path1 w1 →
          path1 = path ∧ w1 = w) ∧
        w &&& ENDS_WORD ≠ 0 ∧
        w &&& EDGE_MASK = first_index (codes r) (reads.map codes) ∧
        ((∀ x ∈ reads, Alphabet x) → w &&& EDGE_MASK = first_index r reads) := by
  have hspec := construct_spec cfg hk hsz hpeer L hL reads hlen hclean hn
  constructor
  · intro hroom
    rcases hspec with ⟨_, hlt⟩ | ⟨W, _, _, hW, _⟩
    · omega
    · exact ⟨W, hW⟩
  · intro W hW r hr
    rcases hspec with ⟨⟨e, he⟩, _⟩ | ⟨W1, F, str, hW1, hrel, inv, _⟩
    · rw [he] at hW; exact absurd hW (by simp)
    · rw [hW1] at hW
      simp only [Except.ok.injEq] at hW
      subst hW
      rw [← hrel.2]
      have hmem : codes r ∈ reads.map codes := List.mem_map_of_mem _ hr
      obtain ⟨path, w, hp⟩ := inv.present (codes r) hmem
      obtain ⟨i, c, hi1, hi2, hw, hs⟩ := spells_end inv (codes r) ROOT_CELL path w (le_refl _)
        inv.root_le hp
      rw [inv.str_root, List.nil_append] at hs
      have ht := spells_terminal F.mem _ _ _ _ hp
      have hleaf := (inv.leaf i c hi1 hi2 (by rw [hw]; exact ht)).1
      rw [hw, hs] at hleaf
      have hlt : first_index (codes r) (reads.map codes) < 2 ^ 63 := by
        have := first_index_lt_of_mem _ _ hmem
        simp only [List.length_map] at this
        omega
      have hpay : w &&& EDGE_MASK = first_index (codes r) (reads.map codes) := by
        rw [hleaf]; exact leaf_word_payload _ hlt
      refine ⟨path, w, hp, fun p1 w1 h1 => spells_unique F.mem _ _ _ _ _ _ h1 hp, ht, hpay, ?_⟩
      intro halpha
      rw [hpay]
      exact first_index_codes r (halpha r hr) reads halpha


theorem statsOnly_rel {cfg : Config} {W W1 : World} {F : Flat} (h : StatsOnly W W1)
    (hrel : Rel cfg W F) : Rel cfg W1 F :=
  rel_of_benign hrel h.1 (fun r => (h.2 r).1)

theorem statsOnly_then_dup {W W1 W2 : World} {f n : Nat} (h1 : StatsOnly W W1)
    (h2 : DupEffect W1 W2 f n) : DupEffect W W2 f n := by
  obtain ⟨a1, a2, t, a3⟩ := h2
  refine ⟨sameAlloc_trans h1.1 a1, fun r => ?_, t, fun r => ?_⟩
  · exact ⟨(a2 r).1.trans (h1.2 r).1, (a2 r).2.trans (h1.2 r).2.1⟩
  · rw [(a3 r).1, (a3 r).2, (h1.2 r).2.2.1, (h1.2 r).2.2.2]
    exact ⟨rfl, rfl⟩

theorem dupEffect_then_stats {W W1 W2 : World} {f n : Nat} (h1 : DupEffect W W1 f n)
    (h2 : StatsOnly W1 W2) : DupEffect W W2 f n := by
  obtain ⟨a1, a2, t, a3⟩ := h1
  refine ⟨sameAlloc_trans a1 h2.1, fun r => ?_, t, fun r => ?_⟩
  · exact ⟨(h2.2 r).1.trans (a2 r).1, (h2.2 r).2.1.trans (a2 r).2⟩
  · rw [(h2.2 r).2.2.1, (h2.2 r).2.2.2]
    exact a3 r

theorem statsOnly_set (W : World) (p : Nat) (q : Peer)
    (h1 : q.trie_cell = (W.peer p).trie_cell)
    (h2 : q.last_used_edge = (W.peer p).last_used_edge)
    (h3 : q.next_guy = (W.peer p).next_guy) (h4 : q.init = (W.peer p).init)
    (h5 : q.sorted_and_unique_reads = (W.peer p).sorted_and_unique_reads)
    (h6 : q.duplicates = (W.peer p).duplicates) (h7 : q.dups = (W.peer p).dups) :
    StatsOnly W (W.set p q) := by
  refine ⟨(set_benign W p q h1 h2 h3 h4).1, fun r => ?_⟩
  simp only [World.set]
  by_cases h : r = p
  · subst h; simp [h1, h5, h6, h7]
  · simp [h]

theorem add_read_enter_stats (W : World) (p edge rn len : Nat)
    (hlen : len = 0 → edge = ROOT_CELL ∧ rn ≤ EDGE_MASK) :
    ∃ W1, add_read_enter W p edge rn len = .ok W1 ∧ StatsOnly W W1 := by
  simp only [add_read_enter]
  by_cases h0 : len = 0
  · obtain ⟨h1, h2⟩ := hlen h0
    have h3 : ¬ EDGE_MASK < rn := by omega
    simp only [h0, if_true, h1, ne_eq, not_true_eq_false, if_false, h3]
    exact ⟨_, rfl, statsOnly_set _ _ _ rfl rfl rfl rfl rfl rfl rfl⟩
  · simp only [h0, if_false]
    exact ⟨_, rfl, ⟨sameAlloc_refl W, fun _ => ⟨rfl, rfl, rfl, rfl⟩⟩⟩

theorem clean_length_pos_codes (ch : Char) (s1 : List Char) :
    codes (ch :: s1) = code ch :: codes s1 := rfl

theorem local_add_read_dup (cfg : Config)
    (tail : World → Nat → Nat → Nat → Nat → Except Fault (World × Nat))
    (ch : Char) (s1 : List Char) (htail : FindsDuplicate cfg tail s1)
    (W : World) (F : Flat) (edge rn len : Nat) (path : List Nat) (w : Nat)
    (hrel : Rel cfg W F) (hb : Bounded F) (he1 : 1 ≤ edge) (he2 : edge ≤ F.last)
    (hclean : Clean (ch :: s1)) (hp : spells F.mem edge (codes (ch :: s1)) path w) :
    ∃ W1, local_add_read cfg tail (ch :: s1) W (edge >>> cfg.CHUNKBITS) edge rn len =
        .ok (W1, len + (ch :: s1).length) ∧ DupEffect W W1 (w &&& EDGE_MASK) rn := by
  have hend' := clean_head_not_end hclean
  have hw : ((W.peer (edge >>> cfg.CHUNKBITS)).trie_cell (edge &&& cfg.CHUNKMASK)).edge (code ch)
      = (F.mem edge).edge (code ch) := by
    rw [hrel.2]; rfl
  simp only [local_add_read, ne_eq, not_true_eq_false, if_false, hend', Bool.false_eq_true]
  rw [hw]
  cases s1 with
  | nil =>
    cases path with
    | nil => simp [spells, codes] at hp
    | cons a q =>
      cases q with
      | cons _ _ => simp [spells, codes] at hp
      | nil =>
        simp only [codes, List.map_cons, List.map_nil, spells] at hp
        obtain ⟨_, hval, hterm⟩ := hp
        rw [hval]
        simp only [at_end_nil, if_true, hterm, ne_eq, not_false_eq_true, List.length_singleton]
        refine ⟨_, rfl, ?_, fun r => ?_, edge >>> cfg.CHUNKBITS, fun r => ?_⟩
        · exact (set_benign W (edge >>> cfg.CHUNKBITS) { W.peer (edge >>> cfg.CHUNKBITS) with
            duplicates := (W.peer (edge >>> cfg.CHUNKBITS)).duplicates ++ [(w &&& EDGE_MASK, rn)]
            dups := (W.peer (edge >>> cfg.CHUNKBITS)).dups + 1 } rfl rfl rfl rfl).1
        · simp only [World.set]
          by_cases h : r = edge >>> cfg.CHUNKBITS
          · subst h; simp
          · simp [h]
        · simp only [World.set]
          by_cases h : r = edge >>> cfg.CHUNKBITS
          · subst h; simp
          · simp [h]
  | cons c2 s2 =>
    have hclean1 : Clean (c2 :: s2) := clean_tail hclean
    have hend1 := clean_head_not_end hclean1
    cases path with
    | nil => simp [spells, codes] at hp
    | cons a q =>
      simp only [codes, List.map_cons, spells] at hp
      obtain ⟨_, hne, hnt, hrest⟩ := hp
      have hc := child_of_bounded hb he1 he2 hne hnt
      simp only [hend1, Bool.false_eq_true, if_false, hne]
      obtain ⟨W1, hW1, heff⟩ := htail W F (edge >>> cfg.CHUNKBITS) _ rn (len + 1) q w hrel hb
        (by omega) hc.2 (by rw [shr_eq]; exact Nat.div_le_div_right (by omega)) (by omega)
        hclean1 hrest
      refine ⟨W1, ?_, heff⟩
      rw [hW1]
      simp only [List.length_cons]
      congr 2; omega

theorem add_read_local_dup (cfg : Config)
    (tail : World → Nat → Nat → Nat → Nat → Except Fault (World × Nat))
    (ch : Char) (s1 : List Char) (htail : FindsDuplicate cfg tail s1)
    (W : World) (F : Flat) (edge rn len : Nat) (path : List Nat) (w : Nat)
    (hrel : Rel cfg W F) (hb : Bounded F) (he1 : 1 ≤ edge) (he2 : edge ≤ F.last)
    (hclean : Clean (ch :: s1)) (hp : spells F.mem edge (codes (ch :: s1)) path w) :
    ∃ W1, add_read_local cfg tail (ch :: s1) W (edge >>> cfg.CHUNKBITS) edge rn len =
        .ok (W1, len + (ch :: s1).length) ∧ DupEffect W W1 (w &&& EDGE_MASK) rn := by
  obtain ⟨W1, hW1, heff⟩ := local_add_read_dup cfg tail ch s1 htail W F edge rn len path w
    hrel hb he1 he2 hclean hp
  simp only [add_read_local, hW1]
  by_cases h0 : len = 0
  · simp only [h0, if_true]
    exact ⟨_, rfl, dupEffect_then_stats heff (statsOnly_set _ _ _ rfl rfl rfl rfl rfl rfl rfl)⟩
  · simp only [h0, if_false]
    exact ⟨_, rfl, heff⟩

theorem add_read_body_dup (cfg : Config) (hsz : cfg.mpisize * 2 ^ cfg.CHUNKBITS ≤ 2 ^ 63)
    (tail : World → Nat → Nat → Nat → Nat → Except Fault (World × Nat))
    (ch : Char) (s1 : List Char) (htail : FindsDuplicate cfg tail s1) :
    FindsDuplicate cfg (add_read_body cfg tail (ch :: s1)) (ch :: s1) := by
  intro W F p edge rn len path w hrel hb he1 he2 hp hlen hclean hsp
  have hS : 0 < 2 ^ cfg.CHUNKBITS := Nat.two_pow_pos _
  have hG := hrel.1.lt_max
  have he63 : edge < 2 ^ 63 := by omega
  have hrank : edge / 2 ^ cfg.CHUNKBITS < cfg.mpisize := by
    rw [Nat.div_lt_iff_lt_mul hS]; omega
  obtain ⟨Wa, hWa, hsta⟩ := add_read_enter_stats W p edge rn len hlen
  simp only [add_read_body, hWa, signed_rank, he63, if_true]
  by_cases hloc : edge >>> cfg.CHUNKBITS = p
  · rw [if_pos hloc]
    rw [← hloc]
    obtain ⟨W1, hW1, heff⟩ := add_read_local_dup cfg tail ch s1 htail Wa F edge rn len path w
      (statsOnly_rel hsta hrel) hb he1 he2 hclean hsp
    exact ⟨W1, hW1, statsOnly_then_dup hsta heff⟩
  · rw [if_neg hloc]
    have hne : ¬ (edge >>> cfg.CHUNKBITS = 0 ∨ cfg.mpisize ≤ edge >>> cfg.CHUNKBITS) := by
      rw [shr_eq] at hloc ⊢; omega
    rw [if_neg hne]
    obtain ⟨Wb, hWb, hstb⟩ := add_read_enter_stats Wa (edge >>> cfg.CHUNKBITS) edge rn len hlen
    simp only [hWb]
    obtain ⟨W1, hW1, heff⟩ := add_read_local_dup cfg tail ch s1 htail Wb F edge rn len path w
      (statsOnly_rel hstb (statsOnly_rel hsta hrel)) hb he1 he2 hclean hsp
    exact ⟨W1, hW1, statsOnly_then_dup hsta (statsOnly_then_dup hstb heff)⟩

/-- A read whose path already ends in a leaf is logged as a duplicate and changes
nothing else. -/
theorem add_read_dup (cfg : Config) (hsz : cfg.mpisize * 2 ^ cfg.CHUNKBITS ≤ 2 ^ 63)
    (s : List Char) : FindsDuplicate cfg (add_read cfg s) s := by
  induction s with
  | nil =>
    intro W F p edge rn len path w _ _ _ _ _ _ _ hsp
    simp [spells, codes] at hsp
  | cons ch s1 ih =>
    intro W F p edge rn len path w hrel hb he1 he2 hp hlen hclean hsp
    rw [add_read]
    exact add_read_body_dup cfg hsz _ ch s1 ih W F p edge rn len path w hrel hb he1 he2 hp hlen
      hclean hsp


/-- Every successful flat insertion keeps the edges within bounds and never lowers the
allocation counter. -/
theorem flat_add_bounded (cap : Nat) :
    ∀ (s : List Char) (F : Flat) (edge rn : Nat) (F1 : Flat) (d : Option Nat),
      Bounded F → 1 ≤ edge → edge ≤ F.last → flat_add cap s F edge rn = some (F1, d) →
      Bounded F1 ∧ F.last ≤ F1.last := by
  intro s
  induction s with
  | nil => intro F edge rn F1 d _ _ _ h; simp [flat_add] at h
  | cons ch s1 ih =>
    intro F edge rn F1 d hb he1 he2 h
    rw [flat_add] at h
    by_cases hend : at_end (ch :: s1) = true
    · rw [if_pos hend] at h; exact absurd h (by simp)
    rw [if_neg hend] at h
    dsimp only at h
    by_cases hend1 : at_end s1 = true
    · rw [if_pos hend1] at h
      by_cases hterm : (F.mem edge).edge (code ch) &&& ENDS_WORD ≠ 0
      · rw [if_pos hterm] at h
        simp only [Option.some.injEq, Prod.mk.injEq] at h
        rw [← h.1]; exact ⟨hb, le_refl _⟩
      · rw [if_neg hterm] at h
        by_cases hz : (F.mem edge).edge (code ch) &&& EDGE_MASK ≠ 0
        · rw [if_pos hz] at h; exact absurd h (by simp)
        · rw [if_neg hz] at h
          simp only [Option.some.injEq, Prod.mk.injEq] at h
          rw [← h.1]
          exact ⟨bounded_write_leaf F edge (code ch) _ hb (leaf_word_terminal _), le_refl _⟩
    · rw [if_neg hend1] at h
      by_cases hz : (F.mem edge).edge (code ch) = 0
      · rw [if_pos hz] at h
        by_cases hcap : cap ≤ F.last + 1
        · rw [if_pos hcap] at h; exact absurd h (by simp)
        rw [if_neg hcap] at h
        obtain ⟨hb1, hl1⟩ := ih _ _ _ _ _ (bounded_alloc F edge (code ch) hb he1 he2)
          (Nat.le_add_left 1 F.last) (le_refl _) h
        refine ⟨hb1, ?_⟩
        have : F.last + 1 ≤ F1.last := hl1
        omega
      · rw [if_neg hz] at h
        by_cases h63 : 2 ^ 63 ≤ (F.mem edge).edge (code ch)
        · rw [if_pos h63] at h; exact absurd h (by simp)
        rw [if_neg h63] at h
        have hchild : edge < (F.mem edge).edge (code ch) ∧
            (F.mem edge).edge (code ch) ≤ F.last := by
          rcases hb edge he1 he2 (code ch) with h1 | h1 | h1
          · exact absurd h1 hz
          · exact absurd (ge_of_terminal _ h1) h63
          · exact h1
        exact ih _ _ _ _ _ hb (by omega) hchild.2 h

/-- Every state that the ingestion loop reaches reads as a flat trie with edges within
bounds. -/
theorem ingest_reach (cfg : Config) (hsz : cfg.mpisize * 2 ^ cfg.CHUNKBITS ≤ 2 ^ 63) :
    ∀ (prev : List (List Char)) (W0 : World) (F0 : Flat) (rn0 : Nat) (W : World) (n : Nat),
      Rel cfg W0 F0 → Bounded F0 → 1 ≤ F0.last → rn0 + prev.length ≤ 2 ^ 63 →
      ingest cfg prev W0 rn0 = .ok (W, n) →
      ∃ F, Rel cfg W F ∧ Bounded F ∧ F0.last ≤ F.last ∧ n = rn0 + prev.length := by
  intro prev
  induction prev with
  | nil =>
    intro W0 F0 rn0 W n hrel hb h1 _ h
    simp only [ingest, Except.ok.injEq, Prod.mk.injEq] at h
    rw [← h.1, ← h.2]
    exact ⟨F0, hrel, hb, le_refl _, rfl⟩
  | cons r more ih =>
    intro W0 F0 rn0 W n hrel hb h1 hn h
    simp only [List.length_cons] at hn
    have hmask : rn0 ≤ EDGE_MASK := by rw [edge_mask_eq]; omega
    have hsim := add_read_sim cfg hsz r W0 F0 0 ROOT_CELL rn0 0 hrel hb (le_refl _) h1
      (Nat.zero_le _) (fun _ => ⟨rfl, hmask⟩)
    rw [ingest] at h
    cases hres : flat_add (cfg.mpisize * 2 ^ cfg.CHUNKBITS) r F0 ROOT_CELL rn0 with
    | none =>
      rw [hres] at hsim
      obtain ⟨e, he⟩ := hsim
      rw [he] at h
      exact absurd h (by simp)
    | some res =>
      obtain ⟨F1, d⟩ := res
      rw [hres] at hsim
      obtain ⟨W1, hW1, hrel1⟩ := hsim
      rw [hW1] at h
      simp only at h
      obtain ⟨hb1, hl1⟩ := flat_add_bounded _ r F0 ROOT_CELL rn0 F1 d hb (le_refl _) h1 hres
      obtain ⟨F, hrelF, hbF, hlF, hnF⟩ := ih W1 F1 (rn0 + 1) W n hrel1 hb1 (by omega)
        (by omega) h
      exact ⟨F, hrelF, hbF, by omega, by simp only [List.length_cons]; omega⟩

theorem bounded_initial : Bounded Flat.initial := by
  intro i _ _ c; left; exact empty_edge c

/-- Inserting, after any successful ingestion, a read whose path already ends in a leaf:
the call succeeds, no shard and no allocator variable changes, and exactly one rank
appends the record of the leaf identifier and the new identifier to its duplicates log. -/
theorem add_read_duplicate (cfg : Config) (hk : 1 ≤ cfg.CHUNKBITS)
    (hsz : cfg.mpisize * 2 ^ cfg.CHUNKBITS ≤ 2 ^ 63) (hpeer : 1 ≤ cfg.mpisize)
    (prev : List (List Char)) (hn : prev.length < 2 ^ 63) (W : World) (n : Nat)
    (hW : ingest cfg prev (initial_world cfg) 0 = .ok (W, n)) (s : List Char) (hs : Clean s)
    (path : List Nat) (w : Nat) (hp : spells (cell_at cfg W) ROOT_CELL (codes s) path w) :
    ∃ W1, add_read cfg s W 0 ROOT_CELL n 0 = .ok (W1, s.length) ∧
      DupEffect W W1 (w &&& EDGE_MASK) n := by
  have hS : 2 ≤ 2 ^ cfg.CHUNKBITS := by
    calc 2 = 2 ^ 1 := by norm_num
      _ ≤ 2 ^ cfg.CHUNKBITS := Nat.pow_le_pow_right (by norm_num) hk
  have hroom : 1 < cfg.mpisize * 2 ^ cfg.CHUNKBITS := by
    calc 1 < 1 * 2 := by norm_num
      _ ≤ cfg.mpisize * 2 ^ cfg.CHUNKBITS := Nat.mul_le_mul hpeer hS
  obtain ⟨F, hrel, hb, hl, hnF⟩ := ingest_reach cfg hsz prev (initial_world cfg) Flat.initial 0
    W n (rel_initial cfg hk hroom) bounded_initial (le_refl _) (by omega) hW
  have hl' : 1 ≤ F.last := hl
  have hmask : n ≤ EDGE_MASK := by rw [edge_mask_eq]; omega
  rw [← hrel.2] at hp
  obtain ⟨W1, hW1, heff⟩ := add_read_dup cfg hsz s W F 0 ROOT_CELL n 0 path w hrel hb
    (le_refl _) hl' (Nat.zero_le _) (fun _ => ⟨rfl, hmask⟩) hs hp
  exact ⟨W1, by simpa using hW1, heff⟩


/-- Every state that the ingestion loop reaches has a consistent allocator. -/
theorem ingest_allocInv (cfg : Config) (hk : 1 ≤ cfg.CHUNKBITS)
    (hsz : cfg.mpisize * 2 ^ cfg.CHUNKBITS ≤ 2 ^ 63) (hpeer : 1 ≤ cfg.mpisize)
    (prev : List (List Char)) (hn : prev.length < 2 ^ 63) (W : World) (n : Nat)
    (hW : ingest cfg prev (initial_world cfg) 0 = .ok (W, n)) :
    ∃ G, AllocInv cfg W G := by
  have hS : 2 ≤ 2 ^ cfg.CHUNKBITS := by
    calc 2 = 2 ^ 1 := by norm_num
      _ ≤ 2 ^ cfg.CHUNKBITS := Nat.pow_le_pow_right (by norm_num) hk
  have hroom : 1 < cfg.mpisize * 2 ^ cfg.CHUNKBITS := by
    calc 1 < 1 * 2 := by norm_num
      _ ≤ cfg.mpisize * 2 ^ cfg.CHUNKBITS := Nat.mul_le_mul hpeer hS
  obtain ⟨F, hrel, _, _, _⟩ := ingest_reach cfg hsz prev (initial_world cfg) Flat.initial 0
    W n (rel_initial cfg hk hroom) bounded_initial (le_refl _) (by omega) hW
  exact ⟨F.last, hrel.1⟩

theorem served_snd {cfg : Config} {W : World} {G : Nat} (inv : AllocInv cfg W G) :
    W.served.map Prod.snd = List.range' 2 (G - 1) := by
  rw [inv.served, List.map_map]
  have : (Prod.snd ∘ fun i => (i / 2 ^ cfg.CHUNKBITS, i)) = id := by
    funext i; rfl
  rw [this, List.map_id]

theorem foldl_max_range' : ∀ (m s a : Nat), a < s →
    (List.range' s m).foldl max a = if m = 0 then a else s + m - 1 := by
  intro m
  induction m with
  | zero => intro s a _; rfl
  | succ m ih =>
    intro s a h
    rw [List.range'_succ, List.foldl_cons, ih (s + 1) (max a s) (by omega)]
    by_cases hm : m = 0
    · subst hm; simp; omega
    · simp only [hm, if_false, Nat.add_eq_zero, one_ne_zero, and_false]; omega

theorem largest_served_eq {cfg : Config} {W : World} {G : Nat} (inv : AllocInv cfg W G) :
    largest_served W = G := by
  rw [largest_served, served_snd inv, foldl_max_range' _ _ _ (by simp [ROOT_CELL])]
  have := inv.root_le
  by_cases h : G - 1 = 0
  · simp [h, ROOT_CELL]; omega
  · simp [h]; omega

theorem allocated_iff {cfg : Config} {W : World} {G : Nat} (inv : AllocInv cfg W G) (i : Nat) :
    allocated W i ↔ 1 ≤ i ∧ i ≤ G := by
  have := inv.root_le
  rw [allocated, served_snd inv, List.mem_range']
  simp only [ROOT_CELL]
  constructor
  · rintro (h | ⟨j, hj, rfl⟩) <;> omega
  · intro h
    by_cases h1 : i = 1
    · left; exact h1
    · right; exact ⟨i - 2, by omega, by omega⟩

theorem allocated_local_iff {cfg : Config} {W : World} {G : Nat} (inv : AllocInv cfg W G)
    (r off : Nat) :
    allocated_local cfg W r off ↔
      off < 2 ^ cfg.CHUNKBITS ∧ 1 ≤ r * 2 ^ cfg.CHUNKBITS + off ∧
        r * 2 ^ cfg.CHUNKBITS + off ≤ G := by
  have hS : 0 < 2 ^ cfg.CHUNKBITS := Nat.two_pow_pos _
  simp only [allocated_local, allocated_iff inv, shr_eq, mask_eq]
  constructor
  · rintro ⟨i, ⟨h1, h2⟩, h3, h4⟩
    have hdm := Nat.div_add_mod i (2 ^ cfg.CHUNKBITS)
    rw [h3, h4] at hdm
    have hlt := Nat.mod_lt i hS
    rw [h4] at hlt
    have hc : 2 ^ cfg.CHUNKBITS * r = r * 2 ^ cfg.CHUNKBITS := Nat.mul_comm _ _
    refine ⟨hlt, ?_, ?_⟩ <;> omega
  · rintro ⟨h1, h2, h3⟩
    refine ⟨r * 2 ^ cfg.CHUNKBITS + off, ⟨h2, h3⟩, ?_, ?_⟩
    · rw [Nat.mul_comm, Nat.mul_add_div hS, Nat.div_eq_of_lt h1]; simp
    · rw [Nat.mul_comm, Nat.mul_add_mod, Nat.mod_eq_of_lt h1]

theorem frontier_last {cfg : Config} {W : World} {G : Nat} (inv : AllocInv cfg W G) :
    (W.peer (G >>> cfg.CHUNKBITS)).last_used_edge = G := by
  have hS : 0 < 2 ^ cfg.CHUNKBITS := Nat.two_pow_pos _
  have hq : G / 2 ^ cfg.CHUNKBITS < cfg.mpisize := by
    rw [Nat.div_lt_iff_lt_mul hS]; exact inv.lt_max
  rw [shr_eq, inv.last _ hq]
  rcases succ_div_cases (2 ^ cfg.CHUNKBITS) G hS with ⟨h1, _⟩ | ⟨h1, h2⟩
  · rw [h1]; simp
  · rw [h1]; simp; omega

/-- C9, amended. After any sequence of inserts the allocated global indices (the root
and every index returned by the allocator) are exactly `1 .. last_used_edge`, where
`last_used_edge` is the largest index returned and the value of that variable on the
rank that owns it; within the shard of rank `r` the allocated local offsets are the
offsets `off` with `1 ≤ r * CHUNKSIZE + off ≤ last_used_edge`: a prefix `0 .. m` on every
rank but 0, and `1 .. m` on rank 0, whose offset 0 is the null cell. -/
theorem allocated_indices_contiguous (cfg : Config) (hk : 1 ≤ cfg.CHUNKBITS)
    (hsz : cfg.mpisize * 2 ^ cfg.CHUNKBITS ≤ 2 ^ 63) (hpeer : 1 ≤ cfg.mpisize)
    (prev : List (List Char)) (hn : prev.length < 2 ^ 63) (W : World) (n : Nat)
    (hW : ingest cfg prev (initial_world cfg) 0 = .ok (W, n)) :
    (∀ i, allocated W i ↔ 1 ≤ i ∧ i ≤ largest_served W) ∧
    (W.peer (largest_served W >>> cfg.CHUNKBITS)).last_used_edge = largest_served W ∧
    ∀ r off, allocated_local cfg W r off ↔
      off < 2 ^ cfg.CHUNKBITS ∧ 1 ≤ r * 2 ^ cfg.CHUNKBITS + off ∧
        r * 2 ^ cfg.CHUNKBITS + off ≤ largest_served W := by
  obtain ⟨G, inv⟩ := ingest_allocInv cfg hk hsz hpeer prev hn W n hW
  rw [largest_served_eq inv]
  exact ⟨allocated_iff inv, frontier_last inv, allocated_local_iff inv⟩


theorem construct_unique_leaf_path_witness :
    ∃ W, construct ⟨16, 1⟩ [['A', 'C', 'G', 'T'], ['A', 'C', 'G', 'A'], ['A', 'C', 'G', 'T']]
        = .ok W ∧
      ∃ path w, spells (cell_at ⟨16, 1⟩ W) ROOT_CELL (codes ['A', 'C', 'G', 'A']) path w ∧
        w &&& ENDS_WORD ≠ 0 ∧ w &&& EDGE_MASK = 1 := by
  have h := construct_unique_leaf_path ⟨16, 1⟩ 4
    [['A', 'C', 'G', 'T'], ['A', 'C', 'G', 'A'], ['A', 'C', 'G', 'T']]
    (by decide) (by decide) (by decide) (by decide) (by decide)
    (by simp [Clean, at_end]) (by decide)
  obtain ⟨W, hW⟩ := h.1 (by decide)
  obtain ⟨path, w, hp, _, ht, hpay, _⟩ := h.2 W hW ['A', 'C', 'G', 'A'] (by simp)
  exact ⟨W, hW, path, w, hp, ht, by rw [hpay]; decide⟩

/-- C7. Inserting, after any successful ingestion, a read whose path from the root already
ends in a leaf word `w`, under the next identifier `n`: the call succeeds and returns the
length of the read; every shard, every allocator variable and the allocation history are
as before; exactly one rank appends one record, the leaf identifier `w & EDGE_MASK`
with `n` (the line `f:0 n`), to its duplicates log.  For the input `ACGT`, `ACGT` on one
rank with `2^16` cells the trie is the cells `0 .. 4`, its only leaf edge carries
identifier 0, and the log is the single line `0:0 1`; on four ranks of two cells the same
five cells result and the line is logged by rank 2, which owns cell 4. -/
theorem duplicate_insert_frame (cfg : Config) (hk : 1 ≤ cfg.CHUNKBITS)
    (hsz : cfg.mpisize * 2 ^ cfg.CHUNKBITS ≤ 2 ^ 63) (hpeer : 1 ≤ cfg.mpisize)
    (prev : List (List Char)) (hn : prev.length < 2 ^ 63) (W : World) (n : Nat)
    (hW : ingest cfg prev (initial_world cfg) 0 = .ok (W, n)) (s : List Char) (hs : Clean s)
    (path : List Nat) (w : Nat) (hp : spells (cell_at cfg W) ROOT_CELL (codes s) path w) :
    (∃ W1, add_read cfg s W 0 ROOT_CELL n 0 = .ok (W1, s.length) ∧
      DupEffect W W1 (w &&& EDGE_MASK) n) ∧
    (match construct ⟨16, 1⟩ [['A', 'C', 'G', 'T'], ['A', 'C', 'G', 'T']] with
      | .ok W2 => some ((List.range 6).map (cell_at ⟨16, 1⟩ W2), (W2.peer 0).last_used_edge,
          (W2.peer 0).duplicates.map dup_line)
      | .error _ => none) =
      some ([empty, ⟨2, 0, 0, 0, 0⟩, ⟨0, 3, 0, 0, 0⟩, ⟨0, 0, 4, 0, 0⟩,
        ⟨0, 0, 0, ENDS_WORD ||| 0, 0⟩, empty], 4, ["0:0 1"]) ∧
    (match construct ⟨1, 4⟩ [['A', 'C', 'G', 'T'], ['A', 'C', 'G', 'T']] with
      | .ok W2 => some ((List.range 6).map (cell_at ⟨1, 4⟩ W2),
          (List.range 4).map (fun r => ((W2.peer r).last_used_edge,
            (W2.peer r).duplicates.map dup_line)))
      | .error _ => none) =
      some ([empty, ⟨2, 0, 0, 0, 0⟩, ⟨0, 3, 0, 0, 0⟩, ⟨0, 0, 4, 0, 0⟩,
        ⟨0, 0, 0, ENDS_WORD ||| 0, 0⟩, empty], [(1, []), (3, []), (4, ["0:0 1"]), (5, [])]) :=
  ⟨add_read_duplicate cfg hk hsz hpeer prev hn W n hW s hs path w hp, by decide, by decide⟩

theorem duplicate_insert_frame_witness :
    ∃ W n W1, ingest ⟨16, 1⟩ [['A', 'C', 'G', 'T']] (initial_world ⟨16, 1⟩) 0 = .ok (W, n) ∧
      add_read ⟨16, 1⟩ ['A', 'C', 'G', 'T'] W 0 ROOT_CELL n 0 = .ok (W1, 4) ∧
      DupEffect W W1 0 n := by
  obtain ⟨W, n, hW, hp⟩ : ∃ W n,
      ingest ⟨16, 1⟩ [['A', 'C', 'G', 'T']] (initial_world ⟨16, 1⟩) 0 = .ok (W, n) ∧
      spells (cell_at ⟨16, 1⟩ W) ROOT_CELL (codes ['A', 'C', 'G', 'T']) [1, 2, 3, 4] ENDS_WORD :=
    ⟨_, _, rfl, by decide⟩
  obtain ⟨W1, h1, h2⟩ := (duplicate_insert_frame ⟨16, 1⟩ (by decide) (by decide) (by decide)
    [['A', 'C', 'G', 'T']] (by decide) W n hW ['A', 'C', 'G', 'T'] (by simp [Clean, at_end])
    [1, 2, 3, 4] ENDS_WORD hp).1
  exact ⟨W, n, W1, hW, h1, h2⟩

theorem allocated_indices_contiguous_witness :
    ∃ W n, ingest ⟨1, 4⟩ [['A', 'C', 'G', 'T'], ['A', 'A', 'A', 'A']] (initial_world ⟨1, 4⟩) 0
        = .ok (W, n) ∧
      (∀ i, allocated W i ↔ 1 ≤ i ∧ i ≤ largest_served W) ∧
      (W.peer (largest_served W >>> 1)).last_used_edge = largest_served W ∧
      ∀ r off, allocated_local ⟨1, 4⟩ W r off ↔
        off < 2 ^ 1 ∧ 1 ≤ r * 2 ^ 1 + off ∧ r * 2 ^ 1 + off ≤ largest_served W := by
  obtain ⟨W, n, hW⟩ : ∃ W n, ingest ⟨1, 4⟩ [['A', 'C', 'G', 'T'], ['A', 'A', 'A', 'A']]
      (initial_world ⟨1, 4⟩) 0 = .ok (W, n) := ⟨_, _, rfl⟩
  exact ⟨W, n, hW, allocated_indices_contiguous ⟨1, 4⟩ (by decide) (by decide) (by decide)
    _ (by decide) W n hW⟩

/-- C9 as stated fails on rank 0: after inserting `AA` on one rank, the allocated local
offsets of shard 0 are `1` and `2`; offset 0, the null cell, is not among them, so they
are not a prefix of the offsets. -/
theorem allocated_offsets_not_a_prefix :
    ∃ W n, ingest ⟨16, 1⟩ [['A', 'A']] (initial_world ⟨16, 1⟩) 0 = .ok (W, n) ∧
      ¬ ∃ m, ∀ off, allocated_local ⟨16, 1⟩ W 0 off ↔ off < m := by
  obtain ⟨W, n, hW⟩ : ∃ W n, ingest ⟨16, 1⟩ [['A', 'A']] (initial_world ⟨16, 1⟩) 0
      = .ok (W, n) := ⟨_, _, rfl⟩
  refine ⟨W, n, hW, ?_⟩
  rintro ⟨m, hm⟩
  obtain ⟨G, inv⟩ := ingest_allocInv ⟨16, 1⟩ (by decide) (by decide) (by decide)
    [['A', 'A']] (by decide) W n hW
  have h1 : allocated_local ⟨16, 1⟩ W 0 1 := by
    rw [allocated_local_iff inv]
    have := inv.root_le
    exact ⟨by decide, by decide, by simpa using this⟩
  have h0 : allocated_local ⟨16, 1⟩ W 0 0 := by
    rw [hm]
    have := (hm 1).mp h1
    omega
  rw [allocated_local_iff inv] at h0
  simp at h0


/-- The first `count` cells of the shard of rank `r` are the cells `r * S ..` of the
global array. -/
theorem shard_cells (cfg : Config) (W : World) (r count : Nat)
    (hc : count ≤ 2 ^ cfg.CHUNKBITS) :
    (List.range count).map (W.peer r).trie_cell =
      (List.range' (r * 2 ^ cfg.CHUNKBITS) count).map (cell_at cfg W) := by
  have hS : 0 < 2 ^ cfg.CHUNKBITS := Nat.two_pow_pos _
  rw [List.range_eq_range', List.range'_eq_map_range, List.range'_eq_map_range]
  simp only [List.map_map]
  apply List.map_congr_left
  intro o ho
  rw [List.mem_range] at ho
  have ho' : o < 2 ^ cfg.CHUNKBITS := by omega
  simp only [Function.comp, cell_at, shr_eq, mask_eq, Nat.zero_add]
  rw [Nat.mul_comm, Nat.mul_add_div hS, Nat.div_eq_of_lt ho', Nat.mul_add_mod,
    Nat.mod_eq_of_lt ho']
  simp

theorem range'_split (a m n : Nat) :
    List.range' a m ++ List.range' (a + m) n = List.range' a (m + n) := by
  have h := List.range'_append a m n 1
  simp only [Nat.one_mul] at h
  rw [h, Nat.add_comm]

/-- The chain of `dump_trie` calls started on rank `r`, below or at the shard of the
largest allocated index `G`, appends the cells `r * S .. G`. -/
theorem dump_trie_from (cfg : Config) (hsz : cfg.mpisize * 2 ^ cfg.CHUNKBITS ≤ 2 ^ 63)
    (W : World) (G : Nat) (inv : AllocInv cfg W G) :
    ∀ (d r fuel : Nat) (trie_file : List CELL), r + d = G / 2 ^ cfg.CHUNKBITS → d + 2 ≤ fuel →
      dump_trie cfg fuel W r trie_file =
        .ok ((if r = 0 then [] else trie_file) ++
          (List.range' (r * 2 ^ cfg.CHUNKBITS) (G + 1 - r * 2 ^ cfg.CHUNKBITS)).map
            (cell_at cfg W)) := by
  have hS : 0 < 2 ^ cfg.CHUNKBITS := Nat.two_pow_pos _
  have hq := div_bounds (2 ^ cfg.CHUNKBITS) G hS
  have hqlt : G / 2 ^ cfg.CHUNKBITS < cfg.mpisize := by
    rw [Nat.div_lt_iff_lt_mul hS]; exact inv.lt_max
  have hG := inv.lt_max
  intro d
  induction d with
  | zero =>
    intro r fuel trie_file hr hfuel
    simp only [Nat.add_zero] at hr
    obtain ⟨f1, rfl⟩ : ∃ f1, fuel = f1 + 1 := ⟨fuel - 1, by omega⟩
    have hlast : (W.peer r).last_used_edge = G := by
      have := frontier_last inv
      rw [shr_eq, ← hr] at this
      exact this
    have hrS : r * 2 ^ cfg.CHUNKBITS ≤ G := by rw [hr]; exact hq.1
    have hrS2 : G < (r + 1) * 2 ^ cfg.CHUNKBITS := by rw [hr]; exact hq.2
    have hmul : (r + 1) * 2 ^ cfg.CHUNKBITS = r * 2 ^ cfg.CHUNKBITS + 2 ^ cfg.CHUNKBITS := by ring
    rw [dump_trie]
    simp only [hlast, chunksize_eq]
    have c1 : ¬ G = (r * 2 ^ cfg.CHUNKBITS + 2 ^ 64 - 1) % 2 ^ 64 := by
      by_cases hr0 : r = 0
      · subst hr0
        simp only [Nat.zero_mul, Nat.zero_add]
        have : (2 ^ 64 - 1) % 2 ^ 64 = 2 ^ 64 - 1 := Nat.mod_eq_of_lt (by norm_num)
        omega
      · have hpos : 1 ≤ r * 2 ^ cfg.CHUNKBITS := Nat.mul_pos (by omega) hS
        have : (r * 2 ^ cfg.CHUNKBITS + 2 ^ 64 - 1) % 2 ^ 64 = r * 2 ^ cfg.CHUNKBITS - 1 := by
          have e : r * 2 ^ cfg.CHUNKBITS + 2 ^ 64 - 1 = (r * 2 ^ cfg.CHUNKBITS - 1) + 2 ^ 64 := by
            omega
          rw [e, Nat.add_mod_right, Nat.mod_eq_of_lt (by omega)]
        omega
    rw [if_neg c1]
    have hcount : (G + 1 + 2 ^ 64 - r * 2 ^ cfg.CHUNKBITS) % 2 ^ 64
        = G + 1 - r * 2 ^ cfg.CHUNKBITS := by
      have e : G + 1 + 2 ^ 64 - r * 2 ^ cfg.CHUNKBITS
          = (G + 1 - r * 2 ^ cfg.CHUNKBITS) + 2 ^ 64 := by omega
      rw [e, Nat.add_mod_right, Nat.mod_eq_of_lt (by omega)]
    rw [hcount]
    have c2 : ¬ 2 ^ cfg.CHUNKBITS < G + 1 - r * 2 ^ cfg.CHUNKBITS := by omega
    rw [if_neg c2]
    rw [shard_cells cfg W r _ (by omega)]
    by_cases hfull : G = (r + 1) * 2 ^ cfg.CHUNKBITS - 1
    · rw [if_pos hfull]
      by_cases hlastrank : r ≠ cfg.mpisize - 1
      · rw [if_pos hlastrank]
        have c3 : ¬ cfg.mpisize ≤ r + 1 := by omega
        rw [if_neg c3]
        -- the next rank has nothing to write
        obtain ⟨f2, rfl⟩ : ∃ f2, f1 = f2 + 1 := ⟨f1 - 1, by omega⟩
        have hq1 : (G + 1) / 2 ^ cfg.CHUNKBITS = r + 1 := by
          have : G + 1 = (r + 1) * 2 ^ cfg.CHUNKBITS := by omega
          rw [this]; exact Nat.mul_div_cancel _ hS
        have hnext : (W.peer (r + 1)).last_used_edge = G := by
          rw [inv.last (r + 1) (by omega), hq1]; simp
        rw [dump_trie]
        simp only [hnext, chunksize_eq]
        have c4 : G = ((r + 1) * 2 ^ cfg.CHUNKBITS + 2 ^ 64 - 1) % 2 ^ 64 := by
          have e : (r + 1) * 2 ^ cfg.CHUNKBITS + 2 ^ 64 - 1
              = ((r + 1) * 2 ^ cfg.CHUNKBITS - 1) + 2 ^ 64 := by omega
          rw [e, Nat.add_mod_right, Nat.mod_eq_of_lt (by omega)]
          exact hfull
        rw [if_pos c4]
        simp
      · rw [if_neg hlastrank]
    · rw [if_neg hfull]
  | succ d ih =>
    intro r fuel trie_file hr hfuel
    obtain ⟨f1, rfl⟩ : ∃ f1, fuel = f1 + 1 := ⟨fuel - 1, by omega⟩
    have hrq : r < G / 2 ^ cfg.CHUNKBITS := by omega
    have hrq1 : r < (G + 1) / 2 ^ cfg.CHUNKBITS := by
      have : G / 2 ^ cfg.CHUNKBITS ≤ (G + 1) / 2 ^ cfg.CHUNKBITS := Nat.div_le_div_right (by omega)
      omega
    have hlast : (W.peer r).last_used_edge = (r + 1) * 2 ^ cfg.CHUNKBITS - 1 := by
      rw [inv.last r (by omega)]; simp [hrq1]
    have hmul : (r + 1) * 2 ^ cfg.CHUNKBITS = r * 2 ^ cfg.CHUNKBITS + 2 ^ cfg.CHUNKBITS := by ring
    have hr1S : (r + 1) * 2 ^ cfg.CHUNKBITS ≤ G / 2 ^ cfg.CHUNKBITS * 2 ^ cfg.CHUNKBITS :=
      Nat.mul_le_mul_right _ hrq
    rw [dump_trie]
    simp only [hlast, chunksize_eq]
    have c1 : ¬ (r + 1) * 2 ^ cfg.CHUNKBITS - 1 = (r * 2 ^ cfg.CHUNKBITS + 2 ^ 64 - 1) % 2 ^ 64 := by
      by_cases hr0 : r = 0
      · subst hr0
        simp only [Nat.zero_mul, Nat.zero_add]
        have : (2 ^ 64 - 1) % 2 ^ 64 = 2 ^ 64 - 1 := Nat.mod_eq_of_lt (by norm_num)
        omega
      · have hpos : 1 ≤ r * 2 ^ cfg.CHUNKBITS := Nat.mul_pos (by omega) hS
        have : (r * 2 ^ cfg.CHUNKBITS + 2 ^ 64 - 1) % 2 ^ 64 = r * 2 ^ cfg.CHUNKBITS - 1 := by
          have e : r * 2 ^ cfg.CHUNKBITS + 2 ^ 64 - 1 = (r * 2 ^ cfg.CHUNKBITS - 1) + 2 ^ 64 := by
            omega
          rw [e, Nat.add_mod_right, Nat.mod_eq_of_lt (by omega)]
        omega
    rw [if_neg c1]
    have hcount : ((r + 1) * 2 ^ cfg.CHUNKBITS - 1 + 1 + 2 ^ 64 - r * 2 ^ cfg.CHUNKBITS) % 2 ^ 64
        = 2 ^ cfg.CHUNKBITS := by
      have e : (r + 1) * 2 ^ cfg.CHUNKBITS - 1 + 1 + 2 ^ 64 - r * 2 ^ cfg.CHUNKBITS
          = 2 ^ cfg.CHUNKBITS + 2 ^ 64 := by omega
      rw [e, Nat.add_mod_right, Nat.mod_eq_of_lt (by omega)]
    rw [hcount]
    have c2 : ¬ 2 ^ cfg.CHUNKBITS < 2 ^ cfg.CHUNKBITS := by omega
    rw [if_neg c2]
    simp only [if_true]
    have hlastrank : r ≠ cfg.mpisize - 1 := by omega
    have c3 : ¬ cfg.mpisize ≤ r + 1 := by omega
    rw [if_pos hlastrank, if_neg c3]
    rw [ih (r + 1) f1 _ (by omega) (by omega)]
    have c5 : ¬ r + 1 = 0 := by omega
    rw [if_neg c5, shard_cells cfg W r _ (le_refl _), List.append_assoc, ← List.map_append]
    congr 2
    rw [hmul, range'_split]
    have e : 2 ^ cfg.CHUNKBITS + (G + 1 - (r * 2 ^ cfg.CHUNKBITS + 2 ^ cfg.CHUNKBITS))
        = G + 1 - r * 2 ^ cfg.CHUNKBITS := by omega
    rw [e]


/-- The used prefixes of the shards of the ranks `r .. G / S`, one after the other, are the
cells `r * S .. G` of the global array. -/
theorem used_prefixes_from (cfg : Config) (W : World) (G : Nat) (inv : AllocInv cfg W G) :
    ∀ (d r : Nat), r + d = G / 2 ^ cfg.CHUNKBITS →
      (List.range' r (d + 1)).flatMap (fun r1 =>
        (List.range ((W.peer r1).last_used_edge + 1 - r1 * 2 ^ cfg.CHUNKBITS)).map
          (W.peer r1).trie_cell) =
      (List.range' (r * 2 ^ cfg.CHUNKBITS) (G + 1 - r * 2 ^ cfg.CHUNKBITS)).map
        (cell_at cfg W) := by
  have hS : 0 < 2 ^ cfg.CHUNKBITS := Nat.two_pow_pos _
  have hq := div_bounds (2 ^ cfg.CHUNKBITS) G hS
  have hqlt : G / 2 ^ cfg.CHUNKBITS < cfg.mpisize := by
    rw [Nat.div_lt_iff_lt_mul hS]; exact inv.lt_max
  intro d
  induction d with
  | zero =>
    intro r hr
    simp only [Nat.add_zero] at hr
    have hlast : (W.peer r).last_used_edge = G := by
      have := frontier_last inv
      rw [shr_eq, ← hr] at this
      exact this
    have hrS2 : G < (r + 1) * 2 ^ cfg.CHUNKBITS := by rw [hr]; exact hq.2
    have hmul : (r + 1) * 2 ^ cfg.CHUNKBITS = r * 2 ^ cfg.CHUNKBITS + 2 ^ cfg.CHUNKBITS := by ring
    simp only [Nat.zero_add, List.range'_one, List.flatMap_cons, List.flatMap_nil,
      List.append_nil, hlast]
    exact shard_cells cfg W r _ (by omega)
  | succ d ih =>
    intro r hr
    have hrq : r < G / 2 ^ cfg.CHUNKBITS := by omega
    have hrq1 : r < (G + 1) / 2 ^ cfg.CHUNKBITS := by
      have : G / 2 ^ cfg.CHUNKBITS ≤ (G + 1) / 2 ^ cfg.CHUNKBITS := Nat.div_le_div_right (by omega)
      omega
    have hlast : (W.peer r).last_used_edge = (r + 1) * 2 ^ cfg.CHUNKBITS - 1 := by
      rw [inv.last r (by omega)]; simp [hrq1]
    have hmul : (r + 1) * 2 ^ cfg.CHUNKBITS = r * 2 ^ cfg.CHUNKBITS + 2 ^ cfg.CHUNKBITS := by ring
    have hr1S : (r + 1) * 2 ^ cfg.CHUNKBITS ≤ G / 2 ^ cfg.CHUNKBITS * 2 ^ cfg.CHUNKBITS :=
      Nat.mul_le_mul_right _ hrq
    rw [List.range'_succ, List.flatMap_cons, ih (r + 1) (by omega), hlast]
    have e1 : (r + 1) * 2 ^ cfg.CHUNKBITS - 1 + 1 - r * 2 ^ cfg.CHUNKBITS = 2 ^ cfg.CHUNKBITS := by
      omega
    rw [e1, shard_cells cfg W r _ (le_refl _), ← List.map_append, hmul, range'_split]
    have e : 2 ^ cfg.CHUNKBITS + (G + 1 - (r * 2 ^ cfg.CHUNKBITS + 2 ^ cfg.CHUNKBITS))
        = G + 1 - r * 2 ^ cfg.CHUNKBITS := by omega
    rw [e]

/-- C10. After any successful ingestion, the trie image written by the chain of
`dump_trie` calls that rank 0 starts (whatever the file held before) is the list of the
cells `0 .. last_used_edge` in ascending global index order, `last_used_edge` being the
largest allocated index; it is the concatenation, rank after rank, of the first
`last_used_edge + 1 - mpirank * CHUNKSIZE` cells of each shard up to the one that owns
`last_used_edge`; and its length is `40 * (last_used_edge + 1)` bytes. -/
theorem trie_image_is_used_cells (cfg : Config) (hk : 1 ≤ cfg.CHUNKBITS)
    (hsz : cfg.mpisize * 2 ^ cfg.CHUNKBITS ≤ 2 ^ 63) (hpeer : 1 ≤ cfg.mpisize)
    (prev : List (List Char)) (hn : prev.length < 2 ^ 63) (W : World) (n : Nat)
    (hW : ingest cfg prev (initial_world cfg) 0 = .ok (W, n)) (old : List CELL) :
    ∃ image, dump_trie cfg (cfg.mpisize + 1) W 0 old = .ok image ∧
      image = (List.range (largest_served W + 1)).map (cell_at cfg W) ∧
      image = (List.range (largest_served W >>> cfg.CHUNKBITS + 1)).flatMap (fun r =>
        (List.range ((W.peer r).last_used_edge + 1 - r * cfg.CHUNKSIZE)).map
          (W.peer r).trie_cell) ∧
      file_bytes image = 40 * (largest_served W + 1) := by
  obtain ⟨G, inv⟩ := ingest_allocInv cfg hk hsz hpeer prev hn W n hW
  have hS : 0 < 2 ^ cfg.CHUNKBITS := Nat.two_pow_pos _
  have hqlt : G / 2 ^ cfg.CHUNKBITS < cfg.mpisize := by
    rw [Nat.div_lt_iff_lt_mul hS]; exact inv.lt_max
  rw [largest_served_eq inv]
  have h := dump_trie_from cfg hsz W G inv (G / 2 ^ cfg.CHUNKBITS) 0 (cfg.mpisize + 1) old
    (by simp) (by omega)
  simp only [if_true, Nat.zero_mul, Nat.sub_zero, List.nil_append] at h
  refine ⟨_, h, ?_, ?_, ?_⟩
  · rw [List.range_eq_range']
  · have h2 := used_prefixes_from cfg W G inv (G / 2 ^ cfg.CHUNKBITS) 0 (by simp)
    simp only [Nat.zero_mul, Nat.sub_zero] at h2
    rw [shr_eq, List.range_eq_range', chunksize_eq]
    exact h2.symm
  · simp [file_bytes, sizeof_CELL]

theorem trie_image_is_used_cells_witness :
    ∃ W n image,
      ingest ⟨1, 4⟩ [['A', 'C', 'G', 'T'], ['A', 'A', 'A', 'A']] (initial_world ⟨1, 4⟩) 0
        = .ok (W, n) ∧
      dump_trie ⟨1, 4⟩ 5 W 0 [] = .ok image ∧ file_bytes image = 40 * (largest_served W + 1) := by
  obtain ⟨W, n, hW⟩ : ∃ W n, ingest ⟨1, 4⟩ [['A', 'C', 'G', 'T'], ['A', 'A', 'A', 'A']]
      (initial_world ⟨1, 4⟩) 0 = .ok (W, n) := ⟨_, _, rfl⟩
  obtain ⟨image, h1, _, _, h4⟩ := trie_image_is_used_cells ⟨1, 4⟩ (by decide) (by decide)
    (by decide) _ (by decide) W n hW []
  exact ⟨W, n, image, hW, h1, h4⟩


theorem mem_all_symbols (i : Fin 5) : i ∈ ([0, 1, 2, 3, 4] : List (Fin 5)) := by
  fin_cases i <;> simp

/-- The leaves listed below a cell are the ends of the paths of at most `d` edges from it. -/
theorem mem_leaves (mem : Nat → CELL) :
    ∀ (d e : Nat) (pre p : List (Fin 5)) (id : Nat),
      (p, id) ∈ leaves mem d e pre ↔
        ∃ cs path w, cs.length ≤ d ∧ p = pre ++ cs ∧ spells mem e cs path w ∧
          id = w &&& EDGE_MASK := by
  intro d
  induction d with
  | zero =>
    intro e pre p id
    simp only [leaves, List.not_mem_nil, false_iff]
    rintro ⟨cs, path, w, hl, _, hs, _⟩
    cases cs with
    | nil => simp [spells] at hs
    | cons c cs => simp at hl
  | succ d ih =>
    intro e pre p id
    simp only [leaves, List.mem_flatMap, edge_leaves]
    constructor
    · rintro ⟨i, _, hi⟩
      by_cases ht : (mem e).edge i &&& ENDS_WORD ≠ 0
      · rw [if_pos ht] at hi
        simp only [List.mem_singleton, Prod.mk.injEq] at hi
        exact ⟨[i], [e], (mem e).edge i, by simp, hi.1, by simp [spells, ht], hi.2⟩
      · rw [if_neg ht] at hi
        by_cases hz : (mem e).edge i ≠ 0
        · rw [if_pos hz] at hi
          obtain ⟨cs, path, w, hl, hp, hs, hid⟩ := (ih _ _ _ _).mp hi
          cases cs with
          | nil => simp [spells] at hs
          | cons c cs =>
            refine ⟨i :: c :: cs, e :: path, w, by simp at hl ⊢; omega, by simp [hp], ?_, hid⟩
            simp only [spells]
            exact ⟨trivial, hz, by simpa using ht, hs⟩
        · rw [if_neg hz] at hi; simp at hi
    · rintro ⟨cs, path, w, hl, hp, hs, hid⟩
      cases cs with
      | nil => simp [spells] at hs
      | cons c cs =>
        refine ⟨c, mem_all_symbols c, ?_⟩
        cases cs with
        | nil =>
          cases path with
          | nil => simp [spells] at hs
          | cons a q =>
            cases q with
            | cons _ _ => simp [spells] at hs
            | nil =>
              simp only [spells] at hs
              rw [if_pos (by rw [hs.2.1]; exact hs.2.2)]
              simp [hp, hid, hs.2.1]
        | cons c2 cs2 =>
          cases path with
          | nil => simp [spells] at hs
          | cons a q =>
            simp only [spells] at hs
            obtain ⟨_, hz, hnt, hrest⟩ := hs
            rw [if_neg (by simpa using hnt), if_pos hz]
            rw [ih]
            exact ⟨c2 :: cs2, q, w, by simp at hl ⊢; omega, by simp [hp], hrest, hid⟩

/-- Every string listed below a cell extends the string of the cell by at least one symbol. -/
theorem leaves_extend (mem : Nat → CELL) (d e : Nat) (pre p : List (Fin 5)) (id : Nat)
    (h : (p, id) ∈ leaves mem d e pre) : ∃ c cs, p = pre ++ c :: cs := by
  obtain ⟨cs, path, w, _, hp, hs, _⟩ := (mem_leaves mem d e pre p id).mp h
  cases cs with
  | nil => simp [spells] at hs
  | cons c cs => exact ⟨c, cs, hp⟩

/-- The leaves below a cell come in strictly increasing lexicographic order of their
strings. -/
theorem leaves_sorted (mem : Nat → CELL) :
    ∀ (d e : Nat) (pre : List (Fin 5)),
      List.Pairwise (fun a b : List (Fin 5) × Nat => List.Lex (fun x y : Fin 5 => x < y) a.1 b.1)
        (leaves mem d e pre) := by
  intro d
  induction d with
  | zero => intro e pre; simp [leaves]
  | succ d ih =>
    intro e pre
    have hsub : ∀ (i : Fin 5) (x : List (Fin 5) × Nat),
        x ∈ edge_leaves mem (leaves mem d) e pre i → ∃ cs, x.1 = pre ++ i :: cs := by
      intro i x hx
      simp only [edge_leaves] at hx
      by_cases ht : (mem e).edge i &&& ENDS_WORD ≠ 0
      · rw [if_pos ht] at hx
        simp only [List.mem_singleton] at hx
        exact ⟨[], by rw [hx]⟩
      · rw [if_neg ht] at hx
        by_cases hz : (mem e).edge i ≠ 0
        · rw [if_pos hz] at hx
          obtain ⟨c, cs, hp⟩ := leaves_extend mem d _ _ x.1 x.2 hx
          exact ⟨c :: cs, by rw [hp]; simp⟩
        · rw [if_neg hz] at hx; simp at hx
    simp only [leaves]
    rw [List.pairwise_flatMap]
    constructor
    · intro i _
      simp only [edge_leaves]
      by_cases ht : (mem e).edge i &&& ENDS_WORD ≠ 0
      · rw [if_pos ht]; simp
      · rw [if_neg ht]
        by_cases hz : (mem e).edge i ≠ 0
        · rw [if_pos hz]; exact ih _ _
        · rw [if_neg hz]; simp
    · have hpair : List.Pairwise (fun a b : Fin 5 => a < b) [0, 1, 2, 3, 4] := by decide
      refine hpair.imp ?_
      intro i j hij x hx y hy
      obtain ⟨cs1, h1⟩ := hsub i x hx
      obtain ⟨cs2, h2⟩ := hsub j y hy
      rw [h1, h2]
      exact List.Lex.append_left _ (List.Lex.rel hij) pre


theorem trt_ne_nul (i : Fin 5) : trt i ≠ Char.ofNat 0 := by
  fin_cases i <;> decide

theorem c_string_text_append (cs : List (Fin 5)) (r : List Char) :
    c_string (text cs ++ r) = text cs ++ c_string r := by
  induction cs with
  | nil => rfl
  | cons c cs ih =>
    show c_string (trt c :: (text cs ++ r)) = trt c :: (text cs ++ c_string r)
    rw [c_string, if_neg (trt_ne_nul c), ih]

theorem c_string_nul (r : List Char) : c_string (Char.ofNat 0 :: r) = [] := by
  simp [c_string]

theorem c_string_length_le (m rest : List Char) :
    (c_string (m ++ Char.ofNat 0 :: rest)).length ≤ m.length := by
  induction m with
  | nil => simp [c_string]
  | cons x m ih =>
    show (c_string (x :: (m ++ Char.ofNat 0 :: rest))).length ≤ (x :: m).length
    rw [c_string]
    split
    · simp
    · simp only [List.length_cons]; omega

theorem set_at_length (t : List Char) (x c : Char) (r : List Char) :
    (t ++ x :: r).set t.length c = t ++ c :: r := by
  induction t with
  | nil => rfl
  | cons a t ih => simp only [List.cons_append, List.length_cons, List.set_cons_succ, ih]

theorem text_length (cs : List (Fin 5)) : (text cs).length = cs.length := by
  simp [text]

theorem text_snoc (cs : List (Fin 5)) (i : Fin 5) : text (cs ++ [i]) = text cs ++ [trt i] := by
  simp [text]

theorem world_ext (W W1 : World) (h1 : W.peer = W1.peer) (h2 : W.served = W1.served) :
    W = W1 := by
  cases W; cases W1; simp only at h1 h2; rw [h1, h2]

theorem append_lines_nil (W : World) (r : Nat) : append_lines W r [] = W := by
  apply world_ext
  · funext q
    simp only [append_lines, World.set, List.append_nil]
    by_cases h : q = r
    · subst h; simp
    · simp [h]
  · rfl

theorem append_lines_append (W : World) (r : Nat) (l1 l2 : List (List Char × Nat)) :
    append_lines (append_lines W r l1) r l2 = append_lines W r (l1 ++ l2) := by
  apply world_ext
  · funext q
    simp only [append_lines, World.set]
    by_cases h : q = r
    · subst h; simp
    · simp [h]
  · rfl

theorem append_sorted_eq (W : World) (r : Nat) (x : List Char × Nat) :
    append_sorted W r x = append_lines W r [x] := rfl

theorem cell_at_append_lines (cfg : Config) (W : World) (r : Nat)
    (l : List (List Char × Nat)) : cell_at cfg (append_lines W r l) = cell_at cfg W := by
  funext i
  simp only [cell_at, append_lines, World.set]
  by_cases h : i >>> cfg.CHUNKBITS = r
  · simp [h]
  · simp [h]

theorem output_read_ok (cfg : Config) (W : World) (t : Nat) (s : List Char) (id : Nat)
    (ht : t < cfg.mpisize) :
    output_read cfg W t s id = .ok (append_lines W (cfg.mpisize - 1) [(c_string s, id)]) := by
  simp only [output_read, append_sorted_eq]
  by_cases h : t = cfg.mpisize - 1
  · rw [if_pos h, h]
  · rw [if_neg h]
    have h2 : ¬ (cfg.mpisize - 1 = 0 ∨ cfg.mpisize ≤ cfg.mpisize - 1) := by omega
    rw [if_neg h2]


theorem nulFrom_weaken (s t : List Char) (x : Char) (L : Nat)
    (h : NulFrom s (t ++ [x]) L) : NulFrom s t L := by
  obtain ⟨m, rest, h1, h2⟩ := h
  refine ⟨x :: m, rest, ?_, ?_⟩
  · rw [h1]; simp
  · simp only [List.length_append, List.length_cons, List.length_nil] at h2 ⊢; omega

/-- One round of the loop of the walk, for a cell of a trie of reads of length `L`. -/
theorem walk_edge_spec (cfg : Config) (L : Nat) (ids : List (List (Fin 5))) (F : Flat)
    (str : Nat → List (Fin 5)) (hT : TrieInv L ids F str)
    (hcap : F.last < cfg.mpisize * 2 ^ cfg.CHUNKBITS)
    (walk : World → Nat → List Char → Nat → Nat → Except Fault (World × List Char))
    (d : Nat) (hwalk : WalkSpec cfg L F str walk d)
    (W : World) (acc : List (List Char × Nat)) (sa : List Char) (edge : Nat)
    (pre : List (Fin 5)) (i : Fin 5)
    (hmem : cell_at cfg W = F.mem) (h1 : 1 ≤ edge) (h2 : edge ≤ F.last)
    (hstr : str edge = pre) (hd : pre.length + (d + 1) = L)
    (hs : ∃ x, NulFrom sa (text pre ++ [x]) L) (hlen : L < sa.length) :
    ∃ sb, walk_edge cfg walk (edge >>> cfg.CHUNKBITS) edge pre.length
        (append_lines W (cfg.mpisize - 1) acc, sa) i =
        .ok (append_lines W (cfg.mpisize - 1)
          (acc ++ sorted_lines (edge_leaves F.mem (leaves F.mem d) edge pre i)), sb) ∧
      sb.length = sa.length ∧ ∃ x, NulFrom sb (text pre ++ [x]) L := by
  obtain ⟨x, m, rest, hsa, hml⟩ := hs
  have hset : sa.set pre.length (trt i) = text pre ++ [trt i] ++ m ++ Char.ofNat 0 :: rest := by
    rw [hsa]
    have e1 : text pre ++ [x] ++ m ++ Char.ofNat 0 :: rest =
        text pre ++ x :: (m ++ Char.ofNat 0 :: rest) := by simp
    have e2 : text pre ++ [trt i] ++ m ++ Char.ofNat 0 :: rest =
        text pre ++ trt i :: (m ++ Char.ofNat 0 :: rest) := by simp
    rw [e1, e2]
    have := set_at_length (text pre) x (trt i) (m ++ Char.ofNat 0 :: rest)
    rw [text_length] at this
    exact this
  have hnul : NulFrom (sa.set pre.length (trt i)) (text pre ++ [trt i]) L :=
    ⟨m, rest, hset, by
      simp only [List.length_append, List.length_cons, List.length_nil] at hml ⊢; exact hml⟩
  have hcell : ((append_lines W (cfg.mpisize - 1) acc).peer (edge >>> cfg.CHUNKBITS)).trie_cell
      (edge &&& cfg.CHUNKMASK) = F.mem edge := by
    have := congrFun (cell_at_append_lines cfg W (cfg.mpisize - 1) acc) edge
    rw [hmem] at this
    exact this
  have hS : 0 < 2 ^ cfg.CHUNKBITS := Nat.two_pow_pos _
  have hrank : edge >>> cfg.CHUNKBITS < cfg.mpisize := by
    rw [shr_eq]
    apply (Nat.div_lt_iff_lt_mul hS).2
    omega
  unfold walk_edge
  simp only [hcell]
  unfold edge_leaves
  by_cases hterm : (F.mem edge).edge i &&& ENDS_WORD ≠ 0
  · rw [if_pos hterm, if_pos hterm]
    have hbot : ¬ (pre.length + 1 < L) := by
      intro hlt
      have := hT.inner edge i h1 h2 (by rw [hstr]; exact hlt)
      exact hterm this
    have hm0 : m = [] := by
      simp only [List.length_append, List.length_cons, List.length_nil, text_length] at hml
      apply List.eq_nil_of_length_eq_zero
      omega
    have hcs : c_string (sa.set pre.length (trt i)) = text (pre ++ [i]) := by
      rw [hset, hm0, text_snoc]
      have e : text pre ++ [trt i] ++ [] ++ Char.ofNat 0 :: rest =
          text pre ++ (trt i :: Char.ofNat 0 :: rest) := by simp
      rw [e, c_string_text_append, c_string, if_neg (trt_ne_nul i), c_string_nul]
    rw [output_read_ok cfg _ _ _ _ hrank, append_lines_append, hcs]
    exact ⟨_, rfl, by simp, trt i, hnul⟩
  · rw [if_neg hterm, if_neg hterm]
    by_cases hz : (F.mem edge).edge i ≠ 0
    · rw [if_pos hz, if_pos hz]
      have hterm0 : (F.mem edge).edge i &&& ENDS_WORD = 0 := not_not.1 hterm
      have hch := child_of_bounded hT.bounded h1 h2 hz hterm0
      have hd1 : 1 ≤ d := by
        by_contra hcon
        have : pre.length + 1 = L := by omega
        exact hT.bottom edge i h1 h2 (by rw [hstr]; exact this) hz hterm0
      have hstrc : str ((F.mem edge).edge i) = pre ++ [i] := by
        rw [hT.str_child edge i h1 h2 hz hterm0, hstr]
      have hle : edge >>> cfg.CHUNKBITS ≤ (F.mem edge).edge i / 2 ^ cfg.CHUNKBITS := by
        rw [shr_eq]
        exact Nat.div_le_div_right (le_of_lt hch.1)
      have hsplit : sa.set pre.length (trt i) =
          text (pre ++ [i]) ++ (m ++ Char.ofNat 0 :: rest) := by
        rw [hset, text_snoc]; simp
      have hnul2 : NulFrom (sa.set pre.length (trt i)) (text (pre ++ [i])) L := by
        rw [text_snoc]; exact hnul
      obtain ⟨s1, hw, hl1, hn1⟩ := hwalk (append_lines W (cfg.mpisize - 1) acc)
        (edge >>> cfg.CHUNKBITS) (sa.set pre.length (trt i)) ((F.mem edge).edge i)
        (pre ++ [i]) (m ++ Char.ofNat 0 :: rest)
        (by rw [cell_at_append_lines]; exact hmem) (by omega) hch.2 hle hstrc
        (by simp only [List.length_append, List.length_cons, List.length_nil]; omega) hd1
        hsplit (by simp only [List.length_set]; exact hlen) (fun _ => hnul2)
      have hlenc : (pre ++ [i]).length = pre.length + 1 := by simp
      rw [hlenc] at hw
      rw [hw, append_lines_append]
      refine ⟨s1, rfl, ?_, trt i, ?_⟩
      · rw [hl1]; simp
      · rw [text_snoc] at hn1; exact hn1
    · rw [if_neg hz, if_neg hz]
      exact ⟨_, by simp [sorted_lines], by simp, trt i, hnul⟩


/-- The rounds of the loop of the walk for a list of symbols. -/
theorem walk_edges_spec (cfg : Config) (L : Nat) (ids : List (List (Fin 5))) (F : Flat)
    (str : Nat → List (Fin 5)) (hT : TrieInv L ids F str)
    (hcap : F.last < cfg.mpisize * 2 ^ cfg.CHUNKBITS)
    (walk : World → Nat → List Char → Nat → Nat → Except Fault (World × List Char))
    (d : Nat) (hwalk : WalkSpec cfg L F str walk d)
    (W : World) (edge : Nat) (pre : List (Fin 5))
    (hmem : cell_at cfg W = F.mem) (h1 : 1 ≤ edge) (h2 : edge ≤ F.last)
    (hstr : str edge = pre) (hd : pre.length + (d + 1) = L) :
    ∀ (is : List (Fin 5)) (acc : List (List Char × Nat)) (sa : List Char),
      (∃ x, NulFrom sa (text pre ++ [x]) L) → L < sa.length →
      ∃ sb, walk_edges cfg walk (edge >>> cfg.CHUNKBITS) edge pre.length is
          (append_lines W (cfg.mpisize - 1) acc, sa) =
          .ok (append_lines W (cfg.mpisize - 1)
            (acc ++ sorted_lines (is.flatMap (edge_leaves F.mem (leaves F.mem d) edge pre))),
            sb) ∧
        sb.length = sa.length ∧ ∃ x, NulFrom sb (text pre ++ [x]) L := by
  intro is
  induction is with
  | nil =>
    intro acc sa hs _
    exact ⟨sa, by simp [walk_edges, sorted_lines], rfl, hs⟩
  | cons i more ih =>
    intro acc sa hs hlen
    obtain ⟨sb, hw, hl, hn⟩ := walk_edge_spec cfg L ids F str hT hcap walk d hwalk W acc sa
      edge pre i hmem h1 h2 hstr hd hs hlen
    obtain ⟨sc, hw2, hl2, hn2⟩ := ih
      (acc ++ sorted_lines (edge_leaves F.mem (leaves F.mem d) edge pre i)) sb hn
      (by rw [hl]; exact hlen)
    refine ⟨sc, ?_, by rw [hl2, hl], hn2⟩
    rw [walk_edges, hw]
    simp only
    rw [hw2]
    simp [sorted_lines, List.flatMap_cons, List.append_assoc]

/-- The walk on the rank that owns the cell. -/
theorem walk_here_spec (cfg : Config) (L : Nat) (ids : List (List (Fin 5))) (F : Flat)
    (str : Nat → List (Fin 5)) (hT : TrieInv L ids F str)
    (hcap : F.last < cfg.mpisize * 2 ^ cfg.CHUNKBITS)
    (walk : World → Nat → List Char → Nat → Nat → Except Fault (World × List Char))
    (d : Nat) (hwalk : WalkSpec cfg L F str walk d)
    (W : World) (edge : Nat) (pre : List (Fin 5)) (s rest0 : List Char)
    (hmem : cell_at cfg W = F.mem) (h1 : 1 ≤ edge) (h2 : edge ≤ F.last)
    (hstr : str edge = pre) (hd : pre.length + (d + 1) = L)
    (hs : s = text pre ++ rest0) (hlen : L < s.length) :
    ∃ s1, walk_here cfg walk W (edge >>> cfg.CHUNKBITS) s edge pre.length =
        .ok (append_lines W (cfg.mpisize - 1) (sorted_lines (leaves F.mem (d + 1) edge pre)),
          s1) ∧
      s1.length = s.length ∧ NulFrom s1 (text pre) L := by
  have hl0 : pre.length + rest0.length = s.length := by
    rw [hs]; simp [text_length]
  obtain ⟨x, y, r, hr⟩ : ∃ x y r, rest0 = x :: y :: r := by
    match rest0, hl0 with
    | [], h => simp at h; omega
    | [_], h => simp at h; omega
    | x :: y :: r, _ => exact ⟨x, y, r, rfl⟩
  have hset : s.set (pre.length + 1) (Char.ofNat 0) =
      text pre ++ [x] ++ [] ++ Char.ofNat 0 :: r := by
    rw [hs, hr]
    have e1 : text pre ++ x :: y :: r = (text pre ++ [x]) ++ y :: r := by simp
    have e2 : text pre ++ [x] ++ [] ++ Char.ofNat 0 :: r =
        (text pre ++ [x]) ++ Char.ofNat 0 :: r := by simp
    rw [e1, e2]
    have := set_at_length (text pre ++ [x]) y (Char.ofNat 0) r
    simp only [List.length_append, List.length_cons, List.length_nil, text_length] at this
    exact this
  have hn0 : ∃ x, NulFrom (s.set (pre.length + 1) (Char.ofNat 0)) (text pre ++ [x]) L :=
    ⟨x, [], r, hset, by
      simp only [List.length_append, List.length_cons, List.length_nil, text_length]; omega⟩
  obtain ⟨sb, hw, hl, x1, hn⟩ := walk_edges_spec cfg L ids F str hT hcap walk d hwalk W edge
    pre hmem h1 h2 hstr hd [0, 1, 2, 3, 4] [] (s.set (pre.length + 1) (Char.ofNat 0)) hn0
    (by simp only [List.length_set]; exact hlen)
  rw [append_lines_nil, List.nil_append] at hw
  refine ⟨sb, ?_, by rw [hl]; simp, nulFrom_weaken _ _ _ _ hn⟩
  unfold walk_here
  rw [if_neg (by omega), hw]
  rfl

/-- The walk lists the leaves below a cell, given fuel for the depth of the trie below it. -/
theorem walk_internal_spec (cfg : Config) (stack : List Char) (L : Nat)
    (ids : List (List (Fin 5))) (F : Flat) (str : Nat → List (Fin 5))
    (hT : TrieInv L ids F str) (hcap : F.last < cfg.mpisize * 2 ^ cfg.CHUNKBITS)
    (hstack : L < stack.length) :
    ∀ (d fuel : Nat), d ≤ fuel →
      WalkSpec cfg L F str (walk_and_print_trie_internal cfg stack fuel) d := by
  intro d
  induction d with
  | zero =>
    intro fuel _ W p s edge pre rest0 _ _ _ _ _ _ hd
    omega
  | succ d ih =>
    intro fuel hf
    obtain ⟨f, rfl⟩ : ∃ f, fuel = f + 1 := ⟨fuel - 1, by omega⟩
    have hwalk := ih f (by omega)
    intro W p s edge pre rest0 hmem h1 h2 hp hstr hd _ hs hlen hnul
    unfold walk_and_print_trie_internal
    simp only
    by_cases ht : edge >>> cfg.CHUNKBITS ≠ p
    · rw [if_pos ht]
      have hS : 0 < 2 ^ cfg.CHUNKBITS := Nat.two_pow_pos _
      have hrank : edge >>> cfg.CHUNKBITS < cfg.mpisize := by
        rw [shr_eq]
        apply (Nat.div_lt_iff_lt_mul hS).2
        omega
      have hne : edge / 2 ^ cfg.CHUNKBITS ≠ p := by rw [← shr_eq]; exact ht
      have hpos : ¬ (edge >>> cfg.CHUNKBITS = 0 ∨ cfg.mpisize ≤ edge >>> cfg.CHUNKBITS) := by
        rw [shr_eq] at hrank ⊢
        omega
      rw [if_neg hpos]
      obtain ⟨m, rest, hsm, hml⟩ := hnul hne
      have hcs : c_string s = text pre ++ c_string (m ++ Char.ofNat 0 :: rest) := by
        rw [hsm, List.append_assoc, c_string_text_append]
      have hcl := c_string_length_le m rest
      have hfit : ¬ stack.length < (c_string s).length + 1 := by
        rw [hcs, List.length_append]
        omega
      rw [if_neg hfit]
      have hrecv : received_string stack s = text pre ++
          (c_string (m ++ Char.ofNat 0 :: rest) ++ [Char.ofNat 0] ++
            stack.drop ((c_string s).length + 1)) := by
        unfold received_string
        rw [hcs]; simp
      have hrl : L < (received_string stack s).length := by
        unfold received_string
        simp only [List.length_append, List.length_cons, List.length_nil, List.length_drop]
        omega
      obtain ⟨s1, hw, _, _⟩ := walk_here_spec cfg L ids F str hT hcap _ d hwalk W edge pre
        (received_string stack s) _ hmem h1 h2 hstr hd hrecv hrl
      rw [hw]
      exact ⟨s, rfl, rfl, m, rest, hsm, hml⟩
    · rw [if_neg ht]
      have hp2 : p = edge >>> cfg.CHUNKBITS := (not_not.1 ht).symm
      rw [hp2]
      exact walk_here_spec cfg L ids F str hT hcap _ d hwalk W edge pre s rest0 hmem h1 h2
        hstr hd hs hlen


theorem sameOutput_refl (W : World) : SameOutput W W := fun _ => rfl

theorem sameOutput_trans {W W1 W2 : World} (h1 : SameOutput W W1) (h2 : SameOutput W1 W2) :
    SameOutput W W2 := fun r => (h2 r).trans (h1 r)

theorem sameOutput_set (W : World) (p : Nat) (q : Peer)
    (h : q.sorted_and_unique_reads = (W.peer p).sorted_and_unique_reads) :
    SameOutput W (W.set p q) := by
  intro r
  by_cases e : r = p
  · subst e; rw [world_set_peer_same]; exact h
  · rw [world_set_peer_ne _ _ _ _ e]

theorem get_next_free_edge_output (cfg : Config) :
    ∀ (fuel : Nat) (W : World) (p : Nat) (W1 : World) (e : Nat),
      get_next_free_edge cfg fuel W p = .ok (W1, e) → SameOutput W W1 := by
  intro fuel
  induction fuel with
  | zero => intro W p W1 e h; simp [get_next_free_edge] at h
  | succ fuel ih =>
    intro W p W1 e h
    unfold get_next_free_edge at h
    dsimp only at h
    by_cases hc : (((W.peer p).last_used_edge + 1) % 2 ^ 64) >>> cfg.CHUNKBITS ≠ p
    · rw [if_pos hc] at h
      generalize hme : (if (W.peer p).init = true then W.peer p
        else { W.peer p with next_guy := p + 1, init := true }) = me1 at h
      have hout : me1.sorted_and_unique_reads = (W.peer p).sorted_and_unique_reads := by
        rw [← hme]; split <;> rfl
      split at h
      · exact absurd h (by simp)
      · split at h
        · exact absurd h (by simp)
        · split at h
          · exact absurd h (by simp)
          · rename_i W2 edge hrec
            simp only [Except.ok.injEq, Prod.mk.injEq] at h
            obtain ⟨h, _⟩ := h
            subst h
            have h1 := ih _ _ _ _ hrec
            exact sameOutput_trans (sameOutput_trans (sameOutput_set _ _ _ hout) h1)
              (sameOutput_set _ _ _ rfl)
    · rw [if_neg hc] at h
      simp only [Except.ok.injEq, Prod.mk.injEq] at h
      obtain ⟨h, _⟩ := h
      subst h
      intro r
      exact sameOutput_set W p { W.peer p with
        last_used_edge := ((W.peer p).last_used_edge + 1) % 2 ^ 64 } rfl r

theorem setread_output (cfg : Config) (W : World) (p index : Nat) (v : CELL) (W1 : World)
    (h : setread cfg W p index v = .ok W1) : SameOutput W W1 := by
  unfold setread at h
  dsimp only at h
  split at h
  · simp only [Except.ok.injEq] at h; subst h; exact sameOutput_set _ _ _ rfl
  · split at h
    · exact absurd h (by simp)
    · split at h
      · exact absurd h (by simp)
      · simp only [Except.ok.injEq] at h; subst h; exact sameOutput_set _ _ _ rfl

theorem add_read_enter_output (W : World) (p edge rn len : Nat) (W1 : World)
    (h : add_read_enter W p edge rn len = .ok W1) : SameOutput W W1 := by
  unfold add_read_enter at h
  split at h
  · split at h
    · exact absurd h (by simp)
    · split at h
      · exact absurd h (by simp)
      · simp only [Except.ok.injEq] at h; subst h; exact sameOutput_set _ _ _ rfl
  · simp only [Except.ok.injEq] at h; subst h; exact sameOutput_refl _


theorem local_add_read_output (cfg : Config)
    (tail : World → Nat → Nat → Nat → Nat → Except Fault (World × Nat))
    (htail : ∀ W p edge rn len W1 n, tail W p edge rn len = .ok (W1, n) → SameOutput W W1)
    (s : List Char) (W : World) (p edge rn len : Nat) (W1 : World) (n : Nat)
    (h : local_add_read cfg tail s W p edge rn len = .ok (W1, n)) : SameOutput W W1 := by
  unfold local_add_read at h
  split at h
  · exact absurd h (by simp)
  · split at h
    · exact absurd h (by simp)
    · rename_i ch s1
      split at h
      · exact absurd h (by simp)
      · dsimp only at h
        split at h
        · split at h
          · simp only [Except.ok.injEq, Prod.mk.injEq] at h
            obtain ⟨h, _⟩ := h
            subst h
            exact sameOutput_set _ _ _ rfl
          · split at h
            · exact absurd h (by simp)
            · simp only [Except.ok.injEq, Prod.mk.injEq] at h
              obtain ⟨h, _⟩ := h
              subst h
              exact sameOutput_set _ _ _ rfl
        · split at h
          · split at h
            · exact absurd h (by simp)
            · rename_i W2 new_edge hg
              split at h
              · exact absurd h (by simp)
              · rename_i W3 hs
                split at h
                · exact absurd h (by simp)
                · have h1 := get_next_free_edge_output cfg _ _ _ _ _ hg
                  have h2 := setread_output cfg _ _ _ _ _ hs
                  have h3 : SameOutput W3 (write_edge W3 p (edge &&& cfg.CHUNKMASK) (code ch)
                      new_edge) := sameOutput_set _ _ _ rfl
                  have h4 := htail _ _ _ _ _ _ _ h
                  exact sameOutput_trans (sameOutput_trans (sameOutput_trans h1 h2) h3) h4
          · exact htail _ _ _ _ _ _ _ h

theorem add_read_local_output (cfg : Config)
    (tail : World → Nat → Nat → Nat → Nat → Except Fault (World × Nat))
    (htail : ∀ W p edge rn len W1 n, tail W p edge rn len = .ok (W1, n) → SameOutput W W1)
    (s : List Char) (W : World) (p edge rn len : Nat) (W1 : World) (n : Nat)
    (h : add_read_local cfg tail s W p edge rn len = .ok (W1, n)) : SameOutput W W1 := by
  unfold add_read_local at h
  split at h
  · exact absurd h (by simp)
  · rename_i W2 len2 hl
    have h1 := local_add_read_output cfg tail htail s W p edge rn len W2 len2 hl
    split at h
    · simp only [Except.ok.injEq, Prod.mk.injEq] at h
      obtain ⟨h, _⟩ := h
      subst h
      exact sameOutput_trans h1 (sameOutput_set _ _ _ rfl)
    · simp only [Except.ok.injEq, Prod.mk.injEq] at h
      obtain ⟨h, _⟩ := h
      subst h
      exact h1

theorem add_read_body_output (cfg : Config)
    (tail : World → Nat → Nat → Nat → Nat → Except Fault (World × Nat))
    (htail : ∀ W p edge rn len W1 n, tail W p edge rn len = .ok (W1, n) → SameOutput W W1)
    (s : List Char) (W : World) (p edge rn len : Nat) (W1 : World) (n : Nat)
    (h : add_read_body cfg tail s W p edge rn len = .ok (W1, n)) : SameOutput W W1 := by
  unfold add_read_body at h
  split at h
  · exact absurd h (by simp)
  · rename_i W2 he
    have h1 := add_read_enter_output _ _ _ _ _ _ he
    split at h
    · exact absurd h (by simp)
    · split at h
      · exact sameOutput_trans h1 (add_read_local_output cfg tail htail _ _ _ _ _ _ _ _ h)
      · split at h
        · exact absurd h (by simp)
        · split at h
          · exact absurd h (by simp)
          · rename_i W3 he2
            have h2 := add_read_enter_output _ _ _ _ _ _ he2
            exact sameOutput_trans (sameOutput_trans h1 h2)
              (add_read_local_output cfg tail htail _ _ _ _ _ _ _ _ h)

theorem add_read_output (cfg : Config) :
    ∀ (s : List Char) (W : World) (p edge rn len : Nat) (W1 : World) (n : Nat),
      add_read cfg s W p edge rn len = .ok (W1, n) → SameOutput W W1 := by
  intro s
  induction s with
  | nil =>
    intro W p edge rn len W1 n h
    rw [add_read] at h
    exact add_read_body_output cfg _ (fun _ _ _ _ _ _ _ h => absurd h (by simp)) _ _ _ _ _ _
      _ _ h
  | cons ch s1 ih =>
    intro W p edge rn len W1 n h
    rw [add_read] at h
    exact add_read_body_output cfg _ ih _ _ _ _ _ _ _ _ h

theorem ingest_output (cfg : Config) :
    ∀ (reads : List (List Char)) (W : World) (rn : Nat) (W1 : World) (n : Nat),
      ingest cfg reads W rn = .ok (W1, n) → SameOutput W W1 := by
  intro reads
  induction reads with
  | nil =>
    intro W rn W1 n h
    simp only [ingest, Except.ok.injEq, Prod.mk.injEq] at h
    rw [← h.1]
    exact sameOutput_refl _
  | cons line more ih =>
    intro W rn W1 n h
    rw [ingest] at h
    split at h
    · exact absurd h (by simp)
    · rename_i W2 _ ha
      exact sameOutput_trans (add_read_output cfg _ _ _ _ _ _ _ _ ha) (ih _ _ _ _ h)

/-- Construction writes nothing to the `-sorted` files. -/
theorem construct_output (cfg : Config) (reads : List (List Char)) (W : World)
    (h : construct cfg reads = .ok W) (r : Nat) : (W.peer r).sorted_and_unique_reads = [] := by
  unfold construct at h
  split at h
  · exact absurd h (by simp)
  · rename_i W1 _ hi
    simp only [Except.ok.injEq] at h
    subst h
    exact ingest_output cfg _ _ _ _ _ hi r


theorem lex_irrefl : ∀ (a : List (Fin 5)), ¬ List.Lex (fun x y : Fin 5 => x < y) a a := by
  intro a
  induction a with
  | nil => intro h; cases h
  | cons x a ih =>
    intro h
    cases h with
    | cons h1 => exact ih h1
    | rel h1 => exact lt_irrefl _ h1

theorem trt_code (c : Char) (h : c = 'A' ∨ c = 'C' ∨ c = 'G' ∨ c = 'T' ∨ c = 'N') :
    trt (code c) = c := by
  rcases h with h | h | h | h | h <;> subst h <;> rfl

theorem text_codes : ∀ (r : List Char), Alphabet r → text (codes r) = r := by
  intro r
  induction r with
  | nil => intro _; rfl
  | cons c r ih =>
    intro h
    show trt (code c) :: text (codes r) = c :: r
    rw [trt_code c (h c (List.mem_cons_self _ _)),
      ih (fun x hx => h x (List.mem_cons_of_mem _ hx))]

theorem trt_injective : Function.Injective trt := by
  intro a b h
  fin_cases a <;> fin_cases b <;> first | rfl | (exact absurd h (by decide))

theorem text_injective : Function.Injective text := by
  intro a b h
  exact List.map_injective_iff.2 trt_injective h

/-- The leaf at the end of a path from the root belongs to a read, and carries the
identifier of the first read with these symbols. -/
theorem leaf_of_spells {L : Nat} {ids : List (List (Fin 5))} {F : Flat}
    {str : Nat → List (Fin 5)} (inv : TrieInv L ids F str) (hn : ids.length ≤ 2 ^ 63)
    (cs : List (Fin 5)) (path : List Nat) (w : Nat) (h : spells F.mem ROOT_CELL cs path w) :
    cs ∈ ids ∧ w &&& EDGE_MASK = first_index cs ids := by
  obtain ⟨i, c, hi1, hi2, hw, hs⟩ := spells_end inv cs ROOT_CELL path w (le_refl _)
    inv.root_le h
  rw [inv.str_root, List.nil_append] at hs
  have ht := spells_terminal F.mem _ _ _ _ h
  have hleaf := inv.leaf i c hi1 hi2 (by rw [hw]; exact ht)
  rw [hw, hs] at hleaf
  refine ⟨hleaf.2, ?_⟩
  have hlt : first_index cs ids < 2 ^ 63 := by
    have := first_index_lt_of_mem _ _ hleaf.2
    omega
  rw [hleaf.1]
  exact leaf_word_payload _ hlt

/-- The leaves listed from the root of a well-shaped trie are the reads, each with the
identifier of its first occurrence. -/
theorem mem_leaves_root {L : Nat} {ids : List (List (Fin 5))} {F : Flat}
    {str : Nat → List (Fin 5)} (inv : TrieInv L ids F str) (hn : ids.length ≤ 2 ^ 63)
    (hlen : ∀ x ∈ ids, x.length = L) (p : List (Fin 5)) (id : Nat) :
    (p, id) ∈ leaves F.mem L ROOT_CELL [] ↔ p ∈ ids ∧ id = first_index p ids := by
  rw [mem_leaves]
  constructor
  · rintro ⟨cs, path, w, _, hp, hs, hid⟩
    rw [List.nil_append] at hp
    subst hp
    obtain ⟨h1, h2⟩ := leaf_of_spells inv hn p path w hs
    exact ⟨h1, by rw [hid, h2]⟩
  · rintro ⟨hp, hid⟩
    obtain ⟨path, w, hs⟩ := inv.present p hp
    obtain ⟨_, h2⟩ := leaf_of_spells inv hn p path w hs
    exact ⟨p, path, w, le_of_eq (hlen p hp), by simp, hs, by rw [hid, h2]⟩


/-- C2. For reads of one common length `L` below `MAX_LINE` and every cluster that
construction from them ends in, `walk_and_print_trie` (given fuel for the depth `L`)
returns, and the `-sorted` file, written by the last rank only, lists exactly the symbol
strings of the reads, each once and with the identifier of its first occurrence, as text
over `ACGTN`, in strictly increasing lexicographic order under `A < C < G < T < N`; for
reads over that alphabet each read itself is listed with the identifier of its first
occurrence. -/
theorem walk_prints_sorted_unique (cfg : Config) (L : Nat) (reads : List (List Char))
    (stack : List Char) (fuel : Nat)
    (hk : 1 ≤ cfg.CHUNKBITS) (hsz : cfg.mpisize * 2 ^ cfg.CHUNKBITS ≤ 2 ^ 63)
    (hpeer : 1 ≤ cfg.mpisize) (hL : 1 ≤ L) (hlen : ∀ r ∈ reads, r.length = L)
    (hclean : ∀ r ∈ reads, Clean r) (hn : reads.length ≤ 2 ^ 63)
    (hstack : stack.length = MAX_LINE) (hline : L < MAX_LINE) (hfuel : L ≤ fuel) :
    ∀ W, construct cfg reads = .ok W →
      ∃ W1 out, walk_and_print_trie cfg stack fuel W = .ok W1 ∧
        (W1.peer (cfg.mpisize - 1)).sorted_and_unique_reads = sorted_lines out ∧
        (∀ q, q ≠ cfg.mpisize - 1 → (W1.peer q).sorted_and_unique_reads = []) ∧
        (∀ p id, (p, id) ∈ out ↔
          ∃ r ∈ reads, p = codes r ∧ id = first_index (codes r) (reads.map codes)) ∧
        out.Pairwise (fun a b => List.Lex (fun x y : Fin 5 => x < y) a.1 b.1) ∧
        ((W1.peer (cfg.mpisize - 1)).sorted_and_unique_reads.map Prod.fst).Nodup ∧
        ((∀ x ∈ reads, Alphabet x) → ∀ r ∈ reads,
          (r, first_index r reads) ∈ (W1.peer (cfg.mpisize - 1)).sorted_and_unique_reads) := by
  intro W hW
  rcases construct_spec cfg hk hsz hpeer L hL reads hlen hclean hn with
    ⟨⟨e, he⟩, _⟩ | ⟨W0, F, str, hW0, hrel, inv, _⟩
  · rw [he] at hW; exact absurd hW (by simp)
  rw [hW0] at hW
  simp only [Except.ok.injEq] at hW
  subst hW
  have hcap : F.last < cfg.mpisize * 2 ^ cfg.CHUNKBITS := hrel.1.lt_max
  have hroot : ROOT_CELL / 2 ^ cfg.CHUNKBITS = 0 := by
    apply Nat.div_eq_of_lt
    calc ROOT_CELL < 2 ^ 1 := by decide
      _ ≤ 2 ^ cfg.CHUNKBITS := Nat.pow_le_pow_right (by norm_num) hk
  obtain ⟨s1, hwalk, _, _⟩ := walk_internal_spec cfg stack L (reads.map codes) F str inv hcap
    (by rw [hstack]; exact hline) L fuel hfuel W0 0 stack ROOT_CELL [] stack hrel.2.symm
    (le_refl _) inv.root_le (Nat.zero_le _) inv.str_root (by simp) hL rfl
    (by rw [hstack]; exact hline) (fun h => absurd hroot h)
  have hnone := construct_output cfg reads W0 hW0
  have hids : (reads.map codes).length ≤ 2 ^ 63 := by simpa using hn
  have hidlen : ∀ x ∈ reads.map codes, x.length = L := by
    intro x hx
    obtain ⟨r, hr, rfl⟩ := List.mem_map.1 hx
    simpa [codes] using hlen r hr
  have hmemb : ∀ p id, (p, id) ∈ leaves F.mem L ROOT_CELL [] ↔
      ∃ r ∈ reads, p = codes r ∧ id = first_index (codes r) (reads.map codes) := by
    intro p id
    rw [mem_leaves_root inv hids hidlen]
    constructor
    · rintro ⟨hp, hid⟩
      obtain ⟨r, hr, rfl⟩ := List.mem_map.1 hp
      exact ⟨r, hr, rfl, hid⟩
    · rintro ⟨r, hr, rfl, hid⟩
      exact ⟨List.mem_map_of_mem _ hr, hid⟩
  have hsorted := leaves_sorted F.mem L ROOT_CELL []
  have hnodup : (List.map Prod.fst (leaves F.mem L ROOT_CELL [])).Nodup := by
    rw [List.Nodup, List.pairwise_map]
    refine hsorted.imp ?_
    intro a b hab heq
    rw [heq] at hab
    exact lex_irrefl b.1 hab
  have hfile : ((append_lines W0 (cfg.mpisize - 1)
      (sorted_lines (leaves F.mem L ROOT_CELL []))).peer (cfg.mpisize - 1)).sorted_and_unique_reads
      = sorted_lines (leaves F.mem L ROOT_CELL []) := by
    simp only [append_lines, world_set_peer_same, hnone, List.nil_append]
  have h3 : List.map Prod.fst (sorted_lines (leaves F.mem L ROOT_CELL [])) =
      List.map text (List.map Prod.fst (leaves F.mem L ROOT_CELL [])) := by
    simp [sorted_lines, List.map_map, Function.comp_def]
  refine ⟨_, leaves F.mem L ROOT_CELL [], ?_, hfile, ?_, hmemb, hsorted, ?_, ?_⟩
  · unfold walk_and_print_trie
    have h0 : ([] : List (Fin 5)).length = 0 := rfl
    rw [h0] at hwalk
    rw [hwalk]
  · intro q hq
    simp only [append_lines, world_set_peer_ne _ _ _ _ hq, hnone]
  · rw [hfile, h3]
    exact hnodup.map text_injective
  · intro halpha r hr
    rw [hfile]
    have h1 : (codes r, first_index (codes r) (reads.map codes)) ∈
        leaves F.mem L ROOT_CELL [] := (hmemb _ _).2 ⟨r, hr, rfl, rfl⟩
    have h2 := List.mem_map_of_mem (fun x : List (Fin 5) × Nat => (text x.1, x.2)) h1
    simp only [text_codes r (halpha r hr), first_index_codes r (halpha r hr) reads halpha]
      at h2
    exact h2


theorem walk_prints_sorted_unique_witness :
    ∃ W W1, construct ⟨1, 4⟩ [['A', 'C', 'G', 'T'], ['A', 'C', 'G', 'A'], ['A', 'C', 'G', 'T']]
        = .ok W ∧
      walk_and_print_trie ⟨1, 4⟩ (List.replicate MAX_LINE 'x') 4 W = .ok W1 ∧
      ((W1.peer 3).sorted_and_unique_reads.map Prod.fst).Nodup ∧
      (['A', 'C', 'G', 'A'], 1) ∈ (W1.peer 3).sorted_and_unique_reads ∧
      (['A', 'C', 'G', 'T'], 0) ∈ (W1.peer 3).sorted_and_unique_reads := by
  obtain ⟨W, hW⟩ : ∃ W, construct ⟨1, 4⟩
      [['A', 'C', 'G', 'T'], ['A', 'C', 'G', 'A'], ['A', 'C', 'G', 'T']] = .ok W := ⟨_, rfl⟩
  obtain ⟨W1, out, hwalk, _, _, _, _, hnd, halpha⟩ := walk_prints_sorted_unique ⟨1, 4⟩ 4
    [['A', 'C', 'G', 'T'], ['A', 'C', 'G', 'A'], ['A', 'C', 'G', 'T']]
    (List.replicate MAX_LINE 'x') 4 (by decide) (by decide) (by decide) (by decide)
    (by decide) (by simp [Clean, at_end]) (by decide) (List.length_replicate _ _)
    (by decide) (by decide) W hW
  have ha : ∀ x ∈ [['A', 'C', 'G', 'T'], ['A', 'C', 'G', 'A'], ['A', 'C', 'G', 'T']],
      Alphabet x := by simp [Alphabet]
  exact ⟨W, W1, hW, hwalk, hnd, halpha ha ['A', 'C', 'G', 'A'] (by simp),
    halpha ha ['A', 'C', 'G', 'T'] (by simp)⟩


theorem emit_all_append (W : Cluster) (l1 l2 : List (Nat × Record)) :
    emit_all W (l1 ++ l2) = emit_all (emit_all W l1) l2 := by
  simp [emit_all, List.foldl_append]

theorem emits_refl (base cs : Nat) (W : Cluster) : Emits base cs W W [] :=
  ⟨[], rfl, rfl, by simp⟩

theorem emits_trans {base cs : Nat} {W W1 W2 : Cluster} {l1 l2 : List Record}
    (h1 : Emits base cs W W1 l1) (h2 : Emits base cs W1 W2 l2) :
    Emits base cs W W2 (l1 ++ l2) := by
  obtain ⟨p1, e1, m1, b1⟩ := h1
  obtain ⟨p2, e2, m2, b2⟩ := h2
  refine ⟨p1 ++ p2, ?_, by rw [List.map_append, m1, m2], ?_⟩
  · rw [emit_all_append, ← e1, e2]
  · intro p hp
    rcases List.mem_append.1 hp with h | h
    · exact b1 p h
    · exact b2 p h

theorem emits_emit (base cs : Nat) (W : Cluster) (p : Nat) (r : Record) (h1 : base ≤ p)
    (h2 : p < base + cs) : Emits base cs W (emit W p r) [r] :=
  ⟨[(p, r)], rfl, rfl, by simp [h1, h2]⟩

theorem emit_trie_cell (W : Cluster) (p : Nat) (r : Record) (q : Nat) :
    ((emit W p r).rank q).trie_cell = (W.rank q).trie_cell := by
  simp only [emit]
  by_cases h : q = p
  · simp [h]
  · simp [h]

theorem emit_all_trie_cell (prs : List (Nat × Record)) :
    ∀ (W : Cluster) (q : Nat), ((emit_all W prs).rank q).trie_cell = (W.rank q).trie_cell := by
  induction prs with
  | nil => intro W q; rfl
  | cons p prs ih =>
    intro W q
    show ((emit_all (emit W p.1 p.2) prs).rank q).trie_cell = _
    rw [ih, emit_trie_cell]

theorem holds_of_emits {cfg : Config} {base cs : Nat} {F : Flat} {W W1 : Cluster}
    {l : List Record} (h : Holds cfg base F W) (he : Emits base cs W W1 l) :
    Holds cfg base F W1 := by
  obtain ⟨prs, e, _, _⟩ := he
  intro i hi
  rw [e, emit_all_trie_cell]
  exact h i hi

theorem holds_lookup {cfg : Config} {base : Nat} {F : Flat} {W : Cluster}
    (h : Holds cfg base F W) (e : Nat) (he : e ≤ F.last) :
    (W.rank (base + e / 2 ^ cfg.CHUNKBITS)).trie_cell[e &&& cfg.CHUNKMASK]? =
      some (F.mem e) := by
  rw [mask_eq]
  exact h e he

theorem mask_of_lt (w : Nat) (h : w < 2 ^ 63) : w &&& EDGE_MASK = w := by
  rw [edge_mask_eq, Nat.and_pow_two_sub_one_eq_mod]
  exact Nat.mod_eq_of_lt h

theorem signed_rank_of_lt (cfg : Config) (e : Nat) (h : e < 2 ^ 63) :
    signed_rank cfg e = some (e / 2 ^ cfg.CHUNKBITS) := by
  simp only [signed_rank, h, if_true, shr_eq]

theorem group_mod {cs base : Nat} (hb : base % cs = 0) (r : Nat) (hr : r < cs) :
    (base + r) % cs = r := by
  rw [Nat.add_mod, hb, Nat.zero_add, Nat.mod_mod, Nat.mod_eq_of_lt hr]

theorem group_base {cs base : Nat} (hb : base % cs = 0) (r : Nat) (hr : r < cs) :
    cluster_base cs (base + r) = base := by
  unfold cluster_base
  obtain ⟨q, hq⟩ := Nat.dvd_of_mod_eq_zero hb
  subst hq
  have hcs : 0 < cs := by omega
  have : (cs * q + r) / cs = q := by
    rw [Nat.mul_comm, Nat.add_comm, Nat.add_mul_div_right _ _ hcs, Nat.div_eq_of_lt hr,
      Nat.zero_add]
  rw [this, Nat.mul_comm]

theorem group_dispatches {cfg : Config} {cs base : Nat} {F : Flat} (g : Group cfg cs base F)
    (r : Nat) (hr : r < cs) (h0 : r ≠ 0) : dispatches cfg cs (base + r) = true := by
  have h1 := group_mod g.base_mod r hr
  have h2 := g.base_lt
  simp only [dispatches, h1, Bool.and_eq_true, decide_eq_true_eq]
  exact ⟨h0, by omega⟩

theorem group_rank_lt {cfg : Config} {cs base : Nat} {F : Flat} (g : Group cfg cs base F)
    (e : Nat) (he : e ≤ F.last) : e / 2 ^ cfg.CHUNKBITS < cs := by
  apply (Nat.div_lt_iff_lt_mul (Nat.two_pow_pos _)).2
  have := g.fits
  omega

/-- A word that is not a leaf word, in an allocated cell of a well-shaped trie, is 0 or
the index of a later allocated cell; masking leaves it as it is. -/
theorem child_word {L : Nat} {ids : List (List (Fin 5))} {F : Flat} {str : Nat → List (Fin 5)}
    (inv : TrieInv L ids F str) (hs : F.last < 2 ^ 63) (e : Nat) (c : Fin 5) (h1 : 1 ≤ e)
    (h2 : e ≤ F.last) (hin : (str e).length + 1 < L) :
    (F.mem e).edge c &&& ENDS_WORD = 0 ∧ (F.mem e).edge c &&& EDGE_MASK = (F.mem e).edge c ∧
      ((F.mem e).edge c ≠ 0 → e < (F.mem e).edge c ∧ (F.mem e).edge c ≤ F.last ∧
        str ((F.mem e).edge c) = str e ++ [c]) := by
  have hnt := inv.inner e c h1 h2 hin
  have hcases : (F.mem e).edge c = 0 ∨ (e < (F.mem e).edge c ∧ (F.mem e).edge c ≤ F.last) := by
    rcases inv.bounded e h1 h2 c with h | h | h
    · exact Or.inl h
    · exact absurd hnt h
    · exact Or.inr h
  refine ⟨hnt, ?_, ?_⟩
  · rcases hcases with h | h
    · rw [h]; simp
    · exact mask_of_lt _ (by omega)
  · intro hne
    rcases hcases with h | h
    · exact absurd h hne
    · exact ⟨h.1, h.2, inv.str_child e c h1 h2 hne hnt⟩


theorem take_cons_pos {α : Type} (x : α) (l : List α) (m n : Nat) (h : ¬ m ≤ n) :
    (x :: l).take (m - n) = x :: l.take (m - (1 + n)) := by
  obtain ⟨j, hj⟩ : ∃ j, m - n = j + 1 := ⟨m - n - 1, by omega⟩
  have : m - (1 + n) = j := by omega
  rw [hj, this, List.take_succ_cons]

theorem take_append_count {α : Type} (l1 l2 : List α) (m n : Nat) :
    (l1 ++ l2).take (m - n) =
      l1.take (m - n) ++ l2.take (m - (n + (l1.take (m - n)).length)) := by
  rw [List.take_append_eq_append_take, List.length_take]
  congr 2
  omega

/-- The loop of `local_print_overlaps` on the rank that holds the cell writes a record for
each leaf below the edges examined, in order, until `MAX_OVERLAPS` records are counted. -/
theorem local_print_spec (cfg : Config) (cs : Nat) (b : Build) (base L : Nat)
    (ids : List (List (Fin 5))) (F : Flat) (str : Nat → List (Fin 5))
    (inv : TrieInv L ids F str) (g : Group cfg cs base F)
    (print : Cluster → Nat → Nat → Nat → Nat → Nat → Except Fault (Cluster × Nat))
    (d : Nat) (hprint : PrintSpec cfg cs b base L F str print d)
    (c : Nat) (h1 : 1 ≤ c) (h2 : c ≤ F.last) (hd : (str c).length + (d + 1) = L)
    (rn mo : Nat) :
    ∀ (is : List (Fin 5)) (W : Cluster) (n : Nat), Holds cfg base F W →
      ∃ W1, local_print_overlaps cfg b print (base + c / 2 ^ cfg.CHUNKBITS) c rn mo is W n =
          .ok (W1, n + ((is.flatMap (edge_leaves F.mem (leaves F.mem d) c (str c))).take
            (b.MAX_OVERLAPS - n)).length) ∧
        Emits base cs W W1 (ovl_records rn mo
          ((is.flatMap (edge_leaves F.mem (leaves F.mem d) c (str c))).take
            (b.MAX_OVERLAPS - n))) := by
  intro is
  induction is with
  | nil =>
    intro W n _
    exact ⟨W, by simp [local_print_overlaps], by simpa [ovl_records] using emits_refl base cs W⟩
  | cons i more ih =>
    intro W n hW
    rw [local_print_overlaps]
    by_cases hmax : b.MAX_OVERLAPS ≤ n
    · rw [if_pos hmax]
      have h0 : b.MAX_OVERLAPS - n = 0 := by omega
      rw [h0]
      exact ⟨W, by simp, by simpa [ovl_records] using emits_refl base cs W⟩
    · rw [if_neg hmax, holds_lookup hW c h2]
      simp only [List.flatMap_cons]
      have hrank := group_rank_lt g c h2
      by_cases hterm : (F.mem c).edge i &&& ENDS_WORD ≠ 0
      · rw [if_pos hterm]
        have hE := emits_emit base cs W (base + c / 2 ^ cfg.CHUNKBITS)
          (Record.OVL (1 + rn) (1 + ((F.mem c).edge i &&& EDGE_MASK)) mo mo)
          (Nat.le_add_right _ _) (Nat.add_lt_add_left hrank base)
        obtain ⟨W1, hrun, hem⟩ := ih _ (1 + n) (holds_of_emits hW hE)
        have hl : edge_leaves F.mem (leaves F.mem d) c (str c) i =
            [(str c ++ [i], (F.mem c).edge i &&& EDGE_MASK)] := by
          unfold edge_leaves; rw [if_pos hterm]
        rw [hrun, hl, List.singleton_append, take_cons_pos _ _ _ _ hmax]
        refine ⟨W1, ?_, ?_⟩
        · simp only [List.length_cons]
          congr 2
          omega
        · have := emits_trans hE hem
          simpa [ovl_records] using this
      · rw [if_neg hterm]
        by_cases hz : (F.mem c).edge i ≠ 0
        · rw [if_pos hz, if_pos (by omega)]
          have hterm0 : (F.mem c).edge i &&& ENDS_WORD = 0 := not_not.1 hterm
          have hch := child_of_bounded inv.bounded h1 h2 hz hterm0
          have hd1 : 1 ≤ d := by
            by_contra hcon
            have : (str c).length + 1 = L := by omega
            exact inv.bottom c i h1 h2 this hz hterm0
          have hstrc := inv.str_child c i h1 h2 hz hterm0
          have hle : c / 2 ^ cfg.CHUNKBITS ≤ (F.mem c).edge i / 2 ^ cfg.CHUNKBITS :=
            Nat.div_le_div_right (le_of_lt hch.1)
          obtain ⟨W1, hp, hem1⟩ := hprint W (c / 2 ^ cfg.CHUNKBITS) ((F.mem c).edge i) rn mo n
            hW (by omega) hch.2 hle
            (by rw [hstrc]; simp only [List.length_append, List.length_cons,
              List.length_nil]; omega) hd1
          rw [hstrc] at hp hem1
          obtain ⟨W2, hrun, hem2⟩ := ih W1
            (n + ((leaves F.mem d ((F.mem c).edge i) (str c ++ [i])).take
              (b.MAX_OVERLAPS - n)).length) (holds_of_emits hW hem1)
          have hl : edge_leaves F.mem (leaves F.mem d) c (str c) i =
              leaves F.mem d ((F.mem c).edge i) (str c ++ [i]) := by
            unfold edge_leaves; rw [if_neg hterm, if_pos hz]
          rw [hp]
          simp only
          rw [hrun, hl, take_append_count]
          refine ⟨W2, ?_, ?_⟩
          · simp only [List.length_append]
            congr 2
            omega
          · have := emits_trans hem1 hem2
            simpa [ovl_records] using this
        · rw [if_neg hz]
          have hl : edge_leaves F.mem (leaves F.mem d) c (str c) i = [] := by
            unfold edge_leaves; rw [if_neg hterm, if_neg hz]
          rw [hl, List.nil_append]
          exact ih W n hW


/-- With `AMOS_OVERLAPS`, `print_overlaps` called on the rank that holds the cell. -/
theorem print_at_owner (cfg : Config) (cs : Nat) (b : Build) (base L : Nat)
    (ids : List (List (Fin 5))) (F : Flat) (str : Nat → List (Fin 5))
    (inv : TrieInv L ids F str) (g : Group cfg cs base F) (hamos : b.AMOS_OVERLAPS = true)
    (f d : Nat) (hprint : PrintSpec cfg cs b base L F str (print_overlaps cfg cs b f) d)
    (W : Cluster) (c rn mo n : Nat) (hW : Holds cfg base F W) (h1 : 1 ≤ c) (h2 : c ≤ F.last)
    (hd : (str c).length + (d + 1) = L) :
    ∃ W1, print_overlaps cfg cs b (f + 1) W (base + c / 2 ^ cfg.CHUNKBITS) c rn mo n =
        .ok (W1, n + ((leaves F.mem (d + 1) c (str c)).take (b.MAX_OVERLAPS - n)).length) ∧
      Emits base cs W W1
        (ovl_records rn mo ((leaves F.mem (d + 1) c (str c)).take (b.MAX_OVERLAPS - n))) := by
  have hrank := group_rank_lt g c h2
  rw [print_overlaps, if_pos hamos, signed_rank_of_lt cfg c (lt_of_le_of_lt h2 g.small)]
  simp only
  rw [if_pos (group_mod g.base_mod _ hrank).symm]
  exact local_print_spec cfg cs b base L ids F str inv g _ d hprint c h1 h2 hd rn mo
    [0, 1, 2, 3, 4] W n hW

/-- With `AMOS_OVERLAPS`, `print_overlaps` writes a record for each of the leaves below
the cell, in the order `A`, `C`, `G`, `T`, `N`, until `MAX_OVERLAPS` records are counted. -/
theorem print_overlaps_spec (cfg : Config) (cs : Nat) (b : Build) (base L : Nat)
    (ids : List (List (Fin 5))) (F : Flat) (str : Nat → List (Fin 5))
    (inv : TrieInv L ids F str) (g : Group cfg cs base F) (hamos : b.AMOS_OVERLAPS = true) :
    ∀ (d fuel : Nat), 2 * d ≤ fuel →
      PrintSpec cfg cs b base L F str (print_overlaps cfg cs b fuel) d := by
  intro d
  induction d with
  | zero =>
    intro fuel _ W r c rn mo n _ _ _ _ _ hd
    omega
  | succ d ih =>
    intro fuel hf W r c rn mo n hW h1 h2 hr hd _
    have hrank := group_rank_lt g c h2
    by_cases hown : r = c / 2 ^ cfg.CHUNKBITS
    · obtain ⟨f, rfl⟩ : ∃ f, fuel = f + 1 := ⟨fuel - 1, by omega⟩
      rw [hown]
      exact print_at_owner cfg cs b base L ids F str inv g hamos f d (ih f (by omega)) W c rn
        mo n hW h1 h2 hd
    · obtain ⟨f, rfl⟩ : ∃ f, fuel = f + 1 + 1 := ⟨fuel - 2, by omega⟩
      have hr2 : r < cs := by omega
      rw [print_overlaps, if_pos hamos, signed_rank_of_lt cfg c (lt_of_le_of_lt h2 g.small)]
      simp only
      rw [group_mod g.base_mod r hr2, if_neg (fun h => hown h.symm),
        group_base g.base_mod r hr2, Nat.add_comm (c / 2 ^ cfg.CHUNKBITS) base,
        if_pos (group_dispatches g _ hrank (by omega))]
      exact print_at_owner cfg cs b base L ids F str inv g hamos f d (ih f (by omega)) W c rn
        mo n hW h1 h2 hd

/-- Without `AMOS_OVERLAPS`, `print_overlaps` writes the line for the cell on the rank
that calls it. -/
theorem print_overlaps_node (cfg : Config) (cs : Nat) (b : Build)
    (hamos : b.AMOS_OVERLAPS = false) (fuel : Nat) (W : Cluster) (p c rn mo n : Nat) :
    print_overlaps cfg cs b (fuel + 1) W p c rn mo n =
      .ok (emit W p (Record.node rn mo c), n) := by
  rw [print_overlaps, hamos]
  simp


theorem anchor_single (mem : Nat → CELL) (e : Nat) (c : Fin 5) (w : Nat)
    (hw : (mem e).edge c &&& EDGE_MASK = w) (hne : w ≠ 0) : anchor mem e [c] = some w := by
  rw [anchor, hw, if_neg hne]

theorem anchor_none (mem : Nat → CELL) (e : Nat) (c : Fin 5) (cs : List (Fin 5))
    (hw : (mem e).edge c &&& EDGE_MASK = 0) : anchor mem e (c :: cs) = none := by
  cases cs with
  | nil => rw [anchor, if_pos hw]
  | cons c2 cs => rw [anchor, if_pos hw]

theorem anchor_step (mem : Nat → CELL) (e : Nat) (c c2 : Fin 5) (cs : List (Fin 5)) (w : Nat)
    (hw : (mem e).edge c &&& EDGE_MASK = w) (hne : w ≠ 0) :
    anchor mem e (c :: c2 :: cs) = anchor mem w (c2 :: cs) := by
  rw [anchor, hw, if_neg hne]

theorem probe_records_step (b : Build) (mem : Nat → CELL) (L : Nat) (pre : List (Fin 5))
    (e : Nat) (c c2 : Fin 5) (cs : List (Fin 5)) (rn mo w : Nat)
    (hw : (mem e).edge c &&& EDGE_MASK = w) (hne : w ≠ 0) :
    probe_records b mem L pre e (c :: c2 :: cs) rn mo =
      probe_records b mem L (pre ++ [c]) w (c2 :: cs) rn mo := by
  unfold probe_records
  rw [anchor_step mem e c c2 cs w hw hne]
  have e1 : pre.length + (c :: c2 :: cs).length = (pre ++ [c]).length + (c2 :: cs).length := by
    simp only [List.length_append, List.length_cons, List.length_nil]; omega
  have e2 : pre ++ c :: c2 :: cs = pre ++ [c] ++ c2 :: cs := by simp
  rw [e1, e2]

/-- The loop of `local_locate_overlaps` on the rank that holds the cell, for a clean string
that ends above the leaves. -/
theorem local_locate_spec (cfg : Config) (cs : Nat) (b : Build) (base L : Nat)
    (ids : List (List (Fin 5))) (F : Flat) (str : Nat → List (Fin 5))
    (inv : TrieInv L ids F str) (g : Group cfg cs base F) (pfuel : Nat)
    (hpf : 2 * L ≤ pfuel)
    (locate : Cluster → Nat → List Char → Nat → Nat → Nat → Except Fault Cluster) (m : Nat)
    (hloc : LocateSpec cfg cs b base L F str locate m) (rn mo : Nat) :
    ∀ (s : List Char) (W : Cluster) (e : Nat), Holds cfg base F W → 1 ≤ e → e ≤ F.last →
      Clean s → s ≠ [] → s.length ≤ m + 1 → (str e).length + s.length < L →
      s.length < MAX_LINE →
      ∃ W1, local_locate_overlaps cfg cs locate (print_overlaps cfg cs b pfuel) s W
          (base + e / 2 ^ cfg.CHUNKBITS) e rn mo = .ok W1 ∧
        Emits base cs W W1 (probe_records b F.mem L (str e) e (codes s) rn mo) := by
  intro s
  induction s with
  | nil => intro W e _ _ _ _ h; exact absurd rfl h
  | cons ch s1 ih =>
    intro W e hW h1 h2 hclean _ hm hlen hline
    have hrank := group_rank_lt g e h2
    simp only [List.length_cons] at hm hlen hline
    obtain ⟨hnt, hmask, hchild⟩ := child_word inv g.small e (code ch) h1 h2 (by omega)
    rw [local_locate_overlaps, holds_lookup hW e h2]
    simp only
    rw [hmask]
    by_cases hz : (F.mem e).edge (code ch) = 0
    · rw [if_pos hz]
      refine ⟨W, rfl, ?_⟩
      have : probe_records b F.mem L (str e) e (codes (ch :: s1)) rn mo = [] := by
        unfold probe_records
        show (match anchor F.mem e (code ch :: codes s1) with
          | none => []
          | some c => _) = []
        rw [anchor_none F.mem e (code ch) (codes s1) (by rw [hmask]; exact hz)]
      rw [this]
      exact emits_refl base cs W
    · rw [if_neg hz]
      obtain ⟨hlt, hle, hstr⟩ := hchild hz
      have hdiv : e / 2 ^ cfg.CHUNKBITS ≤ (F.mem e).edge (code ch) / 2 ^ cfg.CHUNKBITS :=
        Nat.div_le_div_right (le_of_lt hlt)
      cases s1 with
      | nil =>
        rw [at_end_nil, if_pos rfl]
        have hprobe : probe_records b F.mem L (str e) e (codes [ch]) rn mo =
            if b.AMOS_OVERLAPS then
              ovl_records rn mo ((leaves F.mem (L - ((str e).length + 1))
                ((F.mem e).edge (code ch)) (str e ++ [code ch])).take b.MAX_OVERLAPS)
            else [Record.node rn mo ((F.mem e).edge (code ch))] := by
          unfold probe_records
          show (match anchor F.mem e [code ch] with
            | none => []
            | some c => _) = _
          rw [anchor_single F.mem e (code ch) _ hmask hz]
          rfl
        rw [hprobe]
        by_cases hamos : b.AMOS_OVERLAPS = true
        · rw [if_pos hamos]
          obtain ⟨W1, hp, hem⟩ := print_overlaps_spec cfg cs b base L ids F str inv g hamos
            (L - ((str e).length + 1)) pfuel (by omega) W (e / 2 ^ cfg.CHUNKBITS)
            ((F.mem e).edge (code ch)) rn mo 0 hW (by omega) hle hdiv
            (by rw [hstr]; simp only [List.length_append, List.length_cons,
              List.length_nil]; omega) (by simp only [List.length_nil] at hlen; omega)
          rw [hstr] at hp hem
          rw [hp]
          exact ⟨W1, rfl, by simpa using hem⟩
        · have hamos0 : b.AMOS_OVERLAPS = false := by simpa using hamos
          rw [if_neg hamos]
          obtain ⟨f, rfl⟩ : ∃ f, pfuel = f + 1 := ⟨pfuel - 1, by omega⟩
          rw [print_overlaps_node cfg cs b hamos0]
          exact ⟨_, rfl, emits_emit base cs W _ _ (Nat.le_add_right _ _)
            (Nat.add_lt_add_left hrank base)⟩
      | cons ch2 s2 =>
        have hc1 := clean_tail hclean
        rw [clean_head_not_end hc1]
        simp only [Bool.false_eq_true, if_false]
        have hstep : probe_records b F.mem L (str e) e (codes (ch :: ch2 :: s2)) rn mo =
            probe_records b F.mem L (str ((F.mem e).edge (code ch)))
              ((F.mem e).edge (code ch)) (codes (ch2 :: s2)) rn mo := by
          rw [hstr]
          exact probe_records_step b F.mem L (str e) e (code ch) (code ch2) (codes s2) rn mo
            _ hmask hz
        rw [hstep, group_mod g.base_mod _ hrank, shr_eq]
        simp only [List.length_cons] at hm hlen hline
        have hlen2 : (str ((F.mem e).edge (code ch))).length + (ch2 :: s2).length < L := by
          rw [hstr]
          simp only [List.length_append, List.length_cons, List.length_nil]
          omega
        by_cases hhop : (F.mem e).edge (code ch) / 2 ^ cfg.CHUNKBITS ≠ e / 2 ^ cfg.CHUNKBITS
        · rw [if_pos hhop]
          exact hloc W (e / 2 ^ cfg.CHUNKBITS) (ch2 :: s2) ((F.mem e).edge (code ch)) rn mo hW
            (by omega) hle hdiv hc1 (by simp) (by simp only [List.length_cons]; omega) hlen2
            (by simp only [List.length_cons]; omega)
        · rw [if_neg hhop]
          have heq : e / 2 ^ cfg.CHUNKBITS = (F.mem e).edge (code ch) / 2 ^ cfg.CHUNKBITS :=
            (not_not.1 hhop).symm
          rw [heq]
          exact ih W ((F.mem e).edge (code ch)) hW (by omega) hle hc1 (by simp)
            (by simp only [List.length_cons]; omega) hlen2
            (by simp only [List.length_cons]; omega)


/-- The call `locate_overlaps` on the rank that holds the cell. -/
theorem locate_at_owner (cfg : Config) (cs : Nat) (b : Build) (base L : Nat)
    (ids : List (List (Fin 5))) (F : Flat) (str : Nat → List (Fin 5))
    (inv : TrieInv L ids F str) (g : Group cfg cs base F) (pfuel : Nat)
    (hpf : 2 * L ≤ pfuel) (f m : Nat)
    (hloc : LocateSpec cfg cs b base L F str (locate_overlaps cfg cs b f pfuel) m)
    (W : Cluster) (s : List Char) (e rn mo : Nat) (hW : Holds cfg base F W) (h1 : 1 ≤ e)
    (h2 : e ≤ F.last) (hclean : Clean s) (hne : s ≠ []) (hm : s.length ≤ m + 1)
    (hlen : (str e).length + s.length < L) (hline : s.length < MAX_LINE) :
    ∃ W1, locate_overlaps cfg cs b (f + 1) pfuel W (base + e / 2 ^ cfg.CHUNKBITS) s e rn mo =
        .ok W1 ∧
      Emits base cs W W1 (probe_records b F.mem L (str e) e (codes s) rn mo) := by
  have hrank := group_rank_lt g e h2
  rw [locate_overlaps, signed_rank_of_lt cfg e (lt_of_le_of_lt h2 g.small)]
  simp only
  rw [if_pos (group_mod g.base_mod _ hrank).symm]
  exact local_locate_spec cfg cs b base L ids F str inv g pfuel hpf _ m hloc rn mo s W e hW
    h1 h2 hclean hne hm hlen hline

/-- The call `locate_overlaps` for a clean string that ends above the leaves writes the
records of the probe. -/
theorem locate_overlaps_spec (cfg : Config) (cs : Nat) (b : Build) (base L : Nat)
    (ids : List (List (Fin 5))) (F : Flat) (str : Nat → List (Fin 5))
    (inv : TrieInv L ids F str) (g : Group cfg cs base F) (pfuel : Nat)
    (hpf : 2 * L ≤ pfuel) :
    ∀ (m fuel : Nat), 2 * m ≤ fuel →
      LocateSpec cfg cs b base L F str (locate_overlaps cfg cs b fuel pfuel) m := by
  intro m
  induction m with
  | zero =>
    intro fuel _ W r s e rn mo _ _ _ _ _ hne hm
    cases s with
    | nil => exact absurd rfl hne
    | cons c s => simp at hm
  | succ m ih =>
    intro fuel hf W r s e rn mo hW h1 h2 hr hclean hne hm hlen hline
    have hrank := group_rank_lt g e h2
    by_cases hown : r = e / 2 ^ cfg.CHUNKBITS
    · obtain ⟨f, rfl⟩ : ∃ f, fuel = f + 1 := ⟨fuel - 1, by omega⟩
      rw [hown]
      exact locate_at_owner cfg cs b base L ids F str inv g pfuel hpf f m (ih f (by omega)) W
        s e rn mo hW h1 h2 hclean hne hm hlen hline
    · obtain ⟨f, rfl⟩ : ∃ f, fuel = f + 1 + 1 := ⟨fuel - 2, by omega⟩
      have hr2 : r < cs := by omega
      rw [locate_overlaps, signed_rank_of_lt cfg e (lt_of_le_of_lt h2 g.small)]
      simp only
      rw [group_mod g.base_mod r hr2, if_neg (fun h => hown h.symm),
        group_base g.base_mod r hr2, Nat.add_comm (e / 2 ^ cfg.CHUNKBITS) base,
        if_pos (group_dispatches g _ hrank (by omega)), if_neg (by omega)]
      exact locate_at_owner cfg cs b base L ids F str inv g pfuel hpf f m (ih f (by omega)) W
        s e rn mo hW h1 h2 hclean hne hm hlen hline


theorem segment_lookup {α : Type} (image : List α) (S seg i : Nat) (hseg : i % S < seg) :
    ((image.drop ((i / S) * S)).take seg)[i % S]? = image[i]? := by
  rw [List.getElem?_take_of_lt hseg, List.getElem?_drop]
  congr 1
  have := Nat.div_add_mod i S
  rw [Nat.mul_comm] at this
  exact this

/-- The group size for a trie whose last cell is not the first of a shard is the number
of the shard of that cell plus one. -/
theorem cluster_size_eq (cfg : Config) (G : Nat) (hG : G < 2 ^ 63) (hk : cfg.CHUNKBITS ≤ 63)
    (hmod : G % 2 ^ cfg.CHUNKBITS ≠ 0) :
    cluster_size cfg G = G / 2 ^ cfg.CHUNKBITS + 1 := by
  have hS : 0 < 2 ^ cfg.CHUNKBITS := Nat.two_pow_pos _
  have hS2 : 2 ^ cfg.CHUNKBITS ≤ 2 ^ 63 := Nat.pow_le_pow_right (by norm_num) hk
  have h64 : (2 : Nat) ^ 64 = 2 ^ 63 + 2 ^ 63 := by norm_num
  unfold cluster_size
  rw [chunksize_eq, Nat.mod_eq_of_lt (by omega)]
  have h1 := Nat.div_add_mod G (2 ^ cfg.CHUNKBITS)
  have h2 := Nat.mod_lt G hS
  have e : G + (2 ^ cfg.CHUNKBITS - 1) =
      (G % 2 ^ cfg.CHUNKBITS - 1) + (G / 2 ^ cfg.CHUNKBITS + 1) * 2 ^ cfg.CHUNKBITS := by
    have : (G / 2 ^ cfg.CHUNKBITS + 1) * 2 ^ cfg.CHUNKBITS =
        2 ^ cfg.CHUNKBITS * (G / 2 ^ cfg.CHUNKBITS) + 2 ^ cfg.CHUNKBITS := by ring
    omega
  rw [e, Nat.add_mul_div_right _ _ hS, Nat.div_eq_of_lt (by omega), Nat.zero_add]

theorem image_last (mem : Nat → CELL) (G : Nat) (hG : G < 2 ^ 63) :
    image_last_used_edge ((List.range (G + 1)).map mem) = G := by
  have h64 : (2 : Nat) ^ 64 = 2 ^ 63 + 2 ^ 63 := by norm_num
  unfold image_last_used_edge
  simp only [List.length_map, List.length_range]
  have : G + 1 + 2 ^ 64 - 1 = G + 2 ^ 64 := by omega
  rw [this, Nat.add_mod_right, Nat.mod_eq_of_lt (by omega)]


/-- The image written after construction: the cells `0 .. last` of the flat trie. -/
theorem dump_trie_image (cfg : Config) (hsz : cfg.mpisize * 2 ^ cfg.CHUNKBITS ≤ 2 ^ 63)
    (W : World) (F : Flat) (hrel : Rel cfg W F) (old : List CELL) :
    dump_trie cfg (cfg.mpisize + 1) W 0 old = .ok ((List.range (F.last + 1)).map F.mem) := by
  have inv := hrel.1
  have hS : 0 < 2 ^ cfg.CHUNKBITS := Nat.two_pow_pos _
  have hqlt : F.last / 2 ^ cfg.CHUNKBITS < cfg.mpisize := by
    rw [Nat.div_lt_iff_lt_mul hS]; exact inv.lt_max
  have h := dump_trie_from cfg hsz W F.last inv (F.last / 2 ^ cfg.CHUNKBITS) 0
    (cfg.mpisize + 1) old (by simp) (by omega)
  simp only [if_true, Nat.zero_mul, Nat.sub_zero, List.nil_append] at h
  rw [h, hrel.2, List.range_eq_range']

/-- After start-up on the image of a flat trie whose last cell is not the first cell of a
shard, every cluster-group holds the trie. -/
theorem holds_start (cfg : Config) (F : Flat) (hG : F.last < 2 ^ 63) (hk : cfg.CHUNKBITS ≤ 63)
    (hmod : F.last % 2 ^ cfg.CHUNKBITS ≠ 0) (base : Nat)
    (hb : base % cluster_size cfg F.last = 0)
    (hbl : base + cluster_size cfg F.last ≤
      (cfg.mpisize / cluster_size cfg F.last) * cluster_size cfg F.last) :
    Holds cfg base F (start_cluster cfg ((List.range (F.last + 1)).map F.mem)) := by
  have hS : 0 < 2 ^ cfg.CHUNKBITS := Nat.two_pow_pos _
  have hcs := cluster_size_eq cfg F.last hG hk hmod
  intro i hi
  have hdiv : i / 2 ^ cfg.CHUNKBITS ≤ F.last / 2 ^ cfg.CHUNKBITS := Nat.div_le_div_right hi
  have hr : i / 2 ^ cfg.CHUNKBITS < cluster_size cfg F.last := by omega
  have hmodr := group_mod hb _ hr
  have hle : (cfg.mpisize / cluster_size cfg F.last) * cluster_size cfg F.last ≤ cfg.mpisize :=
    Nat.div_mul_le_self _ _
  have hGd := Nat.div_add_mod F.last (2 ^ cfg.CHUNKBITS)
  have hid := Nat.div_add_mod i (2 ^ cfg.CHUNKBITS)
  have him := Nat.mod_lt i hS
  have hseg : i % 2 ^ cfg.CHUNKBITS <
      (if i / 2 ^ cfg.CHUNKBITS < cluster_size cfg F.last - 1 then 2 ^ cfg.CHUNKBITS
        else F.last % 2 ^ cfg.CHUNKBITS + 1) := by
    split
    · exact him
    · rename_i hnot
      have heq : i / 2 ^ cfg.CHUNKBITS = F.last / 2 ^ cfg.CHUNKBITS := by omega
      rw [heq] at hid
      omega
  have hlook := segment_lookup ((List.range (F.last + 1)).map F.mem) (2 ^ cfg.CHUNKBITS)
    (if i / 2 ^ cfg.CHUNKBITS < cluster_size cfg F.last - 1 then 2 ^ cfg.CHUNKBITS
      else F.last % 2 ^ cfg.CHUNKBITS + 1) i hseg
  have himg : ((List.range (F.last + 1)).map F.mem)[i]? = some (F.mem i) := by
    rw [List.getElem?_map, List.getElem?_range (by omega)]
    rfl
  rw [himg] at hlook
  have hlen : ((List.drop (i / 2 ^ cfg.CHUNKBITS * 2 ^ cfg.CHUNKBITS)
      ((List.range (F.last + 1)).map F.mem)).take
      (if i / 2 ^ cfg.CHUNKBITS < cluster_size cfg F.last - 1 then 2 ^ cfg.CHUNKBITS
        else F.last % 2 ^ cfg.CHUNKBITS + 1)).length =
      (if i / 2 ^ cfg.CHUNKBITS < cluster_size cfg F.last - 1 then 2 ^ cfg.CHUNKBITS
        else F.last % 2 ^ cfg.CHUNKBITS + 1) := by
    simp only [List.length_take, List.length_drop, List.length_map, List.length_range]
    have hmul : i / 2 ^ cfg.CHUNKBITS * 2 ^ cfg.CHUNKBITS =
        2 ^ cfg.CHUNKBITS * (i / 2 ^ cfg.CHUNKBITS) := Nat.mul_comm _ _
    split
    · rename_i hlt
      have h1 : i / 2 ^ cfg.CHUNKBITS + 1 ≤ F.last / 2 ^ cfg.CHUNKBITS := by omega
      have h2 := Nat.mul_le_mul_left (2 ^ cfg.CHUNKBITS) h1
      have h3 : 2 ^ cfg.CHUNKBITS * (i / 2 ^ cfg.CHUNKBITS + 1) =
          2 ^ cfg.CHUNKBITS * (i / 2 ^ cfg.CHUNKBITS) + 2 ^ cfg.CHUNKBITS := by ring
      omega
    · rename_i hnot
      have heq : i / 2 ^ cfg.CHUNKBITS = F.last / 2 ^ cfg.CHUNKBITS := by omega
      rw [heq] at hmul ⊢
      omega
  have hstart : startup cfg ((List.range (F.last + 1)).map F.mem)
      (base + i / 2 ^ cfg.CHUNKBITS) = Start.run
        { trie_cell := (List.drop (i / 2 ^ cfg.CHUNKBITS * 2 ^ cfg.CHUNKBITS)
            ((List.range (F.last + 1)).map F.mem)).take
            (if i / 2 ^ cfg.CHUNKBITS < cluster_size cfg F.last - 1 then 2 ^ cfg.CHUNKBITS
              else F.last % 2 ^ cfg.CHUNKBITS + 1)
          overlaps := [] } := by
    unfold startup
    simp only [image_last F.mem F.last hG, hmodr, mask_eq, chunksize_eq]
    rw [if_neg (by omega), if_neg (by omega), if_neg (by omega), if_neg (by
      rw [hlen]; exact fun h => h rfl)]
  show ((match startup cfg ((List.range (F.last + 1)).map F.mem)
      (base + i / 2 ^ cfg.CHUNKBITS) with
    | .run f => f
    | _ => { trie_cell := [], overlaps := [] }).trie_cell)[i % 2 ^ cfg.CHUNKBITS]? = _
  rw [hstart]
  exact hlook

/-- A cluster-group of the run has room for a flat trie whose last cell is not the first
cell of a shard. -/
theorem group_start (cfg : Config) (F : Flat) (hG : F.last < 2 ^ 63) (hk : cfg.CHUNKBITS ≤ 63)
    (hmod : F.last % 2 ^ cfg.CHUNKBITS ≠ 0) (base : Nat)
    (hb : base % cluster_size cfg F.last = 0)
    (hbl : base + cluster_size cfg F.last ≤
      (cfg.mpisize / cluster_size cfg F.last) * cluster_size cfg F.last) :
    Group cfg (cluster_size cfg F.last) base F := by
  have hS : 0 < 2 ^ cfg.CHUNKBITS := Nat.two_pow_pos _
  have hcs := cluster_size_eq cfg F.last hG hk hmod
  refine ⟨by rw [hcs]; exact Nat.succ_pos _, hb, hbl, ?_, hG⟩
  rw [hcs]
  exact (div_bounds (2 ^ cfg.CHUNKBITS) F.last hS).2


/-- The trie file written after construction from clean reads of one length is the image
of a well-shaped flat trie: the cells of the cluster up to the last cell of the file. -/
theorem overlap_setup (cfg : Config) (hk : 1 ≤ cfg.CHUNKBITS)
    (hsz : cfg.mpisize * 2 ^ cfg.CHUNKBITS ≤ 2 ^ 63) (hpeer : 1 ≤ cfg.mpisize) (L : Nat)
    (hL : 1 ≤ L) (reads : List (List Char)) (hlen : ∀ r ∈ reads, r.length = L)
    (hclean : ∀ r ∈ reads, Clean r) (hn : reads.length ≤ 2 ^ 63) (W : World)
    (hW : construct cfg reads = .ok W) (old image : List CELL)
    (himg : dump_trie cfg (cfg.mpisize + 1) W 0 old = .ok image) :
    ∃ str, TrieInv L (reads.map codes) ⟨cell_at cfg W, image_last_used_edge image⟩ str ∧
      image_last_used_edge image < 2 ^ 63 ∧
      image = (List.range (image_last_used_edge image + 1)).map (cell_at cfg W) := by
  rcases construct_spec cfg hk hsz hpeer L hL reads hlen hclean hn with
    ⟨⟨e, he⟩, _⟩ | ⟨W0, F, str, hW0, hrel, inv, _⟩
  · rw [he] at hW; exact absurd hW (by simp)
  rw [hW0] at hW
  simp only [Except.ok.injEq] at hW
  subst hW
  have hlt : F.last < 2 ^ 63 := lt_of_lt_of_le hrel.1.lt_max hsz
  rw [dump_trie_image cfg hsz W0 F hrel old] at himg
  simp only [Except.ok.injEq] at himg
  have hlast : image_last_used_edge image = F.last := by
    rw [← himg]; exact image_last F.mem F.last hlt
  have hF : (⟨cell_at cfg W0, image_last_used_edge image⟩ : Flat) = F := by
    rw [hlast, ← hrel.2]
  rw [hF]
  refine ⟨str, inv, by rw [hlast]; exact hlt, ?_⟩
  rw [hlast, ← hrel.2, himg]

/-- In a well-shaped trie, the search for symbols that end above the leaves finds a cell
exactly when the symbols label a path of child edges to it. -/
theorem anchor_iff_reach {L : Nat} {ids : List (List (Fin 5))} {F : Flat}
    {str : Nat → List (Fin 5)} (inv : TrieInv L ids F str) (hs : F.last < 2 ^ 63) :
    ∀ (cs : List (Fin 5)) (e c : Nat), 1 ≤ e → e ≤ F.last → cs ≠ [] →
      (str e).length + cs.length < L →
      (anchor F.mem e cs = some c ↔ reach F.mem e cs c) := by
  intro cs
  induction cs with
  | nil => intro e c _ _ h; exact absurd rfl h
  | cons x cs ih =>
    intro e c h1 h2 _ hlen
    simp only [List.length_cons] at hlen
    obtain ⟨hnt, hmask, hchild⟩ := child_word inv hs e x h1 h2 (by omega)
    cases cs with
    | nil =>
      simp only [anchor, reach, hmask]
      constructor
      · intro h
        split at h
        · exact absurd h (by simp)
        · rename_i hne
          simp only [Option.some.injEq] at h
          exact ⟨hne, hnt, h.symm⟩
      · rintro ⟨hne, _, hc⟩
        rw [if_neg hne, hc]
    | cons y cs =>
      by_cases hz : (F.mem e).edge x = 0
      · rw [anchor_none F.mem e x (y :: cs) (by rw [hmask]; exact hz)]
        simp only [reach, hz]
        simp
      · obtain ⟨hlt, hle, hstr⟩ := hchild hz
        rw [anchor_step F.mem e x y cs _ hmask hz]
        have hrec := ih ((F.mem e).edge x) c (by omega) hle (by simp)
          (by rw [hstr]; simp only [List.length_append, List.length_cons, List.length_nil]
              simp only [List.length_cons] at hlen; omega)
        rw [hrec]
        constructor
        · intro h
          exact ⟨hz, hnt, h⟩
        · intro h
          exact h.2.2

/-- The cell found for symbols that end above the leaves is an allocated cell whose
string is the string of the start followed by the symbols. -/
theorem reach_cell {L : Nat} {ids : List (List (Fin 5))} {F : Flat}
    {str : Nat → List (Fin 5)} (inv : TrieInv L ids F str) :
    ∀ (cs : List (Fin 5)) (e c : Nat), 1 ≤ e → e ≤ F.last → reach F.mem e cs c →
      1 ≤ c ∧ c ≤ F.last ∧ str c = str e ++ cs := by
  intro cs
  induction cs with
  | nil =>
    intro e c h1 h2 h
    simp only [reach] at h
    subst h
    exact ⟨h1, h2, by simp⟩
  | cons x cs ih =>
    intro e c h1 h2 h
    simp only [reach] at h
    obtain ⟨hz, hnt, hr⟩ := h
    have hch := child_of_bounded inv.bounded h1 h2 hz hnt
    obtain ⟨a1, a2, a3⟩ := ih _ c (by omega) hch.2 hr
    refine ⟨a1, a2, ?_⟩
    rw [a3, inv.str_child e x h1 h2 hz hnt]
    simp


theorem holds_emitted {cfg : Config} {base : Nat} {F : Flat} {W : Cluster}
    (h : Holds cfg base F W) (prs : List (Nat × Record)) : Holds cfg base F (emit_all W prs) := by
  intro i hi
  rw [emit_all_trie_cell]
  exact h i hi

/-- One probe of the overlap phase, on the trie file written after construction from clean
reads of one length, in a cluster-group that holds the file: `locate_overlaps` from the
root on the first rank of the group returns, and writes the records of the probe. -/
theorem probe_run (cfg cfg2 : Config) (L : Nat) (reads : List (List Char))
    (hk : 1 ≤ cfg.CHUNKBITS) (hsz : cfg.mpisize * 2 ^ cfg.CHUNKBITS ≤ 2 ^ 63)
    (hpeer : 1 ≤ cfg.mpisize) (hL : 1 ≤ L) (hlen : ∀ r ∈ reads, r.length = L)
    (hclean : ∀ r ∈ reads, Clean r) (hn : reads.length ≤ 2 ^ 63) (W : World)
    (hW : construct cfg reads = .ok W) (old image : List CELL)
    (himg : dump_trie cfg (cfg.mpisize + 1) W 0 old = .ok image)
    (hk1 : 1 ≤ cfg2.CHUNKBITS) (hk2 : cfg2.CHUNKBITS ≤ 63)
    (hmod : image_last_used_edge image % 2 ^ cfg2.CHUNKBITS ≠ 0) (base : Nat)
    (hb : base % cluster_size cfg2 (image_last_used_edge image) = 0)
    (hbl : base + cluster_size cfg2 (image_last_used_edge image) ≤
      (cfg2.mpisize / cluster_size cfg2 (image_last_used_edge image)) *
        cluster_size cfg2 (image_last_used_edge image))
    (b : Build) (x : List Char) (hx : Clean x) (hne : x ≠ []) (hxL : x.length < L)
    (hline : L ≤ MAX_LINE) (fuel pfuel : Nat) (hf : 2 * x.length ≤ fuel)
    (hpf : 2 * L ≤ pfuel) (done : List (Nat × Record)) (rn mo : Nat) :
    ∃ str, TrieInv L (reads.map codes) ⟨cell_at cfg W, image_last_used_edge image⟩ str ∧
      image_last_used_edge image < 2 ^ 63 ∧
      ∃ V1, locate_overlaps cfg2 (cluster_size cfg2 (image_last_used_edge image)) b fuel pfuel
          (emit_all (start_cluster cfg2 image) done) base x ROOT_CELL rn mo = .ok V1 ∧
        Emits base (cluster_size cfg2 (image_last_used_edge image))
          (emit_all (start_cluster cfg2 image) done) V1
          (probe_records b (cell_at cfg W) L [] ROOT_CELL (codes x) rn mo) := by
  obtain ⟨str, inv, hsmall, himage⟩ := overlap_setup cfg hk hsz hpeer L hL reads hlen hclean hn
    W hW old image himg
  refine ⟨str, inv, hsmall, ?_⟩
  have hstart := holds_start cfg2 ⟨cell_at cfg W, image_last_used_edge image⟩ hsmall hk2 hmod
    base hb hbl
  have hgroup := group_start cfg2 ⟨cell_at cfg W, image_last_used_edge image⟩ hsmall hk2 hmod
    base hb hbl
  simp only at hstart hgroup
  rw [← himage] at hstart
  have hroot : ROOT_CELL / 2 ^ cfg2.CHUNKBITS = 0 := by
    apply Nat.div_eq_of_lt
    calc ROOT_CELL < 2 ^ 1 := by decide
      _ ≤ 2 ^ cfg2.CHUNKBITS := Nat.pow_le_pow_right (by norm_num) hk1
  have h := locate_overlaps_spec cfg2 _ b base L (reads.map codes) _ str inv hgroup pfuel hpf
    x.length fuel hf (emit_all (start_cluster cfg2 image) done) 0 x ROOT_CELL rn mo
    (holds_emitted hstart done) (le_refl _) inv.root_le (Nat.zero_le _) hx hne (le_refl _)
    (by rw [inv.str_root]; simpa using hxL) (by omega)
  rw [inv.str_root, Nat.add_zero] at h
  exact h


theorem emits_nil_eq {base cs : Nat} {W W1 : Cluster} (h : Emits base cs W W1 []) : W1 = W := by
  obtain ⟨prs, e, m, _⟩ := h
  have : prs = [] := by simpa using m
  rw [e, this]
  rfl

theorem emits_single {base cs : Nat} {W W1 : Cluster} {r : Record}
    (h : Emits base cs W W1 [r]) : ∃ q, base ≤ q ∧ q < base + cs ∧ W1 = emit W q r := by
  obtain ⟨prs, e, m, hb⟩ := h
  match prs, m, hb, e with
  | [p], m, hb, e =>
    simp only [List.map_cons, List.map_nil, List.cons.injEq, and_true] at m
    refine ⟨p.1, (hb p (by simp)).1, (hb p (by simp)).2, ?_⟩
    rw [e, ← m]
    rfl

/-- The line of a probe in a group that holds the whole trie file.  Without
`AMOS_OVERLAPS`, on the trie file written after construction from clean
reads of one length `L` and in a cluster-group that holds the file (the last cell is not
the first of a shard), for every source read identifier `r` and every clean probe string
`x` of `1 ≤ l ≤ L - 1` letters, `locate_overlaps` from the root on the first rank of the
group returns; when the symbols of `x` label a path from the root to a cell `c` it writes
exactly one record, the line `r:(L-l) @c` with the global index `c`, on a rank of the
group, and when they label no such path (an edge on the way is empty) it writes
nothing. -/
theorem locate_writes_cell_line (cfg cfg2 : Config) (L : Nat) (reads : List (List Char))
    (hk : 1 ≤ cfg.CHUNKBITS) (hsz : cfg.mpisize * 2 ^ cfg.CHUNKBITS ≤ 2 ^ 63)
    (hpeer : 1 ≤ cfg.mpisize) (hL : 1 ≤ L) (hlen : ∀ r ∈ reads, r.length = L)
    (hclean : ∀ r ∈ reads, Clean r) (hn : reads.length ≤ 2 ^ 63) (W : World)
    (hW : construct cfg reads = .ok W) (old image : List CELL)
    (himg : dump_trie cfg (cfg.mpisize + 1) W 0 old = .ok image)
    (hk1 : 1 ≤ cfg2.CHUNKBITS) (hk2 : cfg2.CHUNKBITS ≤ 63)
    (hmod : image_last_used_edge image % 2 ^ cfg2.CHUNKBITS ≠ 0) (base : Nat)
    (hb : base % cluster_size cfg2 (image_last_used_edge image) = 0)
    (hbl : base + cluster_size cfg2 (image_last_used_edge image) ≤
      (cfg2.mpisize / cluster_size cfg2 (image_last_used_edge image)) *
        cluster_size cfg2 (image_last_used_edge image))
    (b : Build) (hdefault : b.AMOS_OVERLAPS = false) (x : List Char) (hx : Clean x)
    (hx1 : 1 ≤ x.length) (hx2 : x.length ≤ L - 1) (hline : L ≤ MAX_LINE) (fuel pfuel : Nat)
    (hf : 2 * x.length ≤ fuel) (hpf : 2 * L ≤ pfuel) (done : List (Nat × Record)) (r : Nat) :
    ∃ V1, locate_overlaps cfg2 (cluster_size cfg2 (image_last_used_edge image)) b fuel pfuel
        (emit_all (start_cluster cfg2 image) done) base x ROOT_CELL r (L - x.length) = .ok V1 ∧
      (∀ c, reach (cell_at cfg W) ROOT_CELL (codes x) c →
        ∃ q, base ≤ q ∧ q < base + cluster_size cfg2 (image_last_used_edge image) ∧
          V1 = emit (emit_all (start_cluster cfg2 image) done) q
            (Record.node r (L - x.length) c)) ∧
      ((∀ c, ¬ reach (cell_at cfg W) ROOT_CELL (codes x) c) →
        V1 = emit_all (start_cluster cfg2 image) done) := by
  have hne : x ≠ [] := by
    intro h; rw [h] at hx1; simp at hx1
  obtain ⟨str, inv, hsmall, V1, hrun, hem⟩ := probe_run cfg cfg2 L reads hk hsz hpeer hL hlen
    hclean hn W hW old image himg hk1 hk2 hmod base hb hbl b x hx hne (by omega) hline fuel
    pfuel hf hpf done r (L - x.length)
  have hiff := fun c => anchor_iff_reach inv hsmall (codes x) ROOT_CELL c (le_refl _)
    inv.root_le (by simpa [codes] using hne)
    (by rw [inv.str_root]; simp only [codes, List.length_nil, List.length_map]; omega)
  simp only at hiff
  refine ⟨V1, hrun, ?_, ?_⟩
  · intro c hc
    have ha := (hiff c).2 hc
    unfold probe_records at hem
    rw [ha] at hem
    simp only [hdefault, Bool.false_eq_true, if_false] at hem
    exact emits_single hem
  · intro hnone
    have ha : anchor (cell_at cfg W) ROOT_CELL (codes x) = none := by
      cases h : anchor (cell_at cfg W) ROOT_CELL (codes x) with
      | none => rfl
      | some c => exact absurd ((hiff c).1 h) (hnone c)
    unfold probe_records at hem
    rw [ha] at hem
    exact emits_nil_eq hem

theorem locate_writes_cell_line_witness :
    ∃ W image V1 q,
      construct ⟨1, 4⟩ [['A', 'C', 'G', 'T'], ['G', 'T', 'A', 'C']] = .ok W ∧
      dump_trie ⟨1, 4⟩ 5 W 0 [] = .ok image ∧
      locate_overlaps ⟨1, 4⟩ (cluster_size ⟨1, 4⟩ (image_last_used_edge image)) default_build
        4 8 (start_cluster ⟨1, 4⟩ image) 0 ['A', 'C'] ROOT_CELL 1 2 = .ok V1 ∧
      V1 = emit (start_cluster ⟨1, 4⟩ image) q (Record.node 1 2 3) := by
  have key : ∃ W image,
      construct ⟨1, 4⟩ [['A', 'C', 'G', 'T'], ['G', 'T', 'A', 'C']] = .ok W ∧
      dump_trie ⟨1, 4⟩ 5 W 0 [] = .ok image ∧
      image_last_used_edge image % 2 ^ 1 ≠ 0 ∧
      0 % cluster_size ⟨1, 4⟩ (image_last_used_edge image) = 0 ∧
      0 + cluster_size ⟨1, 4⟩ (image_last_used_edge image) ≤
        (4 / cluster_size ⟨1, 4⟩ (image_last_used_edge image)) *
          cluster_size ⟨1, 4⟩ (image_last_used_edge image) ∧
      reach (cell_at ⟨1, 4⟩ W) ROOT_CELL (codes ['A', 'C']) 3 :=
    ⟨_, _, rfl, rfl, by decide, by decide, by decide, by decide⟩
  obtain ⟨W, image, hW, himg, hmod, hb, hbl, hreach⟩ := key
  obtain ⟨V1, hrun, hsome, _⟩ := locate_writes_cell_line ⟨1, 4⟩ ⟨1, 4⟩ 4
    [['A', 'C', 'G', 'T'], ['G', 'T', 'A', 'C']] (by decide) (by decide) (by decide)
    (by decide) (by decide) (by simp [Clean, at_end]) (by decide) W hW [] image himg
    (by decide) (by decide) hmod 0 hb hbl default_build rfl ['A', 'C']
    (by simp [Clean, at_end]) (by decide) (by decide) (by decide) 4 8 (by decide) (by decide)
    [] 1
  obtain ⟨q, _, _, hq⟩ := hsome 3 hreach
  exact ⟨W, image, V1, q, hW, himg, hrun, hq⟩


/-- A path to a cell followed by a path from that cell to a leaf is a path to the leaf. -/
theorem spells_append (mem : Nat → CELL) :
    ∀ (pre : List (Fin 5)) (e c : Nat) (cs : List (Fin 5)) (path : List Nat) (w : Nat),
      reach mem e pre c → spells mem c cs path w → ∃ path1, spells mem e (pre ++ cs) path1 w := by
  intro pre
  induction pre with
  | nil =>
    intro e c cs path w h hs
    simp only [reach] at h
    subst h
    exact ⟨path, hs⟩
  | cons c0 pre ih =>
    intro e c cs path w h hs
    simp only [reach] at h
    obtain ⟨path1, hp⟩ := ih _ c cs path w h.2.2 hs
    refine ⟨e :: path1, ?_⟩
    cases hcs : pre ++ cs with
    | nil =>
      rw [hcs] at hp
      simp [spells] at hp
    | cons c2 cs2 =>
      rw [hcs] at hp
      simp only [List.cons_append, hcs, spells]
      exact ⟨trivial, h.1, h.2.1, hp⟩

/-- A leaf listed below the cell that symbols `xs` lead to from the root belongs to a read
whose symbols start with `xs`, and carries the identifier of the first such read. -/
theorem leaf_below_anchor {L : Nat} {ids : List (List (Fin 5))} {F : Flat}
    {str : Nat → List (Fin 5)} (inv : TrieInv L ids F str) (hn : ids.length ≤ 2 ^ 63)
    (xs : List (Fin 5)) (c d : Nat) (hreach : reach F.mem ROOT_CELL xs c)
    (p : List (Fin 5)) (id : Nat) (h : (p, id) ∈ leaves F.mem d c xs) :
    p ∈ ids ∧ id = first_index p ids ∧ p.take xs.length = xs := by
  obtain ⟨cs, path, w, _, hp, hs, hid⟩ := (mem_leaves F.mem d c xs p id).1 h
  obtain ⟨path1, hs1⟩ := spells_append F.mem xs ROOT_CELL c cs path w hreach hs
  rw [← hp] at hs1
  obtain ⟨h1, h2⟩ := leaf_of_spells inv hn p path1 w hs1
  refine ⟨h1, by rw [hid, h2], ?_⟩
  rw [hp, List.take_left']
  rfl

theorem clean_drop {s : List Char} (h : Clean s) (d : Nat) : Clean (s.drop d) :=
  fun c hc => h c (List.mem_of_mem_drop hc)

theorem alphabet_drop {s : List Char} (h : Alphabet s) (d : Nat) : Alphabet (s.drop d) :=
  fun c hc => h c (List.mem_of_mem_drop hc)

theorem alphabet_take {s : List Char} (h : Alphabet s) (d : Nat) : Alphabet (s.take d) :=
  fun c hc => h c (List.mem_of_mem_take hc)

/-- The records of a probe in a group that holds the whole trie file.  With
`AMOS_OVERLAPS`, on the trie file written after construction from clean reads
of one length `L` and in a cluster-group that holds the file (the last cell is not the
first of a shard), the probe of a source read `A` at offset `1 ≤ d ≤ L - 1`, that is
`locate_overlaps` on the last `L - d` letters of `A`, returns, and every record it writes
is the record `OVL` of the source read and of a read `B` of the input, numbered by its
first occurrence, such that the first `L - d` symbols of `B` are the last `L - d` symbols
of `A`; for reads over `A`, `C`, `G`, `T`, `N` these are the letters themselves. -/
theorem ovl_records_are_overlaps (cfg cfg2 : Config) (L : Nat) (reads : List (List Char))
    (hk : 1 ≤ cfg.CHUNKBITS) (hsz : cfg.mpisize * 2 ^ cfg.CHUNKBITS ≤ 2 ^ 63)
    (hpeer : 1 ≤ cfg.mpisize) (hL : 1 ≤ L) (hlen : ∀ r ∈ reads, r.length = L)
    (hclean : ∀ r ∈ reads, Clean r) (hn : reads.length ≤ 2 ^ 63) (W : World)
    (hW : construct cfg reads = .ok W) (old image : List CELL)
    (himg : dump_trie cfg (cfg.mpisize + 1) W 0 old = .ok image)
    (hk1 : 1 ≤ cfg2.CHUNKBITS) (hk2 : cfg2.CHUNKBITS ≤ 63)
    (hmod : image_last_used_edge image % 2 ^ cfg2.CHUNKBITS ≠ 0) (base : Nat)
    (hb : base % cluster_size cfg2 (image_last_used_edge image) = 0)
    (hbl : base + cluster_size cfg2 (image_last_used_edge image) ≤
      (cfg2.mpisize / cluster_size cfg2 (image_last_used_edge image)) *
        cluster_size cfg2 (image_last_used_edge image))
    (b : Build) (hamos : b.AMOS_OVERLAPS = true) (A : List Char) (hA : Clean A)
    (hAlen : A.length = L) (d : Nat) (hd1 : 1 ≤ d) (hd2 : d ≤ L - 1) (hline : L ≤ MAX_LINE)
    (fuel pfuel : Nat) (hf : 2 * L ≤ fuel) (hpf : 2 * L ≤ pfuel)
    (done : List (Nat × Record)) (rn : Nat) :
    ∃ V1 prs, locate_overlaps cfg2 (cluster_size cfg2 (image_last_used_edge image)) b fuel
        pfuel (emit_all (start_cluster cfg2 image) done) base (A.drop d) ROOT_CELL rn d =
        .ok V1 ∧
      V1 = emit_all (emit_all (start_cluster cfg2 image) done) prs ∧
      ∀ p ∈ prs, ∃ B ∈ reads,
        p.2 = Record.OVL (1 + rn) (1 + first_index (codes B) (reads.map codes)) d d ∧
        (codes B).take (L - d) = (codes A).drop d ∧
        ((∀ y ∈ reads, Alphabet y) → Alphabet A →
          first_index (codes B) (reads.map codes) = first_index B reads ∧
          B.take (L - d) = A.drop d) := by
  have hxl : (A.drop d).length = L - d := by rw [List.length_drop, hAlen]
  have hne : A.drop d ≠ [] := by
    intro h
    rw [h] at hxl
    simp only [List.length_nil] at hxl
    omega
  obtain ⟨str, inv, hsmall, V1, hrun, prs, hV1, hmap, _⟩ := probe_run cfg cfg2 L reads hk hsz
    hpeer hL hlen hclean hn W hW old image himg hk1 hk2 hmod base hb hbl b (A.drop d)
    (clean_drop hA d) hne (by omega) hline fuel pfuel (by omega) hpf done rn d
  refine ⟨V1, prs, hrun, hV1, ?_⟩
  intro p hp
  have hcl : (codes (A.drop d)).length = L - d := by
    rw [codes, List.length_map, hxl]
  have hpr : p.2 ∈ probe_records b (cell_at cfg W) L [] ROOT_CELL (codes (A.drop d)) rn d := by
    rw [← hmap]; exact List.mem_map_of_mem _ hp
  unfold probe_records at hpr
  cases ha : anchor (cell_at cfg W) ROOT_CELL (codes (A.drop d)) with
  | none => rw [ha] at hpr; simp at hpr
  | some c =>
    rw [ha] at hpr
    simp only [hamos, if_true, List.nil_append, ovl_records, List.mem_map] at hpr
    obtain ⟨y, hy, hrec⟩ := hpr
    have hreach := (anchor_iff_reach inv hsmall (codes (A.drop d)) ROOT_CELL c (le_refl _)
      inv.root_le (by simpa [codes] using hne)
      (by rw [inv.str_root, hcl]; simp only [List.length_nil]; omega)).1 ha
    obtain ⟨h1, h2, h3⟩ := leaf_below_anchor inv (by simpa using hn) (codes (A.drop d)) c _
      hreach y.1 y.2 (List.mem_of_mem_take hy)
    obtain ⟨B, hB, hBc⟩ := List.mem_map.1 h1
    have hcodes : (codes B).take (L - d) = (codes A).drop d := by
      rw [hBc, ← hcl, h3]
      simp [codes, List.map_drop]
    refine ⟨B, hB, ?_, hcodes, ?_⟩
    · rw [← hrec, hBc, h2]
    · intro halpha hAalpha
      refine ⟨first_index_codes B (halpha B hB) reads halpha, ?_⟩
      apply codes_injOn _ _ (alphabet_take (halpha B hB) _) (alphabet_drop hAalpha _)
      simp only [codes, List.map_take, List.map_drop]
      exact hcodes


theorem ovl_records_are_overlaps_witness :
    ∃ W image V1 prs,
      construct ⟨1, 4⟩ [['A', 'C', 'G', 'T'], ['G', 'T', 'A', 'C']] = .ok W ∧
      dump_trie ⟨1, 4⟩ 5 W 0 [] = .ok image ∧
      locate_overlaps ⟨1, 4⟩ (cluster_size ⟨1, 4⟩ (image_last_used_edge image)) amos_build
        8 8 (start_cluster ⟨1, 4⟩ image) 0 (['G', 'T', 'A', 'C'].drop 2) ROOT_CELL 1 2 =
        .ok V1 ∧
      V1 = emit_all (start_cluster ⟨1, 4⟩ image) prs ∧
      ∀ p ∈ prs, ∃ B ∈ [['A', 'C', 'G', 'T'], ['G', 'T', 'A', 'C']],
        p.2 = Record.OVL 2
          (1 + first_index B [['A', 'C', 'G', 'T'], ['G', 'T', 'A', 'C']]) 2 2 ∧
        B.take 2 = ['A', 'C'] := by
  have key : ∃ W image,
      construct ⟨1, 4⟩ [['A', 'C', 'G', 'T'], ['G', 'T', 'A', 'C']] = .ok W ∧
      dump_trie ⟨1, 4⟩ 5 W 0 [] = .ok image ∧
      image_last_used_edge image % 2 ^ 1 ≠ 0 ∧
      0 % cluster_size ⟨1, 4⟩ (image_last_used_edge image) = 0 ∧
      0 + cluster_size ⟨1, 4⟩ (image_last_used_edge image) ≤
        (4 / cluster_size ⟨1, 4⟩ (image_last_used_edge image)) *
          cluster_size ⟨1, 4⟩ (image_last_used_edge image) :=
    ⟨_, _, rfl, rfl, by decide, by decide, by decide⟩
  obtain ⟨W, image, hW, himg, hmod, hb, hbl⟩ := key
  have halpha : ∀ y ∈ [['A', 'C', 'G', 'T'], ['G', 'T', 'A', 'C']], Alphabet y := by
    simp [Alphabet]
  obtain ⟨V1, prs, hrun, hV1, hall⟩ := ovl_records_are_overlaps ⟨1, 4⟩ ⟨1, 4⟩ 4
    [['A', 'C', 'G', 'T'], ['G', 'T', 'A', 'C']] (by decide) (by decide) (by decide)
    (by decide) (by decide) (by simp [Clean, at_end]) (by decide) W hW [] image himg
    (by decide) (by decide) hmod 0 hb hbl amos_build rfl ['G', 'T', 'A', 'C']
    (by simp [Clean, at_end]) rfl 2 (by decide) (by decide) (by decide) 8 8 (by decide)
    (by decide) [] 1
  refine ⟨W, image, V1, prs, hW, himg, hrun, hV1, ?_⟩
  intro p hp
  obtain ⟨B, hB, hrec, _, hal⟩ := hall p hp
  obtain ⟨h1, h2⟩ := hal halpha (halpha _ (by simp))
  exact ⟨B, hB, by rw [hrec, h1], h2⟩


/-- The number of records of a probe in a group that holds the whole trie file.  With
`AMOS_OVERLAPS`, on the trie file written after construction from clean reads
of one length `L` and in a cluster-group that holds the file (the last cell is not the
first of a shard, the cells may lie on several ranks), one probe whose string `x` leads to
the cell `c` writes exactly the records of the first `MAX_OVERLAPS` leaves below `c`, the
leaves being listed in the order `A < C < G < T < N` of their strings: `min (MAX_OVERLAPS,
n)` records for `n` leaves, so exactly 8 when `MAX_OVERLAPS` is 8 and `n` is at least
20. -/
theorem probe_emits_first_leaves (cfg cfg2 : Config) (L : Nat) (reads : List (List Char))
    (hk : 1 ≤ cfg.CHUNKBITS) (hsz : cfg.mpisize * 2 ^ cfg.CHUNKBITS ≤ 2 ^ 63)
    (hpeer : 1 ≤ cfg.mpisize) (hL : 1 ≤ L) (hlen : ∀ r ∈ reads, r.length = L)
    (hclean : ∀ r ∈ reads, Clean r) (hn : reads.length ≤ 2 ^ 63) (W : World)
    (hW : construct cfg reads = .ok W) (old image : List CELL)
    (himg : dump_trie cfg (cfg.mpisize + 1) W 0 old = .ok image)
    (hk1 : 1 ≤ cfg2.CHUNKBITS) (hk2 : cfg2.CHUNKBITS ≤ 63)
    (hmod : image_last_used_edge image % 2 ^ cfg2.CHUNKBITS ≠ 0) (base : Nat)
    (hb : base % cluster_size cfg2 (image_last_used_edge image) = 0)
    (hbl : base + cluster_size cfg2 (image_last_used_edge image) ≤
      (cfg2.mpisize / cluster_size cfg2 (image_last_used_edge image)) *
        cluster_size cfg2 (image_last_used_edge image))
    (b : Build) (hamos : b.AMOS_OVERLAPS = true) (x : List Char) (hx : Clean x)
    (hx1 : 1 ≤ x.length) (hx2 : x.length ≤ L - 1) (hline : L ≤ MAX_LINE) (fuel pfuel : Nat)
    (hf : 2 * x.length ≤ fuel) (hpf : 2 * L ≤ pfuel) (done : List (Nat × Record))
    (rn mo c : Nat) (hreach : reach (cell_at cfg W) ROOT_CELL (codes x) c) :
    ∃ V1 prs, locate_overlaps cfg2 (cluster_size cfg2 (image_last_used_edge image)) b fuel
        pfuel (emit_all (start_cluster cfg2 image) done) base x ROOT_CELL rn mo = .ok V1 ∧
      V1 = emit_all (emit_all (start_cluster cfg2 image) done) prs ∧
      prs.map Prod.snd = ovl_records rn mo
        ((leaves (cell_at cfg W) (L - x.length) c (codes x)).take b.MAX_OVERLAPS) ∧
      prs.length = min b.MAX_OVERLAPS (leaves (cell_at cfg W) (L - x.length) c (codes x)).length ∧
      (b.MAX_OVERLAPS = 8 → 20 ≤ (leaves (cell_at cfg W) (L - x.length) c (codes x)).length →
        prs.length = 8) ∧
      (leaves (cell_at cfg W) (L - x.length) c (codes x)).Pairwise
        (fun u v => List.Lex (fun i j : Fin 5 => i < j) u.1 v.1) ∧
      (∀ p id, (p, id) ∈ leaves (cell_at cfg W) (L - x.length) c (codes x) ↔
        ∃ cs path w, cs.length ≤ L - x.length ∧ p = codes x ++ cs ∧
          spells (cell_at cfg W) c cs path w ∧ id = w &&& EDGE_MASK) ∧
      ∀ p ∈ prs, base ≤ p.1 ∧ p.1 < base + cluster_size cfg2 (image_last_used_edge image) := by
  have hne : x ≠ [] := by
    intro h; rw [h] at hx1; simp at hx1
  obtain ⟨str, inv, hsmall, V1, hrun, prs, hV1, hmap, hranks⟩ := probe_run cfg cfg2 L reads hk
    hsz hpeer hL hlen hclean hn W hW old image himg hk1 hk2 hmod base hb hbl b x hx hne
    (by omega) hline fuel pfuel hf hpf done rn mo
  have ha := (anchor_iff_reach inv hsmall (codes x) ROOT_CELL c (le_refl _)
    inv.root_le (by simpa [codes] using hne)
    (by rw [inv.str_root]; simp only [codes, List.length_nil, List.length_map]; omega)).2
    hreach
  simp only at ha
  unfold probe_records at hmap
  rw [ha] at hmap
  simp only [hamos, if_true, List.nil_append, List.length_nil, Nat.zero_add, codes,
    List.length_map] at hmap
  have hlen2 : prs.length =
      min b.MAX_OVERLAPS (leaves (cell_at cfg W) (L - x.length) c (codes x)).length := by
    have := congrArg List.length hmap
    simp only [List.length_map, ovl_records, List.length_take] at this
    exact this
  refine ⟨V1, prs, hrun, hV1, hmap, hlen2, ?_, leaves_sorted _ _ _ _, ?_, hranks⟩
  · intro h8 h20
    rw [hlen2, h8]
    omega
  · intro p id
    exact mem_leaves _ _ _ _ _ _


theorem nine_reads_clean : ∀ r ∈ nine_reads, Clean r := by
  intro r hr c hc
  have hc2 : c = 'A' ∨ c = 'C' ∨ c = 'G' ∨ c = 'T' ∨ c = 'N' := by
    simp only [nine_reads, List.mem_cons, List.mem_singleton, List.not_mem_nil, or_false] at hr
    rcases hr with h | h | h | h | h | h | h | h | h <;> subst h <;>
      simp only [List.mem_append, List.mem_replicate, List.mem_cons, List.mem_singleton,
        List.not_mem_nil, or_false] at hc <;>
      rcases hc with ⟨_, h⟩ | h | h <;> simp [h]
  rcases hc2 with h | h | h | h | h <;> subst h <;> rfl

set_option maxRecDepth 100000 in
theorem probe_emits_first_leaves_witness :
    ∃ W image V1 prs,
      construct ⟨2, 8⟩ nine_reads = .ok W ∧
      dump_trie ⟨2, 8⟩ 9 W 0 [] = .ok image ∧
      locate_overlaps ⟨2, 8⟩ (cluster_size ⟨2, 8⟩ (image_last_used_edge image)) amos_build
        32 32 (start_cluster ⟨2, 8⟩ image) 0 (List.replicate 14 'A') ROOT_CELL 0 2 = .ok V1 ∧
      V1 = emit_all (start_cluster ⟨2, 8⟩ image) prs ∧
      (leaves (cell_at ⟨2, 8⟩ W) 2 15 (codes (List.replicate 14 'A'))).length = 9 ∧
      prs.length = 8 := by
  have key : ∃ W image,
      construct ⟨2, 8⟩ nine_reads = .ok W ∧
      dump_trie ⟨2, 8⟩ 9 W 0 [] = .ok image ∧
      image_last_used_edge image % 2 ^ 2 ≠ 0 ∧
      0 % cluster_size ⟨2, 8⟩ (image_last_used_edge image) = 0 ∧
      0 + cluster_size ⟨2, 8⟩ (image_last_used_edge image) ≤
        (8 / cluster_size ⟨2, 8⟩ (image_last_used_edge image)) *
          cluster_size ⟨2, 8⟩ (image_last_used_edge image) ∧
      reach (cell_at ⟨2, 8⟩ W) ROOT_CELL (codes (List.replicate 14 'A')) 15 ∧
      (leaves (cell_at ⟨2, 8⟩ W) 2 15 (codes (List.replicate 14 'A'))).length = 9 :=
    ⟨_, _, rfl, rfl, by decide, by decide, by decide, by decide, by decide⟩
  obtain ⟨W, image, hW, himg, hmod, hb, hbl, hreach, hnine⟩ := key
  obtain ⟨V1, prs, hrun, hV1, _, hlen, _⟩ := probe_emits_first_leaves ⟨2, 8⟩ ⟨2, 8⟩ 16
    nine_reads (by decide) (by decide) (by decide) (by decide) (by decide) nine_reads_clean
    (by decide) W hW [] image himg (by decide) (by decide) hmod 0 hb hbl amos_build rfl
    (List.replicate 14 'A') (by intro c hc; rw [List.eq_of_mem_replicate hc]; rfl)
    (by decide) (by decide) (by decide) 32 32 (by decide) (by decide) [] 0 2 15 hreach
  refine ⟨W, image, V1, prs, hW, himg, hrun, hV1, hnine, ?_⟩
  have h16 : 16 - (List.replicate 14 'A').length = 2 := by decide
  rw [h16, hnine] at hlen
  rw [hlen]
  rfl


theorem digit_char (d : Nat) (h : d < 10) :
    (Char.ofNat (48 + d)).isDigit = true ∧ (Char.ofNat (48 + d)).toNat - 48 = d ∧
      Char.ofNat (48 + d) ≠ ' ' ∧ Char.ofNat (48 + d) ≠ Char.ofNat 0 := by
  interval_cases d <;> decide

/-- The digits written for a number: all are digits, there are at most `k` of them for a
number below `10 ^ k`, and they spell the number. -/
theorem digits_rev_spec :
    ∀ (fuel n k : Nat), n < fuel → n < 10 ^ k → 1 ≤ k →
      (∀ c ∈ digits_rev fuel n, c.isDigit = true ∧ c ≠ ' ' ∧ c ≠ Char.ofNat 0) ∧
      digits_rev fuel n ≠ [] ∧ (digits_rev fuel n).length ≤ k ∧
      (digits_rev fuel n).foldr (fun c acc => 10 * acc + (c.toNat - 48)) 0 = n := by
  intro fuel
  induction fuel with
  | zero => intro n k h; omega
  | succ fuel ih =>
    intro n k hn hk hk1
    have hd := digit_char (n % 10) (Nat.mod_lt _ (by norm_num))
    rw [digits_rev]
    by_cases hz : n / 10 = 0
    · rw [if_pos hz]
      refine ⟨?_, by simp, by simpa using hk1, ?_⟩
      · intro c hc
        simp only [List.mem_singleton] at hc
        rw [hc]; exact ⟨hd.1, hd.2.2.1, hd.2.2.2⟩
      · simp only [List.foldr_cons, List.foldr_nil, Nat.mul_zero, Nat.zero_add, hd.2.1]
        omega
    · rw [if_neg hz]
      obtain ⟨k1, rfl⟩ : ∃ k1, k = k1 + 1 := ⟨k - 1, by omega⟩
      have hk2 : 1 ≤ k1 := by
        by_contra hcon
        have : k1 = 0 := by omega
        subst this
        simp only [Nat.zero_add, pow_one] at hk
        omega
      have hlt : n / 10 < 10 ^ k1 := by
        rw [Nat.div_lt_iff_lt_mul (by norm_num)]
        rw [pow_succ] at hk
        exact hk
      obtain ⟨h1, _, h3, h4⟩ := ih (n / 10) k1 (by omega) hlt hk2
      refine ⟨?_, by simp, by simp only [List.length_cons]; omega, ?_⟩
      · intro c hc
        rcases List.mem_cons.1 hc with h | h
        · rw [h]; exact ⟨hd.1, hd.2.2.1, hd.2.2.2⟩
        · exact h1 c h
      · simp only [List.foldr_cons, h4, hd.2.1]
        omega

theorem decimal_spec (n : Nat) (h : n < 10 ^ 12) :
    (∀ c ∈ decimal n, c.isDigit = true ∧ c ≠ ' ' ∧ c ≠ Char.ofNat 0) ∧ decimal n ≠ [] ∧
      (decimal n).length ≤ 12 ∧ atoll (decimal n) = n := by
  obtain ⟨h1, h2, h3, h4⟩ := digits_rev_spec (n + 1) n 12 (by omega) h (by norm_num)
  have hall : ∀ c ∈ decimal n, c.isDigit = true ∧ c ≠ ' ' ∧ c ≠ Char.ofNat 0 := by
    intro c hc
    exact h1 c (List.mem_reverse.1 hc)
  refine ⟨hall, by simpa [decimal] using h2, by simpa [decimal] using h3, ?_⟩
  unfold atoll
  have htw : (decimal n).takeWhile Char.isDigit = decimal n := by
    rw [List.takeWhile_eq_self_iff]
    intro c hc
    exact (hall c hc).1
  rw [htw, decimal, List.foldl_reverse]
  exact h4

theorem c_string_self : ∀ (s : List Char), (∀ c ∈ s, c ≠ Char.ofNat 0) → c_string s = s := by
  intro s
  induction s with
  | nil => intro _; rfl
  | cons c s ih =>
    intro h
    rw [c_string, if_neg (h c (List.mem_cons_self _ _)),
      ih (fun x hx => h x (List.mem_cons_of_mem _ hx))]

theorem takeWhile_until (t rest : List Char) (h : ∀ c ∈ t, c ≠ ' ') :
    (t ++ ' ' :: rest).takeWhile (fun c => c ≠ ' ') = t := by
  induction t with
  | nil => simp
  | cons c t ih =>
    have hc := h c (List.mem_cons_self _ _)
    simp only [List.cons_append, List.takeWhile_cons, hc, ne_eq, not_false_eq_true,
      decide_True, if_true]
    rw [ih (fun x hx => h x (List.mem_cons_of_mem _ hx))]

theorem dropWhile_spaces (k : Nat) (s : List Char) (h : ∀ c, s.head? = some c → c ≠ ' ') :
    (List.replicate k ' ' ++ s).dropWhile (fun c => c = ' ') = s := by
  induction k with
  | zero =>
    simp only [List.replicate_zero, List.nil_append]
    cases s with
    | nil => rfl
    | cons c s =>
      have := h c rfl
      simp [List.dropWhile_cons, this]
  | succ k ih =>
    simp only [List.replicate_succ, List.cons_append, List.dropWhile_cons, decide_True, if_true]
    exact ih

theorem text_chars (p : List (Fin 5)) :
    ∀ c ∈ text p, c ≠ ' ' ∧ c ≠ Char.ofNat 0 ∧ at_end [c] = false := by
  intro c hc
  simp only [text, List.mem_map] at hc
  obtain ⟨i, _, rfl⟩ := hc
  fin_cases i <;> decide

theorem text_clean (p : List (Fin 5)) : Clean (text p) :=
  fun c hc => (text_chars p c hc).2.2


/-- The shape of a line of the `-sorted` file for a read of `L` symbols with an identifier
below `10 ^ 12`. -/
theorem sorted_line_shape (p : List (Fin 5)) (a : Nat) (ha : a < 10 ^ 12) :
    (sorted_line (text p, a)).length = p.length + 13 ∧
    c_string (sorted_line (text p, a)) = sorted_line (text p, a) ∧
    ' ' ∈ sorted_line (text p, a) ∧
    ((sorted_line (text p, a)).takeWhile (fun c => c ≠ ' ')).length = p.length ∧
    ((sorted_line (text p, a)).drop (p.length + 1)).dropWhile (fun c => c = ' ') = decimal a ∧
    (sorted_line (text p, a)).take p.length = text p := by
  obtain ⟨hdig, hne, hlen, _⟩ := decimal_spec a ha
  have htl := text_length p
  refine ⟨?_, ?_, ?_, ?_, ?_, ?_⟩
  · simp only [sorted_line, List.length_append, List.length_cons, List.length_replicate, htl]
    omega
  · apply c_string_self
    intro c hc
    simp only [sorted_line, List.mem_append, List.mem_cons, List.mem_replicate] at hc
    rcases hc with h | h | ⟨_, h⟩ | h
    · exact (text_chars p c h).2.1
    · rw [h]; decide
    · rw [h]; decide
    · exact (hdig c h).2.2
  · simp [sorted_line]
  · simp only [sorted_line]
    rw [takeWhile_until _ _ (fun c hc => (text_chars p c hc).1), htl]
  · simp only [sorted_line]
    have e : text p ++ ' ' :: (List.replicate (12 - (decimal a).length) ' ' ++ decimal a) =
        (text p ++ [' ']) ++ (List.replicate (12 - (decimal a).length) ' ' ++ decimal a) := by
      simp
    rw [e, List.drop_left' (by simp [htl])]
    apply dropWhile_spaces
    intro c hc
    have : c ∈ decimal a := List.mem_of_mem_head? hc
    exact (hdig c this).2.1
  · simp only [sorted_line]
    rw [List.take_left' htl]

theorem decimal_head (a : Nat) (ha : a < 10 ^ 12) :
    (decimal a).head?.map Char.isDigit = some true := by
  obtain ⟨hdig, hne, _, _⟩ := decimal_spec a ha
  cases h : decimal a with
  | nil => exact absurd h hne
  | cons c s =>
    have := (hdig c (by rw [h]; exact List.mem_cons_self _ _)).1
    simp [this]

/-- One round of the main loop for a line of the `-sorted` file: the probes run when the
group is the one that the number of the line selects. -/
theorem process_sorted_line (cfg : Config) (cs : Nat) (b : Build) (fuel pfuel mpirank L : Nat)
    (hL : 1 ≤ L) (hmax : L + 13 < MAX_LINE) (p : List (Fin 5)) (hp : p.length = L) (a : Nat)
    (ha : a < 10 ^ 12) (st : Driver) (hst : st.read_length = 0 ∨ st.read_length = L) :
    process_line cfg cs b fuel pfuel mpirank st (sorted_line (text p, a)) =
      if (st.read_number + 1) % (cfg.mpisize / cs) = cluster_base cs mpirank / cs then
        match probe_loop cfg cs b fuel pfuel mpirank (text p) L a (probe_lengths b L)
            st.cluster with
        | .error e => .error e
        | .ok W1 => .ok { read_length := L, read_number := st.read_number + 1, cluster := W1 }
      else .ok { read_length := L, read_number := st.read_number + 1, cluster := st.cluster } := by
  obtain ⟨h1, h2, h3, h4, h5, h6⟩ := sorted_line_shape p a ha
  rw [hp] at h1 h4 h5 h6
  have hrl : (if st.read_length = 0 then
      ((sorted_line (text p, a)).takeWhile (fun c => c ≠ ' ')).length
      else st.read_length) = L := by
    rcases hst with h | h
    · rw [if_pos h, h4]
    · rw [if_neg (by omega), h]
  unfold process_line
  simp only [h2, hrl, h5]
  rewrite [if_neg (by rw [h1]; omega), if_neg (fun h => h.2 h3), if_neg (by rw [h1]; exact fun h => h rfl),
    if_neg (by rw [decimal_head a ha]; exact fun h => h rfl), (decimal_spec a ha).2.2.2, h6]
  rfl


/-- The loop of the probes of one read writes the records of its probes, longest string
first. -/
theorem probe_loop_spec (cfg : Config) (cs : Nat) (b : Build) (base L : Nat)
    (ids : List (List (Fin 5))) (F : Flat) (str : Nat → List (Fin 5))
    (inv : TrieInv L ids F str) (g : Group cfg cs base F) (fuel pfuel : Nat)
    (hf : 2 * L ≤ fuel) (hpf : 2 * L ≤ pfuel) (hline : L ≤ MAX_LINE) (t : List Char)
    (ht : Clean t) (htl : t.length = L) (a : Nat) :
    ∀ (lens : List Nat), (∀ len ∈ lens, 1 ≤ len ∧ len ≤ L - 1) →
      ∀ V, Holds cfg base F V →
        ∃ V1, probe_loop cfg cs b fuel pfuel base t L a lens V = .ok V1 ∧
          Emits base cs V V1 (lens.flatMap (fun len =>
            probe_records b F.mem L [] ROOT_CELL (codes (t.drop (L - len))) a (L - len))) := by
  intro lens
  induction lens with
  | nil =>
    intro _ V _
    exact ⟨V, rfl, emits_refl base cs V⟩
  | cons len more ih =>
    intro hlens V hV
    obtain ⟨h1, h2⟩ := hlens len (List.mem_cons_self _ _)
    have hxl : (t.drop (L - len)).length = len := by
      rw [List.length_drop, htl]; omega
    have hne : t.drop (L - len) ≠ [] := by
      intro h; rw [h] at hxl; simp only [List.length_nil] at hxl; omega
    obtain ⟨V1, hrun, hem⟩ := locate_overlaps_spec cfg cs b base L ids F str inv g pfuel hpf
      (t.drop (L - len)).length fuel (by omega) V 0 (t.drop (L - len)) ROOT_CELL a (L - len)
      hV (le_refl _) inv.root_le (Nat.zero_le _) (clean_drop ht _) hne (le_refl _)
      (by rw [inv.str_root, hxl]; simp only [List.length_nil]; omega) (by omega)
    rw [Nat.add_zero] at hrun
    rw [inv.str_root] at hem
    obtain ⟨V2, hrun2, hem2⟩ := ih (fun x hx => hlens x (List.mem_cons_of_mem _ hx)) V1
      (holds_of_emits hV hem)
    refine ⟨V2, ?_, ?_⟩
    · rw [probe_loop, hrun]
      exact hrun2
    · rw [List.flatMap_cons]
      exact emits_trans hem hem2

theorem probe_lengths_bounds (b : Build) (hmin : 1 ≤ b.MIN_OVERLAP) (L : Nat) :
    ∀ len ∈ probe_lengths b L, 1 ≤ len ∧ len ≤ L - 1 := by
  intro len hlen
  simp only [probe_lengths, List.mem_reverse, List.mem_range'_1] at hlen
  omega

/-- The main loop over lines of the `-sorted` file writes the records of the probes of the
lines that the group processes, in the order of the file. -/
theorem main_loop_spec (cfg : Config) (cs : Nat) (b : Build) (base L : Nat)
    (ids : List (List (Fin 5))) (F : Flat) (str : Nat → List (Fin 5))
    (inv : TrieInv L ids F str) (g : Group cfg cs base F) (fuel pfuel : Nat)
    (hf : 2 * L ≤ fuel) (hpf : 2 * L ≤ pfuel) (hL : 1 ≤ L) (hmax : L + 13 < MAX_LINE)
    (hmin : 1 ≤ b.MIN_OVERLAP) :
    ∀ (recs : List (List (Fin 5) × Nat)), (∀ r ∈ recs, r.1.length = L ∧ r.2 < 10 ^ 12) →
      ∀ (st : Driver), (st.read_length = 0 ∨ st.read_length = L) →
        Holds cfg base F st.cluster →
        ∃ st1, main_loop cfg cs b fuel pfuel base (recs.map (fun r => sorted_line (text r.1, r.2)))
            st = .ok st1 ∧
          Emits base cs st.cluster st1.cluster
            (pass_records b F.mem L (cfg.mpisize / cs) (cluster_base cs base / cs)
              (recs.map (fun r => (text r.1, r.2))) st.read_number) := by
  intro recs
  induction recs with
  | nil =>
    intro _ st _ _
    exact ⟨st, rfl, emits_refl base cs _⟩
  | cons r more ih =>
    intro hrecs st hst hV
    obtain ⟨hr1, hr2⟩ := hrecs r (List.mem_cons_self _ _)
    simp only [List.map_cons]
    rw [main_loop, process_sorted_line cfg cs b fuel pfuel base L hL hmax r.1 hr1 r.2 hr2 st hst]
    rw [pass_records]
    by_cases hsel : (st.read_number + 1) % (cfg.mpisize / cs) = cluster_base cs base / cs
    · rw [if_pos hsel, if_pos hsel]
      obtain ⟨V1, hrun, hem⟩ := probe_loop_spec cfg cs b base L ids F str inv g fuel pfuel hf hpf
        (by omega) (text r.1) (text_clean r.1) (by rw [text_length, hr1]) r.2
        (probe_lengths b L) (probe_lengths_bounds b hmin L) st.cluster hV
      rw [hrun]
      simp only
      obtain ⟨st1, hrun1, hem1⟩ := ih (fun x hx => hrecs x (List.mem_cons_of_mem _ hx))
        { read_length := L, read_number := st.read_number + 1, cluster := V1 } (Or.inr rfl)
        (holds_of_emits hV hem)
      exact ⟨st1, hrun1, emits_trans hem hem1⟩
    · rw [if_neg hsel, if_neg hsel]
      simp only
      obtain ⟨st1, hrun1, hem1⟩ := ih (fun x hx => hrecs x (List.mem_cons_of_mem _ hx))
        { read_length := L, read_number := st.read_number + 1, cluster := st.cluster }
        (Or.inr rfl) hV
      exact ⟨st1, hrun1, by simpa using hem1⟩


/-- A path to a leaf splits at every inner position into a path to a cell and a path from
that cell to the leaf. -/
theorem spells_split (mem : Nat → CELL) :
    ∀ (xs : List (Fin 5)) (e : Nat) (cs : List (Fin 5)) (path : List Nat) (w : Nat),
      cs ≠ [] → spells mem e (xs ++ cs) path w →
      ∃ c path2, reach mem e xs c ∧ spells mem c cs path2 w := by
  intro xs
  induction xs with
  | nil =>
    intro e cs path w _ h
    exact ⟨e, path, by simp [reach], h⟩
  | cons x xs ih =>
    intro e cs path w hcs h
    cases hrest : xs ++ cs with
    | nil =>
      have : cs = [] := (List.append_eq_nil.1 hrest).2
      exact absurd this hcs
    | cons c2 rest =>
      cases path with
      | nil => simp [List.cons_append, hrest, spells] at h
      | cons e1 path1 =>
        simp only [List.cons_append, hrest, spells] at h
        obtain ⟨_, h2, h3, h4⟩ := h
        rw [← hrest] at h4
        obtain ⟨c, path2, hr, hs⟩ := ih _ cs path1 w hcs h4
        exact ⟨c, path2, by simp only [reach]; exact ⟨h2, h3, hr⟩, hs⟩

theorem emit_log (W : Cluster) (p : Nat) (r : Record) : (emit W p r).log = W.log ++ [(p, r)] :=
  rfl

theorem emit_all_log (prs : List (Nat × Record)) :
    ∀ (W : Cluster), (emit_all W prs).log = W.log ++ prs := by
  induction prs with
  | nil => intro W; simp [emit_all]
  | cons p prs ih =>
    intro W
    show (emit_all (emit W p.1 p.2) prs).log = _
    rw [ih, emit_log]
    simp

theorem mem_pass_records (b : Build) (mem : Nat → CELL) (L R g : Nat) :
    ∀ (recs : List (List Char × Nat)) (n j : Nat) (rec0 : List Char × Nat),
      recs[j]? = some rec0 → (n + j + 1) % R = g →
      ∀ x ∈ line_records b mem L rec0.1 rec0.2, x ∈ pass_records b mem L R g recs n := by
  intro recs
  induction recs with
  | nil => intro n j rec0 h; simp at h
  | cons r more ih =>
    intro n j rec0 h hsel x hx
    rw [pass_records]
    cases j with
    | zero =>
      simp only [List.getElem?_cons_zero, Option.some.injEq] at h
      subst h
      rw [if_pos (by simpa using hsel)]
      exact List.mem_append_left _ hx
    | succ j =>
      simp only [List.getElem?_cons_succ] at h
      apply List.mem_append_right
      exact ih (n + 1) j rec0 h (by rw [← hsel]; congr 1; omega) x hx

theorem mem_line_records (b : Build) (mem : Nat → CELL) (L : Nat) (t : List Char) (a l : Nat)
    (h1 : b.MIN_OVERLAP ≤ l) (h2 : l ≤ L - 1) (hL : 1 ≤ L) (x : Record)
    (hx : x ∈ probe_records b mem L [] ROOT_CELL (codes (t.drop (L - l))) a (L - l)) :
    x ∈ line_records b mem L t a := by
  unfold line_records
  rw [List.mem_flatMap]
  refine ⟨l, ?_, hx⟩
  simp only [probe_lengths, List.mem_reverse, List.mem_range'_1]
  omega

/-- The `-sorted` file written after construction lists the leaves below the root. -/
theorem sorted_file_eq (cfg : Config) (L : Nat) (reads : List (List Char))
    (stack : List Char) (fuel : Nat)
    (hk : 1 ≤ cfg.CHUNKBITS) (hsz : cfg.mpisize * 2 ^ cfg.CHUNKBITS ≤ 2 ^ 63)
    (hpeer : 1 ≤ cfg.mpisize) (hL : 1 ≤ L) (hlen : ∀ r ∈ reads, r.length = L)
    (hclean : ∀ r ∈ reads, Clean r) (hn : reads.length ≤ 2 ^ 63)
    (hstack : stack.length = MAX_LINE) (hline : L < MAX_LINE) (hfuel : L ≤ fuel) (W W1 : World)
    (hW : construct cfg reads = .ok W) (hwalk : walk_and_print_trie cfg stack fuel W = .ok W1) :
    (W1.peer (cfg.mpisize - 1)).sorted_and_unique_reads =
      sorted_lines (leaves (cell_at cfg W) L ROOT_CELL []) := by
  rcases construct_spec cfg hk hsz hpeer L hL reads hlen hclean hn with
    ⟨⟨e, he⟩, _⟩ | ⟨W0, F, str, hW0, hrel, inv, _⟩
  · rw [he] at hW; exact absurd hW (by simp)
  rw [hW0] at hW
  simp only [Except.ok.injEq] at hW
  subst hW
  have hcap : F.last < cfg.mpisize * 2 ^ cfg.CHUNKBITS := hrel.1.lt_max
  have hroot : ROOT_CELL / 2 ^ cfg.CHUNKBITS = 0 := by
    apply Nat.div_eq_of_lt
    calc ROOT_CELL < 2 ^ 1 := by decide
      _ ≤ 2 ^ cfg.CHUNKBITS := Nat.pow_le_pow_right (by norm_num) hk
  obtain ⟨s1, hw, _, _⟩ := walk_internal_spec cfg stack L (reads.map codes) F str inv hcap
    (by rw [hstack]; exact hline) L fuel hfuel W0 0 stack ROOT_CELL [] stack hrel.2.symm
    (le_refl _) inv.root_le (Nat.zero_le _) inv.str_root (by simp) hL rfl
    (by rw [hstack]; exact hline) (fun h => absurd hroot h)
  have h0 : ([] : List (Fin 5)).length = 0 := rfl
  rw [h0] at hw
  unfold walk_and_print_trie at hwalk
  rw [hw] at hwalk
  simp only [Except.ok.injEq] at hwalk
  rw [← hwalk, ← hrel.2]
  simp only [append_lines, world_set_peer_same, construct_output cfg reads W0 hW0,
    List.nil_append]


/-- Two members of a list with the same first position are equal. -/
theorem first_index_inj {α : Type} [DecidableEq α] (x y : α) :
    ∀ (l : List α), x ∈ l → y ∈ l → first_index x l = first_index y l → x = y := by
  intro l
  induction l with
  | nil => intro hx; exact absurd hx (List.not_mem_nil _)
  | cons z zs ih =>
    intro hx hy h
    simp only [first_index] at h
    by_cases hzx : z = x
    · by_cases hzy : z = y
      · rw [← hzx, ← hzy]
      · rw [if_pos hzx, if_neg hzy] at h; omega
    · by_cases hzy : z = y
      · rw [if_neg hzx, if_pos hzy] at h; omega
      · rw [if_neg hzx, if_neg hzy] at h
        have hx1 : x ∈ zs := by
          rcases List.mem_cons.1 hx with h1 | h1
          · exact absurd h1.symm hzx
          · exact h1
        have hy1 : y ∈ zs := by
          rcases List.mem_cons.1 hy with h1 | h1
          · exact absurd h1.symm hzy
          · exact h1
        exact ih hx1 hy1 (by omega)

/-- The leaves listed below a cell are pairwise different. -/
theorem leaves_nodup (mem : Nat → CELL) (d c : Nat) (pre : List (Fin 5)) :
    (leaves mem d c pre).Nodup := by
  refine (leaves_sorted mem d c pre).imp ?_
  intro u v huv heq
  rw [heq] at huv
  exact lex_irrefl v.1 huv

/-- In a list without repetition an entry has one position. -/
theorem nodup_index_unique {α : Type} (l : List α) (hnd : l.Nodup) (i j : Nat) (x : α)
    (hi : l[i]? = some x) (hj : l[j]? = some x) : i = j := by
  obtain ⟨hi1, hi2⟩ := List.getElem?_eq_some_iff.1 hi
  obtain ⟨hj1, hj2⟩ := List.getElem?_eq_some_iff.1 hj
  exact (List.Nodup.getElem_inj_iff hnd).1 (hi2.trans hj2.symm)

/-- Every record of a pass is a record of a line that the group takes. -/
theorem mem_pass_records_inv (b : Build) (mem : Nat → CELL) (L R g : Nat) :
    ∀ (recs : List (List Char × Nat)) (n : Nat) (x : Record),
      x ∈ pass_records b mem L R g recs n →
      ∃ j rec0, recs[j]? = some rec0 ∧ (n + j + 1) % R = g ∧
        x ∈ line_records b mem L rec0.1 rec0.2 := by
  intro recs
  induction recs with
  | nil => intro n x h; simp [pass_records] at h
  | cons r more ih =>
    intro n x h
    rw [pass_records, List.mem_append] at h
    rcases h with h | h
    · by_cases hsel : (n + 1) % R = g
      · rw [if_pos hsel] at h
        exact ⟨0, r, by simp, by simpa using hsel, h⟩
      · rw [if_neg hsel] at h; exact absurd h (List.not_mem_nil _)
    · obtain ⟨j, rec0, h1, h2, h3⟩ := ih (n + 1) x h
      refine ⟨j + 1, rec0, by simpa using h1, ?_, h3⟩
      rw [← h2]; congr 1; omega

/-- Every record of a line is the record of the probe of one length `MIN_OVERLAP ≤ l <
L`. -/
theorem mem_line_records_inv (b : Build) (mem : Nat → CELL) (L : Nat) (t : List Char)
    (a : Nat) (x : Record) (h : x ∈ line_records b mem L t a) :
    ∃ l, b.MIN_OVERLAP ≤ l ∧ l < L ∧
      x ∈ probe_records b mem L [] ROOT_CELL (codes (t.drop (L - l))) a (L - l) := by
  unfold line_records at h
  rw [List.mem_flatMap] at h
  obtain ⟨l, hl, hx⟩ := h
  simp only [probe_lengths, List.mem_reverse, List.mem_range'_1] at hl
  exact ⟨l, by omega, by omega, hx⟩

/-- A record of a probe from the root: with `AMOS_OVERLAPS` the record `OVL` of one of the
first `MAX_OVERLAPS` leaves below the cell found, without it the line of that cell. -/
theorem mem_probe_records_inv (b : Build) (mem : Nat → CELL) (L : Nat) (xs : List (Fin 5))
    (rn mo : Nat) (x : Record) (h : x ∈ probe_records b mem L [] ROOT_CELL xs rn mo) :
    ∃ c, anchor mem ROOT_CELL xs = some c ∧
      ((b.AMOS_OVERLAPS = true ∧
          ∃ y ∈ (leaves mem (L - xs.length) c xs).take b.MAX_OVERLAPS,
            x = Record.OVL (1 + rn) (1 + y.2) mo mo) ∨
        (b.AMOS_OVERLAPS = false ∧ x = Record.node rn mo c)) := by
  unfold probe_records at h
  cases ha : anchor mem ROOT_CELL xs with
  | none => rw [ha] at h; exact absurd h (List.not_mem_nil _)
  | some c =>
    rw [ha] at h
    refine ⟨c, rfl, ?_⟩
    by_cases hamos : b.AMOS_OVERLAPS = true
    · left
      simp only [hamos, if_true, List.nil_append, List.length_nil, Nat.zero_add, ovl_records,
        List.mem_map] at h
      obtain ⟨y, hy, hx⟩ := h
      exact ⟨hamos, y, hy, hx.symm⟩
    · right
      have h0 : b.AMOS_OVERLAPS = false := by simpa using hamos
      simp only [h0, Bool.false_eq_true, if_false, List.mem_singleton] at h
      exact ⟨h0, h⟩

/-- C4, amended. On the trie file and the `-sorted` file written after construction from
at most `10 ^ 12` clean reads of one length `L ≤ 1010` (so that every identifier fits the
12 columns of its field, and a line fits `MAX_LINE`), in a cluster-group that holds the
trie file (the last cell is not the first of a shard), the main loop of the group returns,
and the records it has written are, in this order, the records `pass_records` of the
probes of the lines that the group takes.  For every line of the `-sorted` file that the
group processes (the number `j + 1` of the line selects the group), holding the stored
read `t` with identifier `a`, every length `MIN_OVERLAP ≤ l ≤ L - 1` and every read `B` of
the input whose first `l` symbols are the last `l` symbols of `t`: the last `l` letters of
`t` lead to a cell `c`, the leaf of `B` is listed below `c`, and with `AMOS_OVERLAPS` the
record `OVL` of `a` and `B` at offset `L - l` is written if and only if that leaf is among
the first `MAX_OVERLAPS` leaves below `c` (a later leaf gets no record), and without
`AMOS_OVERLAPS` the line `a:(L-l) @c` is written.  Without `AMOS_OVERLAPS` every record
written is such a line, none is a record `OVL` of a pair; with it every record is a
record `OVL`. -/
theorem overlap_pass_writes_capped (cfg cfg2 : Config) (L : Nat) (reads : List (List Char))
    (hk : 1 ≤ cfg.CHUNKBITS) (hsz : cfg.mpisize * 2 ^ cfg.CHUNKBITS ≤ 2 ^ 63)
    (hpeer : 1 ≤ cfg.mpisize) (hL : 1 ≤ L) (hlen : ∀ r ∈ reads, r.length = L)
    (hclean : ∀ r ∈ reads, Clean r) (hn : reads.length ≤ 10 ^ 12) (W : World)
    (hW : construct cfg reads = .ok W) (old image : List CELL)
    (himg : dump_trie cfg (cfg.mpisize + 1) W 0 old = .ok image)
    (stack : List Char) (wfuel : Nat) (hstack : stack.length = MAX_LINE)
    (hmax : L + 13 < MAX_LINE) (hwf : L ≤ wfuel) (W1 : World)
    (hwalk : walk_and_print_trie cfg stack wfuel W = .ok W1)
    (hk2 : cfg2.CHUNKBITS ≤ 63)
    (hmod : image_last_used_edge image % 2 ^ cfg2.CHUNKBITS ≠ 0) (base : Nat)
    (hb : base % cluster_size cfg2 (image_last_used_edge image) = 0)
    (hbl : base + cluster_size cfg2 (image_last_used_edge image) ≤
      (cfg2.mpisize / cluster_size cfg2 (image_last_used_edge image)) *
        cluster_size cfg2 (image_last_used_edge image))
    (b : Build) (hmin : 1 ≤ b.MIN_OVERLAP) (fuel pfuel : Nat) (hf : 2 * L ≤ fuel)
    (hpf : 2 * L ≤ pfuel) :
    ∃ V, overlap_pass cfg2 b fuel pfuel base image
        ((W1.peer (cfg.mpisize - 1)).sorted_and_unique_reads.map sorted_line) = .ok V ∧
      V.log.map Prod.snd = pass_records b (cell_at cfg W) L
        (cfg2.mpisize / cluster_size cfg2 (image_last_used_edge image))
        (base / cluster_size cfg2 (image_last_used_edge image))
        (W1.peer (cfg.mpisize - 1)).sorted_and_unique_reads 0 ∧
      (b.AMOS_OVERLAPS = false →
        ∀ r ∈ V.log.map Prod.snd, ∃ rn mo c, r = Record.node rn mo c) ∧
      (b.AMOS_OVERLAPS = true →
        ∀ r ∈ V.log.map Prod.snd, ∃ rn id mo, r = Record.OVL (1 + rn) (1 + id) mo mo) ∧
      ∀ (j : Nat) (t : List Char) (a : Nat),
        (W1.peer (cfg.mpisize - 1)).sorted_and_unique_reads[j]? = some (t, a) →
        (j + 1) % (cfg2.mpisize / cluster_size cfg2 (image_last_used_edge image)) =
          base / cluster_size cfg2 (image_last_used_edge image) →
        ∀ l, b.MIN_OVERLAP ≤ l → l ≤ L - 1 →
          ∀ B ∈ reads, (codes B).take l = codes (t.drop (L - l)) →
            ∃ c k, reach (cell_at cfg W) ROOT_CELL (codes (t.drop (L - l))) c ∧
              (leaves (cell_at cfg W) (L - l) c (codes (t.drop (L - l))))[k]? =
                some (codes B, first_index (codes B) (reads.map codes)) ∧
              (b.AMOS_OVERLAPS = true →
                (Record.OVL (1 + a) (1 + first_index (codes B) (reads.map codes)) (L - l)
                  (L - l) ∈ V.log.map Prod.snd ↔ k < b.MAX_OVERLAPS)) ∧
              (b.AMOS_OVERLAPS = false →
                Record.node a (L - l) c ∈ V.log.map Prod.snd) := by
  have hn63 : reads.length ≤ 2 ^ 63 := le_trans hn (by norm_num)
  obtain ⟨str, inv, hsmall, himage⟩ := overlap_setup cfg hk hsz hpeer L hL reads hlen hclean
    hn63 W hW old image himg
  have hfile := sorted_file_eq cfg L reads stack wfuel hk hsz hpeer hL hlen hclean hn63 hstack
    (by omega) hwf W W1 hW hwalk
  have hstart := holds_start cfg2 ⟨cell_at cfg W, image_last_used_edge image⟩ hsmall hk2 hmod
    base hb hbl
  have hgroup := group_start cfg2 ⟨cell_at cfg W, image_last_used_edge image⟩ hsmall hk2 hmod
    base hb hbl
  simp only at hstart hgroup
  rw [← himage] at hstart
  have hids : (reads.map codes).length ≤ 2 ^ 63 := by simpa using hn63
  have hidlen : ∀ x ∈ reads.map codes, x.length = L := by
    intro x hx
    obtain ⟨r, hr, rfl⟩ := List.mem_map.1 hx
    simpa [codes] using hlen r hr
  have hrecs : ∀ r ∈ leaves (cell_at cfg W) L ROOT_CELL [], r.1.length = L ∧ r.2 < 10 ^ 12 := by
    intro r hr
    obtain ⟨h1, h2⟩ := (mem_leaves_root inv hids hidlen r.1 r.2).1 hr
    refine ⟨hidlen _ h1, ?_⟩
    have := first_index_lt_of_mem _ _ h1
    simp only [List.length_map] at this
    omega
  obtain ⟨st1, hrun, prs, hV, hmap, _⟩ := main_loop_spec cfg2 _ b base L (reads.map codes) _ str
    inv hgroup fuel pfuel hf hpf hL hmax hmin (leaves (cell_at cfg W) L ROOT_CELL []) hrecs
    { read_length := 0, read_number := 0, cluster := start_cluster cfg2 image } (Or.inl rfl)
    hstart
  have hlines : (W1.peer (cfg.mpisize - 1)).sorted_and_unique_reads.map sorted_line =
      (leaves (cell_at cfg W) L ROOT_CELL []).map (fun r => sorted_line (text r.1, r.2)) := by
    rw [hfile, sorted_lines, List.map_map]
    rfl
  have hbase : cluster_base (cluster_size cfg2 (image_last_used_edge image)) base = base := by
    have := group_base hb 0 hgroup.cs_pos
    simpa using this
  rw [hbase] at hmap
  simp only at hV hmap
  have hlog : st1.cluster.log.map Prod.snd = pass_records b (cell_at cfg W) L
      (cfg2.mpisize / cluster_size cfg2 (image_last_used_edge image))
      (base / cluster_size cfg2 (image_last_used_edge image))
      (List.map (fun r => (text r.1, r.2)) (leaves (cell_at cfg W) L ROOT_CELL [])) 0 := by
    rw [hV, emit_all_log, ← hmap]
    simp [start_cluster]
  have hshape : ∀ x ∈ st1.cluster.log.map Prod.snd, ∃ rn mo xs c,
      anchor (cell_at cfg W) ROOT_CELL xs = some c ∧
      ((b.AMOS_OVERLAPS = true ∧
          ∃ y ∈ (leaves (cell_at cfg W) (L - xs.length) c xs).take b.MAX_OVERLAPS,
            x = Record.OVL (1 + rn) (1 + y.2) mo mo) ∨
        (b.AMOS_OVERLAPS = false ∧ x = Record.node rn mo c)) := by
    intro x hx
    rw [hlog] at hx
    obtain ⟨j, rec0, _, _, hline⟩ := mem_pass_records_inv _ _ _ _ _ _ _ _ hx
    obtain ⟨l, _, _, hprobe⟩ := mem_line_records_inv _ _ _ _ _ _ hline
    obtain ⟨c, hc, hcase⟩ := mem_probe_records_inv _ _ _ _ _ _ _ hprobe
    exact ⟨_, _, _, c, hc, hcase⟩
  refine ⟨st1.cluster, ?_, ?_, ?_, ?_, ?_⟩
  · unfold overlap_pass
    rw [hlines, hrun]
  · rw [hlog, hfile, sorted_lines]
  · intro hdef x hx
    obtain ⟨rn, mo, _, c, _, hcase⟩ := hshape x hx
    rcases hcase with ⟨hamos, _⟩ | ⟨_, hnode⟩
    · rw [hdef] at hamos; exact absurd hamos (by simp)
    · exact ⟨rn, mo, c, hnode⟩
  · intro hamos x hx
    obtain ⟨rn, mo, _, c, _, hcase⟩ := hshape x hx
    rcases hcase with ⟨_, y, _, hy⟩ | ⟨hdef, _⟩
    · exact ⟨rn, y.2, mo, hy⟩
    · rw [hamos] at hdef; exact absurd hdef (by simp)
  · intro j t a hj hsel l hl1 hl2 B hB hpre
    rw [hfile, sorted_lines] at hj
    have hin : ∀ x ∈ probe_records b (cell_at cfg W) L [] ROOT_CELL (codes (t.drop (L - l))) a
        (L - l), x ∈ st1.cluster.log.map Prod.snd := by
      intro x hx
      rw [hlog]
      exact mem_pass_records b _ L _ _ _ 0 j (t, a) hj (by simpa using hsel) x
        (mem_line_records b _ L t a l hl1 hl2 hL x hx)
    obtain ⟨r0, hr0, hrt⟩ := List.mem_map.1 (List.getElem?_mem hj)
    have ht1 : text r0.1 = t := congrArg Prod.fst hrt
    have ha1 : r0.2 = a := congrArg Prod.snd hrt
    obtain ⟨hr0mem, hr0id⟩ := (mem_leaves_root inv hids hidlen r0.1 r0.2).1 hr0
    have htlen : t.length = L := by
      rw [← ht1, text_length, (hrecs r0 hr0).1]
    have hxl : (codes (t.drop (L - l))).length = l := by
      rw [codes, List.length_map, List.length_drop, htlen]; omega
    have hBl : (codes B).length = L := by simpa [codes] using hlen B hB
    have hsplit : codes B = codes (t.drop (L - l)) ++ (codes B).drop l := by
      rw [← hpre, List.take_append_drop]
    have hcs : (codes B).drop l ≠ [] := by
      intro h
      have := congrArg List.length h
      simp only [List.length_drop, List.length_nil, hBl] at this
      omega
    obtain ⟨path, w, hsp⟩ := inv.present (codes B) (List.mem_map_of_mem _ hB)
    simp only at hsp
    obtain ⟨_, hpay⟩ := leaf_of_spells inv hids (codes B) path w hsp
    rw [hsplit] at hsp
    obtain ⟨c, path2, hreach, hsp2⟩ := spells_split _ _ ROOT_CELL _ path w hcs hsp
    have hleaf : (codes B, first_index (codes B) (reads.map codes)) ∈
        leaves (cell_at cfg W) (L - l) c (codes (t.drop (L - l))) := by
      rw [mem_leaves]
      exact ⟨(codes B).drop l, path2, w, by simp only [List.length_drop, hBl]; omega, hsplit,
        hsp2, hpay.symm⟩
    obtain ⟨k, hk⟩ := List.getElem?_of_mem hleaf
    have hne : codes (t.drop (L - l)) ≠ [] := by
      intro h; rw [h] at hxl; simp only [List.length_nil] at hxl; omega
    have ha := (anchor_iff_reach inv hsmall (codes (t.drop (L - l))) ROOT_CELL c (le_refl _)
      inv.root_le hne (by rw [inv.str_root, hxl]; simp only [List.length_nil]; omega)).2 hreach
    simp only at ha
    have hxl2 : L - (0 + (codes (t.drop (L - l))).length) = L - l := by rw [hxl]; omega
    refine ⟨c, k, hreach, hk, ?_, ?_⟩
    · intro hamos
      constructor
      · intro hmem
        rw [hlog] at hmem
        obtain ⟨j2, rec2, hj2, _, hline2⟩ := mem_pass_records_inv _ _ _ _ _ _ _ _ hmem
        obtain ⟨l2, _, hl2b, hprobe2⟩ := mem_line_records_inv _ _ _ _ _ _ hline2
        obtain ⟨c2, hc2, hcase⟩ := mem_probe_records_inv _ _ _ _ _ _ _ hprobe2
        rcases hcase with ⟨_, y, hy, hrec⟩ | ⟨hdef, _⟩
        · simp only [Record.OVL.injEq] at hrec
          obtain ⟨e1, e2, e3, _⟩ := hrec
          have hl : l2 = l := by omega
          subst hl
          obtain ⟨r2, hr2, hrt2⟩ := List.mem_map.1 (List.getElem?_mem hj2)
          have hr2a : r2.2 = a := by
            have : r2.2 = rec2.2 := congrArg Prod.snd hrt2
            omega
          obtain ⟨hr2mem, hr2id⟩ := (mem_leaves_root inv hids hidlen r2.1 r2.2).1 hr2
          have hsame : r2.1 = r0.1 :=
            first_index_inj r2.1 r0.1 _ hr2mem hr0mem (by rw [← hr2id, ← hr0id, hr2a, ha1])
          have hrec1 : rec2.1 = t := by
            have : text r2.1 = rec2.1 := congrArg Prod.fst hrt2
            rw [← this, hsame, ht1]
          rw [hrec1, ha] at hc2
          have hcc : c2 = c := (Option.some.inj hc2).symm
          rw [hrec1, hcc, hxl] at hy
          have hyl := List.mem_of_mem_take hy
          obtain ⟨hy1, hy2, _⟩ := leaf_below_anchor inv hids (codes (t.drop (L - l2))) c
            (L - l2) hreach y.1 y.2 hyl
          have hyB : y.1 = codes B :=
            first_index_inj y.1 (codes B) _ hy1 (List.mem_map_of_mem _ hB)
              (by rw [← hy2]; omega)
          have hyeq : y = (codes B, first_index (codes B) (reads.map codes)) := by
            apply Prod.ext
            · exact hyB
            · show y.2 = _
              omega
          obtain ⟨k2, hk2⟩ := List.getElem?_of_mem hy
          have hk2lt : k2 < b.MAX_OVERLAPS := by
            by_contra hcon
            rw [List.getElem?_take_eq_none (by omega)] at hk2
            exact absurd hk2 (by simp)
          rw [List.getElem?_take_of_lt hk2lt, hyeq] at hk2
          have := nodup_index_unique _ (leaves_nodup _ _ _ _) k2 k _ hk2 hk
          omega
        · rw [hamos] at hdef; exact absurd hdef (by simp)
      · intro hkm
        apply hin
        unfold probe_records
        rw [ha]
        simp only [hamos, if_true, List.nil_append, List.length_nil, hxl2, ovl_records,
          List.mem_map]
        refine ⟨(codes B, first_index (codes B) (reads.map codes)), ?_, rfl⟩
        rw [List.mem_iff_getElem?]
        exact ⟨k, by rw [List.getElem?_take_of_lt hkm]; exact hk⟩
    · intro hdef
      apply hin
      unfold probe_records
      rw [ha]
      simp [hdef]


set_option maxRecDepth 100000 in
theorem overlap_pass_writes_capped_witness :
    ∃ W image W1 V c,
      construct ⟨16, 2⟩ [['A', 'C', 'G', 'T'], ['G', 'T', 'A', 'C']] = .ok W ∧
      dump_trie ⟨16, 2⟩ 3 W 0 [] = .ok image ∧
      walk_and_print_trie ⟨16, 2⟩ (List.replicate MAX_LINE 'x') 4 W = .ok W1 ∧
      overlap_pass ⟨16, 2⟩ default_build 8 8 0 image
        ((W1.peer 1).sorted_and_unique_reads.map sorted_line) = .ok V ∧
      reach (cell_at ⟨16, 2⟩ W) ROOT_CELL (codes ['A', 'C']) c ∧
      Record.node 1 2 c ∈ V.log.map Prod.snd := by
  have key : ∃ W image W1,
      construct ⟨16, 2⟩ [['A', 'C', 'G', 'T'], ['G', 'T', 'A', 'C']] = .ok W ∧
      dump_trie ⟨16, 2⟩ 3 W 0 [] = .ok image ∧
      walk_and_print_trie ⟨16, 2⟩ (List.replicate MAX_LINE 'x') 4 W = .ok W1 ∧
      image_last_used_edge image % 2 ^ 16 ≠ 0 ∧
      0 % cluster_size ⟨16, 2⟩ (image_last_used_edge image) = 0 ∧
      0 + cluster_size ⟨16, 2⟩ (image_last_used_edge image) ≤
        (2 / cluster_size ⟨16, 2⟩ (image_last_used_edge image)) *
          cluster_size ⟨16, 2⟩ (image_last_used_edge image) ∧
      (W1.peer 1).sorted_and_unique_reads[1]? = some (['G', 'T', 'A', 'C'], 1) ∧
      (1 + 1) % (2 / cluster_size ⟨16, 2⟩ (image_last_used_edge image)) =
        0 / cluster_size ⟨16, 2⟩ (image_last_used_edge image) :=
    ⟨_, _, _, rfl, rfl, rfl, by decide, by decide, by decide, by decide, by decide⟩
  obtain ⟨W, image, W1, hW, himg, hwalk, hmod, hb, hbl, hline, hsel⟩ := key
  obtain ⟨V, hV, _, _, _, hall⟩ := overlap_pass_writes_capped ⟨16, 2⟩ ⟨16, 2⟩ 4
    [['A', 'C', 'G', 'T'], ['G', 'T', 'A', 'C']] (by decide) (by decide) (by decide)
    (by decide) (by decide) (by simp [Clean, at_end]) (by decide) W hW [] image himg
    (List.replicate MAX_LINE 'x') 4 (List.length_replicate _ _) (by decide) (by decide) W1
    hwalk (by decide) hmod 0 hb hbl default_build (by decide) 8 8 (by decide) (by decide)
  obtain ⟨c, _, hreach, _, _, hnode⟩ := hall 1 ['G', 'T', 'A', 'C'] 1 hline hsel 2 (by decide)
    (by decide) ['A', 'C', 'G', 'T'] (by simp) (by decide)
  exact ⟨W, image, W1, V, c, hW, himg, hwalk, hV, hreach, hnode rfl⟩

set_option maxRecDepth 100000 in
/-- C4, as stated, fails with `AMOS_OVERLAPS` (`MIN_OVERLAP` 14, `MAX_OVERLAPS` 8): of
nine reads of 16 letters that start with the same 14 letters `A`, the first is 16 letters
`A`, so its last 14 letters are the first 14 letters of each of the nine; the overlap
pass writes the record of the first read and the eighth at offset 2, and none for the
first read and the ninth. -/
theorem overlap_pass_drops_ninth :
    (∀ B ∈ nine_reads, B.take 14 = (List.replicate 16 'A').drop 2) ∧
    nine_reads[0]? = some (List.replicate 16 'A') ∧
    nine_reads[8]? = some (List.replicate 14 'A' ++ ['C', 'T']) ∧
    ∃ W image W1 V,
      construct ⟨16, 1⟩ nine_reads = .ok W ∧
      dump_trie ⟨16, 1⟩ 2 W 0 [] = .ok image ∧
      walk_and_print_trie ⟨16, 1⟩ (List.replicate MAX_LINE 'x') 16 W = .ok W1 ∧
      overlap_pass ⟨16, 1⟩ amos_build 32 32 0 image
        ((W1.peer 0).sorted_and_unique_reads.map sorted_line) = .ok V ∧
      Record.OVL 1 8 2 2 ∈ V.log.map Prod.snd ∧
      Record.OVL 1 9 2 2 ∉ V.log.map Prod.snd :=
  ⟨by decide, by decide, by decide, _, _, _, _, rfl, rfl, rfl, rfl, by decide, by decide⟩


theorem fresh_initial : Fresh Flat.initial := fun _ _ => rfl

/-- A word of an allocated cell that is neither a leaf word nor a child is zero. -/
theorem word_zero {F : Flat} (hb : Bounded F) (hl : F.last < 2 ^ 63) {i : Nat} {c : Fin 5}
    (h1 : 1 ≤ i) (h2 : i ≤ F.last) (hterm : ¬ ((F.mem i).edge c &&& ENDS_WORD ≠ 0))
    (hz : ¬ ((F.mem i).edge c &&& EDGE_MASK ≠ 0)) : (F.mem i).edge c = 0 := by
  rcases hb i h1 h2 c with h | h | h
  · exact h
  · exact absurd h hterm
  · have hlt : (F.mem i).edge c < 2 ^ 63 := by omega
    rw [mask_of_lt _ hlt] at hz
    exact not_not.mp hz

/-- A successful flat insertion changes no edge that was set, leaves the cells that were
never handed out empty, and stays below the capacity. -/
theorem flat_add_frame (cap : Nat) (hcap : cap ≤ 2 ^ 63) :
    ∀ (s : List Char) (F : Flat) (edge rn : Nat) (F1 : Flat) (d : Option Nat),
      Bounded F → Fresh F → F.last < cap → 1 ≤ edge → edge ≤ F.last →
      flat_add cap s F edge rn = some (F1, d) →
      Frame F F1 ∧ Fresh F1 ∧ F1.last < cap := by
  intro s
  induction s with
  | nil => intro F edge rn F1 d _ _ _ _ _ h; simp [flat_add] at h
  | cons ch s1 ih =>
    intro F edge rn F1 d hb hf hl he1 he2 h
    rw [flat_add] at h
    by_cases hend : at_end (ch :: s1) = true
    · rw [if_pos hend] at h; exact absurd h (by simp)
    rw [if_neg hend] at h
    dsimp only at h
    by_cases hend1 : at_end s1 = true
    · rw [if_pos hend1] at h
      by_cases hterm : (F.mem edge).edge (code ch) &&& ENDS_WORD ≠ 0
      · rw [if_pos hterm] at h
        simp only [Option.some.injEq, Prod.mk.injEq] at h
        rw [← h.1]; exact ⟨frame_refl F, hf, hl⟩
      · rw [if_neg hterm] at h
        by_cases hz : (F.mem edge).edge (code ch) &&& EDGE_MASK ≠ 0
        · rw [if_pos hz] at h; exact absurd h (by simp)
        · rw [if_neg hz] at h
          simp only [Option.some.injEq, Prod.mk.injEq] at h
          rw [← h.1]
          have hzero := word_zero hb (by omega) he1 he2 hterm hz
          refine ⟨frame_write_zero F edge (code ch) _ hzero, ?_, hl⟩
          intro i hi
          have hne : i ≠ edge := by
            rcases hi with hi | hi
            · omega
            · have : F.last < i := hi
              omega
          simp only [Flat.write, if_neg hne]
          exact hf i hi
    · rw [if_neg hend1] at h
      by_cases hz : (F.mem edge).edge (code ch) = 0
      · rw [if_pos hz] at h
        by_cases hroom : cap ≤ F.last + 1
        · rw [if_pos hroom] at h; exact absurd h (by simp)
        rw [if_neg hroom] at h
        have hf1 : Fresh ⟨Flat.write (fun i => if i = F.last + 1 then empty else F.mem i) edge
            (code ch) (F.last + 1), F.last + 1⟩ := by
          intro i hi
          have hne : i ≠ edge := by
            rcases hi with hi | hi
            · omega
            · have : F.last + 1 < i := hi
              omega
          have hn : i ≠ F.last + 1 := by
            rcases hi with hi | hi
            · omega
            · have : F.last + 1 < i := hi
              omega
          simp only [Flat.write, if_neg hne, if_neg hn]
          apply hf i
          rcases hi with hi | hi
          · left; exact hi
          · right
            have : F.last + 1 < i := hi
            omega
        obtain ⟨hfr, hfresh, hlast⟩ := ih _ _ _ _ _ (bounded_alloc F edge (code ch) hb he1 he2)
          hf1 (by simpa using Nat.lt_of_not_le hroom) (Nat.le_add_left 1 F.last) (le_refl _) h
        exact ⟨frame_trans (frame_alloc F edge (code ch) hz) hfr (Nat.le_succ _), hfresh, hlast⟩
      · rw [if_neg hz] at h
        by_cases h63 : 2 ^ 63 ≤ (F.mem edge).edge (code ch)
        · rw [if_pos h63] at h; exact absurd h (by simp)
        rw [if_neg h63] at h
        have hchild : edge < (F.mem edge).edge (code ch) ∧
            (F.mem edge).edge (code ch) ≤ F.last := by
          rcases hb edge he1 he2 (code ch) with h1 | h1 | h1
          · exact absurd h1 hz
          · exact absurd (ge_of_terminal _ h1) h63
          · exact h1
        exact ih _ _ _ _ _ hb hf hl (by omega) hchild.2 h

/-- An edge that is set anywhere in the array keeps its value under a flat insertion. -/
theorem flat_add_keeps (cap : Nat) (hcap : cap ≤ 2 ^ 63) (s : List Char) (F : Flat)
    (edge rn : Nat) (F1 : Flat) (d : Option Nat) (hb : Bounded F) (hf : Fresh F)
    (hl : F.last < cap) (he1 : 1 ≤ edge) (he2 : edge ≤ F.last)
    (h : flat_add cap s F edge rn = some (F1, d)) (i : Nat) (c : Fin 5)
    (hne : (F.mem i).edge c ≠ 0) : (F1.mem i).edge c = (F.mem i).edge c := by
  obtain ⟨hfr, _, _⟩ := flat_add_frame cap hcap s F edge rn F1 d hb hf hl he1 he2 h
  by_cases hi : 1 ≤ i ∧ i ≤ F.last
  · exact hfr i c hi.1 hi.2 hne
  · have : F.mem i = empty := hf i (by omega)
    rw [this, empty_edge] at hne
    exact absurd rfl hne


/-- A flat insertion never lowers the allocation counter. -/
theorem flat_add_last_le (cap : Nat) :
    ∀ (s : List Char) (F : Flat) (edge rn : Nat) (F1 : Flat) (d : Option Nat),
      flat_add cap s F edge rn = some (F1, d) → F.last ≤ F1.last := by
  intro s
  induction s with
  | nil => intro F edge rn F1 d h; simp [flat_add] at h
  | cons ch s1 ih =>
    intro F edge rn F1 d h
    rw [flat_add] at h
    by_cases hend : at_end (ch :: s1) = true
    · rw [if_pos hend] at h; exact absurd h (by simp)
    rw [if_neg hend] at h
    dsimp only at h
    by_cases hend1 : at_end s1 = true
    · rw [if_pos hend1] at h
      by_cases hterm : (F.mem edge).edge (code ch) &&& ENDS_WORD ≠ 0
      · rw [if_pos hterm] at h
        simp only [Option.some.injEq, Prod.mk.injEq] at h
        rw [← h.1]
      · rw [if_neg hterm] at h
        by_cases hz : (F.mem edge).edge (code ch) &&& EDGE_MASK ≠ 0
        · rw [if_pos hz] at h; exact absurd h (by simp)
        · rw [if_neg hz] at h
          simp only [Option.some.injEq, Prod.mk.injEq] at h
          rw [← h.1]
    · rw [if_neg hend1] at h
      by_cases hz : (F.mem edge).edge (code ch) = 0
      · rw [if_pos hz] at h
        by_cases hroom : cap ≤ F.last + 1
        · rw [if_pos hroom] at h; exact absurd h (by simp)
        rw [if_neg hroom] at h
        have := ih _ _ _ _ _ h
        have h2 : F.last + 1 ≤ F1.last := this
        omega
      · rw [if_neg hz] at h
        by_cases h63 : 2 ^ 63 ≤ (F.mem edge).edge (code ch)
        · rw [if_pos h63] at h; exact absurd h (by simp)
        rw [if_neg h63] at h
        exact ih _ _ _ _ _ h

/-- The capacity matters to a flat insertion only as a bound on the allocation counter:
a successful insertion is the same under every capacity above its final counter. -/
theorem flat_add_cap (cap cap1 : Nat) :
    ∀ (s : List Char) (F : Flat) (edge rn : Nat) (F1 : Flat) (d : Option Nat),
      flat_add cap s F edge rn = some (F1, d) → F1.last < cap1 →
      flat_add cap1 s F edge rn = some (F1, d) := by
  intro s
  induction s with
  | nil => intro F edge rn F1 d h; simp [flat_add] at h
  | cons ch s1 ih =>
    intro F edge rn F1 d h hl
    rw [flat_add] at h
    rw [flat_add]
    by_cases hend : at_end (ch :: s1) = true
    · rw [if_pos hend] at h; exact absurd h (by simp)
    rw [if_neg hend] at h
    rw [if_neg hend]
    dsimp only at h
    dsimp only
    by_cases hend1 : at_end s1 = true
    · rw [if_pos hend1] at h
      rw [if_pos hend1]
      exact h
    · rw [if_neg hend1] at h
      rw [if_neg hend1]
      by_cases hz : (F.mem edge).edge (code ch) = 0
      · rw [if_pos hz] at h
        rw [if_pos hz]
        by_cases hroom : cap ≤ F.last + 1
        · rw [if_pos hroom] at h; exact absurd h (by simp)
        rw [if_neg hroom] at h
        have hle := flat_add_last_le cap _ _ _ _ _ _ h
        have h2 : F.last + 1 ≤ F1.last := hle
        rw [if_neg (by omega)]
        exact ih _ _ _ _ _ h hl
      · rw [if_neg hz] at h
        rw [if_neg hz]
        by_cases h63 : 2 ^ 63 ≤ (F.mem edge).edge (code ch)
        · rw [if_pos h63] at h; exact absurd h (by simp)
        rw [if_neg h63] at h
        rw [if_neg h63]
        exact ih _ _ _ _ _ h hl

/-- What the flat ingestion loop keeps. -/
theorem flat_ingest_frame (cap : Nat) (hcap : cap ≤ 2 ^ 63) :
    ∀ (reads : List (List Char)) (F : Flat) (rn : Nat) (F1 : Flat) (n1 : Nat),
      Bounded F → Fresh F → F.last < cap → 1 ≤ F.last →
      flat_ingest cap reads F rn = some (F1, n1) →
      Bounded F1 ∧ Fresh F1 ∧ F1.last < cap ∧ F.last ≤ F1.last ∧ Frame F F1 ∧
        n1 = rn + reads.length := by
  intro reads
  induction reads with
  | nil =>
    intro F rn F1 n1 hb hf hl h1 h
    simp only [flat_ingest, Option.some.injEq, Prod.mk.injEq] at h
    rw [← h.1, ← h.2]
    exact ⟨hb, hf, hl, le_refl _, frame_refl F, rfl⟩
  | cons r more ih =>
    intro F rn F1 n1 hb hf hl h1 h
    rw [flat_ingest] at h
    cases hres : flat_add cap r F ROOT_CELL rn with
    | none => rw [hres] at h; exact absurd h (by simp)
    | some res =>
      obtain ⟨F2, d⟩ := res
      rw [hres] at h
      simp only at h
      obtain ⟨hb2, hl2⟩ := flat_add_bounded cap r F ROOT_CELL rn F2 d hb (le_refl _) h1 hres
      obtain ⟨hfr2, hf2, hc2⟩ := flat_add_frame cap hcap r F ROOT_CELL rn F2 d hb hf hl
        (le_refl _) h1 hres
      obtain ⟨hb1, hf1, hc1, hl1, hfr1, hn1⟩ := ih F2 (rn + 1) F1 n1 hb2 hf2 hc2 (by omega) h
      refine ⟨hb1, hf1, hc1, by omega, frame_trans hfr2 hfr1 hl2, ?_⟩
      simp only [List.length_cons]; omega

/-- The flat ingestion loop under another capacity. -/
theorem flat_ingest_cap (cap cap1 : Nat) :
    ∀ (reads : List (List Char)) (F : Flat) (rn : Nat) (F1 : Flat) (n1 : Nat),
      flat_ingest cap reads F rn = some (F1, n1) → F1.last < cap1 →
      flat_ingest cap1 reads F rn = some (F1, n1) ∧ F.last ≤ F1.last := by
  intro reads
  induction reads with
  | nil =>
    intro F rn F1 n1 h _
    simp only [flat_ingest, Option.some.injEq, Prod.mk.injEq] at h
    rw [← h.1, ← h.2]
    exact ⟨rfl, le_refl _⟩
  | cons r more ih =>
    intro F rn F1 n1 h hl
    rw [flat_ingest] at h
    cases hres : flat_add cap r F ROOT_CELL rn with
    | none => rw [hres] at h; exact absurd h (by simp)
    | some res =>
      obtain ⟨F2, d⟩ := res
      rw [hres] at h
      simp only at h
      obtain ⟨hrun, hle⟩ := ih F2 (rn + 1) F1 n1 h hl
      have hle2 := flat_add_last_le cap _ _ _ _ _ _ hres
      rw [flat_ingest, flat_add_cap cap cap1 r F ROOT_CELL rn F2 d hres (by omega)]
      exact ⟨hrun, by omega⟩

/-- The ingestion loop on the cluster follows the flat ingestion loop. -/
theorem ingest_flat (cfg : Config) (hsz : cfg.mpisize * 2 ^ cfg.CHUNKBITS ≤ 2 ^ 63) :
    ∀ (reads : List (List Char)) (W : World) (F : Flat) (rn : Nat),
      Rel cfg W F → Bounded F → 1 ≤ F.last → rn + reads.length ≤ 2 ^ 63 →
      (∀ F1 n1, flat_ingest (cfg.mpisize * 2 ^ cfg.CHUNKBITS) reads F rn = some (F1, n1) →
        ∃ W1, ingest cfg reads W rn = .ok (W1, n1) ∧ Rel cfg W1 F1) ∧
      (flat_ingest (cfg.mpisize * 2 ^ cfg.CHUNKBITS) reads F rn = none →
        ∃ e, ingest cfg reads W rn = .error e) := by
  intro reads
  induction reads with
  | nil =>
    intro W F rn hrel _ _ _
    constructor
    · intro F1 n1 h
      simp only [flat_ingest, Option.some.injEq, Prod.mk.injEq] at h
      rw [← h.1, ← h.2]
      exact ⟨W, rfl, hrel⟩
    · intro h; simp [flat_ingest] at h
  | cons r more ih =>
    intro W F rn hrel hb h1 hn
    simp only [List.length_cons] at hn
    have hmask : rn ≤ EDGE_MASK := by rw [edge_mask_eq]; omega
    have hsim := add_read_sim cfg hsz r W F 0 ROOT_CELL rn 0 hrel hb (le_refl _) h1
      (Nat.zero_le _) (fun _ => ⟨rfl, hmask⟩)
    cases hres : flat_add (cfg.mpisize * 2 ^ cfg.CHUNKBITS) r F ROOT_CELL rn with
    | none =>
      rw [hres] at hsim
      obtain ⟨e, he⟩ := hsim
      constructor
      · intro F1 n1 h
        rw [flat_ingest, hres] at h
        exact absurd h (by simp)
      · intro _
        refine ⟨e, ?_⟩
        rw [ingest, he]
    | some res =>
      obtain ⟨F2, d⟩ := res
      rw [hres] at hsim
      obtain ⟨W2, hW2, hrel2⟩ := hsim
      obtain ⟨hb2, hl2⟩ := flat_add_bounded _ r F ROOT_CELL rn F2 d hb (le_refl _) h1 hres
      obtain ⟨hok, herr⟩ := ih W2 F2 (rn + 1) hrel2 hb2 (by omega) (by omega)
      constructor
      · intro F1 n1 h
        rw [flat_ingest, hres] at h
        obtain ⟨W1, hW1, hrel1⟩ := hok F1 n1 h
        refine ⟨W1, ?_, hrel1⟩
        rw [ingest, hW2]
        exact hW1
      · intro h
        rw [flat_ingest, hres] at h
        obtain ⟨e, he⟩ := herr h
        refine ⟨e, ?_⟩
        rw [ingest, hW2]
        exact he

/-- A successful ingestion on the cluster is a successful flat ingestion. -/
theorem ingest_ok_flat (cfg : Config) (hsz : cfg.mpisize * 2 ^ cfg.CHUNKBITS ≤ 2 ^ 63)
    (reads : List (List Char)) (W : World) (F : Flat) (rn : Nat) (hrel : Rel cfg W F)
    (hb : Bounded F) (h1 : 1 ≤ F.last) (hn : rn + reads.length ≤ 2 ^ 63) (W1 : World) (n1 : Nat)
    (h : ingest cfg reads W rn = .ok (W1, n1)) :
    ∃ F1, flat_ingest (cfg.mpisize * 2 ^ cfg.CHUNKBITS) reads F rn = some (F1, n1) ∧
      Rel cfg W1 F1 := by
  obtain ⟨hok, herr⟩ := ingest_flat cfg hsz reads W F rn hrel hb h1 hn
  cases hres : flat_ingest (cfg.mpisize * 2 ^ cfg.CHUNKBITS) reads F rn with
  | none =>
    obtain ⟨e, he⟩ := herr hres
    rw [he] at h
    exact absurd h (by simp)
  | some res =>
    obtain ⟨F1, m⟩ := res
    obtain ⟨W2, hW2, hrel2⟩ := hok F1 m hres
    rw [hW2] at h
    simp only [Except.ok.injEq, Prod.mk.injEq] at h
    rw [← h.1, ← h.2]
    exact ⟨F1, rfl, hrel2⟩


/-- Every state that the ingestion loop reaches from the start reads as the flat trie that
the flat ingestion loop builds. -/
theorem ingest_initial_flat (cfg : Config) (hk : 1 ≤ cfg.CHUNKBITS)
    (hsz : cfg.mpisize * 2 ^ cfg.CHUNKBITS ≤ 2 ^ 63) (hpeer : 1 ≤ cfg.mpisize)
    (prev : List (List Char)) (hn : prev.length ≤ 2 ^ 63) (W : World) (n : Nat)
    (hW : ingest cfg prev (initial_world cfg) 0 = .ok (W, n)) :
    ∃ F, flat_ingest (cfg.mpisize * 2 ^ cfg.CHUNKBITS) prev Flat.initial 0 = some (F, n) ∧
      Rel cfg W F ∧ Bounded F ∧ Fresh F ∧ F.last < cfg.mpisize * 2 ^ cfg.CHUNKBITS ∧
      1 ≤ F.last ∧ n = prev.length := by
  have hS : 2 ≤ 2 ^ cfg.CHUNKBITS := by
    calc 2 = 2 ^ 1 := by norm_num
      _ ≤ 2 ^ cfg.CHUNKBITS := Nat.pow_le_pow_right (by norm_num) hk
  have hroom : 1 < cfg.mpisize * 2 ^ cfg.CHUNKBITS := by
    calc 1 < 1 * 2 := by norm_num
      _ ≤ cfg.mpisize * 2 ^ cfg.CHUNKBITS := Nat.mul_le_mul hpeer hS
  have h1 : 1 ≤ Flat.initial.last := le_refl _
  obtain ⟨F, hF, hrel⟩ := ingest_ok_flat cfg hsz prev (initial_world cfg) Flat.initial 0
    (rel_initial cfg hk hroom) bounded_initial h1 (by omega) W n hW
  obtain ⟨hb, hf, hl, hle, _, hn1⟩ := flat_ingest_frame _ hsz prev Flat.initial 0 F n
    bounded_initial fresh_initial hroom h1 hF
  exact ⟨F, hF, hrel, hb, hf, hl, by omega, by omega⟩

/-- C19. In every state that the ingestion loop reaches, an edge word whose terminator bit is
set keeps its value under every later sequence of inserts that `main` issues, duplicates
or not; in particular for reads of one common length. -/
theorem leaf_edge_never_overwritten (cfg : Config) (hk : 1 ≤ cfg.CHUNKBITS)
    (hsz : cfg.mpisize * 2 ^ cfg.CHUNKBITS ≤ 2 ^ 63) (hpeer : 1 ≤ cfg.mpisize)
    (prev later : List (List Char)) (hn : prev.length + later.length ≤ 2 ^ 63)
    (W : World) (n : Nat) (hW : ingest cfg prev (initial_world cfg) 0 = .ok (W, n))
    (W1 : World) (n1 : Nat) (hW1 : ingest cfg later W n = .ok (W1, n1))
    (i : Nat) (c : Fin 5) (hleaf : (cell_at cfg W i).edge c &&& ENDS_WORD ≠ 0) :
    (cell_at cfg W1 i).edge c = (cell_at cfg W i).edge c := by
  obtain ⟨F, _, hrel, hb, hf, hl, h1, hn0⟩ :=
    ingest_initial_flat cfg hk hsz hpeer prev (by omega) W n hW
  obtain ⟨F1, hF1, hrel1⟩ := ingest_ok_flat cfg hsz later W F n hrel hb h1 (by omega) W1 n1 hW1
  obtain ⟨_, _, _, _, hfr, _⟩ := flat_ingest_frame _ hsz later F n F1 n1 hb hf hl h1 hF1
  rw [← hrel.2, ← hrel1.2]
  rw [← hrel.2] at hleaf
  have hne : (F.mem i).edge c ≠ 0 := terminal_ne_zero _ hleaf
  by_cases hi : 1 ≤ i ∧ i ≤ F.last
  · exact hfr i c hi.1 hi.2 hne
  · have : F.mem i = empty := hf i (by omega)
    rw [this, empty_edge] at hne
    exact absurd rfl hne

theorem leaf_edge_never_overwritten_witness :
    ∃ W n W1 n1,
      ingest ⟨1, 4⟩ [['A', 'C']] (initial_world ⟨1, 4⟩) 0 = .ok (W, n) ∧
      ingest ⟨1, 4⟩ [['A', 'C'], ['A', 'G'], ['C', 'C']] W n = .ok (W1, n1) ∧
      (cell_at ⟨1, 4⟩ W 2).edge 1 &&& ENDS_WORD ≠ 0 ∧
      (cell_at ⟨1, 4⟩ W1 2).edge 1 = (cell_at ⟨1, 4⟩ W 2).edge 1 := by
  have key : ∃ W n W1 n1,
      ingest ⟨1, 4⟩ [['A', 'C']] (initial_world ⟨1, 4⟩) 0 = .ok (W, n) ∧
      ingest ⟨1, 4⟩ [['A', 'C'], ['A', 'G'], ['C', 'C']] W n = .ok (W1, n1) ∧
      (cell_at ⟨1, 4⟩ W 2).edge 1 &&& ENDS_WORD ≠ 0 := ⟨_, _, _, _, rfl, rfl, by decide⟩
  obtain ⟨W, n, W1, n1, h1, h2, h3⟩ := key
  exact ⟨W, n, W1, n1, h1, h2, h3,
    leaf_edge_never_overwritten ⟨1, 4⟩ (by decide) (by decide) (by decide) _ _ (by decide)
      W n h1 W1 n1 h2 2 1 h3⟩


/-- The driver call of `add_read` (`len = 0`) stops at the assertion
`read_number <= EDGE_MASK` for an identifier with the top bit set or beyond. -/
theorem add_read_rejects_wide (cfg : Config) (s : List Char) (W : World)
    (p edge rn : Nat) (h : EDGE_MASK < rn) : add_read cfg s W p edge rn 0 = .error .assertion := by
  have henter : add_read_enter W p edge rn 0 = .error .assertion := by
    simp only [add_read_enter, if_true]
    by_cases he : edge ≠ ROOT_CELL
    · rw [if_pos he]
    · rw [if_neg he, if_pos h]
  cases s with
  | nil => rw [add_read, add_read_body, henter]
  | cons ch s1 => rw [add_read, add_read_body, henter]

/-- The last letter of a read on an empty edge: `local_add_read` stores the leaf word
`ENDS_WORD | read_number` there and returns. -/
theorem local_add_read_stores_leaf (cfg : Config)
    (tail : World → Nat → Nat → Nat → Nat → Except Fault (World × Nat)) (ch : Char)
    (W : World) (p edge r len : Nat) (hch : at_end [ch] = false)
    (hrank : edge >>> cfg.CHUNKBITS = p)
    (hz : ((W.peer p).trie_cell (edge &&& cfg.CHUNKMASK)).edge (code ch) = 0) :
    local_add_read cfg tail [ch] W p edge r len =
      .ok (write_edge W p (edge &&& cfg.CHUNKMASK) (code ch) (ENDS_WORD ||| r), len + 1) := by
  rw [local_add_read, if_neg (by simpa using hrank)]
  simp only [hch, at_end_nil, hz, if_true]
  simp

theorem write_edge_word (W : World) (p off : Nat) (c : Fin 5) (v : Nat) :
    (((write_edge W p off c v).peer p).trie_cell off).edge c = v := by
  simp [write_edge, world_set_peer_same, cell_edge_setEdge]

/-- C18. A leaf word is built only from an identifier without the top bit: the driver call
of `add_read` fails for an identifier above `2^63 - 1`; for every accepted identifier `r`
the word `ENDS_WORD | r` has the terminator bit set and payload `r`, and it is the word
that `local_add_read` stores at the last letter of a new read; every child word holding a
cell index below `2^63` has the terminator bit clear and that index as payload. -/
theorem leaf_word_from_identifier (cfg : Config) :
    (∀ (s : List Char) (W : World) (p edge rn : Nat), 2 ^ 63 - 1 < rn →
      add_read cfg s W p edge rn 0 = .error .assertion) ∧
    (∀ r : Nat, r ≤ 2 ^ 63 - 1 →
      (ENDS_WORD ||| r) &&& ENDS_WORD ≠ 0 ∧ (ENDS_WORD ||| r) &&& EDGE_MASK = r) ∧
    (∀ (tail : World → Nat → Nat → Nat → Nat → Except Fault (World × Nat)) (ch : Char)
      (W : World) (p edge r len : Nat), at_end [ch] = false → edge >>> cfg.CHUNKBITS = p →
      ((W.peer p).trie_cell (edge &&& cfg.CHUNKMASK)).edge (code ch) = 0 →
      ∃ W1, local_add_read cfg tail [ch] W p edge r len = .ok (W1, len + 1) ∧
        ((W1.peer p).trie_cell (edge &&& cfg.CHUNKMASK)).edge (code ch) = ENDS_WORD ||| r) ∧
    (∀ i : Nat, i < 2 ^ 63 → i &&& ENDS_WORD = 0 ∧ i &&& EDGE_MASK = i) := by
  refine ⟨?_, ?_, ?_, ?_⟩
  · intro s W p edge rn h
    exact add_read_rejects_wide cfg s W p edge rn (by rw [edge_mask_eq]; exact h)
  · intro r hr
    exact ⟨leaf_word_terminal r, leaf_word_payload r (by omega)⟩
  · intro tail ch W p edge r len hch hrank hz
    exact ⟨_, local_add_read_stores_leaf cfg tail ch W p edge r len hch hrank hz,
      write_edge_word W p _ _ _⟩
  · intro i hi
    exact ⟨not_not.mp (not_terminal_of_lt i hi), mask_of_lt i hi⟩

theorem leaf_word_from_identifier_witness :
    add_read ⟨16, 1⟩ ['A', 'C'] (initial_world ⟨16, 1⟩) 0 ROOT_CELL (2 ^ 63) 0
        = .error .assertion ∧
    ((ENDS_WORD ||| 7) &&& ENDS_WORD ≠ 0 ∧ (ENDS_WORD ||| 7) &&& EDGE_MASK = 7) ∧
    (65536 &&& ENDS_WORD = 0 ∧ 65536 &&& EDGE_MASK = 65536) :=
  ⟨(leaf_word_from_identifier ⟨16, 1⟩).1 _ _ _ _ _ (by decide),
    (leaf_word_from_identifier ⟨16, 1⟩).2.1 7 (by decide),
    (leaf_word_from_identifier ⟨16, 1⟩).2.2.2 65536 (by decide)⟩


/-- The group size that the start-up computes is `last_used_edge` divided by the shard
size and rounded up. -/
theorem cluster_size_ceil (cfg : Config) (hk : cfg.CHUNKBITS ≤ 62) (lue : Nat)
    (h : lue < 2 ^ 63) :
    cluster_size cfg lue = (lue + (2 ^ cfg.CHUNKBITS - 1)) / 2 ^ cfg.CHUNKBITS := by
  have hS : 2 ^ cfg.CHUNKBITS ≤ 2 ^ 62 := Nat.pow_le_pow_right (by norm_num) hk
  have hpos : 0 < 2 ^ cfg.CHUNKBITS := Nat.two_pow_pos _
  rw [cluster_size, chunksize_eq, Nat.mod_eq_of_lt]
  have : (2 : Nat) ^ 64 = 2 ^ 63 + 2 ^ 63 := by norm_num
  have h62 : (2 : Nat) ^ 63 = 2 ^ 62 + 2 ^ 62 := by norm_num
  omega

/-- The length of the trie file gives back `last_used_edge`. -/
theorem image_last_replicate (n : Nat) (h1 : 1 ≤ n) (h2 : n < 2 ^ 64) :
    image_last_used_edge (List.replicate n empty) = n - 1 := by
  rw [image_last_used_edge, List.length_replicate]
  have : n + 2 ^ 64 - 1 = (n - 1) + 2 ^ 64 := by omega
  rw [this, Nat.add_mod_right, Nat.mod_eq_of_lt (by omega)]

/-- The start-up on a trie file of `2^16 + 1` cells with shards of `2^16` cells and two
ranks. -/
theorem startup_one_short (image : List CELL) (hlen : image.length = 2 ^ 16 + 1) :
    startup ⟨16, 2⟩ image 0 = .run ⟨image.take 1, []⟩ := by
  have hl : image_last_used_edge image = 2 ^ 16 := by
    rw [image_last_used_edge, hlen]; decide
  have hc : cluster_size ⟨16, 2⟩ (2 ^ 16) = 1 := by decide
  have hm : (2 ^ 16 &&& (⟨16, 2⟩ : Config).CHUNKMASK) + 1 = 1 := by decide
  have htake : (image.take 1).length = 1 := by
    rw [List.length_take, hlen]; decide
  rw [startup, hl]
  simp only [hc, hm]
  rw [if_neg (by decide), if_neg (by decide), if_neg (by decide)]
  simp only [Nat.mod_one, Nat.zero_mul, List.drop_zero, Nat.sub_self, Nat.lt_irrefl, if_false]
  rw [if_neg (by rw [htake]; decide)]

/-- The start-up on a trie file of `2^16 + 2` cells with shards of `2^16` cells and one
rank. -/
theorem startup_too_few (image : List CELL) (hlen : image.length = 2 ^ 16 + 2) (r : Nat) :
    startup ⟨16, 1⟩ image r = .exit 0 := by
  have hl : image_last_used_edge image = 2 ^ 16 + 1 := by
    rw [image_last_used_edge, hlen]; decide
  have hc : cluster_size ⟨16, 1⟩ (2 ^ 16 + 1) = 2 := by decide
  rw [startup, hl]
  simp only [hc]
  rw [if_pos (by decide)]

/-- C14. The start-up of `findoverlaps` on a trie file of `2^16 + 1` cells
(`last_used_edge = 2^16`) with shards of `2^16` cells and two ranks: the group size it
computes is 1, one short of the 2 shards that the cells `0 .. last_used_edge` fill, it
counts 2 groups, and the only rank of the first group loads a single cell. -/
theorem cluster_size_one_short :
    image_last_used_edge (List.replicate (2 ^ 16 + 1) empty) = 2 ^ 16 ∧
    cluster_size ⟨16, 2⟩ (2 ^ 16) = 1 ∧
    (2 ^ 16 + 1 + (2 ^ 16 - 1)) / 2 ^ 16 = 2 ∧
    2 / cluster_size ⟨16, 2⟩ (2 ^ 16) = 2 ∧
    ∃ f, startup ⟨16, 2⟩ (List.replicate (2 ^ 16 + 1) empty) 0 = .run f ∧
      f.trie_cell.length = 1 := by
  have hlen : (List.replicate (2 ^ 16 + 1) empty).length = 2 ^ 16 + 1 :=
    List.length_replicate _ _
  have hc : cluster_size ⟨16, 2⟩ (2 ^ 16) = 1 := by decide
  refine ⟨image_last_replicate _ (by norm_num) (by norm_num), hc, by norm_num, by rw [hc],
    _, startup_one_short _ hlen, ?_⟩
  rw [List.length_take, hlen]; decide

/-- C16. The start-up of `findoverlaps` with a single rank on a trie file of `2^16 + 2`
cells and shards of `2^16` cells: the group size is 2, more than the ranks there are,
and the rank leaves with `exit (0)`. -/
theorem too_few_peers_exit_zero :
    cluster_size ⟨16, 1⟩ (image_last_used_edge (List.replicate (2 ^ 16 + 2) empty)) = 2 ∧
    startup ⟨16, 1⟩ (List.replicate (2 ^ 16 + 2) empty) 0 = .exit 0 := by
  have hlen : (List.replicate (2 ^ 16 + 2) empty).length = 2 ^ 16 + 2 :=
    List.length_replicate _ _
  have hl : image_last_used_edge (List.replicate (2 ^ 16 + 2) empty) = 2 ^ 16 + 1 :=
    image_last_replicate _ (by norm_num) (by norm_num)
  have hc : cluster_size ⟨16, 1⟩ (2 ^ 16 + 1) = 2 := by decide
  exact ⟨by rw [hl, hc], startup_too_few _ hlen 0⟩


theorem needs_one_head (mem : Nat → CELL) (b : Char) (s : List Char) (e : Nat)
    (h : needs_one mem (b :: s) e = true) : at_end [b] = false := by
  cases s with
  | nil => simp [needs_one] at h
  | cons c s2 =>
    cases s2 with
    | nil =>
      simp only [needs_one, Bool.and_eq_true, Bool.not_eq_true', decide_eq_true_eq] at h
      exact h.1.1
    | cons d s3 =>
      simp only [needs_one, Bool.and_eq_true, Bool.not_eq_true', decide_eq_true_eq] at h
      exact h.1.1.1

/-- A read that takes one fresh cell: the flat insertion allocates exactly one cell when
there is room, and fails when there is none. -/
theorem flat_add_needs_one (cap : Nat) :
    ∀ (s : List Char) (F : Flat) (e rn : Nat), Bounded F → 1 ≤ e → e ≤ F.last →
      F.last < 2 ^ 63 → needs_one F.mem s e = true →
      (F.last + 1 < cap →
        ∃ F1, flat_add cap s F e rn = some (F1, none) ∧ F1.last = F.last + 1) ∧
      (cap ≤ F.last + 1 → flat_add cap s F e rn = none) := by
  intro s
  induction s with
  | nil => intro F e rn _ _ _ _ h; simp [needs_one] at h
  | cons a s1 ih =>
    intro F e rn hb he1 he2 hl h
    cases s1 with
    | nil => simp [needs_one] at h
    | cons b s2 =>
      cases s2 with
      | nil =>
        simp only [needs_one, Bool.and_eq_true, Bool.not_eq_true', decide_eq_true_eq] at h
        obtain ⟨⟨ha, hb1⟩, hz⟩ := h
        have ha1 : ¬ (at_end (a :: [b]) = true) := by
          have : at_end (a :: [b]) = false := ha
          rw [this]; simp
        have hb2 : ¬ (at_end [b] = true) := by rw [hb1]; simp
        rw [flat_add, if_neg ha1]
        dsimp only
        rw [if_neg hb2, if_pos hz]
        constructor
        · intro hroom
          rw [if_neg (by omega)]
          have hne : F.last + 1 ≠ e := by omega
          have hw : ((Flat.write (fun i => if i = F.last + 1 then empty else F.mem i) e
              (code a) (F.last + 1)) (F.last + 1)).edge (code b) = 0 := by
            simp [Flat.write, hne, empty_edge]
          rw [flat_add, if_neg hb2]
          dsimp only
          rw [if_pos at_end_nil, hw]
          simp
        · intro hfull
          rw [if_pos hfull]
      | cons c s3 =>
        have hhead := needs_one_head _ _ _ _ h
        simp only [needs_one, Bool.and_eq_true, Bool.not_eq_true', decide_eq_true_eq] at h
        obtain ⟨⟨⟨ha, hne⟩, hnt⟩, hrest⟩ := h
        have ha1 : ¬ (at_end (a :: b :: c :: s3) = true) := by
          have : at_end (a :: b :: c :: s3) = false := ha
          rw [this]; simp
        have hb1 : at_end [b] = false := needs_one_head _ _ _ _ hrest
        have hb2 : ¬ (at_end (b :: c :: s3) = true) := by
          have : at_end (b :: c :: s3) = false := hb1
          rw [this]; simp
        have hchild := child_of_bounded hb he1 he2 hne hnt
        rw [flat_add, if_neg ha1]
        dsimp only
        rw [if_neg hb2, if_neg hne, if_neg (by omega)]
        exact ih F _ rn hb (by omega) hchild.2 hl hrest

/-- Reads that each take one fresh cell: the ingestion loop succeeds when the cells
suffice, one cell for each read, and fails when they do not. -/
theorem fresh_ingest (cfg : Config) (hsz : cfg.mpisize * 2 ^ cfg.CHUNKBITS ≤ 2 ^ 63) :
    ∀ (reads : List (List Char)) (W : World) (F : Flat) (rn : Nat),
      Rel cfg W F → Bounded F → 1 ≤ F.last → rn + reads.length ≤ 2 ^ 63 →
      fresh_each cfg reads W rn = true →
      (F.last + reads.length < cfg.mpisize * 2 ^ cfg.CHUNKBITS →
        ∃ W1 n1, ingest cfg reads W rn = .ok (W1, n1) ∧
          largest_served W1 = F.last + reads.length) ∧
      (cfg.mpisize * 2 ^ cfg.CHUNKBITS ≤ F.last + reads.length →
        ∃ e, ingest cfg reads W rn = .error e) := by
  intro reads
  induction reads with
  | nil =>
    intro W F rn hrel _ _ _ _
    have hlt := hrel.1.lt_max
    constructor
    · intro _
      exact ⟨W, rn, rfl, by rw [largest_served_eq hrel.1]; rfl⟩
    · intro h
      simp only [List.length_nil, Nat.add_zero] at h
      omega
  | cons r more ih =>
    intro W F rn hrel hb h1 hn hfresh
    simp only [List.length_cons] at hn
    have hlt := hrel.1.lt_max
    have hmask : rn ≤ EDGE_MASK := by rw [edge_mask_eq]; omega
    have hsim := add_read_sim cfg hsz r W F 0 ROOT_CELL rn 0 hrel hb (le_refl _) h1
      (Nat.zero_le _) (fun _ => ⟨rfl, hmask⟩)
    rw [fresh_each, Bool.and_eq_true, ← hrel.2] at hfresh
    obtain ⟨hone, hrest⟩ := hfresh
    obtain ⟨hok, hfail⟩ := flat_add_needs_one (cfg.mpisize * 2 ^ cfg.CHUNKBITS) r F ROOT_CELL rn
      hb (le_refl _) h1 (by omega) hone
    by_cases hroom : F.last + 1 < cfg.mpisize * 2 ^ cfg.CHUNKBITS
    · obtain ⟨F1, hF1, hlast⟩ := hok hroom
      rw [hF1] at hsim
      obtain ⟨W1, hW1, hrel1⟩ := hsim
      rw [hW1] at hrest
      simp only at hrest
      obtain ⟨hb1, _⟩ := flat_add_bounded _ r F ROOT_CELL rn F1 none hb (le_refl _) h1 hF1
      obtain ⟨ihok, ihfail⟩ := ih W1 F1 (rn + 1) hrel1 hb1 (by omega) (by omega) hrest
      constructor
      · intro hall
        simp only [List.length_cons] at hall
        obtain ⟨W2, n2, hW2, hl2⟩ := ihok (by omega)
        refine ⟨W2, n2, ?_, ?_⟩
        · rw [ingest, hW1]; exact hW2
        · rw [hl2, hlast]; simp only [List.length_cons]; omega
      · intro hall
        simp only [List.length_cons] at hall
        obtain ⟨e, he⟩ := ihfail (by omega)
        refine ⟨e, ?_⟩
        rw [ingest, hW1]; exact he
    · have hnone := hfail (by omega)
      rw [hnone] at hsim
      obtain ⟨e, he⟩ := hsim
      constructor
      · intro hall
        simp only [List.length_cons] at hall
        omega
      · intro _
        refine ⟨e, ?_⟩
        rw [ingest, he]


/-- Some rank has room exactly when the index after the largest one handed out is below
the capacity of the cluster. -/
theorem room_iff {cfg : Config} (hsz : cfg.mpisize * 2 ^ cfg.CHUNKBITS ≤ 2 ^ 63) {W : World}
    {G : Nat} (inv : AllocInv cfg W G) :
    (∃ r, r < cfg.mpisize ∧ has_room cfg W r = true) ↔
      G + 1 < cfg.mpisize * 2 ^ cfg.CHUNKBITS := by
  have hS : 0 < 2 ^ cfg.CHUNKBITS := Nat.two_pow_pos _
  have hlt := inv.lt_max
  have h64 : (2 : Nat) ^ 63 < 2 ^ 64 := by norm_num
  constructor
  · rintro ⟨r, hr, hroom⟩
    by_contra hfull
    have hG : G + 1 = cfg.mpisize * 2 ^ cfg.CHUNKBITS := by omega
    have hq : (G + 1) / 2 ^ cfg.CHUNKBITS = cfg.mpisize := by
      rw [hG]; exact Nat.mul_div_cancel _ hS
    have hlast := inv.last r hr
    rw [hq, if_pos hr] at hlast
    have hle : (r + 1) * 2 ^ cfg.CHUNKBITS ≤ cfg.mpisize * 2 ^ cfg.CHUNKBITS :=
      Nat.mul_le_mul_right _ hr
    have hpos : 1 ≤ (r + 1) * 2 ^ cfg.CHUNKBITS := Nat.mul_pos (Nat.succ_pos r) hS
    simp only [has_room, decide_eq_true_eq, hlast, shr_eq] at hroom
    rw [Nat.sub_add_cancel hpos, Nat.mod_eq_of_lt (by omega), Nat.mul_div_cancel _ hS] at hroom
    omega
  · intro hroom
    have hq : (G + 1) / 2 ^ cfg.CHUNKBITS < cfg.mpisize := by
      rw [Nat.div_lt_iff_lt_mul hS]; exact hroom
    refine ⟨(G + 1) / 2 ^ cfg.CHUNKBITS, hq, ?_⟩
    have hlast := inv.last _ hq
    rw [if_neg (Nat.lt_irrefl _), if_pos rfl] at hlast
    simp only [has_room, decide_eq_true_eq, hlast, shr_eq]
    rw [Nat.mod_eq_of_lt (by omega)]

/-- C11, as the code has it. Cell 0 and the root cell are taken from the start, so a
cluster of `mpisize` shards of `S = 2^CHUNKBITS` cells (a single peer when `mpisize = 1`)
takes `mpisize * S - 2` successive reads that each require one fresh cell, and construction
fails when there is one more; in every state that ingestion reaches, a call of the allocator
from a rank that owns an allocated cell returns the next index when some rank has room,
and fails when no rank has room. -/
theorem allocation_room (cfg : Config) (hk : 1 ≤ cfg.CHUNKBITS)
    (hsz : cfg.mpisize * 2 ^ cfg.CHUNKBITS ≤ 2 ^ 63) (hpeer : 1 ≤ cfg.mpisize) :
    (∀ reads : List (List Char), reads.length < 2 ^ 63 →
      fresh_each cfg reads (initial_world cfg) 0 = true →
      (reads.length ≤ cfg.mpisize * 2 ^ cfg.CHUNKBITS - 2 →
        ∃ W, construct cfg reads = .ok W ∧ largest_served W = 1 + reads.length) ∧
      (cfg.mpisize * 2 ^ cfg.CHUNKBITS - 2 < reads.length →
        ∃ e, construct cfg reads = .error e)) ∧
    (∀ (prev : List (List Char)) (W : World) (n : Nat), prev.length < 2 ^ 63 →
      ingest cfg prev (initial_world cfg) 0 = .ok (W, n) →
      ∀ p, p ≤ largest_served W >>> cfg.CHUNKBITS →
        ((∃ r, r < cfg.mpisize ∧ has_room cfg W r = true) →
          ∃ W1, get_next_free_edge cfg cfg.mpisize W p = .ok (W1, largest_served W + 1)) ∧
        ((∀ r, r < cfg.mpisize → has_room cfg W r = false) →
          ∃ e, get_next_free_edge cfg cfg.mpisize W p = .error e)) := by
  have hS : 2 ≤ 2 ^ cfg.CHUNKBITS := by
    calc 2 = 2 ^ 1 := by norm_num
      _ ≤ 2 ^ cfg.CHUNKBITS := Nat.pow_le_pow_right (by norm_num) hk
  have hpos : 0 < 2 ^ cfg.CHUNKBITS := Nat.two_pow_pos _
  have hroom : 1 < cfg.mpisize * 2 ^ cfg.CHUNKBITS := by
    calc 1 < 1 * 2 := by norm_num
      _ ≤ cfg.mpisize * 2 ^ cfg.CHUNKBITS := Nat.mul_le_mul hpeer hS
  constructor
  · intro reads hn hfresh
    obtain ⟨hok, hfail⟩ := fresh_ingest cfg hsz reads (initial_world cfg) Flat.initial 0
      (rel_initial cfg hk hroom) bounded_initial (le_refl _) (by omega) hfresh
    have hlast : Flat.initial.last = 1 := rfl
    rw [hlast] at hok hfail
    constructor
    · intro hlen
      obtain ⟨W, n, hW, hl⟩ := hok (by omega)
      refine ⟨W, ?_, hl⟩
      rw [construct, hW]
    · intro hlen
      obtain ⟨e, he⟩ := hfail (by omega)
      refine ⟨e, ?_⟩
      rw [construct, he]
  · intro prev W n hn hW p hp
    obtain ⟨G, inv⟩ := ingest_allocInv cfg hk hsz hpeer prev hn W n hW
    rw [largest_served_eq inv, shr_eq] at hp
    rw [largest_served_eq inv]
    have hlt := inv.lt_max
    have hmono : G / 2 ^ cfg.CHUNKBITS ≤ (G + 1) / 2 ^ cfg.CHUNKBITS :=
      Nat.div_le_div_right (Nat.le_succ G)
    have hpN : p < cfg.mpisize := by
      have : G / 2 ^ cfg.CHUNKBITS < cfg.mpisize := by
        rw [Nat.div_lt_iff_lt_mul hpos]; exact hlt
      omega
    constructor
    · intro h
      have hfree := (room_iff hsz inv).mp h
      have hq : (G + 1) / 2 ^ cfg.CHUNKBITS < cfg.mpisize := by
        rw [Nat.div_lt_iff_lt_mul hpos]; exact hfree
      obtain ⟨W1, hW1, _, _⟩ := get_next_free_edge_ok cfg hsz cfg.mpisize W p G inv
        (by omega) hfree (by omega)
      exact ⟨W1, hW1⟩
    · intro h
      have hfull : G + 1 = cfg.mpisize * 2 ^ cfg.CHUNKBITS := by
        by_contra hne
        obtain ⟨r, hr, hroomr⟩ := (room_iff hsz inv).mpr (by omega)
        rw [h r hr] at hroomr
        exact absurd hroomr (by simp)
      exact ⟨_, get_next_free_edge_full cfg hsz cfg.mpisize W p G inv hfull hpN (by omega)⟩

theorem allocation_room_witness :
    (∃ W, construct ⟨2, 1⟩ [['A', 'A'], ['C', 'A']] = .ok W ∧ largest_served W = 1 + 2) ∧
    ∃ e, construct ⟨2, 1⟩ [['A', 'A'], ['C', 'A'], ['G', 'A']] = .error e :=
  ⟨((allocation_room ⟨2, 1⟩ (by decide) (by decide) (by decide)).1
      [['A', 'A'], ['C', 'A']] (by decide) (by decide)).1 (by decide),
    ((allocation_room ⟨2, 1⟩ (by decide) (by decide) (by decide)).1
      [['A', 'A'], ['C', 'A'], ['G', 'A']] (by decide) (by decide)).2 (by decide)⟩

theorem one_cell_reads_length : (one_cell_reads 255).length = 2 ^ 8 - 1 := by decide!

theorem one_cell_reads_fresh :
    fresh_each ⟨8, 1⟩ (one_cell_reads 255) (initial_world ⟨8, 1⟩) 0 = true := by decide!

/-- C11 as stated does not hold: on a single peer with a shard of `S = 2^8` cells, of
`S - 1` successive reads that each require one fresh cell not all are inserted:
construction fails. -/
theorem full_shard_rejects_last_read :
    (one_cell_reads 255).length = 2 ^ 8 - 1 ∧
    fresh_each ⟨8, 1⟩ (one_cell_reads 255) (initial_world ⟨8, 1⟩) 0 = true ∧
    ∃ e, construct ⟨8, 1⟩ (one_cell_reads 255) = .error e := by
  refine ⟨one_cell_reads_length, one_cell_reads_fresh, ?_⟩
  obtain ⟨_, hfail⟩ := fresh_ingest ⟨8, 1⟩ (by decide) (one_cell_reads 255)
    (initial_world ⟨8, 1⟩) Flat.initial 0 (rel_initial ⟨8, 1⟩ (by decide) (by decide))
    bounded_initial (le_refl _) (by rw [one_cell_reads_length]; decide) one_cell_reads_fresh
  obtain ⟨e, he⟩ := hfail (by rw [one_cell_reads_length]; decide)
  refine ⟨e, ?_⟩
  rw [construct, he]


/-- The main loop of a rank on lines of the `-sorted` file runs the probes of the lines
of its share, in the order of the file, and of no other line. -/
theorem main_loop_share (cfg : Config) (cs : Nat) (b : Build) (fuel pfuel mpirank L : Nat)
    (hL : 1 ≤ L) (hmax : L + 13 < MAX_LINE) :
    ∀ (recs : List (List (Fin 5) × Nat)), (∀ r ∈ recs, r.1.length = L ∧ r.2 < 10 ^ 12) →
      ∀ (st : Driver), (st.read_length = 0 ∨ st.read_length = L) →
        (∀ e, probe_reads cfg cs b fuel pfuel mpirank L
            (group_share (cfg.mpisize / cs) (cluster_base cs mpirank / cs)
              (recs.map (fun r => (text r.1, r.2))) st.read_number) st.cluster = .error e →
          main_loop cfg cs b fuel pfuel mpirank
            (recs.map (fun r => sorted_line (text r.1, r.2))) st = .error e) ∧
        (∀ C, probe_reads cfg cs b fuel pfuel mpirank L
            (group_share (cfg.mpisize / cs) (cluster_base cs mpirank / cs)
              (recs.map (fun r => (text r.1, r.2))) st.read_number) st.cluster = .ok C →
          ∃ st1, main_loop cfg cs b fuel pfuel mpirank
              (recs.map (fun r => sorted_line (text r.1, r.2))) st = .ok st1 ∧
            st1.cluster = C ∧ st1.read_number = st.read_number + recs.length) := by
  intro recs
  induction recs with
  | nil =>
    intro _ st _
    constructor
    · intro e h
      simp [group_share, probe_reads] at h
    · intro C h
      simp only [List.map_nil, group_share, probe_reads, Except.ok.injEq] at h
      exact ⟨st, rfl, h, rfl⟩
  | cons r more ih =>
    intro hrecs st hst
    obtain ⟨hr1, hr2⟩ := hrecs r (List.mem_cons_self _ _)
    have hmore : ∀ x ∈ more, x.1.length = L ∧ x.2 < 10 ^ 12 :=
      fun x hx => hrecs x (List.mem_cons_of_mem _ hx)
    simp only [List.map_cons, List.length_cons]
    rw [main_loop, process_sorted_line cfg cs b fuel pfuel mpirank L hL hmax r.1 hr1 r.2 hr2 st hst,
      group_share]
    by_cases hsel : (st.read_number + 1) % (cfg.mpisize / cs) = cluster_base cs mpirank / cs
    · rw [if_pos hsel, if_pos hsel]
      simp only [List.singleton_append, probe_reads]
      cases hrun : probe_loop cfg cs b fuel pfuel mpirank (text r.1) L r.2 (probe_lengths b L)
          st.cluster with
      | error e0 =>
        simp only
        constructor
        · intro e h
          simp only [Except.error.injEq] at h
          rw [h]
        · intro C h
          exact absurd h (by simp)
      | ok W1 =>
        simp only
        obtain ⟨ih1, ih2⟩ := ih hmore ⟨L, st.read_number + 1, W1⟩ (Or.inr rfl)
        constructor
        · exact ih1
        · intro C h
          obtain ⟨st1, h1, h2, h3⟩ := ih2 C h
          exact ⟨st1, h1, h2, by rw [h3]; simp only; omega⟩
    · rw [if_neg hsel, if_neg hsel]
      simp only [List.nil_append]
      obtain ⟨ih1, ih2⟩ := ih hmore ⟨L, st.read_number + 1, st.cluster⟩ (Or.inr rfl)
      constructor
      · exact ih1
      · intro C h
        obtain ⟨st1, h1, h2, h3⟩ := ih2 C h
        exact ⟨st1, h1, h2, by rw [h3]; simp only; omega⟩

/-- The members of a share: the entries of the file at the positions `p` with
`p mod R = g`. -/
theorem mem_group_share {α : Type} (R g : Nat) :
    ∀ (xs : List α) (n p : Nat) (x : α),
      (p, x) ∈ group_share R g xs n ↔
        p % R = g ∧ ∃ j, p = n + j + 1 ∧ xs[j]? = some x := by
  intro xs
  induction xs with
  | nil =>
    intro n p x
    simp [group_share]
  | cons y more ih =>
    intro n p x
    rw [group_share, List.mem_append, ih]
    constructor
    · rintro (h | ⟨hg, j, hj, hx⟩)
      · by_cases hsel : (n + 1) % R = g
        · rw [if_pos hsel] at h
          simp only [List.mem_singleton, Prod.mk.injEq] at h
          refine ⟨by rw [h.1]; exact hsel, 0, by omega, ?_⟩
          rw [h.2]; exact List.getElem?_cons_zero
        · rw [if_neg hsel] at h
          exact absurd h (List.not_mem_nil _)
      · exact ⟨hg, j + 1, by omega, by simpa using hx⟩
    · rintro ⟨hg, j, hj, hx⟩
      cases j with
      | zero =>
        left
        simp only [List.getElem?_cons_zero, Option.some.injEq] at hx
        have hp : p = n + 1 := by omega
        rw [hp] at hg
        rw [if_pos hg, hp, hx]
        exact List.mem_singleton_self _
      | succ j =>
        right
        exact ⟨hg, j, by omega, by simpa using hx⟩

/-- The number of entries in the shares of two groups. -/
theorem group_share_two {α : Type} :
    ∀ (xs : List α) (n : Nat),
      (group_share 2 0 xs n).length + (group_share 2 1 xs n).length = xs.length ∧
      (group_share 2 ((n + 1) % 2) xs n).length = (xs.length + 1) / 2 := by
  intro xs
  induction xs with
  | nil => intro n; simp [group_share]
  | cons y more ih =>
    intro n
    obtain ⟨ih1, ih2⟩ := ih (n + 1)
    rcases Nat.mod_two_eq_zero_or_one (n + 1) with h | h
    · have h2 : (n + 1 + 1) % 2 = 1 := by omega
      rw [h2] at ih2
      simp only [group_share, h, List.length_append, List.length_cons, List.length_nil,
        if_true]
      simp only [show ¬ (0 = 1) by decide, if_false, List.length_nil]
      omega
    · have h2 : (n + 1 + 1) % 2 = 0 := by omega
      rw [h2] at ih2
      simp only [group_share, h, List.length_append, List.length_cons, List.length_nil,
        if_true]
      simp only [show ¬ (1 = 0) by decide, if_false, List.length_nil]
      omega


/-- The shares of the groups for reads of at most 1010 letters, whose lines fit the line
buffer.  With `R = mpisize / cluster_size` groups, the first rank of group `g` runs, on
the lines of the `-sorted` file, the probes of exactly the reads whose sequential position
`p` in the file (the first line has position 1) satisfies `p mod R = g`, in the order of
the file; every read of the file is in the share of exactly one group; and with twice as
many ranks as a group has, the two groups take disjoint halves that together cover the
file. -/
theorem group_probes_its_share (cfg : Config) (cs : Nat) (b : Build) (fuel pfuel L : Nat)
    (hcs : 0 < cs) (hR : cs ≤ cfg.mpisize) (hL : 1 ≤ L) (hmax : L + 13 < MAX_LINE)
    (recs : List (List (Fin 5) × Nat)) (hrecs : ∀ r ∈ recs, r.1.length = L ∧ r.2 < 10 ^ 12) :
    (∀ (g : Nat) (W : Cluster), g < cfg.mpisize / cs →
      (∀ e, probe_reads cfg cs b fuel pfuel (g * cs) L
          (group_share (cfg.mpisize / cs) g (recs.map (fun r => (text r.1, r.2))) 0) W
            = .error e →
        main_loop cfg cs b fuel pfuel (g * cs)
          (recs.map (fun r => sorted_line (text r.1, r.2))) ⟨0, 0, W⟩ = .error e) ∧
      (∀ C, probe_reads cfg cs b fuel pfuel (g * cs) L
          (group_share (cfg.mpisize / cs) g (recs.map (fun r => (text r.1, r.2))) 0) W
            = .ok C →
        ∃ st1, main_loop cfg cs b fuel pfuel (g * cs)
            (recs.map (fun r => sorted_line (text r.1, r.2))) ⟨0, 0, W⟩ = .ok st1 ∧
          st1.cluster = C ∧ st1.read_number = recs.length)) ∧
    (∀ (j : Nat) (r : List (Fin 5) × Nat), recs[j]? = some r →
      ∃! g, g < cfg.mpisize / cs ∧ (j + 1, r) ∈ group_share (cfg.mpisize / cs) g recs 0) ∧
    (cfg.mpisize = 2 * cs →
      cfg.mpisize / cs = 2 ∧
      (group_share 2 0 recs 0).length + (group_share 2 1 recs 0).length = recs.length ∧
      (group_share 2 1 recs 0).length = (recs.length + 1) / 2 ∧
      ∀ x, ¬ (x ∈ group_share 2 0 recs 0 ∧ x ∈ group_share 2 1 recs 0)) := by
  have hRpos : 0 < cfg.mpisize / cs := Nat.div_pos hR hcs
  refine ⟨?_, ?_, ?_⟩
  · intro g W _
    have hbase : cluster_base cs (g * cs) / cs = g := by
      rw [cluster_base, Nat.mul_div_cancel _ hcs, Nat.mul_div_cancel _ hcs]
    have h := main_loop_share cfg cs b fuel pfuel (g * cs) L hL hmax recs hrecs ⟨0, 0, W⟩
      (Or.inl rfl)
    rw [hbase] at h
    obtain ⟨h1, h2⟩ := h
    refine ⟨h1, ?_⟩
    intro C hC
    obtain ⟨st1, hrun, hcl, hn⟩ := h2 C hC
    exact ⟨st1, hrun, hcl, by rw [hn]; simp⟩
  · intro j r hj
    refine ⟨(j + 1) % (cfg.mpisize / cs), ⟨Nat.mod_lt _ hRpos, ?_⟩, ?_⟩
    · rw [mem_group_share]
      exact ⟨rfl, j, by omega, hj⟩
    · rintro g ⟨_, hmem⟩
      rw [mem_group_share] at hmem
      exact hmem.1.symm
  · intro h2
    have hq : cfg.mpisize / cs = 2 := by
      rw [h2, Nat.mul_div_cancel _ hcs]
    obtain ⟨hsum, hhalf⟩ := group_share_two recs 0
    refine ⟨hq, hsum, hhalf, ?_⟩
    rintro ⟨p, x⟩ ⟨h0, h1⟩
    rw [mem_group_share] at h0 h1
    omega

theorem group_probes_its_share_witness :
    (2 : Nat) / 1 = 2 ∧
    (group_share 2 0 [([0, 1], 0), ([1, 0], 1), ([2, 2], 2)] 0).length +
      (group_share 2 1 [(([0, 1] : List (Fin 5)), 0), ([1, 0], 1), ([2, 2], 2)] 0).length
        = [(([0, 1] : List (Fin 5)), 0), ([1, 0], 1), ([2, 2], 2)].length ∧
    (group_share 2 1 [(([0, 1] : List (Fin 5)), 0), ([1, 0], 1), ([2, 2], 2)] 0).length
      = ([(([0, 1] : List (Fin 5)), 0), ([1, 0], 1), ([2, 2], 2)].length + 1) / 2 ∧
    ∀ x, ¬ (x ∈ group_share 2 0 [(([0, 1] : List (Fin 5)), 0), ([1, 0], 1), ([2, 2], 2)] 0 ∧
      x ∈ group_share 2 1 [(([0, 1] : List (Fin 5)), 0), ([1, 0], 1), ([2, 2], 2)] 0) :=
  (group_probes_its_share ⟨16, 2⟩ 1 default_build 8 8 2 (by decide) (by decide) (by decide)
    (by decide) [([0, 1], 0), ([1, 0], 1), ([2, 2], 2)] (by decide)).2.2 rfl


theorem alphabet_clean (r : List Char) (h : Alphabet r) : Clean r := by
  intro c hc
  rcases h c hc with h1 | h1 | h1 | h1 | h1 <;> subst h1 <;> rfl

theorem lex_nodup (l : List (List (Fin 5)))
    (h : List.Pairwise (List.Lex (fun x y : Fin 5 => x < y)) l) : l.Nodup := by
  refine h.imp ?_
  intro a b hab heq
  rw [heq] at hab
  exact lex_irrefl b hab

/-- Two strictly increasing lists of symbol strings with the same members are equal. -/
theorem lex_sorted_ext (l1 l2 : List (List (Fin 5)))
    (h1 : List.Pairwise (List.Lex (fun x y : Fin 5 => x < y)) l1)
    (h2 : List.Pairwise (List.Lex (fun x y : Fin 5 => x < y)) l2)
    (hmem : ∀ x, x ∈ l1 ↔ x ∈ l2) : l1 = l2 := by
  have hp : l1.Perm l2 :=
    (List.perm_ext_iff_of_nodup (lex_nodup l1 h1) (lex_nodup l2 h2)).mpr hmem
  exact List.eq_of_perm_of_sorted hp h1 h2

/-- After construction from reads of one length the walk returns, and the strings of the
`-sorted` file are the texts of the leaves below the root. -/
theorem walk_file (cfg : Config) (L : Nat) (reads : List (List Char))
    (stack : List Char) (fuel : Nat)
    (hk : 1 ≤ cfg.CHUNKBITS) (hsz : cfg.mpisize * 2 ^ cfg.CHUNKBITS ≤ 2 ^ 63)
    (hpeer : 1 ≤ cfg.mpisize) (hL : 1 ≤ L) (hlen : ∀ r ∈ reads, r.length = L)
    (hclean : ∀ r ∈ reads, Clean r) (hn : reads.length ≤ 2 ^ 63)
    (hstack : stack.length = MAX_LINE) (hline : L < MAX_LINE) (hfuel : L ≤ fuel) (W : World)
    (hW : construct cfg reads = .ok W) :
    ∃ W1 F str, walk_and_print_trie cfg stack fuel W = .ok W1 ∧ Rel cfg W F ∧
      TrieInv L (reads.map codes) F str ∧
      (W1.peer (cfg.mpisize - 1)).sorted_and_unique_reads =
        sorted_lines (leaves F.mem L ROOT_CELL []) := by
  rcases construct_spec cfg hk hsz hpeer L hL reads hlen hclean hn with
    ⟨⟨e, he⟩, _⟩ | ⟨W0, F, str, hW0, hrel, inv, _⟩
  · rw [he] at hW; exact absurd hW (by simp)
  rw [hW0] at hW
  simp only [Except.ok.injEq] at hW
  subst hW
  have hcap : F.last < cfg.mpisize * 2 ^ cfg.CHUNKBITS := hrel.1.lt_max
  have hroot : ROOT_CELL / 2 ^ cfg.CHUNKBITS = 0 := by
    apply Nat.div_eq_of_lt
    calc ROOT_CELL < 2 ^ 1 := by decide
      _ ≤ 2 ^ cfg.CHUNKBITS := Nat.pow_le_pow_right (by norm_num) hk
  obtain ⟨s1, hwalk, _, _⟩ := walk_internal_spec cfg stack L (reads.map codes) F str inv hcap
    (by rw [hstack]; exact hline) L fuel hfuel W0 0 stack ROOT_CELL [] stack hrel.2.symm
    (le_refl _) inv.root_le (Nat.zero_le _) inv.str_root (by simp) hL rfl
    (by rw [hstack]; exact hline) (fun h => absurd hroot h)
  have h0 : ([] : List (Fin 5)).length = 0 := rfl
  rw [h0] at hwalk
  have hrun : walk_and_print_trie cfg stack fuel W0 = .ok (append_lines W0 (cfg.mpisize - 1)
      (sorted_lines (leaves F.mem L ROOT_CELL []))) := by
    unfold walk_and_print_trie
    rw [hwalk]
  refine ⟨_, F, str, hrun, hrel, inv, ?_⟩
  have := sorted_file_eq cfg L reads stack fuel hk hsz hpeer hL hlen hclean hn hstack hline
    hfuel W0 _ hW0 hrun
  rw [this, hrel.2]

/-- The strings of the leaves below the root of a well-shaped trie of reads that come in
strictly increasing order are the symbol strings of the reads, in the order of the input. -/
theorem leaves_of_sorted {L : Nat} {ids : List (List (Fin 5))} {F : Flat}
    {str : Nat → List (Fin 5)} (inv : TrieInv L ids F str) (hn : ids.length ≤ 2 ^ 63)
    (hlen : ∀ x ∈ ids, x.length = L)
    (hsorted : List.Pairwise (List.Lex (fun x y : Fin 5 => x < y)) ids) :
    (leaves F.mem L ROOT_CELL []).map Prod.fst = ids := by
  apply lex_sorted_ext
  · rw [List.pairwise_map]
    exact leaves_sorted F.mem L ROOT_CELL []
  · exact hsorted
  · intro x
    rw [List.mem_map]
    constructor
    · rintro ⟨⟨p, id⟩, hmem, rfl⟩
      exact ((mem_leaves_root inv hn hlen p id).mp hmem).1
    · intro hx
      exact ⟨(x, first_index x ids), (mem_leaves_root inv hn hlen x _).mpr ⟨hx, rfl⟩, rfl⟩

/-- C12, as the code has it. For reads of one length over `ACGTN` that are given in
strictly increasing order (under `A < C < G < T < N`, so that each sequence occurs once),
the walk returns, the sequences of the `-sorted` file are the reads in the order of the
input, and construction run again on them ends in the same cluster state, so that its
trie image is the original image cell for cell. -/
theorem rerun_on_sorted_input (cfg : Config) (L : Nat) (reads : List (List Char))
    (stack : List Char) (fuel : Nat)
    (hk : 1 ≤ cfg.CHUNKBITS) (hsz : cfg.mpisize * 2 ^ cfg.CHUNKBITS ≤ 2 ^ 63)
    (hpeer : 1 ≤ cfg.mpisize) (hL : 1 ≤ L) (hlen : ∀ r ∈ reads, r.length = L)
    (halpha : ∀ r ∈ reads, Alphabet r) (hn : reads.length ≤ 2 ^ 63)
    (hstack : stack.length = MAX_LINE) (hline : L < MAX_LINE) (hfuel : L ≤ fuel)
    (hsorted : List.Pairwise (List.Lex (fun x y : Fin 5 => x < y)) (reads.map codes))
    (W : World) (hW : construct cfg reads = .ok W) :
    ∃ W1, walk_and_print_trie cfg stack fuel W = .ok W1 ∧
      (W1.peer (cfg.mpisize - 1)).sorted_and_unique_reads.map Prod.fst = reads ∧
      construct cfg ((W1.peer (cfg.mpisize - 1)).sorted_and_unique_reads.map Prod.fst) = .ok W := by
  obtain ⟨W1, F, str, hwalk, hrel, inv, hfile⟩ := walk_file cfg L reads stack fuel hk hsz hpeer
    hL hlen (fun r hr => alphabet_clean r (halpha r hr)) hn hstack hline hfuel W hW
  have hids : (reads.map codes).length ≤ 2 ^ 63 := by simpa using hn
  have hidlen : ∀ x ∈ reads.map codes, x.length = L := by
    intro x hx
    obtain ⟨r, hr, rfl⟩ := List.mem_map.1 hx
    simpa [codes] using hlen r hr
  have hl := leaves_of_sorted inv hids hidlen hsorted
  have hseq : (W1.peer (cfg.mpisize - 1)).sorted_and_unique_reads.map Prod.fst = reads := by
    rw [hfile]
    have h3 : List.map Prod.fst (sorted_lines (leaves F.mem L ROOT_CELL [])) =
        List.map text (List.map Prod.fst (leaves F.mem L ROOT_CELL [])) := by
      simp [sorted_lines, List.map_map, Function.comp_def]
    rw [h3, hl, List.map_map]
    calc List.map (text ∘ codes) reads = List.map id reads := by
          apply List.map_congr_left
          intro r hr
          exact text_codes r (halpha r hr)
      _ = reads := List.map_id _
  refine ⟨W1, hwalk, hseq, ?_⟩
  rw [hseq]
  exact hW


set_option maxRecDepth 100000 in
theorem rerun_on_sorted_input_witness :
    ∃ W W1, construct ⟨16, 1⟩ [['A', 'A'], ['C', 'A'], ['C', 'N']] = .ok W ∧
      walk_and_print_trie ⟨16, 1⟩ (List.replicate MAX_LINE 'x') 2 W = .ok W1 ∧
      (W1.peer 0).sorted_and_unique_reads.map Prod.fst = [['A', 'A'], ['C', 'A'], ['C', 'N']] ∧
      construct ⟨16, 1⟩ ((W1.peer 0).sorted_and_unique_reads.map Prod.fst) = .ok W := by
  obtain ⟨W, hW⟩ : ∃ W, construct ⟨16, 1⟩ [['A', 'A'], ['C', 'A'], ['C', 'N']] = .ok W :=
    ⟨_, rfl⟩
  obtain ⟨W1, h1, h2, h3⟩ := rerun_on_sorted_input ⟨16, 1⟩ 2 [['A', 'A'], ['C', 'A'], ['C', 'N']]
    (List.replicate MAX_LINE 'x') 2 (by decide) (by decide) (by decide) (by decide)
    (by decide) (by simp [Alphabet]) (by decide) (List.length_replicate _ _)
    (by decide) (by decide) (by decide) W hW
  exact ⟨W, W1, hW, h1, h2, h3⟩

set_option maxRecDepth 100000 in
/-- C12 as stated does not hold: for the reads `CA`, `AA` on one rank, construction run
again on the sequences of the `-sorted` file (`AA`, `CA`) gives a trie image that differs
from the original one. -/
theorem rerun_image_differs :
    ∃ W W1 image W2 image2,
      construct ⟨16, 1⟩ [['C', 'A'], ['A', 'A']] = .ok W ∧
      walk_and_print_trie ⟨16, 1⟩ (List.replicate MAX_LINE 'x') 2 W = .ok W1 ∧
      (W1.peer 0).sorted_and_unique_reads.map Prod.fst = [['A', 'A'], ['C', 'A']] ∧
      dump_trie ⟨16, 1⟩ 1 W 0 [] = .ok image ∧
      construct ⟨16, 1⟩ ((W1.peer 0).sorted_and_unique_reads.map Prod.fst) = .ok W2 ∧
      dump_trie ⟨16, 1⟩ 1 W2 0 [] = .ok image2 ∧
      image ≠ image2 :=
  ⟨_, _, _, _, _, rfl, rfl, rfl, rfl, rfl, rfl, by decide⟩


theorem forward_of_rel {cfg : Config} {W : World} {F : Flat} (h : Rel cfg W F) :
    Forward cfg W := fun r hr hi => (h.1.next r hr hi).1

/-- The monitor of the allocator never fires when every cached `next_guy` points
forward. -/
theorem get_next_free_edge_fwd_eq (cfg : Config) :
    ∀ (fuel : Nat) (W : World) (p : Nat), Forward cfg W → p < cfg.mpisize →
      get_next_free_edge_fwd cfg fuel W p = get_next_free_edge cfg fuel W p := by
  intro fuel
  induction fuel with
  | zero => intro W p _ _; rfl
  | succ fuel ih =>
    intro W p hfw hp
    rw [get_next_free_edge_fwd, get_next_free_edge]
    dsimp only
    by_cases hcond : (((W.peer p).last_used_edge + 1) % 2 ^ 64) >>> cfg.CHUNKBITS ≠ p
    · rw [if_pos hcond, if_pos hcond]
      have hlt : p < (if (W.peer p).init = true then W.peer p
          else { W.peer p with next_guy := p + 1, init := true }).next_guy := by
        by_cases hi : (W.peer p).init = true
        · rw [if_pos hi]; exact hfw p hp hi
        · rw [if_neg hi]; exact Nat.lt_succ_self p
      generalize hme : (if (W.peer p).init = true then W.peer p
          else { W.peer p with next_guy := p + 1, init := true }) = me1 at hlt ⊢
      have hinit : me1.init = true → p < me1.next_guy := fun _ => hlt
      rw [if_neg (show ¬ me1.next_guy = p by omega), if_neg (show ¬ me1.next_guy < p by omega),
        if_neg (show ¬ me1.next_guy = p by omega)]
      by_cases hbad : me1.next_guy = 0 ∨ cfg.mpisize ≤ me1.next_guy
      · rw [if_pos hbad, if_pos hbad]
      · rw [if_neg hbad, if_neg hbad]
        have hfw1 : Forward cfg (W.set p me1) := by
          intro r hr hi
          by_cases hrp : r = p
          · subst hrp
            rw [world_set_peer_same] at hi ⊢
            exact hinit hi
          · rw [world_set_peer_ne _ _ _ _ hrp] at hi ⊢
            exact hfw r hr hi
        rewrite [ih (W.set p me1) me1.next_guy hfw1 (by omega)]
        rfl
    · rw [if_neg hcond, if_neg hcond]

/-- With every cached `next_guy` pointing forward, `local_add_read` with the monitored
allocator is `local_add_read`. -/
theorem local_add_read_fwd_eq (cfg : Config)
    (tail : World → Nat → Nat → Nat → Nat → Except Fault (World × Nat)) (s : List Char)
    (W : World) (p edge rn len : Nat) (hfw : Forward cfg W) (hp : p < cfg.mpisize) :
    local_add_read_fwd cfg tail s W p edge rn len = local_add_read cfg tail s W p edge rn len := by
  unfold local_add_read_fwd local_add_read
  rewrite [get_next_free_edge_fwd_eq cfg cfg.mpisize W p hfw hp]
  rfl


/-- What one call of `local_add_read` on the rank that owns `edge` comes to: a result
that does not depend on the call for the rest of the string and is not the fault of a
message fed backwards, or that call, in a state that again reads as a flat trie, on a
cell of the same or a later rank or on a leaf word. -/
theorem local_add_read_calls (cfg : Config) (hsz : cfg.mpisize * 2 ^ cfg.CHUNKBITS ≤ 2 ^ 63)
    (ch : Char) (s1 : List Char) (W : World) (F : Flat) (edge rn len : Nat)
    (hrel : Rel cfg W F) (hb : Bounded F) (he1 : 1 ≤ edge) (he2 : edge ≤ F.last) :
    (∃ r, r ≠ .error .feedBackwards ∧
      ∀ tail, local_add_read cfg tail (ch :: s1) W (edge >>> cfg.CHUNKBITS) edge rn len = r) ∨
    (∃ Wc e1, CallArgs cfg Wc (edge >>> cfg.CHUNKBITS) e1 ∧
      ∀ tail, local_add_read cfg tail (ch :: s1) W (edge >>> cfg.CHUNKBITS) edge rn len =
        tail Wc (edge >>> cfg.CHUNKBITS) e1 rn (len + 1)) := by
  have hS : 0 < 2 ^ cfg.CHUNKBITS := Nat.two_pow_pos _
  have hG := hrel.1.lt_max
  by_cases hend : at_end (ch :: s1) = true
  · left
    exact ⟨.error .assertion, by simp, fun tail => by simp [local_add_read, hend]⟩
  have hend' : at_end (ch :: s1) = false := by simpa using hend
  have hw : ((W.peer (edge >>> cfg.CHUNKBITS)).trie_cell (edge &&& cfg.CHUNKMASK)).edge (code ch)
      = (F.mem edge).edge (code ch) := by
    rw [hrel.2]; rfl
  by_cases hend1 : at_end s1 = true
  · -- the last letter
    left
    by_cases hterm : (F.mem edge).edge (code ch) &&& ENDS_WORD ≠ 0
    · refine ⟨?r, ?hne, fun tail => ?heq⟩
      case heq =>
        simp only [local_add_read, ne_eq, not_true_eq_false, if_false, hend',
          Bool.false_eq_true]
        rewrite [hw, if_pos hend1, if_pos hterm]
        exact rfl
      case hne => simp
    · by_cases hz : (F.mem edge).edge (code ch) &&& EDGE_MASK ≠ 0
      · refine ⟨.error .assertion, by simp, fun tail => ?_⟩
        simp only [local_add_read, ne_eq, not_true_eq_false, if_false, hend',
          Bool.false_eq_true]
        rw [hw, if_pos hend1, if_neg hterm, if_pos hz]
      · refine ⟨?r2, ?hne2, fun tail => ?heq2⟩
        case heq2 =>
          simp only [local_add_read, ne_eq, not_true_eq_false, if_false, hend',
            Bool.false_eq_true]
          rewrite [hw, if_pos hend1, if_neg hterm, if_neg hz]
          exact rfl
        case hne2 => simp
  · -- an inner letter
    by_cases hz : (F.mem edge).edge (code ch) = 0
    · have ht0 : edge / 2 ^ cfg.CHUNKBITS < cfg.mpisize := by
        rw [Nat.div_lt_iff_lt_mul hS]; omega
      by_cases hcap : cfg.mpisize * 2 ^ cfg.CHUNKBITS ≤ F.last + 1
      · left
        have hfull := get_next_free_edge_full cfg hsz cfg.mpisize W (edge >>> cfg.CHUNKBITS)
          F.last hrel.1 (by omega) (by rw [shr_eq]; exact ht0) (Nat.sub_le _ _)
        refine ⟨.error .noSuchRank, by simp, fun tail => ?_⟩
        simp only [local_add_read, ne_eq, not_true_eq_false, if_false, hend',
          Bool.false_eq_true]
        rw [hw, if_neg hend1, if_pos hz, hfull]
      right
      have hroom : F.last + 1 < cfg.mpisize * 2 ^ cfg.CHUNKBITS := by omega
      have hq : (F.last + 1) / 2 ^ cfg.CHUNKBITS < cfg.mpisize := by
        rw [Nat.div_lt_iff_lt_mul hS]; exact hroom
      have ht : edge / 2 ^ cfg.CHUNKBITS ≤ (F.last + 1) / 2 ^ cfg.CHUNKBITS :=
        Nat.div_le_div_right (by omega)
      obtain ⟨Wa, hWa, inva, samea⟩ := get_next_free_edge_ok cfg hsz cfg.mpisize W
        (edge >>> cfg.CHUNKBITS) F.last hrel.1 (by rw [shr_eq]; exact ht) hroom
        (Nat.lt_of_le_of_lt (Nat.sub_le _ _) hq)
      have hmax : ¬ cfg.MAX_SIZE ≤ F.last + 1 := by
        rw [Config.MAX_SIZE, chunksize_eq, Nat.mul_comm]; omega
      have hcells : cell_at cfg (write_edge (write_cell Wa ((F.last + 1) >>> cfg.CHUNKBITS)
          ((F.last + 1) &&& cfg.CHUNKMASK) empty) (edge >>> cfg.CHUNKBITS)
          (edge &&& cfg.CHUNKMASK) (code ch) (F.last + 1)) =
          Flat.write (fun i => if i = F.last + 1 then empty else F.mem i) edge (code ch)
            (F.last + 1) := by
        rw [cell_at_write_edge, cell_at_write_cell, cell_at_of_same cfg samea, hrel.2]
      have hrelc : Rel cfg (write_edge (write_cell Wa ((F.last + 1) >>> cfg.CHUNKBITS)
          ((F.last + 1) &&& cfg.CHUNKMASK) empty) (edge >>> cfg.CHUNKBITS)
          (edge &&& cfg.CHUNKMASK) (code ch) (F.last + 1))
          ⟨Flat.write (fun i => if i = F.last + 1 then empty else F.mem i)
          edge (code ch) (F.last + 1), F.last + 1⟩ := by
        refine ⟨?_, hcells.symm⟩
        exact allocInv_of_same (allocInv_of_same inva (write_cell_sameAlloc _ _ _ _))
          (write_edge_sameAlloc _ _ _ _ _)
      have hnew : (((write_edge (write_cell Wa ((F.last + 1) >>> cfg.CHUNKBITS)
          ((F.last + 1) &&& cfg.CHUNKMASK) empty) (edge >>> cfg.CHUNKBITS)
          (edge &&& cfg.CHUNKMASK) (code ch) (F.last + 1)).peer
          (edge >>> cfg.CHUNKBITS)).trie_cell (edge &&& cfg.CHUNKMASK)).edge
          (code ch) = F.last + 1 := write_edge_word _ _ _ _ _
      refine ⟨_, F.last + 1, ⟨_, hrelc, bounded_alloc F edge (code ch) hb he1 he2,
        Or.inl ⟨by omega, le_refl _, by rw [shr_eq]; exact ht⟩⟩, fun tail => ?_⟩
      simp only [local_add_read, ne_eq, not_true_eq_false, if_false, hend',
        Bool.false_eq_true]
      rw [hw, if_neg hend1, if_pos hz, hWa]
      dsimp only
      rw [setread_forward cfg Wa _ _ empty (by rw [shr_eq]; exact ht) hq]
      dsimp only
      rw [if_neg hmax, hnew]
    · right
      by_cases h63 : 2 ^ 63 ≤ (F.mem edge).edge (code ch)
      · refine ⟨W, (F.mem edge).edge (code ch), ⟨F, hrel, hb, Or.inr h63⟩, fun tail => ?_⟩
        simp only [local_add_read, ne_eq, not_true_eq_false, if_false, hend',
          Bool.false_eq_true]
        rw [hw, if_neg hend1, if_neg hz]
      · have hchild : edge < (F.mem edge).edge (code ch) ∧
            (F.mem edge).edge (code ch) ≤ F.last := by
          rcases hb edge he1 he2 (code ch) with h | h | h
          · exact absurd h hz
          · exact absurd (ge_of_terminal _ h) h63
          · exact h
        refine ⟨W, (F.mem edge).edge (code ch), ⟨F, hrel, hb, Or.inl ⟨by omega, hchild.2, ?_⟩⟩,
          fun tail => ?_⟩
        · rw [shr_eq]; exact Nat.div_le_div_right (by omega)
        · simp only [local_add_read, ne_eq, not_true_eq_false, if_false, hend',
            Bool.false_eq_true]
          rw [hw, if_neg hend1, if_neg hz]


theorem add_read_enter_cases (cfg : Config) (W : World) (F : Flat) (p edge rn len : Nat)
    (hrel : Rel cfg W F) :
    add_read_enter W p edge rn len = .error .assertion ∨
      ∃ W1, add_read_enter W p edge rn len = .ok W1 ∧ Rel cfg W1 F := by
  simp only [add_read_enter]
  by_cases h0 : len = 0
  · rw [if_pos h0]
    by_cases h1 : edge ≠ ROOT_CELL
    · rw [if_pos h1]; left; rfl
    · rw [if_neg h1]
      by_cases h2 : EDGE_MASK < rn
      · rw [if_pos h2]; left; rfl
      · rw [if_neg h2]
        right
        exact ⟨_, rfl, rel_set_benign hrel _ _ rfl rfl rfl rfl⟩
  · rw [if_neg h0]
    right
    exact ⟨_, rfl, hrel⟩

/-- The calls of `local_add_read` with two functions for the rest of the string that
agree. -/
theorem local_add_read_agree (cfg : Config) (hsz : cfg.mpisize * 2 ^ cfg.CHUNKBITS ≤ 2 ^ 63)
    (tail1 tail2 : World → Nat → Nat → Nat → Nat → Except Fault (World × Nat))
    (hag : Agrees cfg tail1 tail2) (s : List Char) (W : World) (F : Flat) (edge rn len : Nat)
    (hrel : Rel cfg W F) (hb : Bounded F) (he1 : 1 ≤ edge) (he2 : edge ≤ F.last) :
    local_add_read cfg tail1 s W (edge >>> cfg.CHUNKBITS) edge rn len =
        local_add_read cfg tail2 s W (edge >>> cfg.CHUNKBITS) edge rn len ∧
      local_add_read cfg tail2 s W (edge >>> cfg.CHUNKBITS) edge rn len
        ≠ .error .feedBackwards := by
  cases s with
  | nil =>
    rw [local_add_read_nil, local_add_read_nil]
    exact ⟨rfl, by simp⟩
  | cons ch s1 =>
    rcases local_add_read_calls cfg hsz ch s1 W F edge rn len hrel hb he1 he2 with
      ⟨r, hr, h⟩ | ⟨Wc, e1, hargs, h⟩
    · rw [h tail1, h tail2]
      exact ⟨rfl, hr⟩
    · rw [h tail1, h tail2]
      exact hag Wc _ e1 rn (len + 1) hargs

/-- The branch `target_rank == mpirank` with and without the monitor. -/
theorem add_read_local_agree (cfg : Config) (hsz : cfg.mpisize * 2 ^ cfg.CHUNKBITS ≤ 2 ^ 63)
    (tail1 tail2 : World → Nat → Nat → Nat → Nat → Except Fault (World × Nat))
    (hag : Agrees cfg tail1 tail2) (s : List Char) (W : World) (F : Flat) (edge rn len : Nat)
    (hrel : Rel cfg W F) (hb : Bounded F) (he1 : 1 ≤ edge) (he2 : edge ≤ F.last) :
    add_read_local_fwd cfg tail1 s W (edge >>> cfg.CHUNKBITS) edge rn len =
        add_read_local cfg tail2 s W (edge >>> cfg.CHUNKBITS) edge rn len ∧
      add_read_local cfg tail2 s W (edge >>> cfg.CHUNKBITS) edge rn len
        ≠ .error .feedBackwards := by
  have hS : 0 < 2 ^ cfg.CHUNKBITS := Nat.two_pow_pos _
  have hG := hrel.1.lt_max
  have hp : edge >>> cfg.CHUNKBITS < cfg.mpisize := by
    rw [shr_eq, Nat.div_lt_iff_lt_mul hS]; omega
  obtain ⟨h1, h2⟩ := local_add_read_agree cfg hsz tail1 tail2 hag s W F edge rn len hrel hb
    he1 he2
  unfold add_read_local_fwd add_read_local
  rw [local_add_read_fwd_eq cfg tail1 s W _ edge rn len (forward_of_rel hrel) hp, h1]
  generalize local_add_read cfg tail2 s W (edge >>> cfg.CHUNKBITS) edge rn len = x at h2 ⊢
  cases x with
  | error e =>
    refine ⟨rfl, ?_⟩
    simp only [ne_eq, Except.error.injEq]
    intro h
    exact h2 (by rw [h])
  | ok v =>
    obtain ⟨W1, len2⟩ := v
    simp only
    by_cases h0 : len = 0
    · simp [h0]
    · simp [h0]

/-- The body of `add_read` with and without the monitor. -/
theorem add_read_body_agree (cfg : Config) (hsz : cfg.mpisize * 2 ^ cfg.CHUNKBITS ≤ 2 ^ 63)
    (tail1 tail2 : World → Nat → Nat → Nat → Nat → Except Fault (World × Nat))
    (hag : Agrees cfg tail1 tail2) (s : List Char) :
    Agrees cfg (add_read_body_fwd cfg tail1 s) (add_read_body cfg tail2 s) := by
  intro W p edge rn len hargs
  obtain ⟨F, hrel, hb, hcase⟩ := hargs
  have hS : 0 < 2 ^ cfg.CHUNKBITS := Nat.two_pow_pos _
  have hG := hrel.1.lt_max
  unfold add_read_body_fwd add_read_body
  rcases add_read_enter_cases cfg W F p edge rn len hrel with herr | ⟨Wa, hWa, hrela⟩
  · rw [herr]
    exact ⟨rfl, by simp⟩
  rw [hWa]
  simp only
  rcases hcase with ⟨he1, he2, hp⟩ | h63
  · have he63 : edge < 2 ^ 63 := by omega
    have hrank : edge / 2 ^ cfg.CHUNKBITS < cfg.mpisize := by
      rw [Nat.div_lt_iff_lt_mul hS]; omega
    rw [signed_rank_of_lt cfg edge he63]
    simp only
    rw [← shr_eq cfg edge]
    by_cases hloc : edge >>> cfg.CHUNKBITS = p
    · rw [if_pos hloc, if_pos hloc]
      subst hloc
      exact add_read_local_agree cfg hsz tail1 tail2 hag s Wa F edge rn len hrela hb he1 he2
    · rw [if_neg hloc, if_neg hloc]
      have hnlt : ¬ edge >>> cfg.CHUNKBITS < p := by
        rw [shr_eq] at hloc ⊢; omega
      have hne : ¬ (edge >>> cfg.CHUNKBITS = 0 ∨ cfg.mpisize ≤ edge >>> cfg.CHUNKBITS) := by
        rw [shr_eq] at hloc ⊢; omega
      rw [if_neg hnlt, if_neg hne, if_neg hne]
      rcases add_read_enter_cases cfg Wa F (edge >>> cfg.CHUNKBITS) edge rn len hrela with
        herr | ⟨Wb, hWb, hrelb⟩
      · rw [herr]
        exact ⟨rfl, by simp⟩
      rw [hWb]
      simp only
      exact add_read_local_agree cfg hsz tail1 tail2 hag s Wb F edge rn len hrelb hb he1 he2
  · have hno : signed_rank cfg edge = none := by
      simp only [signed_rank]
      rw [if_neg (by omega)]
    rw [hno]
    exact ⟨rfl, by simp⟩

/-- The monitor never fires in `add_read`: on the arguments of every call of a run the
monitored `add_read` gives the result of `add_read`, and that is not the fault of a
message fed backwards. -/
theorem add_read_agree (cfg : Config) (hsz : cfg.mpisize * 2 ^ cfg.CHUNKBITS ≤ 2 ^ 63) :
    ∀ s : List Char, Agrees cfg (add_read_fwd cfg s) (add_read cfg s) := by
  intro s
  induction s with
  | nil =>
    intro W p edge rn len hargs
    rw [add_read_fwd, add_read]
    exact add_read_body_agree cfg hsz _ _ (fun _ _ _ _ _ _ => ⟨rfl, by simp⟩) [] W p edge rn
      len hargs
  | cons ch s1 ih =>
    intro W p edge rn len hargs
    rw [add_read_fwd, add_read]
    exact add_read_body_agree cfg hsz _ _ ih (ch :: s1) W p edge rn len hargs


/-- The monitor never fires in the ingestion loop. -/
theorem ingest_fwd_eq (cfg : Config) (hsz : cfg.mpisize * 2 ^ cfg.CHUNKBITS ≤ 2 ^ 63) :
    ∀ (reads : List (List Char)) (W : World) (F : Flat) (rn : Nat),
      Rel cfg W F → Bounded F → 1 ≤ F.last → rn + reads.length ≤ 2 ^ 63 →
      ingest_fwd cfg reads W rn = ingest cfg reads W rn ∧
        ingest cfg reads W rn ≠ .error .feedBackwards := by
  intro reads
  induction reads with
  | nil =>
    intro W F rn _ _ _ _
    exact ⟨rfl, by simp [ingest]⟩
  | cons r more ih =>
    intro W F rn hrel hb h1 hn
    simp only [List.length_cons] at hn
    have hmask : rn ≤ EDGE_MASK := by rw [edge_mask_eq]; omega
    have hsim := add_read_sim cfg hsz r W F 0 ROOT_CELL rn 0 hrel hb (le_refl _) h1
      (Nat.zero_le _) (fun _ => ⟨rfl, hmask⟩)
    obtain ⟨hag1, hag2⟩ := add_read_agree cfg hsz r W 0 ROOT_CELL rn 0
      ⟨F, hrel, hb, Or.inl ⟨le_refl _, h1, Nat.zero_le _⟩⟩
    rw [ingest_fwd, ingest, hag1]
    cases hres : flat_add (cfg.mpisize * 2 ^ cfg.CHUNKBITS) r F ROOT_CELL rn with
    | none =>
      rw [hres] at hsim
      obtain ⟨e, he⟩ := hsim
      rw [he] at hag2 ⊢
      exact ⟨rfl, hag2⟩
    | some res =>
      obtain ⟨F1, d⟩ := res
      rw [hres] at hsim
      obtain ⟨W1, hW1, hrel1⟩ := hsim
      obtain ⟨hb1, hl1⟩ := flat_add_bounded _ r F ROOT_CELL rn F1 d hb (le_refl _) h1 hres
      rw [hW1]
      exact ih W1 F1 (rn + 1) hrel1 hb1 (by omega) (by omega)

/-- The walk with the monitor lists the leaves below a cell as the walk does. -/
theorem walk_internal_fwd_spec (cfg : Config) (stack : List Char) (L : Nat)
    (ids : List (List (Fin 5))) (F : Flat) (str : Nat → List (Fin 5))
    (hT : TrieInv L ids F str) (hcap : F.last < cfg.mpisize * 2 ^ cfg.CHUNKBITS)
    (hstack : L < stack.length) :
    ∀ (d fuel : Nat), d ≤ fuel →
      WalkSpec cfg L F str (walk_and_print_trie_internal_fwd cfg stack fuel) d := by
  intro d
  induction d with
  | zero =>
    intro fuel _ W p s edge pre rest0 _ _ _ _ _ _ hd
    omega
  | succ d ih =>
    intro fuel hf
    obtain ⟨f, rfl⟩ : ∃ f, fuel = f + 1 := ⟨fuel - 1, by omega⟩
    have hwalk := ih f (by omega)
    intro W p s edge pre rest0 hmem h1 h2 hp hstr hd _ hs hlen hnul
    unfold walk_and_print_trie_internal_fwd
    simp only
    by_cases ht : edge >>> cfg.CHUNKBITS ≠ p
    · rw [if_pos ht]
      have hS : 0 < 2 ^ cfg.CHUNKBITS := Nat.two_pow_pos _
      have hrank : edge >>> cfg.CHUNKBITS < cfg.mpisize := by
        rw [shr_eq]
        apply (Nat.div_lt_iff_lt_mul hS).2
        omega
      have hne : edge / 2 ^ cfg.CHUNKBITS ≠ p := by rw [← shr_eq]; exact ht
      have hback : ¬ edge >>> cfg.CHUNKBITS < p := by
        rw [shr_eq]; omega
      have hpos : ¬ (edge >>> cfg.CHUNKBITS = 0 ∨ cfg.mpisize ≤ edge >>> cfg.CHUNKBITS) := by
        rw [shr_eq] at hrank ⊢
        omega
      rw [if_neg hback, if_neg hpos]
      obtain ⟨m, rest, hsm, hml⟩ := hnul hne
      have hcs : c_string s = text pre ++ c_string (m ++ Char.ofNat 0 :: rest) := by
        rw [hsm, List.append_assoc, c_string_text_append]
      have hcl := c_string_length_le m rest
      have hfit : ¬ stack.length < (c_string s).length + 1 := by
        rw [hcs, List.length_append]
        omega
      rw [if_neg hfit]
      have hrecv : received_string stack s = text pre ++
          (c_string (m ++ Char.ofNat 0 :: rest) ++ [Char.ofNat 0] ++
            stack.drop ((c_string s).length + 1)) := by
        unfold received_string
        rw [hcs]; simp
      have hrl : L < (received_string stack s).length := by
        unfold received_string
        simp only [List.length_append, List.length_cons, List.length_nil, List.length_drop]
        omega
      obtain ⟨s1, hw, _, _⟩ := walk_here_spec cfg L ids F str hT hcap _ d hwalk W edge pre
        (received_string stack s) _ hmem h1 h2 hstr hd hrecv hrl
      rw [hw]
      exact ⟨s, rfl, rfl, m, rest, hsm, hml⟩
    · rw [if_neg ht]
      have hp2 : p = edge >>> cfg.CHUNKBITS := (not_not.1 ht).symm
      rw [hp2]
      exact walk_here_spec cfg L ids F str hT hcap _ d hwalk W edge pre s rest0 hmem h1 h2
        hstr hd hs hlen

/-- The monitor never fires in the walk after construction from reads of one length. -/
theorem walk_fwd_eq (cfg : Config) (L : Nat) (reads : List (List Char))
    (stack : List Char) (fuel : Nat)
    (hk : 1 ≤ cfg.CHUNKBITS) (hsz : cfg.mpisize * 2 ^ cfg.CHUNKBITS ≤ 2 ^ 63)
    (hpeer : 1 ≤ cfg.mpisize) (hL : 1 ≤ L) (hlen : ∀ r ∈ reads, r.length = L)
    (hclean : ∀ r ∈ reads, Clean r) (hn : reads.length ≤ 2 ^ 63)
    (hstack : stack.length = MAX_LINE) (hline : L < MAX_LINE) (hfuel : L ≤ fuel) (W : World)
    (hW : construct cfg reads = .ok W) :
    ∃ W1, walk_and_print_trie_fwd cfg stack fuel W = .ok W1 ∧
      walk_and_print_trie cfg stack fuel W = .ok W1 := by
  rcases construct_spec cfg hk hsz hpeer L hL reads hlen hclean hn with
    ⟨⟨e, he⟩, _⟩ | ⟨W0, F, str, hW0, hrel, inv, _⟩
  · rw [he] at hW; exact absurd hW (by simp)
  rw [hW0] at hW
  simp only [Except.ok.injEq] at hW
  subst hW
  have hcap : F.last < cfg.mpisize * 2 ^ cfg.CHUNKBITS := hrel.1.lt_max
  have hroot : ROOT_CELL / 2 ^ cfg.CHUNKBITS = 0 := by
    apply Nat.div_eq_of_lt
    calc ROOT_CELL < 2 ^ 1 := by decide
      _ ≤ 2 ^ cfg.CHUNKBITS := Nat.pow_le_pow_right (by norm_num) hk
  obtain ⟨s1, hwalk, _, _⟩ := walk_internal_spec cfg stack L (reads.map codes) F str inv hcap
    (by rw [hstack]; exact hline) L fuel hfuel W0 0 stack ROOT_CELL [] stack hrel.2.symm
    (le_refl _) inv.root_le (Nat.zero_le _) inv.str_root (by simp) hL rfl
    (by rw [hstack]; exact hline) (fun h => absurd hroot h)
  obtain ⟨s2, hwalk2, _, _⟩ := walk_internal_fwd_spec cfg stack L (reads.map codes) F str inv
    hcap (by rw [hstack]; exact hline) L fuel hfuel W0 0 stack ROOT_CELL [] stack hrel.2.symm
    (le_refl _) inv.root_le (Nat.zero_le _) inv.str_root (by simp) hL rfl
    (by rw [hstack]; exact hline) (fun h => absurd hroot h)
  have h0 : ([] : List (Fin 5)).length = 0 := rfl
  rw [h0] at hwalk hwalk2
  refine ⟨append_lines W0 (cfg.mpisize - 1) (sorted_lines (leaves F.mem L ROOT_CELL [])),
    ?_, ?_⟩
  · unfold walk_and_print_trie_fwd
    rw [hwalk2]
  · unfold walk_and_print_trie
    rw [hwalk]


/-- Following child edges leads to cells of strictly larger index. -/
theorem reach_lt {F : Flat} (hb : Bounded F) (hf : Fresh F) :
    ∀ (cs : List (Fin 5)) (e e1 : Nat), cs ≠ [] → reach F.mem e cs e1 → e < e1 := by
  intro cs
  induction cs with
  | nil => intro e e1 h _; exact absurd rfl h
  | cons c cs ih =>
    intro e e1 _ h
    simp only [reach] at h
    obtain ⟨hne, hnt, hr⟩ := h
    have hi : 1 ≤ e ∧ e ≤ F.last := by
      by_contra hcon
      have : F.mem e = empty := hf e (by omega)
      rw [this, empty_edge] at hne
      exact hne rfl
    have hchild := child_of_bounded hb hi.1 hi.2 hne hnt
    cases cs with
    | nil =>
      simp only [reach] at hr
      omega
    | cons c2 cs2 =>
      have := ih _ e1 (by simp) hr
      omega

/-- C20. In every state that the ingestion loop reaches: each non-empty non-leaf edge
stored in the cell with global index `p` has a payload that is the index of an allocated
cell strictly greater than `p`, so the rank that owns the child is never below the rank
of the parent; no path of child edges leads from a cell back to it; the run that led to
the state and every insert issued in it give, with a monitor that stops the run whenever
a call is handed to a lower rank, the same result as without, and that result is never
the fault of a message fed backwards; and after construction from reads of one length
the walk with the monitor returns what the walk returns. -/
theorem edges_point_forward (cfg : Config) (hk : 1 ≤ cfg.CHUNKBITS)
    (hsz : cfg.mpisize * 2 ^ cfg.CHUNKBITS ≤ 2 ^ 63) (hpeer : 1 ≤ cfg.mpisize)
    (prev : List (List Char)) (hn : prev.length < 2 ^ 63) (W : World) (n : Nat)
    (hW : ingest cfg prev (initial_world cfg) 0 = .ok (W, n)) :
    (∀ (p : Nat) (c : Fin 5), (cell_at cfg W p).edge c ≠ 0 →
      (cell_at cfg W p).edge c &&& ENDS_WORD = 0 →
      p < (cell_at cfg W p).edge c &&& EDGE_MASK ∧
      (cell_at cfg W p).edge c &&& EDGE_MASK ≤ largest_served W ∧
      p >>> cfg.CHUNKBITS ≤ ((cell_at cfg W p).edge c &&& EDGE_MASK) >>> cfg.CHUNKBITS) ∧
    (∀ (e : Nat) (cs : List (Fin 5)), cs ≠ [] → ¬ reach (cell_at cfg W) e cs e) ∧
    ingest_fwd cfg prev (initial_world cfg) 0 = .ok (W, n) ∧
    (∀ s : List Char,
      add_read_fwd cfg s W 0 ROOT_CELL n 0 = add_read cfg s W 0 ROOT_CELL n 0 ∧
      add_read cfg s W 0 ROOT_CELL n 0 ≠ .error .feedBackwards) ∧
    (∀ (L : Nat) (stack : List Char) (fuel : Nat), 1 ≤ L → (∀ r ∈ prev, r.length = L) →
      (∀ r ∈ prev, Clean r) → stack.length = MAX_LINE → L < MAX_LINE → L ≤ fuel →
      ∃ W1, walk_and_print_trie_fwd cfg stack fuel W = .ok W1 ∧
        walk_and_print_trie cfg stack fuel W = .ok W1) := by
  have hS : 2 ≤ 2 ^ cfg.CHUNKBITS := by
    calc 2 = 2 ^ 1 := by norm_num
      _ ≤ 2 ^ cfg.CHUNKBITS := Nat.pow_le_pow_right (by norm_num) hk
  have hroom : 1 < cfg.mpisize * 2 ^ cfg.CHUNKBITS := by
    calc 1 < 1 * 2 := by norm_num
      _ ≤ cfg.mpisize * 2 ^ cfg.CHUNKBITS := Nat.mul_le_mul hpeer hS
  obtain ⟨F, _, hrel, hb, hf, hl, h1, hn0⟩ :=
    ingest_initial_flat cfg hk hsz hpeer prev (by omega) W n hW
  refine ⟨?_, ?_, ?_, ?_, ?_⟩
  · intro p c hne hnt
    rw [← hrel.2] at hne hnt ⊢
    have hi : 1 ≤ p ∧ p ≤ F.last := by
      by_contra hcon
      have : F.mem p = empty := hf p (by omega)
      rw [this, empty_edge] at hne
      exact hne rfl
    have hchild := child_of_bounded hb hi.1 hi.2 hne hnt
    rw [mask_of_lt _ (by omega), largest_served_eq hrel.1, shr_eq, shr_eq]
    exact ⟨hchild.1, hchild.2, Nat.div_le_div_right (by omega)⟩
  · intro e cs hcs hreach
    rw [← hrel.2] at hreach
    exact Nat.lt_irrefl _ (reach_lt hb hf cs e e hcs hreach)
  · have h := ingest_fwd_eq cfg hsz prev (initial_world cfg) Flat.initial 0
      (rel_initial cfg hk hroom) bounded_initial (le_refl _) (by omega)
    rw [h.1, hW]
  · intro s
    exact add_read_agree cfg hsz s W 0 ROOT_CELL n 0
      ⟨F, hrel, hb, Or.inl ⟨le_refl _, h1, Nat.zero_le _⟩⟩
  · intro L stack fuel hL hlen hclean hstack hline hfuel
    have hc : construct cfg prev = .ok W := by rw [construct, hW]
    exact walk_fwd_eq cfg L prev stack fuel hk hsz hpeer hL hlen hclean (by omega) hstack
      hline hfuel W hc

theorem edges_point_forward_witness :
    ∃ W n, ingest ⟨1, 4⟩ [['A', 'C', 'G', 'T'], ['A', 'A', 'A', 'A']] (initial_world ⟨1, 4⟩) 0
        = .ok (W, n) ∧
      ingest_fwd ⟨1, 4⟩ [['A', 'C', 'G', 'T'], ['A', 'A', 'A', 'A']] (initial_world ⟨1, 4⟩) 0
        = .ok (W, n) ∧
      (cell_at ⟨1, 4⟩ W 1).edge 0 = 2 ∧
      ¬ reach (cell_at ⟨1, 4⟩ W) 2 [0, 0] 2 := by
  have key : ∃ W n, ingest ⟨1, 4⟩ [['A', 'C', 'G', 'T'], ['A', 'A', 'A', 'A']]
      (initial_world ⟨1, 4⟩) 0 = .ok (W, n) ∧ (cell_at ⟨1, 4⟩ W 1).edge 0 = 2 :=
    ⟨_, _, rfl, by decide⟩
  obtain ⟨W, n, hW, hcell⟩ := key
  obtain ⟨_, h2, h3, _, _⟩ := edges_point_forward ⟨1, 4⟩ (by decide) (by decide) (by decide)
    [['A', 'C', 'G', 'T'], ['A', 'A', 'A', 'A']] (by decide) W n hW
  exact ⟨W, n, hW, h3, hcell, h2 2 [0, 0] (by simp)⟩


/-- The start-up of the second rank on a trie file of `2^16 + 1` cells with shards of
`2^16` cells and two ranks: it is the only rank of the second group and loads one cell. -/
theorem startup_second_group (image : List CELL) (hlen : image.length = 2 ^ 16 + 1) :
    startup ⟨16, 2⟩ image 1 = .run ⟨image.take 1, []⟩ := by
  have hl : image_last_used_edge image = 2 ^ 16 := by
    rw [image_last_used_edge, hlen]; decide
  have hc : cluster_size ⟨16, 2⟩ (2 ^ 16) = 1 := by decide
  have hm : (2 ^ 16 &&& (⟨16, 2⟩ : Config).CHUNKMASK) + 1 = 1 := by decide
  have htake : (image.take 1).length = 1 := by
    rw [List.length_take, hlen]; decide
  rw [startup, hl]
  simp only [hc, hm]
  rw [if_neg (by decide), if_neg (by decide), if_neg (by decide)]
  simp only [Nat.mod_one, Nat.zero_mul, List.drop_zero, Nat.sub_self, Nat.lt_irrefl, if_false]
  rw [if_neg (by rw [htake]; decide)]

theorem cluster_rank_mk (f : Nat → Finder) (l : List (Nat × Record)) (q : Nat) :
    (Cluster.mk f l).rank q = f q := rfl

/-- A probe from the root on a rank that has loaded a single cell reads outside the
segment. -/
theorem locate_short (W : Cluster) (hW : (W.rank 1).trie_cell.length ≤ 1) (fuel pfuel : Nat)
    (ch : Char) (s1 : List Char) (a mo : Nat) :
    locate_overlaps ⟨16, 2⟩ 1 default_build (fuel + 1) pfuel W 1 (ch :: s1) ROOT_CELL a mo
      = .error .outOfBounds := by
  have hs : signed_rank ⟨16, 2⟩ ROOT_CELL = some 0 := by decide
  have hidx : ROOT_CELL &&& (⟨16, 2⟩ : Config).CHUNKMASK = 1 := by decide
  have hcell : (W.rank 1).trie_cell[1]? = none := by
    rw [List.getElem?_eq_none]; exact hW
  rw [locate_overlaps, hs]
  simp only [Nat.mod_one, if_true]
  rw [local_locate_overlaps, hidx, hcell]

/-- The main loop of the second of two groups of one rank, on a rank that has loaded a
single cell, for a `-sorted` file whose first line holds the read `AC`. -/
theorem main_loop_short (W : Cluster) (hW : (W.rank 1).trie_cell.length ≤ 1) :
    main_loop ⟨16, 2⟩ 1 default_build 4 4 1 [sorted_line (['A', 'C'], 0)] ⟨0, 0, W⟩
      = .error .outOfBounds := by
  have hline : sorted_line (['A', 'C'], 0) = sorted_line (text [0, 1], 0) := rfl
  have hp : probe_lengths default_build 2 = [1] := by decide
  have hd : (text [0, 1]).drop (2 - 1) = ['C'] := by decide
  have hprobe : probe_loop ⟨16, 2⟩ 1 default_build 4 4 1 (text [0, 1]) 2 0
      (probe_lengths default_build 2) W = .error .outOfBounds := by
    rewrite [hp, probe_loop, hd]
    rewrite [locate_short _ hW 3 4 'C' [] 0 (2 - 1)]
    rfl
  rewrite [hline, main_loop,
    process_sorted_line ⟨16, 2⟩ 1 default_build 4 4 1 2 (by decide) (by decide) [0, 1] rfl 0
      (by decide) _ (Or.inl rfl)]
  simp only
  rewrite [if_pos (by decide), hprobe]
  rfl

/-- The overlap pass of the second group on a trie file of `2^16 + 1` cells with shards of
`2^16` cells and two ranks, for a `-sorted` file whose first line holds the read `AC`: the
probe of the suffix `C` looks up the root cell, which the rank has not loaded. -/
theorem overlap_pass_short_segment (image : List CELL) (hlen : image.length = 2 ^ 16 + 1) :
    overlap_pass ⟨16, 2⟩ default_build 4 4 1 image [sorted_line (['A', 'C'], 0)]
      = .error .outOfBounds := by
  have hl : image_last_used_edge image = 2 ^ 16 := by
    rw [image_last_used_edge, hlen]; decide
  have hc : cluster_size ⟨16, 2⟩ (2 ^ 16) = 1 := by decide
  have hrank : (start_cluster ⟨16, 2⟩ image).rank 1 = ⟨image.take 1, []⟩ := by
    unfold start_cluster
    rewrite [cluster_rank_mk, startup_second_group image hlen]
    rfl
  have hW : ((start_cluster ⟨16, 2⟩ image).rank 1).trie_cell.length ≤ 1 := by
    rewrite [hrank, List.length_take]
    exact Nat.min_le_left _ _
  rewrite [overlap_pass, hl, hc, main_loop_short _ hW]
  rfl

/-- C13. The overlap phase on a trie file of `2^16 + 1` cells (`last_used_edge = 2^16`)
with shards of `2^16` cells and two ranks: the second rank, which start-up makes a group
of its own with a single loaded cell, stops at the first probe of the first line of the
`-sorted` file with a read outside its segment, where a run with one rank and one shard
for the whole trie goes on to probe. -/
theorem distributed_probe_out_of_segment :
    cluster_size ⟨16, 2⟩ (image_last_used_edge (List.replicate (2 ^ 16 + 1) empty)) = 1 ∧
    overlap_pass ⟨16, 2⟩ default_build 4 4 1 (List.replicate (2 ^ 16 + 1) empty)
      [sorted_line (['A', 'C'], 0)] = .error .outOfBounds ∧
    cluster_size ⟨17, 1⟩ (image_last_used_edge (List.replicate (2 ^ 16 + 1) empty)) = 1 := by
  have hlen : (List.replicate (2 ^ 16 + 1) empty).length = 2 ^ 16 + 1 :=
    List.length_replicate _ _
  have hl : image_last_used_edge (List.replicate (2 ^ 16 + 1) empty) = 2 ^ 16 :=
    image_last_replicate _ (by norm_num) (by norm_num)
  refine ⟨?_, overlap_pass_short_segment _ hlen, ?_⟩
  · rw [hl]; decide
  · rw [hl]; decide


/-- A construction that succeeds under one configuration succeeds under every other
that has room for its cells, and both clusters read as the same flat trie. -/
theorem construct_transfer (cfg cfg1 : Config) (hk : 1 ≤ cfg.CHUNKBITS)
    (hsz : cfg.mpisize * 2 ^ cfg.CHUNKBITS ≤ 2 ^ 63)
    (hk1 : 1 ≤ cfg1.CHUNKBITS) (hsz1 : cfg1.mpisize * 2 ^ cfg1.CHUNKBITS ≤ 2 ^ 63)
    (hpeer1 : 1 ≤ cfg1.mpisize) (reads : List (List Char)) (hn : reads.length ≤ 2 ^ 63)
    (W1 : World) (hW1 : construct cfg1 reads = .ok W1)
    (hroom : largest_served W1 < cfg.mpisize * 2 ^ cfg.CHUNKBITS) :
    ∃ W F, construct cfg reads = .ok W ∧ Rel cfg W F ∧ Rel cfg1 W1 F := by
  have hing : ∃ n, ingest cfg1 reads (initial_world cfg1) 0 = .ok (W1, n) := by
    unfold construct at hW1
    split at hW1
    · exact absurd hW1 (by simp)
    · rename_i W0 n0 hi
      simp only [Except.ok.injEq] at hW1
      subst hW1
      exact ⟨n0, hi⟩
  obtain ⟨n, hin⟩ := hing
  obtain ⟨F, hF, hrel1, _, _, _, h1, _⟩ :=
    ingest_initial_flat cfg1 hk1 hsz1 hpeer1 reads hn W1 n hin
  rw [largest_served_eq hrel1.1] at hroom
  obtain ⟨hF2, _⟩ := flat_ingest_cap _ (cfg.mpisize * 2 ^ cfg.CHUNKBITS) reads Flat.initial 0
    F n hF hroom
  have hcap : 1 < cfg.mpisize * 2 ^ cfg.CHUNKBITS := by omega
  obtain ⟨hok, _⟩ := ingest_flat cfg hsz reads (initial_world cfg) Flat.initial 0
    (rel_initial cfg hk hcap) bounded_initial (le_refl _) (by omega)
  obtain ⟨W, hW, hrel⟩ := hok F n hF2
  refine ⟨W, F, ?_, hrel, hrel1⟩
  rw [construct, hW]

/-- The records of the single group of a run with one group are those of all the groups of
a run with `R` groups together. -/
theorem pass_records_union (b : Build) (mem : Nat → CELL) (L R : Nat) (hR : 0 < R)
    (x : Record) :
    ∀ (recs : List (List Char × Nat)) (n : Nat),
      x ∈ pass_records b mem L 1 0 recs n ↔
        ∃ g, g < R ∧ x ∈ pass_records b mem L R g recs n := by
  intro recs
  induction recs with
  | nil =>
    intro n
    simp [pass_records]
  | cons r more ih =>
    intro n
    simp only [pass_records, List.mem_append, Nat.mod_one, if_true]
    rw [ih (n + 1)]
    constructor
    · rintro (h | ⟨g, hg, h⟩)
      · exact ⟨(n + 1) % R, Nat.mod_lt _ hR, Or.inl (by rw [if_pos rfl]; exact h)⟩
      · exact ⟨g, hg, Or.inr h⟩
    · rintro ⟨g, hg, h | h⟩
      · left
        by_cases hsel : (n + 1) % R = g
        · rw [if_pos hsel] at h; exact h
        · rw [if_neg hsel] at h; exact absurd h (List.not_mem_nil _)
      · exact Or.inr ⟨g, hg, h⟩

/-- The overlap pass of a group that holds the trie file writes the records of the probes
of the lines of its share, and no other record. -/
theorem overlap_pass_log (cfg2 : Config) (L : Nat) (ids : List (List (Fin 5))) (F : Flat)
    (str : Nat → List (Fin 5)) (inv : TrieInv L ids F str) (hids : ids.length ≤ 10 ^ 12)
    (hidlen : ∀ x ∈ ids, x.length = L) (hsmall : F.last < 2 ^ 63)
    (hL : 1 ≤ L) (hmax : L + 13 < MAX_LINE) (hk2 : cfg2.CHUNKBITS ≤ 63)
    (hmod : F.last % 2 ^ cfg2.CHUNKBITS ≠ 0) (base : Nat)
    (hb : base % cluster_size cfg2 F.last = 0)
    (hbl : base + cluster_size cfg2 F.last ≤
      (cfg2.mpisize / cluster_size cfg2 F.last) * cluster_size cfg2 F.last)
    (b : Build) (hmin : 1 ≤ b.MIN_OVERLAP) (fuel pfuel : Nat) (hf : 2 * L ≤ fuel)
    (hpf : 2 * L ≤ pfuel) :
    ∃ V, overlap_pass cfg2 b fuel pfuel base ((List.range (F.last + 1)).map F.mem)
        ((sorted_lines (leaves F.mem L ROOT_CELL [])).map sorted_line) = .ok V ∧
      V.log.map Prod.snd = pass_records b F.mem L
        (cfg2.mpisize / cluster_size cfg2 F.last) (base / cluster_size cfg2 F.last)
        (sorted_lines (leaves F.mem L ROOT_CELL [])) 0 := by
  have hstart := holds_start cfg2 F hsmall hk2 hmod base hb hbl
  have hgroup := group_start cfg2 F hsmall hk2 hmod base hb hbl
  have hids63 : ids.length ≤ 2 ^ 63 := le_trans hids (by norm_num)
  have hrecs : ∀ r ∈ leaves F.mem L ROOT_CELL [], r.1.length = L ∧ r.2 < 10 ^ 12 := by
    intro r hr
    obtain ⟨h1, h2⟩ := (mem_leaves_root inv hids63 hidlen r.1 r.2).1 hr
    refine ⟨hidlen _ h1, ?_⟩
    have := first_index_lt_of_mem _ _ h1
    omega
  have himg : image_last_used_edge ((List.range (F.last + 1)).map F.mem) = F.last :=
    image_last F.mem F.last hsmall
  obtain ⟨st1, hrun, prs, hV, hmap, _⟩ := main_loop_spec cfg2 _ b base L ids F str
    inv hgroup fuel pfuel hf hpf hL hmax hmin (leaves F.mem L ROOT_CELL []) hrecs
    { read_length := 0, read_number := 0,
      cluster := start_cluster cfg2 ((List.range (F.last + 1)).map F.mem) } (Or.inl rfl)
    hstart
  have hlines : (sorted_lines (leaves F.mem L ROOT_CELL [])).map sorted_line =
      (leaves F.mem L ROOT_CELL []).map (fun r => sorted_line (text r.1, r.2)) := by
    rw [sorted_lines, List.map_map]
    rfl
  have hbase : cluster_base (cluster_size cfg2 F.last) base = base := by
    have := group_base hb 0 hgroup.cs_pos
    simpa using this
  rw [hbase] at hmap
  simp only at hV hmap
  refine ⟨st1.cluster, ?_, ?_⟩
  · rewrite [overlap_pass, himg, hlines, hrun]
    rfl
  · have hlog : (start_cluster cfg2 ((List.range (F.last + 1)).map F.mem)).log = [] := rfl
    rw [hV, emit_all_log, hlog, List.nil_append, hmap]
    rfl


/-- Construction, walk, trie file and overlap records of a cluster run compared with the
run on a single rank with one shard for the whole trie, for reads of one length: when the
single-rank construction succeeds and the cluster has room for its cells, the cluster
construction succeeds with the same flat cell array, both walks write the same `-sorted`
file and both dumps the same trie file; and in the overlap phase, when the last cell of
the trie file is not the first of a shard and there are ranks for one group at least,
the records that the groups of the cluster write are together the records that the
single rank writes. -/
theorem distributed_matches_single_peer (cfg cfg1 : Config) (L : Nat)
    (reads : List (List Char)) (hk : 1 ≤ cfg.CHUNKBITS)
    (hsz : cfg.mpisize * 2 ^ cfg.CHUNKBITS ≤ 2 ^ 63) (hk1 : 1 ≤ cfg1.CHUNKBITS)
    (hsz1 : cfg1.mpisize * 2 ^ cfg1.CHUNKBITS ≤ 2 ^ 63) (hone : cfg1.mpisize = 1)
    (hL : 1 ≤ L) (hlen : ∀ r ∈ reads, r.length = L) (hclean : ∀ r ∈ reads, Clean r)
    (hn : reads.length ≤ 10 ^ 12) (W1 : World) (hW1 : construct cfg1 reads = .ok W1)
    (hroom : largest_served W1 < cfg.mpisize * 2 ^ cfg.CHUNKBITS)
    (stack : List Char) (wfuel : Nat) (hstack : stack.length = MAX_LINE)
    (hmax : L + 13 < MAX_LINE) (hwf : L ≤ wfuel) (old old1 : List CELL)
    (cfg2 cfg3 : Config) (hk2 : cfg2.CHUNKBITS ≤ 63) (hk3 : cfg3.CHUNKBITS ≤ 63)
    (hone3 : cfg3.mpisize = 1) (hfit : largest_served W1 < 2 ^ cfg3.CHUNKBITS)
    (hmod : largest_served W1 % 2 ^ cfg2.CHUNKBITS ≠ 0)
    (henough : cluster_size cfg2 (largest_served W1) ≤ cfg2.mpisize)
    (b : Build) (hmin : 1 ≤ b.MIN_OVERLAP) (fuel pfuel : Nat) (hf : 2 * L ≤ fuel)
    (hpf : 2 * L ≤ pfuel) :
    ∃ W image lines, construct cfg reads = .ok W ∧ cell_at cfg W = cell_at cfg1 W1 ∧
      largest_served W = largest_served W1 ∧
      dump_trie cfg (cfg.mpisize + 1) W 0 old = .ok image ∧
      dump_trie cfg1 (cfg1.mpisize + 1) W1 0 old1 = .ok image ∧
      (∃ V V1, walk_and_print_trie cfg stack wfuel W = .ok V ∧
        walk_and_print_trie cfg1 stack wfuel W1 = .ok V1 ∧
        (V.peer (cfg.mpisize - 1)).sorted_and_unique_reads = lines ∧
        (V1.peer (cfg1.mpisize - 1)).sorted_and_unique_reads = lines) ∧
      ∃ V0, overlap_pass cfg3 b fuel pfuel 0 image (lines.map sorted_line) = .ok V0 ∧
        (∀ g, g < cfg2.mpisize / cluster_size cfg2 (largest_served W1) →
          ∃ Vg, overlap_pass cfg2 b fuel pfuel (g * cluster_size cfg2 (largest_served W1))
            image (lines.map sorted_line) = .ok Vg) ∧
        ∀ x, x ∈ V0.log.map Prod.snd ↔
          ∃ g Vg, g < cfg2.mpisize / cluster_size cfg2 (largest_served W1) ∧
            overlap_pass cfg2 b fuel pfuel (g * cluster_size cfg2 (largest_served W1))
              image (lines.map sorted_line) = .ok Vg ∧
            x ∈ Vg.log.map Prod.snd := by
  have hn63 : reads.length ≤ 2 ^ 63 := le_trans hn (by norm_num)
  have hpeer1 : 1 ≤ cfg1.mpisize := by omega
  obtain ⟨W, F, hW, hrel, hrel1⟩ := construct_transfer cfg cfg1 hk hsz hk1 hsz1 hpeer1 reads
    hn63 W1 hW1 hroom
  have hpeer : 1 ≤ cfg.mpisize := by
    by_contra h0
    have : cfg.mpisize = 0 := by omega
    rw [this] at hroom
    simp at hroom
  have hlast1 := largest_served_eq hrel1.1
  rw [hlast1] at hfit hmod henough ⊢
  obtain ⟨V, Fa, stra, hwalk, hrela, inva, hfile⟩ := walk_file cfg L reads stack wfuel hk hsz
    hpeer hL hlen hclean hn63 hstack (by omega) hwf W hW
  obtain ⟨V1, Fb, strb, hwalk1, hrelb, _, hfile1⟩ := walk_file cfg1 L reads stack wfuel hk1
    hsz1 hpeer1 hL hlen hclean hn63 hstack (by omega) hwf W1 hW1
  have hFa : Fa = F := by
    have h1 : Fa.mem = F.mem := by rw [hrela.2, hrel.2]
    have h2 : Fa.last = F.last := by
      rw [← largest_served_eq hrela.1, ← largest_served_eq hrel.1]
    cases Fa; cases F
    simp only at h1 h2
    rw [h1, h2]
  have hFb : Fb.mem = F.mem := by rw [hrelb.2, hrel1.2]
  rw [hFa] at inva hfile
  rw [hFb] at hfile1
  have hsmall : F.last < 2 ^ 63 := lt_of_lt_of_le hrel.1.lt_max hsz
  have hids : (reads.map codes).length ≤ 10 ^ 12 := by simpa using hn
  have hidlen : ∀ x ∈ reads.map codes, x.length = L := by
    intro x hx
    obtain ⟨r, hr, rfl⟩ := List.mem_map.1 hx
    simpa [codes] using hlen r hr
  have hroot := hrel.1.root_le
  -- the single rank of the overlap phase
  have hmod3 : F.last % 2 ^ cfg3.CHUNKBITS ≠ 0 := by
    rw [Nat.mod_eq_of_lt hfit]; omega
  have hcs3 : cluster_size cfg3 F.last = 1 := by
    rw [cluster_size_eq cfg3 F.last hsmall hk3 hmod3, Nat.div_eq_of_lt hfit]
  obtain ⟨V0, hV0, hlog0⟩ := overlap_pass_log cfg3 L (reads.map codes) F stra inva hids hidlen
    hsmall hL hmax hk3 hmod3 0 (Nat.zero_mod _) (by rw [hcs3, hone3]) b hmin fuel pfuel hf hpf
  rw [hcs3, hone3] at hlog0
  -- the groups of the cluster
  have hcspos : 0 < cluster_size cfg2 F.last := by
    rw [cluster_size_eq cfg2 F.last hsmall hk2 hmod]; exact Nat.succ_pos _
  have hR : 0 < cfg2.mpisize / cluster_size cfg2 F.last := Nat.div_pos henough hcspos
  have hgroup : ∀ g, g < cfg2.mpisize / cluster_size cfg2 F.last →
      ∃ Vg, overlap_pass cfg2 b fuel pfuel (g * cluster_size cfg2 F.last)
          ((List.range (F.last + 1)).map F.mem)
          ((sorted_lines (leaves F.mem L ROOT_CELL [])).map sorted_line) = .ok Vg ∧
        Vg.log.map Prod.snd = pass_records b F.mem L
          (cfg2.mpisize / cluster_size cfg2 F.last) g
          (sorted_lines (leaves F.mem L ROOT_CELL [])) 0 := by
    intro g hg
    have hbl : g * cluster_size cfg2 F.last + cluster_size cfg2 F.last ≤
        (cfg2.mpisize / cluster_size cfg2 F.last) * cluster_size cfg2 F.last := by
      have h1 : (g + 1) * cluster_size cfg2 F.last ≤
          (cfg2.mpisize / cluster_size cfg2 F.last) * cluster_size cfg2 F.last :=
        Nat.mul_le_mul_right _ hg
      rw [Nat.add_mul, Nat.one_mul] at h1
      exact h1
    obtain ⟨Vg, hVg, hlogg⟩ := overlap_pass_log cfg2 L (reads.map codes) F stra inva hids
      hidlen hsmall hL hmax hk2 hmod (g * cluster_size cfg2 F.last)
      (Nat.mul_mod_left _ _) hbl b hmin fuel pfuel hf hpf
    rw [Nat.mul_div_cancel _ hcspos] at hlogg
    exact ⟨Vg, hVg, hlogg⟩
  refine ⟨W, (List.range (F.last + 1)).map F.mem, sorted_lines (leaves F.mem L ROOT_CELL []),
    hW, by rw [← hrel.2, ← hrel1.2], largest_served_eq hrel.1,
    dump_trie_image cfg hsz W F hrel old, dump_trie_image cfg1 hsz1 W1 F hrel1 old1,
    ⟨V, V1, hwalk, hwalk1, hfile, hfile1⟩, V0, hV0, ?_, ?_⟩
  · intro g hg
    obtain ⟨Vg, hVg, _⟩ := hgroup g hg
    exact ⟨Vg, hVg⟩
  · intro x
    have h10 : (1 : Nat) / 1 = 1 := rfl
    have h00 : (0 : Nat) / 1 = 0 := rfl
    rw [hlog0, h10, h00, pass_records_union b F.mem L _ hR x]
    constructor
    · rintro ⟨g, hg, hx⟩
      obtain ⟨Vg, hVg, hlogg⟩ := hgroup g hg
      exact ⟨g, Vg, hg, hVg, by rw [hlogg]; exact hx⟩
    · rintro ⟨g, Vg, hg, hVg, hx⟩
      obtain ⟨Vg2, hVg2, hlogg⟩ := hgroup g hg
      rw [hVg2] at hVg
      simp only [Except.ok.injEq] at hVg
      rw [← hVg, hlogg] at hx
      exact ⟨g, hg, hx⟩


theorem distributed_matches_single_peer_witness :
    ∃ W1 W, construct ⟨2, 1⟩ [['A', 'C'], ['C', 'A']] = .ok W1 ∧
      construct ⟨1, 2⟩ [['A', 'C'], ['C', 'A']] = .ok W ∧
      cell_at ⟨1, 2⟩ W = cell_at ⟨2, 1⟩ W1 ∧ largest_served W = largest_served W1 := by
  have key : ∃ W1, construct ⟨2, 1⟩ [['A', 'C'], ['C', 'A']] = .ok W1 ∧ largest_served W1 = 3 :=
    ⟨_, rfl, by decide⟩
  obtain ⟨W1, hW1, hl⟩ := key
  obtain ⟨W, _, _, hW, hcells, hlast, _⟩ := distributed_matches_single_peer ⟨1, 2⟩ ⟨2, 1⟩ 2
    [['A', 'C'], ['C', 'A']] (by decide) (by decide) (by decide) (by decide) rfl (by decide)
    (by decide) (by simp [Clean, at_end]) (by decide) W1 hW1 (by rw [hl]; decide)
    (List.replicate MAX_LINE 'x') 2 (List.length_replicate _ _) (by decide) (by decide) [] []
    ⟨1, 4⟩ ⟨2, 1⟩ (by decide) (by decide) rfl (by rw [hl]; decide) (by rw [hl]; decide)
    (by rw [hl]; decide) default_build (by decide) 4 4 (by decide) (by decide)
  exact ⟨W1, W, hW1, hW, hcells, hlast⟩


/-! ## Every cell of a finished insertion has an edge -/

/-- An insertion that completes leaves an edge in every cell it passes through: when every
allocated cell but the one the insertion starts in has an edge before, every allocated cell
has one after. -/
theorem flat_add_inhabited (cap : Nat) :
    ∀ (s : List Char) (F : Flat) (edge rn : Nat) (F1 : Flat) (d : Option Nat),
      flat_add cap s F edge rn = some (F1, d) →
      (∀ i, 1 ≤ i → i ≤ F.last → i ≠ edge → ∃ c, (F.mem i).edge c ≠ 0) →
      ∀ i, 1 ≤ i → i ≤ F1.last → ∃ c, (F1.mem i).edge c ≠ 0 := by
  intro s
  induction s with
  | nil => intro F edge rn F1 d h; simp [flat_add] at h
  | cons ch s1 ih =>
    intro F edge rn F1 d h hP i hi1 hi2
    rw [flat_add] at h
    by_cases hend : at_end (ch :: s1) = true
    · rw [if_pos hend] at h; exact absurd h (by simp)
    rw [if_neg hend] at h
    by_cases hlast : at_end s1 = true
    · rw [if_pos hlast] at h
      by_cases hterm : (F.mem edge).edge (code ch) &&& ENDS_WORD ≠ 0
      · rw [if_pos hterm] at h
        simp only [Option.some.injEq, Prod.mk.injEq] at h
        obtain ⟨hF, _⟩ := h
        subst hF
        by_cases hie : i = edge
        · exact ⟨code ch, by rw [hie]; exact terminal_ne_zero _ hterm⟩
        · exact hP i hi1 hi2 hie
      · rw [if_neg hterm] at h
        by_cases hmask : (F.mem edge).edge (code ch) &&& EDGE_MASK ≠ 0
        · rw [if_pos hmask] at h; exact absurd h (by simp)
        rw [if_neg hmask] at h
        simp only [Option.some.injEq, Prod.mk.injEq] at h
        obtain ⟨hF, _⟩ := h
        subst hF
        by_cases hie : i = edge
        · refine ⟨code ch, ?_⟩
          show (Flat.write F.mem edge (code ch) (ENDS_WORD ||| rn) i).edge (code ch) ≠ 0
          rw [Flat.write, if_pos hie, cell_edge_setEdge, if_pos rfl]
          exact terminal_ne_zero _ (leaf_word_terminal rn)
        · obtain ⟨c, hc⟩ := hP i hi1 hi2 hie
          refine ⟨c, ?_⟩
          show (Flat.write F.mem edge (code ch) (ENDS_WORD ||| rn) i).edge c ≠ 0
          rw [Flat.write, if_neg hie]
          exact hc
    · rw [if_neg hlast] at h
      by_cases hw : (F.mem edge).edge (code ch) = 0
      · rw [if_pos hw] at h
        by_cases hcap : cap ≤ F.last + 1
        · rw [if_pos hcap] at h; exact absurd h (by simp)
        rw [if_neg hcap] at h
        refine ih _ _ _ _ _ h ?_ i hi1 hi2
        intro j hj1 hj2 hjn
        have hj3 : j ≤ F.last := by
          have : j ≤ F.last + 1 := hj2
          omega
        by_cases hje : j = edge
        · refine ⟨code ch, ?_⟩
          show (Flat.write _ edge (code ch) (F.last + 1) j).edge (code ch) ≠ 0
          rw [Flat.write, if_pos hje, cell_edge_setEdge, if_pos rfl]
          omega
        · obtain ⟨c, hc⟩ := hP j hj1 hj3 hje
          refine ⟨c, ?_⟩
          show (Flat.write _ edge (code ch) (F.last + 1) j).edge c ≠ 0
          rw [Flat.write, if_neg hje]
          have hjn2 : ¬ j = F.last + 1 := hjn
          rw [if_neg hjn2]
          exact hc
      · rw [if_neg hw] at h
        by_cases hbig : 2 ^ 63 ≤ (F.mem edge).edge (code ch)
        · rw [if_pos hbig] at h; exact absurd h (by simp)
        rw [if_neg hbig] at h
        refine ih _ _ _ _ _ h ?_ i hi1 hi2
        intro j hj1 hj2 _
        by_cases hje : j = edge
        · exact ⟨code ch, by rw [hje]; exact hw⟩
        · exact hP j hj1 hj2 hje

/-- The ingestion loop leaves an edge in every allocated cell, once one read is inserted. -/
theorem flat_ingest_inhabited (cap : Nat) :
    ∀ (reads : List (List Char)) (F : Flat) (rn : Nat) (F1 : Flat) (n1 : Nat),
      flat_ingest cap reads F rn = some (F1, n1) →
      (∀ i, 1 ≤ i → i ≤ F.last → i ≠ ROOT_CELL → ∃ c, (F.mem i).edge c ≠ 0) →
      (reads ≠ [] ∨ (1 ≤ F.last → ∃ c, (F.mem ROOT_CELL).edge c ≠ 0)) →
      ∀ i, 1 ≤ i → i ≤ F1.last → ∃ c, (F1.mem i).edge c ≠ 0 := by
  intro reads
  induction reads with
  | nil =>
    intro F rn F1 n1 h hP hroot i hi1 hi2
    simp only [flat_ingest, Option.some.injEq, Prod.mk.injEq] at h
    obtain ⟨hF, _⟩ := h
    subst hF
    by_cases hir : i = ROOT_CELL
    · rcases hroot with hne | hc
      · exact absurd rfl hne
      · rw [hir]; exact hc (by rw [hir] at hi2; exact hi2)
    · exact hP i hi1 hi2 hir
  | cons line more ih =>
    intro F rn F1 n1 h hP _ i hi1 hi2
    rw [flat_ingest] at h
    cases hadd : flat_add cap line F ROOT_CELL rn with
    | none => rw [hadd] at h; exact absurd h (by simp)
    | some res =>
      obtain ⟨F2, d⟩ := res
      rw [hadd] at h
      have hall := flat_add_inhabited cap line F ROOT_CELL rn F2 d hadd hP
      exact ih F2 (rn + 1) F1 n1 h (fun j hj1 hj2 _ => hall j hj1 hj2)
        (Or.inr (fun h1 => hall ROOT_CELL (le_refl _) h1)) i hi1 hi2

/-- Following child edges from an allocated cell of a trie with edges within bounds leads
to an allocated cell. -/
theorem reach_allocated {F : Flat} (hb : Bounded F) :
    ∀ (cs : List (Fin 5)) (e e1 : Nat), 1 ≤ e → e ≤ F.last → reach F.mem e cs e1 →
      1 ≤ e1 ∧ e1 ≤ F.last := by
  intro cs
  induction cs with
  | nil => intro e e1 h1 h2 hr; simp only [reach] at hr; subst hr; exact ⟨h1, h2⟩
  | cons c cs ih =>
    intro e e1 h1 h2 hr
    simp only [reach] at hr
    obtain ⟨hne, hnt, hrest⟩ := hr
    have hch := child_of_bounded hb h1 h2 hne hnt
    exact ih _ _ (by omega) hch.2 hrest

/-- C21. After the ingestion loop has completed one or more inserts from the start, every
cell that is reached from the root through child edges has an edge that is not empty (a
child or a leaf word); in particular for reads of one common length. -/
theorem reachable_cell_has_edge (cfg : Config) (hk : 1 ≤ cfg.CHUNKBITS)
    (hsz : cfg.mpisize * 2 ^ cfg.CHUNKBITS ≤ 2 ^ 63) (hpeer : 1 ≤ cfg.mpisize)
    (reads : List (List Char)) (hne : reads ≠ []) (hn : reads.length ≤ 2 ^ 63)
    (W : World) (n : Nat) (hW : ingest cfg reads (initial_world cfg) 0 = .ok (W, n))
    (cs : List (Fin 5)) (e : Nat) (hreach : reach (cell_at cfg W) ROOT_CELL cs e) :
    ∃ c, (cell_at cfg W e).edge c ≠ 0 := by
  obtain ⟨F, hF, hrel, hb, _, _, h1, _⟩ :=
    ingest_initial_flat cfg hk hsz hpeer reads hn W n hW
  rw [← hrel.2] at hreach ⊢
  obtain ⟨he1, he2⟩ := reach_allocated hb cs ROOT_CELL e (le_refl _) h1 hreach
  refine flat_ingest_inhabited _ reads Flat.initial 0 F n hF ?_ (Or.inl hne) e he1 he2
  intro i hi1 hi2 hir
  have : i = ROOT_CELL := by
    have : i ≤ 1 := hi2
    show i = 1
    omega
  exact absurd this hir

theorem reachable_cell_has_edge_witness :
    ∃ W n, ingest ⟨1, 4⟩ [['A', 'C', 'G'], ['A', 'T', 'G']] (initial_world ⟨1, 4⟩) 0
        = .ok (W, n) ∧
      reach (cell_at ⟨1, 4⟩ W) ROOT_CELL [0, 3] 4 ∧
      ∃ c, (cell_at ⟨1, 4⟩ W 4).edge c ≠ 0 := by
  have key : ∃ W n, ingest ⟨1, 4⟩ [['A', 'C', 'G'], ['A', 'T', 'G']] (initial_world ⟨1, 4⟩) 0
      = .ok (W, n) ∧ reach (cell_at ⟨1, 4⟩ W) ROOT_CELL [0, 3] 4 := ⟨_, _, rfl, by decide⟩
  obtain ⟨W, n, hW, hr⟩ := key
  exact ⟨W, n, hW, hr,
    reachable_cell_has_edge ⟨1, 4⟩ (by decide) (by decide) (by decide) _ (by simp)
      (by decide) W n hW [0, 3] 4 hr⟩


/-! ## Reads that differ in their last letter -/

/-- The run of construction, walk and dump on the reads `AAAA`, `AAAC`, `AAAG`: the cells
1 to 4 are allocated, the cells 1, 2 and 3 each hold the child edge `A` to the next cell,
cell 4 holds the three leaf words, the walk prints the three reads in input order and the
trie file holds the five cells 0 to 4. -/
theorem three_reads_run (cfg : Config) (hk : 1 ≤ cfg.CHUNKBITS)
    (hsz : cfg.mpisize * 2 ^ cfg.CHUNKBITS ≤ 2 ^ 63) (hpeer : 1 ≤ cfg.mpisize)
    (hroom : 4 < cfg.mpisize * 2 ^ cfg.CHUNKBITS) (stack : List Char)
    (hstack : stack.length = MAX_LINE) (old : List CELL) :
    ∃ W W1, construct cfg [['A', 'A', 'A', 'A'], ['A', 'A', 'A', 'C'], ['A', 'A', 'A', 'G']]
        = .ok W ∧
      (∀ i, allocated W i ↔ 1 ≤ i ∧ i ≤ 4) ∧
      cell_at cfg W 1 = ⟨2, 0, 0, 0, 0⟩ ∧ cell_at cfg W 2 = ⟨3, 0, 0, 0, 0⟩ ∧
      cell_at cfg W 3 = ⟨4, 0, 0, 0, 0⟩ ∧
      cell_at cfg W 4 = ⟨ENDS_WORD ||| 0, ENDS_WORD ||| 1, ENDS_WORD ||| 2, 0, 0⟩ ∧
      walk_and_print_trie cfg stack 4 W = .ok W1 ∧
      (W1.peer (cfg.mpisize - 1)).sorted_and_unique_reads =
        [(['A', 'A', 'A', 'A'], 0), (['A', 'A', 'A', 'C'], 1), (['A', 'A', 'A', 'G'], 2)] ∧
      dump_trie cfg (cfg.mpisize + 1) W 0 old = .ok
        [empty, ⟨2, 0, 0, 0, 0⟩, ⟨3, 0, 0, 0, 0⟩, ⟨4, 0, 0, 0, 0⟩,
          ⟨ENDS_WORD ||| 0, ENDS_WORD ||| 1, ENDS_WORD ||| 2, 0, 0⟩] := by
  have key : ∃ F, flat_ingest 5
      [['A', 'A', 'A', 'A'], ['A', 'A', 'A', 'C'], ['A', 'A', 'A', 'G']] Flat.initial 0
        = some (F, 3) ∧ F.last = 4 ∧ F.mem 0 = empty ∧
      F.mem 1 = ⟨2, 0, 0, 0, 0⟩ ∧ F.mem 2 = ⟨3, 0, 0, 0, 0⟩ ∧ F.mem 3 = ⟨4, 0, 0, 0, 0⟩ ∧
      F.mem 4 = ⟨ENDS_WORD ||| 0, ENDS_WORD ||| 1, ENDS_WORD ||| 2, 0, 0⟩ ∧
      sorted_lines (leaves F.mem 4 ROOT_CELL []) =
        [(['A', 'A', 'A', 'A'], 0), (['A', 'A', 'A', 'C'], 1), (['A', 'A', 'A', 'G'], 2)] :=
    ⟨_, rfl, rfl, by decide, by decide, by decide, by decide, by decide, by decide⟩
  obtain ⟨F, hF, hlast, h0, h1, h2, h3, h4, hleaves⟩ := key
  have hS : 2 ≤ 2 ^ cfg.CHUNKBITS := by
    calc 2 = 2 ^ 1 := by norm_num
      _ ≤ 2 ^ cfg.CHUNKBITS := Nat.pow_le_pow_right (by norm_num) hk
  have hroom1 : 1 < cfg.mpisize * 2 ^ cfg.CHUNKBITS := by omega
  have hFc := (flat_ingest_cap 5 (cfg.mpisize * 2 ^ cfg.CHUNKBITS) _ _ _ _ _ hF
    (by rw [hlast]; exact hroom)).1
  obtain ⟨W, hing, hrel⟩ := (ingest_flat cfg hsz _ (initial_world cfg) Flat.initial 0
    (rel_initial cfg hk hroom1) bounded_initial (le_refl _) (by simp)).1 F 3 hFc
  have hW : construct cfg [['A', 'A', 'A', 'A'], ['A', 'A', 'A', 'C'], ['A', 'A', 'A', 'G']]
      = .ok W := by
    rw [construct, hing]
  have hlen : ∀ r ∈ [['A', 'A', 'A', 'A'], ['A', 'A', 'A', 'C'], ['A', 'A', 'A', 'G']],
      r.length = 4 := by decide
  have hclean : ∀ r ∈ [['A', 'A', 'A', 'A'], ['A', 'A', 'A', 'C'], ['A', 'A', 'A', 'G']],
      Clean r := by simp [Clean, at_end]
  obtain ⟨W1, F1, str, hwalk, hrel1, _, hfile⟩ := walk_file cfg 4 _ stack 4 hk hsz hpeer
    (by decide) hlen hclean (by simp) hstack (by decide) (le_refl _) W hW
  have hmem : F1.mem = F.mem := by rw [hrel1.2, hrel.2]
  refine ⟨W, W1, hW, ?_, ?_, ?_, ?_, ?_, hwalk, ?_, ?_⟩
  · intro i
    rw [allocated_iff hrel.1 i, hlast]
  · rw [← hrel.2]; exact h1
  · rw [← hrel.2]; exact h2
  · rw [← hrel.2]; exact h3
  · rw [← hrel.2]; exact h4
  · rw [hfile, hmem]; exact hleaves
  · rw [dump_trie_image cfg hsz W F hrel old, hlast]
    show Except.ok [F.mem 0, F.mem 1, F.mem 2, F.mem 3, F.mem 4] = _
    rw [h0, h1, h2, h3, h4]

/-- C23, as the code has it. After the reads `AAAA`, `AAAC`, `AAAG` are inserted into an
empty trie, the trie has four cells, with the indices 1 to 4: the root, two inner cells
along `AA` and one terminal cell, reached by `AAA`, that holds three leaf edges (the trie
file holds five cells, the unused cell 0 counting); the sorted walk prints `AAAA`, `AAAC`,
`AAAG` in this order with the identifiers 0, 1, 2.  In general two reads of length `L` that
differ only in their last letter share one cell at depth `L - 1`, which carries a leaf edge
for each of them, with different identifiers. -/
theorem reads_differing_in_last_letter (cfg : Config) (hk : 1 ≤ cfg.CHUNKBITS)
    (hsz : cfg.mpisize * 2 ^ cfg.CHUNKBITS ≤ 2 ^ 63) (hpeer : 1 ≤ cfg.mpisize)
    (hroom : 4 < cfg.mpisize * 2 ^ cfg.CHUNKBITS) (stack : List Char)
    (hstack : stack.length = MAX_LINE) (old : List CELL) :
    (∃ W W1, construct cfg [['A', 'A', 'A', 'A'], ['A', 'A', 'A', 'C'], ['A', 'A', 'A', 'G']]
        = .ok W ∧
      (∀ i, allocated W i ↔ 1 ≤ i ∧ i ≤ 4) ∧
      reach (cell_at cfg W) ROOT_CELL [0] 2 ∧ reach (cell_at cfg W) ROOT_CELL [0, 0] 3 ∧
      reach (cell_at cfg W) ROOT_CELL [0, 0, 0] 4 ∧
      cell_at cfg W 4 = ⟨ENDS_WORD ||| 0, ENDS_WORD ||| 1, ENDS_WORD ||| 2, 0, 0⟩ ∧
      walk_and_print_trie cfg stack 4 W = .ok W1 ∧
      (W1.peer (cfg.mpisize - 1)).sorted_and_unique_reads =
        [(['A', 'A', 'A', 'A'], 0), (['A', 'A', 'A', 'C'], 1), (['A', 'A', 'A', 'G'], 2)] ∧
      ∃ image, dump_trie cfg (cfg.mpisize + 1) W 0 old = .ok image ∧ image.length = 5) ∧
    ∀ (L : Nat) (reads : List (List Char)) (x : List Char) (a b : Char), 1 ≤ L →
      (∀ r ∈ reads, r.length = L) → (∀ r ∈ reads, Clean r) → reads.length ≤ 2 ^ 63 →
      x ++ [a] ∈ reads → x ++ [b] ∈ reads → code a ≠ code b →
      ∀ W, construct cfg reads = .ok W →
        ∃ e, reach (cell_at cfg W) ROOT_CELL (codes x) e ∧ (codes x).length = L - 1 ∧
          (cell_at cfg W e).edge (code a) &&& ENDS_WORD ≠ 0 ∧
          (cell_at cfg W e).edge (code b) &&& ENDS_WORD ≠ 0 ∧
          (cell_at cfg W e).edge (code a) &&& EDGE_MASK =
            first_index (codes (x ++ [a])) (reads.map codes) ∧
          (cell_at cfg W e).edge (code b) &&& EDGE_MASK =
            first_index (codes (x ++ [b])) (reads.map codes) ∧
          first_index (codes (x ++ [a])) (reads.map codes) ≠
            first_index (codes (x ++ [b])) (reads.map codes) := by
  constructor
  · obtain ⟨W, W1, hW, hall, h1, h2, h3, h4, hwalk, hfile, hdump⟩ :=
      three_reads_run cfg hk hsz hpeer hroom stack hstack old
    have hr1 : cell_at cfg W ROOT_CELL = ⟨2, 0, 0, 0, 0⟩ := h1
    have e1 : (⟨2, 0, 0, 0, 0⟩ : CELL).edge 0 = 2 := rfl
    have e2 : (⟨3, 0, 0, 0, 0⟩ : CELL).edge 0 = 3 := rfl
    refine ⟨W, W1, hW, hall, ?_, ?_, ?_, h4, hwalk, hfile, _, hdump, rfl⟩
    · simp only [reach]
      rw [hr1]
      decide
    · simp only [reach]
      rw [hr1, e1, h2]
      decide
    · simp only [reach]
      rw [hr1, e1, h2, e2, h3]
      decide
  · intro L reads x a b hL hlen hclean hn ha hb hab W hW
    obtain ⟨_, hpaths⟩ := construct_unique_leaf_path cfg L reads hk hsz hpeer hL hlen hclean hn
    obtain ⟨pa, wa, hsa, _, hta, hma, _⟩ := hpaths W hW _ ha
    obtain ⟨pb, wb, hsb, _, htb, hmb, _⟩ := hpaths W hW _ hb
    have hca : codes (x ++ [a]) = codes x ++ [code a] := by simp [codes]
    have hcb : codes (x ++ [b]) = codes x ++ [code b] := by simp [codes]
    rw [hca] at hsa
    rw [hcb] at hsb
    obtain ⟨e, p2, hreach, _⟩ := spells_split _ (codes x) ROOT_CELL [code a] pa wa (by simp) hsa
    have hwa := spells_last _ (codes x) ROOT_CELL e (code a) pa wa hreach hsa
    have hwb := spells_last _ (codes x) ROOT_CELL e (code b) pb wb hreach hsb
    refine ⟨e, hreach, ?_, ?_, ?_, ?_, ?_, ?_⟩
    · have := hlen _ ha
      simp only [List.length_append, List.length_singleton] at this
      simp only [codes, List.length_map]
      omega
    · rw [hwa]; exact hta
    · rw [hwb]; exact htb
    · rw [hwa]; exact hma
    · rw [hwb]; exact hmb
    · intro heq
      have hmema : codes (x ++ [a]) ∈ reads.map codes := List.mem_map_of_mem _ ha
      have hmemb : codes (x ++ [b]) ∈ reads.map codes := List.mem_map_of_mem _ hb
      have := first_index_inj _ _ _ hmema hmemb heq
      rw [hca, hcb] at this
      have h2 := List.append_cancel_left this
      simp only [List.cons.injEq, and_true] at h2
      exact hab h2

theorem reads_differing_in_last_letter_witness :
    ∃ W, construct ⟨16, 1⟩ [['A', 'C', 'G'], ['A', 'C', 'T']] = .ok W ∧
      ∃ e, reach (cell_at ⟨16, 1⟩ W) ROOT_CELL (codes ['A', 'C']) e ∧
        (cell_at ⟨16, 1⟩ W e).edge (code 'G') &&& ENDS_WORD ≠ 0 ∧
        (cell_at ⟨16, 1⟩ W e).edge (code 'T') &&& ENDS_WORD ≠ 0 := by
  obtain ⟨W, hW⟩ : ∃ W, construct ⟨16, 1⟩ [['A', 'C', 'G'], ['A', 'C', 'T']] = .ok W :=
    ⟨_, rfl⟩
  obtain ⟨e, h1, _, h2, h3, _⟩ := (reads_differing_in_last_letter ⟨16, 1⟩ (by decide)
    (by decide) (by decide) (by decide) (List.replicate MAX_LINE 'x')
    (List.length_replicate _ _) []).2 3 [['A', 'C', 'G'], ['A', 'C', 'T']] ['A', 'C'] 'G' 'T'
    (by decide) (by decide) (by simp [Clean, at_end]) (by decide) (by simp) (by simp)
    (by decide) W hW
  exact ⟨W, hW, e, h1, h2, h3⟩

/-- C23 as stated does not hold: after `AAAA`, `AAAC`, `AAAG` the allocated cells are the
four cells 1 to 4, the cell reached by `AAA` is the terminal cell itself, and there are no
five different cells in the trie. -/
theorem three_reads_four_cells :
    ∃ W, construct ⟨16, 1⟩ [['A', 'A', 'A', 'A'], ['A', 'A', 'A', 'C'], ['A', 'A', 'A', 'G']]
        = .ok W ∧
      (∀ i, allocated W i ↔ 1 ≤ i ∧ i ≤ 4) ∧
      cell_at ⟨16, 1⟩ W 3 = ⟨4, 0, 0, 0, 0⟩ ∧
      cell_at ⟨16, 1⟩ W 4 = ⟨ENDS_WORD ||| 0, ENDS_WORD ||| 1, ENDS_WORD ||| 2, 0, 0⟩ ∧
      ¬ ∃ cells : List Nat, cells.Nodup ∧ cells.length = 5 ∧ ∀ c ∈ cells, allocated W c := by
  obtain ⟨W, _, hW, hall, _, _, h3, h4, _⟩ := three_reads_run ⟨16, 1⟩ (by decide) (by decide)
    (by decide) (by decide) (List.replicate MAX_LINE 'x') (List.length_replicate _ _) []
  refine ⟨W, hW, hall, h3, h4, ?_⟩
  rintro ⟨cells, hnd, hlen, hmem⟩
  have hsub : cells ⊆ [1, 2, 3, 4] := by
    intro c hc
    have := (hall c).1 (hmem c hc)
    simp only [List.mem_cons, List.mem_singleton, List.not_mem_nil, or_false]
    omega
  have := (hnd.subperm hsub).length_le
  simp only [List.length_cons, List.length_nil] at this
  omega


/-! ## Characters other than `A`, `C`, `G`, `T` -/

/-- Reading a cell of the trie file of a flat trie. -/
theorem image_lookup (mem : Nat → CELL) (G i : Nat) (h : i ≤ G) :
    ((List.range (G + 1)).map mem)[i]? = some (mem i) := by
  rw [List.getElem?_map, List.getElem?_range (by omega)]
  rfl

/-- A character of a clean string is not the NUL. -/
theorem clean_not_nul (ch : Char) (s : List Char) (h : Clean (ch :: s)) :
    ch ≠ Char.ofNat 0 := by
  intro h0
  have := h ch (List.mem_cons_self _ _)
  rw [h0] at this
  exact absurd this (by decide)

/-- On the path of a stored string `lookup_read` returns the payload of the leaf word. -/
theorem lookup_read_spells {F : Flat} (hb : Bounded F) (hs : F.last < 2 ^ 63) :
    ∀ (s : List Char) (e : Nat) (path : List Nat) (w : Nat), Clean s → 1 ≤ e → e ≤ F.last →
      spells F.mem e (codes s) path w →
      LocateRead.lookup_read ((List.range (F.last + 1)).map F.mem) s e =
        .ok (w &&& EDGE_MASK) := by
  intro s
  induction s with
  | nil => intro e path w _ _ _ h; simp [codes, spells] at h
  | cons ch s1 ih =>
    intro e path w hclean h1 h2 hsp
    have hnul := clean_not_nul ch s1 hclean
    rw [LocateRead.lookup_read, image_lookup _ _ _ h2]
    simp only
    rw [if_neg hnul]
    cases s1 with
    | nil =>
      cases path with
      | nil => simp [codes, spells] at hsp
      | cons p1 rest =>
        cases rest with
        | cons _ _ => simp [codes, spells] at hsp
        | nil =>
          simp only [codes, List.map_cons, List.map_nil, spells] at hsp
          obtain ⟨_, hw, hterm⟩ := hsp
          rw [hw]
          by_cases hz : w &&& EDGE_MASK = 0
          · rw [if_pos hz, hz]
          · rw [if_neg hz, if_pos hterm]
    | cons c2 s2 =>
      cases path with
      | nil => simp [codes, spells] at hsp
      | cons p1 rest =>
        simp only [codes, List.map_cons, spells] at hsp
        obtain ⟨_, hne, hnt, hrest⟩ := hsp
        have hch := child_of_bounded hb h1 h2 hne hnt
        have hmask : (F.mem e).edge (code ch) &&& EDGE_MASK = (F.mem e).edge (code ch) :=
          mask_of_lt _ (by omega)
        rw [hmask, if_neg hne, if_neg (by rw [hnt]; simp)]
        exact ih _ rest w (clean_tail hclean) (by omega) hch.2 hrest

/-- On a string of the length of the reads that is not stored `lookup_read` returns 0. -/
theorem lookup_read_absent {L : Nat} {ids : List (List (Fin 5))} {F : Flat}
    {str : Nat → List (Fin 5)} (inv : TrieInv L ids F str) (hs : F.last < 2 ^ 63) :
    ∀ (s : List Char) (e : Nat), Clean s → s ≠ [] → 1 ≤ e → e ≤ F.last →
      (str e).length + s.length = L → str e ++ codes s ∉ ids →
      LocateRead.lookup_read ((List.range (F.last + 1)).map F.mem) s e = .ok 0 := by
  intro s
  induction s with
  | nil => intro e _ hne; exact absurd rfl hne
  | cons ch s1 ih =>
    intro e hclean _ h1 h2 hlen habs
    have hnul := clean_not_nul ch s1 hclean
    rw [LocateRead.lookup_read, image_lookup _ _ _ h2]
    simp only
    rw [if_neg hnul]
    cases s1 with
    | nil =>
      simp only [List.length_singleton] at hlen
      by_cases hz : (F.mem e).edge (code ch) = 0
      · rw [hz]; rfl
      · have hterm := inv.bottom e (code ch) h1 h2 hlen hz
        have := (inv.leaf e (code ch) h1 h2 hterm).2
        exact absurd this habs
    | cons c2 s2 =>
      have hin : (str e).length + 1 < L := by
        simp only [List.length_cons] at hlen; omega
      obtain ⟨hnt, hmask, hchild⟩ := child_word inv hs e (code ch) h1 h2 hin
      rw [hmask]
      by_cases hz : (F.mem e).edge (code ch) = 0
      · rw [if_pos hz]
      · rw [if_neg hz, if_neg (by rw [hnt]; simp)]
        obtain ⟨hlt, hle, hstr⟩ := hchild hz
        refine ih _ (clean_tail hclean) (by simp) (by omega) hle ?_ ?_
        · rw [hstr, List.length_append]
          simp only [List.length_cons, List.length_nil] at hlen ⊢
          omega
        · rw [hstr]
          simpa [codes] using habs


/-- C29. On the trie file of a construction from reads of one length, `lookup_read` of the
single-read locator, called from the root on a stored read, returns the identifier under
which the read was stored; `main` reports the read when that identifier is not 0, and for
the read stored with identifier 0 the value returned is 0, which is also the value returned
for a string of that length that is not stored, so that `main` reports `No match found.`
for the first read of the input. -/
theorem read_zero_not_found (cfg : Config) (L : Nat) (reads : List (List Char))
    (hk : 1 ≤ cfg.CHUNKBITS) (hsz : cfg.mpisize * 2 ^ cfg.CHUNKBITS ≤ 2 ^ 63)
    (hpeer : 1 ≤ cfg.mpisize) (hL : 1 ≤ L) (hlen : ∀ r ∈ reads, r.length = L)
    (hclean : ∀ r ∈ reads, Clean r) (hn : reads.length ≤ 2 ^ 63) (W : World)
    (hW : construct cfg reads = .ok W) (old image : List CELL)
    (himg : dump_trie cfg (cfg.mpisize + 1) W 0 old = .ok image) :
    (∀ r ∈ reads, LocateRead.lookup_read image r ROOT_CELL =
      .ok (first_index (codes r) (reads.map codes))) ∧
    (∀ r ∈ reads, first_index (codes r) (reads.map codes) ≠ 0 →
      LocateRead.report image r = .ok (.read (first_index (codes r) (reads.map codes)))) ∧
    (∀ r ∈ reads, first_index (codes r) (reads.map codes) = 0 →
      LocateRead.lookup_read image r ROOT_CELL = .ok 0 ∧
      LocateRead.report image r = .ok .no_match) ∧
    (∀ t : List Char, Clean t → t.length = L → codes t ∉ reads.map codes →
      LocateRead.lookup_read image t ROOT_CELL = .ok 0 ∧
      LocateRead.report image t = .ok .no_match) ∧
    (∀ (r0 : List Char) (rest : List (List Char)), reads = r0 :: rest →
      LocateRead.report image r0 = .ok .no_match) := by
  obtain ⟨str, inv, hsmall, himage⟩ := overlap_setup cfg hk hsz hpeer L hL reads hlen hclean hn
    W hW old image himg
  obtain ⟨_, hpaths⟩ := construct_unique_leaf_path cfg L reads hk hsz hpeer hL hlen hclean hn
  have hfound : ∀ r ∈ reads, LocateRead.lookup_read image r ROOT_CELL =
      .ok (first_index (codes r) (reads.map codes)) := by
    intro r hr
    obtain ⟨path, w, hs, _, _, hm, _⟩ := hpaths W hW r hr
    rw [himage, ← hm]
    exact lookup_read_spells (F := ⟨cell_at cfg W, image_last_used_edge image⟩) inv.bounded
      hsmall r ROOT_CELL path w (hclean r hr) (le_refl _) inv.root_le hs
  have hzero : ∀ r ∈ reads, first_index (codes r) (reads.map codes) = 0 →
      LocateRead.lookup_read image r ROOT_CELL = .ok 0 ∧
      LocateRead.report image r = .ok .no_match := by
    intro r hr h0
    have h := hfound r hr
    rw [h0] at h
    refine ⟨h, ?_⟩
    rw [LocateRead.report, h]
    rfl
  refine ⟨hfound, ?_, hzero, ?_, ?_⟩
  · intro r hr hne
    rw [LocateRead.report, hfound r hr]
    simp only
    rw [if_pos hne]
  · intro t hct htl habs
    have hne : t ≠ [] := by
      intro h0; rw [h0] at htl; simp at htl; omega
    have h : LocateRead.lookup_read image t ROOT_CELL = .ok 0 := by
      rw [himage]
      refine lookup_read_absent (F := ⟨cell_at cfg W, image_last_used_edge image⟩) inv hsmall
        t ROOT_CELL hct hne (le_refl _) inv.root_le ?_ ?_
      · rw [inv.str_root]; simpa using htl
      · rw [inv.str_root]; simpa using habs
    refine ⟨h, ?_⟩
    rw [LocateRead.report, h]
    rfl
  · intro r0 rest hreads
    refine (hzero r0 (by rw [hreads]; exact List.mem_cons_self _ _) ?_).2
    rw [hreads]
    simp [first_index]

set_option maxRecDepth 100000 in
theorem read_zero_not_found_witness :
    ∃ W image, construct ⟨16, 1⟩ [['A', 'C'], ['G', 'T']] = .ok W ∧
      dump_trie ⟨16, 1⟩ 2 W 0 [] = .ok image ∧
      LocateRead.report image ['G', 'T'] = .ok (.read 1) ∧
      LocateRead.report image ['A', 'C'] = .ok .no_match ∧
      LocateRead.report image ['T', 'T'] = .ok .no_match := by
  obtain ⟨W, image, hW, himg⟩ : ∃ W image, construct ⟨16, 1⟩ [['A', 'C'], ['G', 'T']] = .ok W ∧
      dump_trie ⟨16, 1⟩ 2 W 0 [] = .ok image := ⟨_, _, rfl, rfl⟩
  obtain ⟨_, h2, _, h4, h5⟩ := read_zero_not_found ⟨16, 1⟩ 2 [['A', 'C'], ['G', 'T']]
    (by decide) (by decide) (by decide) (by decide) (by decide) (by simp [Clean, at_end])
    (by decide) W hW [] image himg
  exact ⟨W, image, hW, himg, h2 ['G', 'T'] (by simp) (by decide),
    h5 ['A', 'C'] [['G', 'T']] rfl,
    (h4 ['T', 'T'] (by simp [Clean, at_end]) rfl (by decide)).2⟩


/-! ## The locator never follows a leaf word on a probe shorter than the reads -/

/-- The loop of `local_locate_overlaps` passes the monitor on a well-shaped trie, for a
string that ends above the leaves, when the calls it hands on do. -/
theorem local_locate_chk_eq (cfg : Config) (cs : Nat) (b : Build) (base L : Nat)
    (ids : List (List (Fin 5))) (F : Flat) (str : Nat → List (Fin 5))
    (inv : TrieInv L ids F str) (g : Group cfg cs base F) (pfuel : Nat)
    (locate locate1 : Cluster → Nat → List Char → Nat → Nat → Nat → Except Fault Cluster)
    (hloc : ∀ (W : Cluster) (r : Nat) (s : List Char) (e rn mo : Nat), Holds cfg base F W →
      r < cs → 1 ≤ e → e ≤ F.last → s ≠ [] → (str e).length + s.length < L →
      locate1 W (base + r) s e rn mo = locate W (base + r) s e rn mo) (rn mo : Nat) :
    ∀ (s : List Char) (W : Cluster) (e : Nat), Holds cfg base F W → 1 ≤ e → e ≤ F.last →
      s ≠ [] → (str e).length + s.length < L →
      local_locate_overlaps_chk cfg cs F.last locate1 (print_overlaps cfg cs b pfuel) s W
          (base + e / 2 ^ cfg.CHUNKBITS) e rn mo =
        local_locate_overlaps cfg cs locate (print_overlaps cfg cs b pfuel) s W
          (base + e / 2 ^ cfg.CHUNKBITS) e rn mo := by
  intro s
  induction s with
  | nil => intro W e _ _ _ hne; exact absurd rfl hne
  | cons ch s1 ih =>
    intro W e hW h1 h2 _ hlen
    have hin : (str e).length + 1 < L := by
      simp only [List.length_cons] at hlen; omega
    obtain ⟨hnt, hmask, hchild⟩ := child_word inv g.small e (code ch) h1 h2 hin
    rw [local_locate_overlaps_chk, local_locate_overlaps, holds_lookup hW e h2]
    simp only
    rw [hmask]
    by_cases hz : (F.mem e).edge (code ch) = 0
    · rw [if_pos hz, if_pos hz]
    rw [if_neg hz, if_neg hz]
    obtain ⟨hlt, hle, hstr⟩ := hchild hz
    have hchk : ¬ ((F.mem e).edge (code ch) &&& ENDS_WORD ≠ 0 ∨
        F.last < (F.mem e).edge (code ch)) := by
      rintro (h | h)
      · exact h hnt
      · omega
    rw [if_neg hchk]
    by_cases hend : at_end s1 = true
    · rewrite [if_pos hend, if_pos hend]
      generalize print_overlaps cfg cs b pfuel W (base + e / 2 ^ cfg.CHUNKBITS)
        ((F.mem e).edge (code ch)) rn mo 0 = res
      cases res with
      | error x => rfl
      | ok p => cases p; rfl
    rw [if_neg hend, if_neg hend]
    have hs1 : s1 ≠ [] := by
      intro h0; rw [h0] at hend; exact hend rfl
    have hlen1 : (str ((F.mem e).edge (code ch))).length + s1.length < L := by
      rw [hstr, List.length_append]
      simp only [List.length_cons, List.length_nil] at hlen ⊢
      omega
    have hr := group_rank_lt g e h2
    have hmod := group_mod g.base_mod _ hr
    by_cases hrank : (F.mem e).edge (code ch) >>> cfg.CHUNKBITS ≠
        (base + e / 2 ^ cfg.CHUNKBITS) % cs
    · rw [if_pos hrank, if_pos hrank]
      exact hloc W _ s1 _ rn mo hW hr (by omega) hle hs1 hlen1
    · rw [if_neg hrank, if_neg hrank]
      have heq : (F.mem e).edge (code ch) / 2 ^ cfg.CHUNKBITS = e / 2 ^ cfg.CHUNKBITS := by
        have := not_not.1 hrank
        rw [hmod, shr_eq] at this
        exact this
      have := ih W _ hW (by omega) hle hs1 hlen1
      rw [heq] at this
      exact this

/-- `locate_overlaps` passes the monitor on a well-shaped trie, for every string that ends
above the leaves. -/
theorem locate_chk_eq (cfg : Config) (cs : Nat) (b : Build) (base L : Nat)
    (ids : List (List (Fin 5))) (F : Flat) (str : Nat → List (Fin 5))
    (inv : TrieInv L ids F str) (g : Group cfg cs base F) (pfuel : Nat) :
    ∀ (fuel : Nat) (W : Cluster) (r : Nat) (s : List Char) (e rn mo : Nat),
      Holds cfg base F W → r < cs → 1 ≤ e → e ≤ F.last → s ≠ [] →
      (str e).length + s.length < L →
      locate_overlaps_chk cfg cs b F.last fuel pfuel W (base + r) s e rn mo =
        locate_overlaps cfg cs b fuel pfuel W (base + r) s e rn mo := by
  intro fuel
  induction fuel with
  | zero => intro W r s e rn mo _ _ _ _ _ _; rfl
  | succ fuel ih =>
    intro W r s e rn mo hW hr h1 h2 hne hlen
    have hsmall := g.small
    rw [locate_overlaps_chk, locate_overlaps, signed_rank_of_lt cfg e (by omega)]
    simp only
    rw [group_mod g.base_mod r hr, group_base g.base_mod r hr]
    by_cases hown : e / 2 ^ cfg.CHUNKBITS = r
    · rw [if_pos hown, if_pos hown, ← hown]
      exact local_locate_chk_eq cfg cs b base L ids F str inv g pfuel _ _
        (fun W r s e rn mo a1 a2 a3 a4 a5 a6 => ih W r s e rn mo a1 a2 a3 a4 a5 a6) rn mo s W e
        hW h1 h2 hne hlen
    · rw [if_neg hown, if_neg hown]
      by_cases hd : dispatches cfg cs (e / 2 ^ cfg.CHUNKBITS + base) = true
      · rw [if_pos hd, if_pos hd]
        by_cases hline : MAX_LINE < s.length + 1
        · rw [if_pos hline, if_pos hline]
        · rw [if_neg hline, if_neg hline, Nat.add_comm]
          exact ih W _ s e rn mo hW (group_rank_lt g e h2) h1 h2 hne hlen
      · rw [if_neg hd, if_neg hd]


/-- The trie file written after construction: the allocated cells are the cells 1 to
`last_used_edge` of the file. -/
theorem image_allocated (cfg : Config) (hk : 1 ≤ cfg.CHUNKBITS)
    (hsz : cfg.mpisize * 2 ^ cfg.CHUNKBITS ≤ 2 ^ 63) (hpeer : 1 ≤ cfg.mpisize) (L : Nat)
    (hL : 1 ≤ L) (reads : List (List Char)) (hlen : ∀ r ∈ reads, r.length = L)
    (hclean : ∀ r ∈ reads, Clean r) (hn : reads.length ≤ 2 ^ 63) (W : World)
    (hW : construct cfg reads = .ok W) (old image : List CELL)
    (himg : dump_trie cfg (cfg.mpisize + 1) W 0 old = .ok image) (i : Nat) :
    allocated W i ↔ 1 ≤ i ∧ i ≤ image_last_used_edge image := by
  rcases construct_spec cfg hk hsz hpeer L hL reads hlen hclean hn with
    ⟨⟨e, he⟩, _⟩ | ⟨W0, F, str, hW0, hrel, inv, _⟩
  · rw [he] at hW; exact absurd hW (by simp)
  rw [hW0] at hW
  simp only [Except.ok.injEq] at hW
  subst hW
  have hlt : F.last < 2 ^ 63 := lt_of_lt_of_le hrel.1.lt_max hsz
  rw [dump_trie_image cfg hsz W0 F hrel old] at himg
  simp only [Except.ok.injEq] at himg
  have hlast : image_last_used_edge image = F.last := by
    rw [← himg]; exact image_last F.mem F.last hlt
  rw [hlast]
  exact allocated_iff hrel.1 i

/-- The edge words of a descent in a group that holds the whole trie file.  On the trie
file of a construction from reads of one length `L` whose last cell is not the first of a
shard, for a probe string
of 1 to `L - 1` letters: every edge word that the descent from the root reads has its
terminator bit clear and, when it is not empty, is the index of an allocated cell; and
`locate_overlaps` returns and gives the same result under the monitor that stops the run
when a word that is followed, or passed to `print_overlaps`, has its terminator bit set or
lies above `last_used_edge`. -/
theorem locator_follows_child_edges (cfg cfg2 : Config) (L : Nat) (reads : List (List Char))
    (hk : 1 ≤ cfg.CHUNKBITS) (hsz : cfg.mpisize * 2 ^ cfg.CHUNKBITS ≤ 2 ^ 63)
    (hpeer : 1 ≤ cfg.mpisize) (hL : 1 ≤ L) (hlen : ∀ r ∈ reads, r.length = L)
    (hclean : ∀ r ∈ reads, Clean r) (hn : reads.length ≤ 2 ^ 63) (W : World)
    (hW : construct cfg reads = .ok W) (old image : List CELL)
    (himg : dump_trie cfg (cfg.mpisize + 1) W 0 old = .ok image)
    (hk1 : 1 ≤ cfg2.CHUNKBITS) (hk2 : cfg2.CHUNKBITS ≤ 63)
    (hmod : image_last_used_edge image % 2 ^ cfg2.CHUNKBITS ≠ 0) (base : Nat)
    (hb : base % cluster_size cfg2 (image_last_used_edge image) = 0)
    (hbl : base + cluster_size cfg2 (image_last_used_edge image) ≤
      (cfg2.mpisize / cluster_size cfg2 (image_last_used_edge image)) *
        cluster_size cfg2 (image_last_used_edge image))
    (b : Build) (x : List Char) (hx : Clean x) (hne : x ≠ []) (hxL : x.length < L)
    (hline : L ≤ MAX_LINE) (fuel pfuel : Nat) (hf : 2 * x.length ≤ fuel)
    (hpf : 2 * L ≤ pfuel) (done : List (Nat × Record)) (rn mo : Nat) :
    (∀ (pre : List (Fin 5)) (c : Fin 5) (rest : List (Fin 5)) (e : Nat),
      codes x = pre ++ c :: rest → reach (cell_at cfg W) ROOT_CELL pre e →
      (cell_at cfg W e).edge c &&& ENDS_WORD = 0 ∧
      (cell_at cfg W e).edge c &&& EDGE_MASK = (cell_at cfg W e).edge c ∧
      ((cell_at cfg W e).edge c ≠ 0 →
        allocated W ((cell_at cfg W e).edge c) ∧
        (cell_at cfg W e).edge c ≤ image_last_used_edge image)) ∧
    ∃ V1, locate_overlaps cfg2 (cluster_size cfg2 (image_last_used_edge image)) b fuel pfuel
        (emit_all (start_cluster cfg2 image) done) base x ROOT_CELL rn mo = .ok V1 ∧
      locate_overlaps_chk cfg2 (cluster_size cfg2 (image_last_used_edge image)) b
        (image_last_used_edge image) fuel pfuel
        (emit_all (start_cluster cfg2 image) done) base x ROOT_CELL rn mo = .ok V1 := by
  obtain ⟨str, inv, hsmall, V1, hrun, _⟩ := probe_run cfg cfg2 L reads hk hsz hpeer hL hlen
    hclean hn W hW old image himg hk1 hk2 hmod base hb hbl b x hx hne hxL hline fuel pfuel hf
    hpf done rn mo
  constructor
  · intro pre c rest e hsplit hreach
    obtain ⟨he1, he2, hstr⟩ := reach_cell inv pre ROOT_CELL e (le_refl _) inv.root_le hreach
    have hlenx : (codes x).length = x.length := by simp [codes]
    have hpre : pre.length + 1 ≤ x.length := by
      rw [← hlenx, hsplit, List.length_append, List.length_cons]; omega
    have hin : (str e).length + 1 < L := by
      rw [hstr, inv.str_root]
      simp only [List.nil_append]
      omega
    obtain ⟨hnt, hmask, hchild⟩ := child_word inv hsmall e c he1 he2 hin
    refine ⟨hnt, hmask, fun hz => ?_⟩
    obtain ⟨hlt, hle, _⟩ := hchild hz
    refine ⟨?_, hle⟩
    rw [image_allocated cfg hk hsz hpeer L hL reads hlen hclean hn W hW old image himg]
    have : 1 ≤ e := he1
    exact ⟨by omega, hle⟩
  · refine ⟨V1, hrun, ?_⟩
    obtain ⟨_, _, hsmall2, himage⟩ := overlap_setup cfg hk hsz hpeer L hL reads hlen hclean hn
      W hW old image himg
    have hstart := holds_start cfg2 ⟨cell_at cfg W, image_last_used_edge image⟩ hsmall hk2 hmod
      base hb hbl
    have hgroup := group_start cfg2 ⟨cell_at cfg W, image_last_used_edge image⟩ hsmall hk2 hmod
      base hb hbl
    simp only at hstart hgroup
    rw [← himage] at hstart
    have h := locate_chk_eq cfg2 _ b base L (reads.map codes)
      ⟨cell_at cfg W, image_last_used_edge image⟩ str inv hgroup pfuel fuel
      (emit_all (start_cluster cfg2 image) done) 0 x ROOT_CELL rn mo
      (holds_emitted hstart done) hgroup.cs_pos (le_refl _) inv.root_le hne
      (by rw [inv.str_root]; simpa using hxL)
    rw [Nat.add_zero] at h
    rw [← hrun]
    exact h


theorem locator_follows_child_edges_witness :
    ∃ W image V1,
      construct ⟨1, 4⟩ [['A', 'C', 'G', 'T'], ['G', 'T', 'A', 'C']] = .ok W ∧
      dump_trie ⟨1, 4⟩ 5 W 0 [] = .ok image ∧
      (cell_at ⟨1, 4⟩ W 2).edge 1 &&& ENDS_WORD = 0 ∧
      locate_overlaps ⟨1, 4⟩ (cluster_size ⟨1, 4⟩ (image_last_used_edge image)) default_build
        4 8 (start_cluster ⟨1, 4⟩ image) 0 ['A', 'C'] ROOT_CELL 1 2 = .ok V1 ∧
      locate_overlaps_chk ⟨1, 4⟩ (cluster_size ⟨1, 4⟩ (image_last_used_edge image))
        default_build (image_last_used_edge image)
        4 8 (start_cluster ⟨1, 4⟩ image) 0 ['A', 'C'] ROOT_CELL 1 2 = .ok V1 := by
  have key : ∃ W image,
      construct ⟨1, 4⟩ [['A', 'C', 'G', 'T'], ['G', 'T', 'A', 'C']] = .ok W ∧
      dump_trie ⟨1, 4⟩ 5 W 0 [] = .ok image ∧
      image_last_used_edge image % 2 ^ 1 ≠ 0 ∧
      0 % cluster_size ⟨1, 4⟩ (image_last_used_edge image) = 0 ∧
      0 + cluster_size ⟨1, 4⟩ (image_last_used_edge image) ≤
        (4 / cluster_size ⟨1, 4⟩ (image_last_used_edge image)) *
          cluster_size ⟨1, 4⟩ (image_last_used_edge image) ∧
      reach (cell_at ⟨1, 4⟩ W) ROOT_CELL [0] 2 :=
    ⟨_, _, rfl, rfl, by decide, by decide, by decide, by decide⟩
  obtain ⟨W, image, hW, himg, hmod, hb, hbl, hreach⟩ := key
  obtain ⟨hwords, V1, hrun, hchk⟩ := locator_follows_child_edges ⟨1, 4⟩ ⟨1, 4⟩ 4
    [['A', 'C', 'G', 'T'], ['G', 'T', 'A', 'C']] (by decide) (by decide) (by decide)
    (by decide) (by decide) (by simp [Clean, at_end]) (by decide) W hW [] image himg
    (by decide) (by decide) hmod 0 hb hbl default_build ['A', 'C']
    (by simp [Clean, at_end]) (by decide) (by decide) (by decide) 4 8 (by decide) (by decide)
    [] 1 2
  exact ⟨W, image, V1, hW, himg, (hwords [0] 1 [] 2 rfl hreach).1, hrun, hchk⟩


/-! ## The probes of one read -/

/-- The loop of the probes makes the calls of `locate_overlaps` for its lengths in turn. -/
theorem probe_loop_issue (cfg : Config) (cs : Nat) (b : Build) (fuel pfuel mpirank : Nat)
    (line : List Char) (L a : Nat) :
    ∀ (lens : List Nat) (W : Cluster),
      probe_loop cfg cs b fuel pfuel mpirank line L a lens W =
        issue_probes cfg cs b fuel pfuel mpirank
          (lens.map (fun l => (line.drop (L - l), ROOT_CELL, a, L - l))) W := by
  intro lens
  induction lens with
  | nil => intro W; rfl
  | cons l more ih =>
    intro W
    rw [probe_loop, List.map_cons, issue_probes]
    simp only
    cases locate_overlaps cfg cs b fuel pfuel W mpirank (line.drop (L - l)) ROOT_CELL a
        (L - l) with
    | error e => rfl
    | ok W1 => exact ih W1

/-- The lengths of the probes of a read of `L` letters: `L - 1`, `L - 2`, ... down to
`MIN_OVERLAP`. -/
theorem probe_lengths_eq (b : Build) (L : Nat) :
    probe_lengths b L = (List.range (L - b.MIN_OVERLAP)).map (fun k => L - 1 - k) := by
  apply List.ext_getElem
  · simp [probe_lengths]
  · intro i h1 h2
    simp only [probe_lengths, List.length_reverse, List.length_range'] at h1
    simp only [probe_lengths, List.getElem_reverse, List.getElem_range', List.length_range',
      List.getElem_map, List.getElem_range]
    omega

/-- The probes of a read of at most 1010 letters, whose line fits the line buffer.  For a
line of the `-sorted` file that holds a read of `L` letters and its
identifier, the round of the main loop on the first rank of a group that takes the line
makes exactly the calls `locate_overlaps (suffix, ROOT_CELL, identifier, L - l)` for
`l = L - 1, L - 2, ..., MIN_OVERLAP` in this order, `L - MIN_OVERLAP` calls in all (none when
`L ≤ MIN_OVERLAP`), where the suffix is the last `l` letters of the read; there is no call
for a length below `MIN_OVERLAP` or for the length `L`, and a group that does not take the
line makes no call. -/
theorem probes_of_a_read (cfg : Config) (cs : Nat) (b : Build) (fuel pfuel mpirank L : Nat)
    (hL : 1 ≤ L) (hmax : L + 13 < MAX_LINE) (p : List (Fin 5)) (hp : p.length = L) (a : Nat)
    (ha : a < 10 ^ 12) (st : Driver) (hst : st.read_length = 0 ∨ st.read_length = L) :
    probe_lengths b L = (List.range (L - b.MIN_OVERLAP)).map (fun k => L - 1 - k) ∧
    (probe_lengths b L).length = L - b.MIN_OVERLAP ∧
    (∀ l, l ∈ probe_lengths b L ↔ b.MIN_OVERLAP ≤ l ∧ l < L) ∧
    (∀ l ∈ probe_lengths b L, ((text p).drop (L - l)).length = l ∧
      (text p).drop (L - l) <:+ text p) ∧
    ((st.read_number + 1) % (cfg.mpisize / cs) = cluster_base cs mpirank / cs →
      process_line cfg cs b fuel pfuel mpirank st (sorted_line (text p, a)) =
        match issue_probes cfg cs b fuel pfuel mpirank
            ((probe_lengths b L).map (fun l => ((text p).drop (L - l), ROOT_CELL, a, L - l)))
            st.cluster with
        | .error e => .error e
        | .ok W1 => .ok { read_length := L, read_number := st.read_number + 1, cluster := W1 }) ∧
    ((st.read_number + 1) % (cfg.mpisize / cs) ≠ cluster_base cs mpirank / cs →
      process_line cfg cs b fuel pfuel mpirank st (sorted_line (text p, a)) =
        .ok { read_length := L, read_number := st.read_number + 1, cluster := st.cluster }) := by
  have hmem : ∀ l, l ∈ probe_lengths b L ↔ b.MIN_OVERLAP ≤ l ∧ l < L := by
    intro l
    simp only [probe_lengths, List.mem_reverse, List.mem_range'_1]
    omega
  refine ⟨probe_lengths_eq b L, by simp [probe_lengths], hmem, ?_, ?_, ?_⟩
  · intro l hl
    have hl2 := (hmem l).1 hl
    refine ⟨?_, List.drop_suffix _ _⟩
    rw [List.length_drop, text_length, hp]
    omega
  · intro htake
    rewrite [process_sorted_line cfg cs b fuel pfuel mpirank L hL hmax p hp a ha st hst,
      if_pos htake, probe_loop_issue]
    generalize issue_probes cfg cs b fuel pfuel mpirank
      ((probe_lengths b L).map (fun l => ((text p).drop (L - l), ROOT_CELL, a, L - l)))
      st.cluster = res
    cases res with
    | error e => rfl
    | ok W1 => rfl
  · intro hskip
    rw [process_sorted_line cfg cs b fuel pfuel mpirank L hL hmax p hp a ha st hst,
      if_neg hskip]

set_option maxRecDepth 100000 in
theorem probes_of_a_read_witness :
    ∃ W image V, construct ⟨16, 1⟩ [List.replicate 17 'A'] = .ok W ∧
      dump_trie ⟨16, 1⟩ 2 W 0 [] = .ok image ∧
      probe_lengths amos_build 17 = [16, 15, 14] ∧
      issue_probes ⟨16, 1⟩ 1 amos_build 40 40 0
        [(List.replicate 16 'A', ROOT_CELL, 0, 1), (List.replicate 15 'A', ROOT_CELL, 0, 2),
          (List.replicate 14 'A', ROOT_CELL, 0, 3)] (start_cluster ⟨16, 1⟩ image) = .ok V ∧
      V.log.map Prod.snd = [Record.OVL 1 1 1 1, Record.OVL 1 1 2 2, Record.OVL 1 1 3 3] ∧
      process_line ⟨16, 1⟩ 1 amos_build 40 40 0 ⟨0, 0, start_cluster ⟨16, 1⟩ image⟩
        (sorted_line (text (List.replicate 17 0), 0)) =
          .ok { read_length := 17, read_number := 1, cluster := V } := by
  have key : ∃ W image V, construct ⟨16, 1⟩ [List.replicate 17 'A'] = .ok W ∧
      dump_trie ⟨16, 1⟩ 2 W 0 [] = .ok image ∧
      issue_probes ⟨16, 1⟩ 1 amos_build 40 40 0
        [(List.replicate 16 'A', ROOT_CELL, 0, 1), (List.replicate 15 'A', ROOT_CELL, 0, 2),
          (List.replicate 14 'A', ROOT_CELL, 0, 3)] (start_cluster ⟨16, 1⟩ image) = .ok V ∧
      V.log.map Prod.snd = [Record.OVL 1 1 1 1, Record.OVL 1 1 2 2, Record.OVL 1 1 3 3] :=
    ⟨_, _, _, rfl, rfl, rfl, by decide⟩
  obtain ⟨W, image, V, hW, himg, hV, hlog⟩ := key
  obtain ⟨_, _, _, _, h5, _⟩ := probes_of_a_read ⟨16, 1⟩ 1 amos_build 40 40 0 17 (by decide)
    (by decide) (List.replicate 17 0) (List.length_replicate _ _) 0 (by decide)
    ⟨0, 0, start_cluster ⟨16, 1⟩ image⟩ (Or.inl rfl)
  have h6 := h5 (by show (0 + 1) % (1 / 1) = cluster_base 1 0 / 1; decide)
  have hlist : (probe_lengths amos_build 17).map
      (fun l => ((text (List.replicate 17 0)).drop (17 - l), ROOT_CELL, 0, 17 - l)) =
      [(List.replicate 16 'A', ROOT_CELL, 0, 1), (List.replicate 15 'A', ROOT_CELL, 0, 2),
        (List.replicate 14 'A', ROOT_CELL, 0, 3)] := by decide
  rw [hlist] at h6
  have hV2 : issue_probes ⟨16, 1⟩ 1 amos_build 40 40 0
      [(List.replicate 16 'A', ROOT_CELL, 0, 1), (List.replicate 15 'A', ROOT_CELL, 0, 2),
        (List.replicate 14 'A', ROOT_CELL, 0, 3)]
      (Driver.cluster ⟨0, 0, start_cluster ⟨16, 1⟩ image⟩) = .ok V := hV
  rw [hV2] at h6
  exact ⟨W, image, V, hW, himg, by decide, hV, hlog, h6⟩


/-! ## The near-match probe on a well-shaped trie -/

/-- Child edges lead from a cell to one cell only. -/
theorem reach_unique (mem : Nat → CELL) :
    ∀ (cs : List (Fin 5)) (e a b : Nat), reach mem e cs a → reach mem e cs b → a = b := by
  intro cs
  induction cs with
  | nil => intro e a b ha hb; simp only [reach] at ha hb; rw [ha, hb]
  | cons c cs ih =>
    intro e a b ha hb
    simp only [reach] at ha hb
    exact ih _ a b ha.2.2 hb.2.2

/-- The first edge of a path to a leaf is not empty. -/
theorem spells_head_ne (mem : Nat → CELL) (e : Nat) (c : Fin 5) (cs : List (Fin 5))
    (path : List Nat) (w : Nat) (h : spells mem e (c :: cs) path w) : (mem e).edge c ≠ 0 := by
  cases cs with
  | nil =>
    cases path with
    | nil => simp [spells] at h
    | cons p rest =>
      cases rest with
      | cons _ _ => simp [spells] at h
      | nil =>
        simp only [spells] at h
        rw [h.2.1]
        exact terminal_ne_zero _ h.2.2
  | cons c2 cs2 =>
    cases path with
    | nil => simp [spells] at h
    | cons p rest =>
      simp only [spells] at h
      exact h.2.1

/-- A stored string that passes through a cell leaves it by an edge that is not empty. -/
theorem edge_of_member {L : Nat} {ids : List (List (Fin 5))} {F : Flat}
    {str : Nat → List (Fin 5)} (inv : TrieInv L ids F str) (e : Nat)
    (hreach : reach F.mem ROOT_CELL (str e) e) (c : Fin 5) (cs : List (Fin 5))
    (hx : str e ++ c :: cs ∈ ids) : (F.mem e).edge c ≠ 0 := by
  obtain ⟨path, w, hs⟩ := inv.present _ hx
  obtain ⟨e1, path2, hr, hs2⟩ := spells_split F.mem (str e) ROOT_CELL (c :: cs) path w
    (by simp) hs
  have := reach_unique F.mem _ _ _ _ hr hreach
  subst this
  exact spells_head_ne F.mem _ c cs path2 w hs2

/-- The loop over the other letters visits the edges of its list that differ from the
symbol of the target. -/
theorem follow_others_eq (look : Nat → Nat → List Nat → Except Fault (List Nat)) (this : CELL)
    (c : Fin 5) (k : Nat) :
    ∀ (es : List (Fin 5)) (out : List Nat),
      NearMatch.follow_others look this c k es out =
        follow_all look this ((es.filter (fun e => decide (c ≠ e))).map (fun e => (e, k)))
          out := by
  intro es
  induction es with
  | nil => intro out; rfl
  | cons e more ih =>
    intro out
    rw [NearMatch.follow_others]
    by_cases hce : c ≠ e
    · rw [if_pos hce, List.filter_cons_of_pos (by simpa using hce), List.map_cons, follow_all]
      simp only
      cases NearMatch.follow look this e k out with
      | error x => rfl
      | ok out1 => exact ih out1
    · rw [if_neg hce, List.filter_cons_of_neg (by simpa using hce)]
      exact ih out

/-- One call of `NearMatch.lookup_read` on a letter visits the edges of `branches` in turn. -/
theorem lookup_read_branches (image : List CELL) (pfuel allowed : Nat) (ch : Char)
    (s1 : List Char) (e k : Nat) (out : List Nat) (this : CELL) (hcell : image[e]? = some this)
    (hnul : ch ≠ Char.ofNat 0) :
    NearMatch.lookup_read image pfuel allowed (ch :: s1) e k out =
      follow_all (NearMatch.lookup_read image pfuel allowed s1) this (branches (code ch) k allowed)
        out := by
  rw [NearMatch.lookup_read, hcell]
  simp only
  rw [if_neg hnul, branches, follow_all]
  simp only
  cases NearMatch.follow (NearMatch.lookup_read image pfuel allowed s1) this (code ch) k out with
  | error x => rfl
  | ok out1 =>
    simp only
    by_cases hN : code ch ≠ 4
    · rw [if_pos hN, if_pos hN, follow_all]
      simp only
      cases NearMatch.follow (NearMatch.lookup_read image pfuel allowed s1) this 4 k out1 with
      | error x => rfl
      | ok out2 =>
        simp only
        by_cases hk : k < allowed
        · rw [if_pos hk, if_pos hk]
          exact follow_others_eq _ _ _ _ _ _
        · rw [if_neg hk, if_neg hk]
          rfl
    · rw [if_neg hN, if_neg hN]
      exact follow_others_eq _ _ _ _ _ _

/-- The edges visited in one cell: an edge is visited with the errors so far, plus one
when it counts as an error, and an edge that counts as an error is visited only while
errors are left. -/
theorem mem_branches (c e : Fin 5) (k k1 allowed : Nat) :
    (e, k1) ∈ branches c k allowed ↔ k1 = k + miss c e ∧ (miss c e = 1 → k < allowed) := by
  by_cases hk : k < allowed
  · fin_cases c <;> fin_cases e <;> simp [branches, miss, hk]
  · fin_cases c <;> fin_cases e <;> simp [branches, miss, hk]

/-- No edge is visited twice in one cell. -/
theorem branches_nodup (c : Fin 5) (k allowed : Nat) :
    ((branches c k allowed).map Prod.fst).Nodup := by
  by_cases hk : k < allowed
  · fin_cases c <;> simp [branches, hk]
  · fin_cases c <;> simp [branches, hk]


/-- Reads found below different edges of a cell are different reads. -/
theorem near_edge_unique (ids : List (List (Fin 5))) (allowed : Nat) (pre t : List (Fin 5))
    (e1 e2 : Fin 5) (k1 k2 id : Nat) (h1 : Near ids allowed (pre ++ [e1]) t k1 id)
    (h2 : Near ids allowed (pre ++ [e2]) t k2 id) : e1 = e2 := by
  obtain ⟨cs1, _, hm1, hid1, _, _⟩ := h1
  obtain ⟨cs2, _, hm2, hid2, _, _⟩ := h2
  have := first_index_inj _ _ ids hm1 hm2 (by rw [← hid1, ← hid2])
  rw [List.append_assoc, List.append_assoc] at this
  have h3 := List.append_cancel_left this
  simp only [List.singleton_append, List.cons.injEq] at h3
  exact h3.1

/-- The visits of a list of edges, when the visit of each edge prints the reads of a set
and different edges lead to different reads: the reads printed are those of the edges of
the list, each once. -/
theorem follow_all_spec (look : Nat → Nat → List Nat → Except Fault (List Nat)) (this : CELL)
    (Q : Fin 5 → Nat → Nat → Prop)
    (hQ : ∀ e1 k1 e2 k2 id, Q e1 k1 id → Q e2 k2 id → e1 = e2) :
    ∀ (bs : List (Fin 5 × Nat)), (bs.map Prod.fst).Nodup →
      (∀ b ∈ bs, ∀ out, ∃ found, NearMatch.follow look this b.1 b.2 out = .ok (out ++ found) ∧
        found.Nodup ∧ ∀ id, id ∈ found ↔ Q b.1 b.2 id) →
      ∀ out, ∃ found, follow_all look this bs out = .ok (out ++ found) ∧ found.Nodup ∧
        ∀ id, id ∈ found ↔ ∃ b ∈ bs, Q b.1 b.2 id := by
  intro bs
  induction bs with
  | nil =>
    intro _ _ out
    exact ⟨[], by simp [follow_all], List.nodup_nil, by simp⟩
  | cons b more ih =>
    intro hnd hall out
    rw [List.map_cons, List.nodup_cons] at hnd
    obtain ⟨f1, hf1, hn1, hm1⟩ := hall b (List.mem_cons_self _ _) out
    obtain ⟨f2, hf2, hn2, hm2⟩ := ih hnd.2 (fun b1 hb1 => hall b1 (List.mem_cons_of_mem _ hb1))
      (out ++ f1)
    refine ⟨f1 ++ f2, ?_, ?_, ?_⟩
    · rw [follow_all, hf1]
      simp only
      rw [hf2, List.append_assoc]
    · rw [List.nodup_append]
      refine ⟨hn1, hn2, ?_⟩
      intro id hid1 hid2
      obtain ⟨b2, hb2, hq2⟩ := (hm2 id).1 hid2
      have := hQ _ _ _ _ id ((hm1 id).1 hid1) hq2
      exact hnd.1 (by rw [this]; exact List.mem_map_of_mem _ hb2)
    · intro id
      rw [List.mem_append, hm1, hm2]
      constructor
      · rintro (h | ⟨b2, hb2, hq2⟩)
        · exact ⟨b, List.mem_cons_self _ _, h⟩
        · exact ⟨b2, List.mem_cons_of_mem _ hb2, hq2⟩
      · rintro ⟨b2, hb2, hq2⟩
        rcases List.mem_cons.1 hb2 with h | h
        · left; rw [← h]; exact hq2
        · right; exact ⟨b2, h, hq2⟩

/-- The reads within reach of the symbols `c :: t` from a cell are the reads within reach
of `t` from one of the edges that the probe visits in the cell. -/
theorem near_cons (ids : List (List (Fin 5))) (allowed : Nat) (pre t : List (Fin 5))
    (c : Fin 5) (k id : Nat) :
    (∃ b ∈ branches c k allowed, Near ids allowed (pre ++ [b.1]) t b.2 id) ↔
      Near ids allowed pre (c :: t) k id := by
  constructor
  · rintro ⟨⟨e, k1⟩, hb, cs, hlen, hmem, hid, hne, hle⟩
    obtain ⟨hk1, _⟩ := (mem_branches c e k k1 allowed).1 hb
    simp only at hlen hmem hid hle
    refine ⟨e :: cs, by simp [hlen], ?_, ?_, hne, ?_⟩
    · rw [List.append_assoc] at hmem; exact hmem
    · rw [List.append_assoc] at hid; exact hid
    · simp only [mismatches]; omega
  · rintro ⟨cs, hlen, hmem, hid, hne, hle⟩
    cases cs with
    | nil => simp at hlen
    | cons e cs1 =>
      simp only [mismatches] at hle
      have hmiss : miss c e ≤ 1 := by unfold miss; split <;> omega
      refine ⟨(e, k + miss c e), (mem_branches c e k _ allowed).2 ⟨rfl, fun h => by omega⟩,
        cs1, by simpa using hlen, ?_, ?_, hne, by simp only; omega⟩
      · simp only; rw [List.append_assoc]; exact hmem
      · simp only; rw [List.append_assoc]; exact hid


/-- The visit of one edge of a cell of a well-shaped trie, `t1` being the symbols of the
target after the letter of the cell: it prints the reads below the edge that are within
reach, each once. -/
theorem follow_cell {L : Nat} {ids : List (List (Fin 5))} {F : Flat}
    {str : Nat → List (Fin 5)} (inv : TrieInv L ids F str) (hs : F.last < 2 ^ 63)
    (hn : ids.length ≤ 2 ^ 63) (allowed : Nat) (t1 : List (Fin 5))
    (look : Nat → Nat → List Nat → Except Fault (List Nat))
    (hlook : t1 ≠ [] → ∀ (e2 k2 : Nat) (out : List Nat), 1 ≤ e2 → e2 ≤ F.last →
      reach F.mem ROOT_CELL (str e2) e2 → (str e2).length + t1.length = L → k2 ≤ allowed →
      ∃ found, look e2 k2 out = .ok (out ++ found) ∧ found.Nodup ∧
        ∀ id, id ∈ found ↔ Near ids allowed (str e2) t1 k2 id)
    (e : Nat) (h1 : 1 ≤ e) (h2 : e ≤ F.last) (hreach : reach F.mem ROOT_CELL (str e) e)
    (hlen : (str e).length + 1 + t1.length = L) (c : Fin 5) (k : Nat) (hk : k ≤ allowed)
    (out : List Nat) :
    ∃ found, NearMatch.follow look (F.mem e) c k out = .ok (out ++ found) ∧ found.Nodup ∧
      ∀ id, id ∈ found ↔ Near ids allowed (str e ++ [c]) t1 k id := by
  have hnone : (F.mem e).edge c = 0 → ∀ id, ¬ Near ids allowed (str e ++ [c]) t1 k id := by
    rintro hz id ⟨cs, _, hmem, _⟩
    rw [List.append_assoc] at hmem
    exact edge_of_member inv e hreach c cs hmem hz
  by_cases hz : (F.mem e).edge c = 0
  · refine ⟨[], ?_, List.nodup_nil, fun id => ?_⟩
    · rw [NearMatch.follow, hz]
      simp
    · simp only [List.not_mem_nil, false_iff]
      exact hnone hz id
  by_cases ht : t1 = []
  · subst ht
    simp only [List.length_nil, Nat.add_zero] at hlen
    have hterm := inv.bottom e c h1 h2 hlen hz
    obtain ⟨hword, hmem⟩ := inv.leaf e c h1 h2 hterm
    have hfi : first_index (str e ++ [c]) ids < 2 ^ 63 :=
      lt_of_lt_of_le (first_index_lt_of_mem _ _ hmem) hn
    have hpay : (F.mem e).edge c &&& EDGE_MASK = first_index (str e ++ [c]) ids := by
      rw [hword]; exact leaf_word_payload _ hfi
    by_cases h0 : first_index (str e ++ [c]) ids = 0
    · refine ⟨[], ?_, List.nodup_nil, fun id => ?_⟩
      · rw [NearMatch.follow, hpay, h0]
        simp
      · simp only [List.not_mem_nil, false_iff]
        rintro ⟨cs, hl, _, hid, hne, _⟩
        have hcs : cs = [] := List.length_eq_zero.1 (by simpa using hl)
        rw [hcs, List.append_nil, h0] at hid
        exact hne hid
    · refine ⟨[first_index (str e ++ [c]) ids], ?_, List.nodup_singleton _, fun id => ?_⟩
      · rw [NearMatch.follow, hpay]
        rw [if_pos h0, if_pos hterm]
        rfl
      · rw [List.mem_singleton]
        constructor
        · intro hid
          refine ⟨[], rfl, by rw [List.append_nil]; exact hmem,
            by rw [List.append_nil]; exact hid, by rw [hid]; exact h0, ?_⟩
          simp only [mismatches]
          omega
        · rintro ⟨cs, hl, _, hid, _, _⟩
          have hcs : cs = [] := List.length_eq_zero.1 (by simpa using hl)
          rw [hcs, List.append_nil] at hid
          exact hid
  · have hpos : 1 ≤ t1.length := by
      cases t1 with
      | nil => exact absurd rfl ht
      | cons _ _ => simp
    obtain ⟨hnt, hmask, hchild⟩ := child_word inv hs e c h1 h2 (by omega)
    obtain ⟨hlt, hle, hstr⟩ := hchild hz
    have hr2 : reach F.mem ROOT_CELL (str ((F.mem e).edge c)) ((F.mem e).edge c) := by
      rw [hstr]
      exact reach_snoc F.mem (str e) ROOT_CELL e c hreach hz hnt
    obtain ⟨found, hf, hnd, hm⟩ := hlook ht ((F.mem e).edge c) k out (by omega) hle hr2
      (by rw [hstr, List.length_append]; simp only [List.length_singleton]; omega) hk
    refine ⟨found, ?_, hnd, fun id => ?_⟩
    · rw [NearMatch.follow, hmask]
      rw [if_pos hz, if_neg (by rw [hnt]; simp)]
      exact hf
    · rw [hm id, hstr]

/-- `NearMatch.lookup_read` of the near-match probe on the trie file of a well-shaped trie, from a
cell and for the rest of a target of the length of the reads: it prints, each once, the
reads below the cell whose identifier is not 0 and that are within reach. -/
theorem lookup_read_near {L : Nat} {ids : List (List (Fin 5))} {F : Flat}
    {str : Nat → List (Fin 5)} (inv : TrieInv L ids F str) (hs : F.last < 2 ^ 63)
    (hn : ids.length ≤ 2 ^ 63) (pfuel allowed : Nat) :
    ∀ (s : List Char), (∀ c ∈ s, c ≠ Char.ofNat 0) → s ≠ [] →
      ∀ (e k : Nat) (out : List Nat), 1 ≤ e → e ≤ F.last →
      reach F.mem ROOT_CELL (str e) e → (str e).length + s.length = L → k ≤ allowed →
      ∃ found, NearMatch.lookup_read ((List.range (F.last + 1)).map F.mem) pfuel allowed s e k out =
          .ok (out ++ found) ∧ found.Nodup ∧
        ∀ id, id ∈ found ↔ Near ids allowed (str e) (codes s) k id := by
  intro s
  induction s with
  | nil => intro _ hne; exact absurd rfl hne
  | cons ch s1 ih =>
    intro hnul _ e k out h1 h2 hreach hlen hk
    have hch : ch ≠ Char.ofNat 0 := hnul ch (List.mem_cons_self _ _)
    have hnul1 : ∀ c ∈ s1, c ≠ Char.ofNat 0 := fun c hc => hnul c (List.mem_cons_of_mem _ hc)
    have hclen : (codes s1).length = s1.length := by simp [codes]
    rw [lookup_read_branches _ pfuel allowed ch s1 e k out (F.mem e) (image_lookup _ _ _ h2) hch]
    simp only [List.length_cons] at hlen
    obtain ⟨found, hf, hnd, hm⟩ := follow_all_spec
      (NearMatch.lookup_read ((List.range (F.last + 1)).map F.mem) pfuel allowed s1) (F.mem e)
      (fun e1 k1 id => Near ids allowed (str e ++ [e1]) (codes s1) k1 id)
      (fun e1 k1 e2 k2 id q1 q2 => near_edge_unique ids allowed (str e) (codes s1) e1 e2 k1 k2
        id q1 q2)
      (branches (code ch) k allowed) (branches_nodup _ _ _)
      (by
        intro b hb out1
        obtain ⟨hb1, hb2⟩ := (mem_branches (code ch) b.1 k b.2 allowed).1 hb
        have hmiss : miss (code ch) b.1 ≤ 1 := by unfold miss; split <;> omega
        have hkb : b.2 ≤ allowed := by
          by_cases h01 : miss (code ch) b.1 = 1
          · have := hb2 h01; omega
          · omega
        refine follow_cell inv hs hn allowed (codes s1) _ ?_ e h1 h2 hreach
          (by rw [hclen]; omega) b.1 b.2 hkb out1
        intro hne1 e2 k2 out2 a1 a2 a3 a4 a5
        have hs1 : s1 ≠ [] := by
          intro h0; rw [h0] at hne1; exact hne1 rfl
        rw [hclen] at a4
        exact ih hnul1 hs1 e2 k2 out2 a1 a2 a3 a4 a5)
      out
    refine ⟨found, hf, hnd, fun id => ?_⟩
    rw [hm id]
    exact near_cons ids allowed (str e) (codes s1) (code ch) k id


/-- C30. On the trie file of a construction from reads of one length `L`, the near-match
probe `NearMatch.lookup_read (ROOT_CELL, target, 0, 3)` for a target of `L` letters returns, and the
read numbers it prints are, each exactly once, the identifiers other than 0 of the stored
reads that differ from the target in at most 3 of the positions where both hold one of
`A`, `C`, `G`, `T`; a position where either holds `N` is never counted. -/
theorem near_match_prints (cfg : Config) (L : Nat) (reads : List (List Char))
    (hk : 1 ≤ cfg.CHUNKBITS) (hsz : cfg.mpisize * 2 ^ cfg.CHUNKBITS ≤ 2 ^ 63)
    (hpeer : 1 ≤ cfg.mpisize) (hL : 1 ≤ L) (hlen : ∀ r ∈ reads, r.length = L)
    (hclean : ∀ r ∈ reads, Clean r) (hn : reads.length ≤ 2 ^ 63) (W : World)
    (hW : construct cfg reads = .ok W) (old image : List CELL)
    (himg : dump_trie cfg (cfg.mpisize + 1) W 0 old = .ok image) (pfuel : Nat)
    (target : List Char) (htl : target.length = L) (hnul : ∀ c ∈ target, c ≠ Char.ofNat 0) :
    (∀ e : Fin 5, miss 4 e = 0 ∧ miss e 4 = 0 ∧ miss e e = 0) ∧
    ∃ out, NearMatch.nearmatch image pfuel target = .ok out ∧ out.Nodup ∧
      ∀ id, id ∈ out ↔ id ≠ 0 ∧ ∃ r ∈ reads, id = first_index (codes r) (reads.map codes) ∧
        mismatches (codes target) (codes r) ≤ 3 := by
  constructor
  · intro e
    fin_cases e <;> simp [miss]
  obtain ⟨str, inv, hsmall, himage⟩ := overlap_setup cfg hk hsz hpeer L hL reads hlen hclean hn
    W hW old image himg
  have hne : target ≠ [] := by
    intro h0; rw [h0] at htl; simp at htl; omega
  have hroot : reach (cell_at cfg W) ROOT_CELL
      (str ROOT_CELL) ROOT_CELL := by
    rw [inv.str_root]; rfl
  obtain ⟨found, hf, hnd, hm⟩ := lookup_read_near
    (F := ⟨cell_at cfg W, image_last_used_edge image⟩) inv hsmall (by simpa using hn) pfuel 3
    target hnul hne ROOT_CELL 0 [] (le_refl _) inv.root_le hroot
    (by rw [inv.str_root]; simpa using htl) (by omega)
  refine ⟨found, ?_, hnd, fun id => ?_⟩
  · rw [NearMatch.nearmatch, himage]
    exact hf
  · rw [hm id, inv.str_root]
    constructor
    · rintro ⟨cs, _, hmem, hid, hne0, hle⟩
      rw [List.nil_append] at hmem hid
      obtain ⟨r, hr, hrc⟩ := List.mem_map.1 hmem
      refine ⟨hne0, r, hr, by rw [hrc]; exact hid, by rw [hrc]; omega⟩
    · rintro ⟨hne0, r, hr, hid, hle⟩
      refine ⟨codes r, ?_, ?_, ?_, hne0, by omega⟩
      · simp only [codes, List.length_map]
        rw [hlen r hr, htl]
      · rw [List.nil_append]; exact List.mem_map_of_mem _ hr
      · rw [List.nil_append]; exact hid

set_option maxRecDepth 100000 in
theorem near_match_prints_witness :
    ∃ W image out,
      construct ⟨16, 1⟩ [['A', 'A', 'A', 'A', 'A'], ['A', 'C', 'C', 'C', 'A'],
        ['C', 'C', 'C', 'C', 'A'], ['N', 'C', 'C', 'C', 'N']] = .ok W ∧
      dump_trie ⟨16, 1⟩ 2 W 0 [] = .ok image ∧
      NearMatch.nearmatch image 5 ['A', 'A', 'A', 'A', 'A'] = .ok out ∧
      out.Nodup ∧ 1 ∈ out ∧ 3 ∈ out ∧ 2 ∉ out ∧ 0 ∉ out := by
  obtain ⟨W, image, hW, himg⟩ : ∃ W image,
      construct ⟨16, 1⟩ [['A', 'A', 'A', 'A', 'A'], ['A', 'C', 'C', 'C', 'A'],
        ['C', 'C', 'C', 'C', 'A'], ['N', 'C', 'C', 'C', 'N']] = .ok W ∧
      dump_trie ⟨16, 1⟩ 2 W 0 [] = .ok image :=
    ⟨_, _, rfl, rfl⟩
  obtain ⟨_, out, hout, hnd, hm⟩ := near_match_prints ⟨16, 1⟩ 5
    [['A', 'A', 'A', 'A', 'A'], ['A', 'C', 'C', 'C', 'A'],
      ['C', 'C', 'C', 'C', 'A'], ['N', 'C', 'C', 'C', 'N']]
    (by decide) (by decide) (by decide) (by decide) (by decide) (by simp [Clean, at_end])
    (by decide) W hW [] image himg 5 ['A', 'A', 'A', 'A', 'A'] rfl (by decide)
  refine ⟨W, image, out, hW, himg, hout, hnd, ?_, ?_, ?_, ?_⟩
  · exact (hm 1).2 ⟨by decide, ['A', 'C', 'C', 'C', 'A'], by simp, by decide, by decide⟩
  · exact (hm 3).2 ⟨by decide, ['N', 'C', 'C', 'C', 'N'], by simp, by decide, by decide⟩
  · intro h
    obtain ⟨_, r, hr, hid, hle⟩ := (hm 2).1 h
    simp only [List.mem_cons, List.mem_singleton, List.not_mem_nil, or_false] at hr
    rcases hr with rfl | rfl | rfl | rfl
    · exact absurd hid (by decide)
    · exact absurd hid (by decide)
    · exact absurd hle (by decide)
    · exact absurd hid (by decide)
  · intro h
    exact ((hm 0).1 h).1 rfl


/-! ## The overlaps files of the ranks of a group -/

/-- The overlaps file of a rank after one record is written somewhere. -/
theorem emit_overlaps (W : Cluster) (p : Nat) (r : Record) (q : Nat) :
    ((emit W p r).rank q).overlaps = (W.rank q).overlaps ++ (if p = q then [r] else []) := by
  simp only [emit]
  by_cases h : q = p
  · simp [h]
  · have h2 : ¬ p = q := fun h3 => h h3.symm
    simp [h, h2]

/-- The overlaps file of a rank after a sequence of records is written: the records of the
sequence that this rank wrote are appended, in their order. -/
theorem emit_all_overlaps (prs : List (Nat × Record)) :
    ∀ (W : Cluster) (q : Nat),
      ((emit_all W prs).rank q).overlaps =
        (W.rank q).overlaps ++ (prs.filter (fun p => decide (p.1 = q))).map Prod.snd := by
  induction prs with
  | nil => intro W q; simp [emit_all]
  | cons p prs ih =>
    intro W q
    show ((emit_all (emit W p.1 p.2) prs).rank q).overlaps = _
    rw [ih, emit_overlaps]
    by_cases h : p.1 = q
    · simp [h]
    · simp [h]

/-- C24, as the code has it. Every rank has an overlaps file of its own, and a record is
written by the rank on which it is printed.  For a probe that the first rank of a
cluster-group issues with a clean string of 1 to `L - 1` letters, on the trie file of a
construction from clean reads of one length `L ≤ MAX_LINE`, in a cluster-group that holds
the file (the last cell is not the first of a shard): the
probe returns; each of its records is appended, in the order of the probe, to the file of a
rank of that group (with a group of one rank, to the file of the driver); the file of a
rank gains exactly the records that this rank printed; and the file of no rank outside the
group changes, also when the descent or the walk of the leaves moves to another rank. -/
theorem records_stay_in_group (cfg cfg2 : Config) (L : Nat) (reads : List (List Char))
    (hk : 1 ≤ cfg.CHUNKBITS) (hsz : cfg.mpisize * 2 ^ cfg.CHUNKBITS ≤ 2 ^ 63)
    (hpeer : 1 ≤ cfg.mpisize) (hL : 1 ≤ L) (hlen : ∀ r ∈ reads, r.length = L)
    (hclean : ∀ r ∈ reads, Clean r) (hn : reads.length ≤ 2 ^ 63) (W : World)
    (hW : construct cfg reads = .ok W) (old image : List CELL)
    (himg : dump_trie cfg (cfg.mpisize + 1) W 0 old = .ok image)
    (hk1 : 1 ≤ cfg2.CHUNKBITS) (hk2 : cfg2.CHUNKBITS ≤ 63)
    (hmod : image_last_used_edge image % 2 ^ cfg2.CHUNKBITS ≠ 0) (base : Nat)
    (hb : base % cluster_size cfg2 (image_last_used_edge image) = 0)
    (hbl : base + cluster_size cfg2 (image_last_used_edge image) ≤
      (cfg2.mpisize / cluster_size cfg2 (image_last_used_edge image)) *
        cluster_size cfg2 (image_last_used_edge image))
    (b : Build) (x : List Char) (hx : Clean x) (hne : x ≠ []) (hxL : x.length < L)
    (hline : L ≤ MAX_LINE) (fuel pfuel : Nat) (hf : 2 * x.length ≤ fuel)
    (hpf : 2 * L ≤ pfuel) (done : List (Nat × Record)) (rn mo : Nat) :
    ∃ V1 prs,
      locate_overlaps cfg2 (cluster_size cfg2 (image_last_used_edge image)) b fuel pfuel
        (emit_all (start_cluster cfg2 image) done) base x ROOT_CELL rn mo = .ok V1 ∧
      prs.map Prod.snd = probe_records b (cell_at cfg W) L [] ROOT_CELL (codes x) rn mo ∧
      V1.log = (emit_all (start_cluster cfg2 image) done).log ++ prs ∧
      (∀ p ∈ prs, base ≤ p.1 ∧ p.1 < base + cluster_size cfg2 (image_last_used_edge image)) ∧
      (cluster_size cfg2 (image_last_used_edge image) = 1 → ∀ p ∈ prs, p.1 = base) ∧
      (∀ q, (V1.rank q).overlaps =
        ((emit_all (start_cluster cfg2 image) done).rank q).overlaps ++
          (prs.filter (fun p => decide (p.1 = q))).map Prod.snd) ∧
      (∀ q, q < base ∨ base + cluster_size cfg2 (image_last_used_edge image) ≤ q →
        (V1.rank q).overlaps = ((emit_all (start_cluster cfg2 image) done).rank q).overlaps) := by
  obtain ⟨_, _, _, V1, hrun, prs, hV1, hrecs, hranks⟩ := probe_run cfg cfg2 L reads hk hsz hpeer
    hL hlen hclean hn W hW old image himg hk1 hk2 hmod base hb hbl b x hx hne hxL hline fuel
    pfuel hf hpf done rn mo
  refine ⟨V1, prs, hrun, hrecs, ?_, hranks, ?_, ?_, ?_⟩
  · rw [hV1, emit_all_log]
  · intro h1 p hp
    have := hranks p hp
    omega
  · intro q
    rw [hV1, emit_all_overlaps]
  · intro q hq
    rw [hV1, emit_all_overlaps]
    have : prs.filter (fun p => decide (p.1 = q)) = [] := by
      rw [List.filter_eq_nil_iff]
      intro p hp
      have := hranks p hp
      simp only [decide_eq_true_eq]
      omega
    rw [this]
    simp


/-! ## Steps that return, and records that stay -/

/-- A chain of steps that is read off as an option: its first step has returned. -/
theorem toOption_bind_some {ε α β : Type} (x : Except ε α) (f : α → Option β) (y : β)
    (h : x.toOption.bind f = some y) : ∃ a, x = .ok a ∧ f a = some y := by
  cases x with
  | error e => simp [Except.toOption] at h
  | ok a => exact ⟨a, rfl, by simpa [Except.toOption] using h⟩

/-- A record that lies in the overlaps file of a rank stays there when more is written. -/
theorem mem_emit_all_overlaps (prs : List (Nat × Record)) (W : Cluster) (q : Nat) (r : Record)
    (h : r ∈ (W.rank q).overlaps) : r ∈ ((emit_all W prs).rank q).overlaps := by
  rw [emit_all_overlaps]
  exact List.mem_append_left _ h


theorem text_replicate_A (n : Nat) : text (List.replicate n 0) = List.replicate n 'A' := by
  simp only [text, List.map_replicate]
  rfl


/-! ## The index file -/

/-- `fgets` on a line that fits: the line and its newline. -/
theorem fgets_chars_line (more : List Char) :
    ∀ (l : List Char) (m : Nat), (∀ c ∈ l, c ≠ Char.ofNat 10) → l.length < m →
      fgets_chars m (l ++ Char.ofNat 10 :: more) = l ++ [Char.ofNat 10] := by
  intro l
  induction l with
  | nil =>
    intro m _ hm
    cases m with
    | zero => simp at hm
    | succ m => simp [fgets_chars]
  | cons c l ih =>
    intro m hc hm
    cases m with
    | zero => simp at hm
    | succ m =>
      have hcn : c ≠ Char.ofNat 10 := hc c (List.mem_cons_self _ _)
      simp only [List.cons_append, fgets_chars, if_neg hcn, List.cons.injEq, true_and]
      exact ih m (fun x hx => hc x (List.mem_cons_of_mem _ hx))
        (by simp only [List.length_cons] at hm; omega)

/-- Reading one line of the input. -/
theorem fgets_line (line l more : List Char) (pos : Nat) (h : LineOk l) :
    fgets line ⟨l ++ Char.ofNat 10 :: more, pos⟩ =
      (l ++ [Char.ofNat 10], ⟨more, pos + (l.length + 1)⟩, true) := by
  have hm : l.length < MAX_LINE - 1 := by
    have := h.2
    omega
  have hg := fgets_chars_line more l (MAX_LINE - 1) h.1 hm
  unfold fgets
  simp only
  rw [hg, if_neg (by simp)]
  simp

/-- Reading at the end of the file. -/
theorem fgets_eof (line : List Char) (pos : Nat) :
    fgets line ⟨[], pos⟩ = (line, ⟨[], pos⟩, false) := by
  unfold fgets
  have : fgets_chars (MAX_LINE - 1) [] = [] := rfl
  simp only [this, if_true]

/-- The string that is left of a line without NUL when its newline is cut off. -/
theorem chomp_line (l : List Char) (h1 : ∀ c ∈ l, c ≠ Char.ofNat 10)
    (h0 : ∀ c ∈ l, c ≠ Char.ofNat 0) : chomp (l ++ [Char.ofNat 10]) = l := by
  unfold chomp
  have hc : ∀ (x : List Char), (∀ c ∈ x, c ≠ Char.ofNat 0) →
      c_string (x ++ [Char.ofNat 10]) = x ++ [Char.ofNat 10] := by
    intro x
    induction x with
    | nil => intro _; simp [c_string]
    | cons c x ih =>
      intro hx
      have hcn : c ≠ Char.ofNat 0 := hx c (List.mem_cons_self _ _)
      simp only [List.cons_append, c_string, if_neg hcn, List.cons.injEq, true_and]
      exact ih (fun y hy => hx y (List.mem_cons_of_mem _ hy))
  rw [hc l h0, List.takeWhile_append_of_pos (by simpa using h1)]
  simp [List.takeWhile]

theorem record_text_length (r : List Char × List Char × List Char × List Char) :
    (record_text r).length =
      (r.1.length + 1) + (r.2.1.length + 1) + (r.2.2.1.length + 1) + (r.2.2.2.length + 1) := by
  simp only [record_text, List.length_append, List.length_cons, List.length_nil]
  omega

/-- The ingestion loop on an input of four-line records follows the insertions of the
sequences, and writes to the index the offset of each record and then the offset of the
end of the file. -/
theorem ingestion_loop_spec (cfg : Config) :
    ∀ (records : List (List Char × List Char × List Char × List Char)) (fuel pos : Nat)
      (line : List Char) (W0 : World) (rn : Nat) (idx : List Nat),
      (∀ r ∈ records, RecordOk r) → rn + records.length < 0x7FFFFFFF → records.length < fuel →
      ingestion_loop cfg fuel ⟨input_text records, pos⟩ line W0 rn idx =
        match ingest cfg (records.map (fun r => r.2.1)) W0 rn with
        | .error e => .fault e
        | .ok (W, n) =>
          .done W n (idx ++ record_offsets records pos ++ [pos + (input_text records).length])
          := by
  intro records
  induction records with
  | nil =>
    intro fuel pos line W0 rn idx _ _ hfuel
    cases fuel with
    | zero => simp at hfuel
    | succ fuel =>
      simp only [input_text, List.flatMap_nil, ingestion_loop, fgets_eof, if_true, List.map_nil,
        ingest, record_offsets, List.append_nil, List.length_nil, Nat.add_zero]
  | cons r more ih =>
    intro fuel pos line W0 rn idx hok hn hfuel
    cases fuel with
    | zero => simp at hfuel
    | succ fuel =>
      obtain ⟨h1, h2, h20, h3, hplus, h4⟩ := hok r (List.mem_cons_self _ _)
      have htext : input_text (r :: more) =
          r.1 ++ Char.ofNat 10 :: (r.2.1 ++ Char.ofNat 10 :: (r.2.2.1 ++ Char.ofNat 10 ::
            (r.2.2.2 ++ Char.ofNat 10 :: input_text more))) := by
        simp [input_text, record_text]
      rw [ingestion_loop, htext]
      simp only [fgets_line _ _ _ _ h1, fgets_line _ _ _ _ h2, chomp_line _ h2.1 h20]
      rw [List.map_cons, ingest]
      simp only [Bool.true_eq_false, if_false]
      cases hadd : add_read cfg r.2.1 W0 0 ROOT_CELL rn 0 with
      | error e => rfl
      | ok res =>
        obtain ⟨W1, len⟩ := res
        simp only [fgets_line _ _ _ _ h3, fgets_line _ _ _ _ h4]
        have hhead : (r.2.2.1 ++ [Char.ofNat 10]).head? = some '+' := by
          cases hp : r.2.2.1 with
          | nil => rw [hp] at hplus; simp at hplus
          | cons c rest => rw [hp] at hplus; simpa using hplus
        rw [if_neg (by rw [hhead]; simp), if_neg (by simp only [List.length_cons] at hn; omega)]
        rw [ih fuel _ _ W1 (rn + 1) _ (fun x hx => hok x (List.mem_cons_of_mem _ hx))
          (by simp only [List.length_cons] at hn; omega)
          (by simp only [List.length_cons] at hfuel; omega)]
        have hpos : pos + (r.1.length + 1) + (r.2.1.length + 1) + (r.2.2.1.length + 1) +
            (r.2.2.2.length + 1) = pos + (record_text r).length := by
          rw [record_text_length]; omega
        have hlen : (r.1 ++ Char.ofNat 10 :: (r.2.1 ++ Char.ofNat 10 ::
            (r.2.2.1 ++ Char.ofNat 10 :: (r.2.2.2 ++ Char.ofNat 10 :: input_text more)))).length
            = (record_text r).length + (input_text more).length := by
          rw [record_text_length]
          simp only [List.length_append, List.length_cons]
          omega
        rw [hpos, hlen]
        cases ingest cfg (more.map (fun r => r.2.1)) W1 (rn + 1) with
        | error e => rfl
        | ok res2 =>
          obtain ⟨W2, n2⟩ := res2
          simp only [record_offsets, List.append_assoc, List.singleton_append, List.cons_append,
            List.nil_append, Nat.add_assoc]


theorem record_offsets_length :
    ∀ (records : List (List Char × List Char × List Char × List Char)) (pos : Nat),
      (record_offsets records pos).length = records.length := by
  intro records
  induction records with
  | nil => intro pos; rfl
  | cons r more ih => intro pos; simp [record_offsets, ih]

/-- The entry of a record in the list of offsets: the length of the text of the records
before it. -/
theorem record_offsets_get :
    ∀ (records : List (List Char × List Char × List Char × List Char)) (pos i : Nat),
      i < records.length →
      (record_offsets records pos)[i]? = some (pos + (input_text (records.take i)).length) := by
  intro records
  induction records with
  | nil => intro pos i h; simp at h
  | cons r more ih =>
    intro pos i h
    cases i with
    | zero => simp [record_offsets, input_text]
    | succ i =>
      simp only [record_offsets, List.getElem?_cons_succ, List.take_succ_cons]
      rw [ih _ i (by simpa using h)]
      simp only [input_text, List.flatMap_cons, List.length_append, Nat.add_assoc]

/-- C26, as the code has it. For an input of `n` four-line records (each line read in one
piece) whose sequences are all inserted, the ingestion loop ends at the end of the file
and has written `n + 1` entries of 8 bytes to the index: entry `i`, for `i < n`, is the
byte offset at which the record of read `i` starts in the input (duplicates included, as
every record takes the next identifier), and the last entry, written before the loop
finds the end of the file, is the length of the input. -/
theorem index_entries (cfg : Config)
    (records : List (List Char × List Char × List Char × List Char))
    (hok : ∀ r ∈ records, RecordOk r) (hn : records.length < 0x7FFFFFFF) (W : World) (n : Nat)
    (hW : ingest cfg (records.map (fun r => r.2.1)) (initial_world cfg) 0 = .ok (W, n))
    (fuel : Nat) (hfuel : records.length < fuel) (line : List Char) :
    ∃ read_index,
      ingestion_loop cfg fuel ⟨input_text records, 0⟩ line (initial_world cfg) 0 [] =
        .done W n read_index ∧
      read_index = record_offsets records 0 ++ [(input_text records).length] ∧
      read_index.length = records.length + 1 ∧
      index_bytes read_index = 8 * (records.length + 1) ∧
      (∀ i, i < records.length →
        read_index[i]? = some (input_text (records.take i)).length ∧
        input_text records = input_text (records.take i) ++ input_text (records.drop i)) ∧
      read_index[records.length]? = some (input_text records).length := by
  have hrun := ingestion_loop_spec cfg records fuel 0 line (initial_world cfg) 0 []
    hok (by omega) hfuel
  rw [hW] at hrun
  simp only [List.nil_append, Nat.zero_add] at hrun
  refine ⟨_, hrun, rfl, ?_, ?_, ?_, ?_⟩
  · simp [record_offsets_length]
  · simp [index_bytes, record_offsets_length]
  · intro i hi
    constructor
    · rw [List.getElem?_append_left (by rw [record_offsets_length]; exact hi),
        record_offsets_get records 0 i hi, Nat.zero_add]
    · simp only [input_text]
      rw [← List.flatMap_append, List.take_append_drop]
  · rw [List.getElem?_append_right (by rw [record_offsets_length]), record_offsets_length,
      Nat.sub_self]
    rfl

theorem index_entries_witness :
    ∃ W n read_index,
      ingest ⟨16, 1⟩ [['A', 'C'], ['A', 'C']] (initial_world ⟨16, 1⟩) 0 = .ok (W, n) ∧
      ingestion_loop ⟨16, 1⟩ 3
        ⟨input_text [(['@', 'a'], ['A', 'C'], ['+'], ['I', 'I']),
          (['@', 'b'], ['A', 'C'], ['+'], ['I', 'J'])], 0⟩ [] (initial_world ⟨16, 1⟩) 0 [] =
        .done W n read_index ∧
      read_index = [0, 11, 22] := by
  obtain ⟨W, n, hW⟩ : ∃ W n,
      ingest ⟨16, 1⟩ [['A', 'C'], ['A', 'C']] (initial_world ⟨16, 1⟩) 0 = .ok (W, n) :=
    ⟨_, _, rfl⟩
  obtain ⟨read_index, hrun, hidx, _⟩ := index_entries ⟨16, 1⟩
    [(['@', 'a'], ['A', 'C'], ['+'], ['I', 'I']), (['@', 'b'], ['A', 'C'], ['+'], ['I', 'J'])]
    (by simp [RecordOk, LineOk, MAX_LINE]) (by decide) W n hW 3 (by decide) []
  exact ⟨W, n, read_index, hW, hrun, by rw [hidx]; decide⟩

/-- C26 as stated does not hold: for an input of one record the index holds two entries,
the offset 0 of the record and the length 11 of the input. -/
theorem index_has_entry_for_end :
    ∃ W read_index,
      ingestion_loop ⟨16, 1⟩ 2 ⟨input_text [(['@', 'a'], ['A', 'C'], ['+'], ['I', 'I'])], 0⟩
        [] (initial_world ⟨16, 1⟩) 0 [] = .done W 1 read_index ∧
      read_index = [0, 11] ∧ read_index.length ≠ 1 :=
  ⟨_, _, rfl, rfl, by decide⟩


/-! ## A single rank whose shard is full -/

/-- On a single rank whose shard is full, the first request for a free cell is forwarded
to rank 1, which does not exist. -/
theorem single_rank_forwards (k fuel : Nat) (W : World) (hinit : (W.peer 0).init = false)
    (hfull : has_room ⟨k, 1⟩ W 0 = false) :
    get_next_free_edge ⟨k, 1⟩ (fuel + 1) W 0 = .error .noSuchRank := by
  have h : (((W.peer 0).last_used_edge + 1) % 2 ^ 64) >>> (⟨k, 1⟩ : Config).CHUNKBITS ≠ 0 := by
    simpa [has_room] using hfull
  rw [get_next_free_edge]
  simp only
  rw [if_pos h]
  simp [hinit]

set_option maxRecDepth 1000000 in
/-- C25 does not hold for an input that fills the shard: on a single rank with a shard of
`2^8` cells, after a read of 255 letters `A` the next index is outside the shard, so that
the test of `get_next_free_edge` fails and the request is sent to rank 1; construction
from a read of 300 letters `A` ends with this message to a rank that does not exist.  A
second input of this kind, for every shard size: after the read `A` the read `AC` follows
the leaf word of `A` as if it were a child, and `add_read` hands the call to the rank that
the leaf word names, which is no rank. -/
theorem single_peer_allocator_goes_remote :
    (∃ W n, ingest ⟨8, 1⟩ [List.replicate 255 'A'] (initial_world ⟨8, 1⟩) 0 = .ok (W, n) ∧
      (W.peer 0).last_used_edge = 255 ∧ has_room ⟨8, 1⟩ W 0 = false ∧
      get_next_free_edge ⟨8, 1⟩ 1 W 0 = .error .noSuchRank) ∧
    construct ⟨8, 1⟩ [List.replicate 300 'A'] = .error .noSuchRank ∧
    construct ⟨16, 1⟩ [['A'], ['A', 'C']] = .error .noSuchRank := by
  refine ⟨?_, ?_, rfl⟩
  · have key : ((ingest ⟨8, 1⟩ [List.replicate 255 'A'] (initial_world ⟨8, 1⟩) 0).toOption.bind
        fun r => some ((r.1.peer 0).last_used_edge, has_room ⟨8, 1⟩ r.1 0, (r.1.peer 0).init)) =
        some (255, false, false) := by decide!
    obtain ⟨r, hr, h1⟩ := toOption_bind_some _ _ _ key
    simp only [Option.some.injEq, Prod.mk.injEq] at h1
    exact ⟨r.1, r.2, hr, h1.1, h1.2.1, single_rank_forwards 8 0 r.1 h1.2.2 h1.2.1⟩
  · have key : (match construct ⟨8, 1⟩ [List.replicate 300 'A'] with
        | .error e => some e
        | .ok _ => none) = some Fault.noSuchRank := by decide!
    cases h : construct ⟨8, 1⟩ [List.replicate 300 'A'] with
    | error e =>
      rw [h] at key
      simp only [Option.some.injEq] at key
      rw [key]
    | ok W =>
      rw [h] at key
      exact absurd key (by simp)


/-! ## Lines of the `-sorted` file that do not fit the line buffer of `findoverlaps` -/

/-- A line of the `-sorted` file has at least 13 characters after the read. -/
theorem sorted_line_long (t : List Char) (a : Nat) :
    t.length + 13 ≤ (sorted_line (t, a)).length := by
  simp only [sorted_line, List.length_append, List.length_cons, List.length_replicate]
  omega

/-- The round of the main loop for a line that, with its newline, does not fit
`char line[MAX_LINE]`: the copy loop writes past the end of the array. -/
theorem process_long_line (cfg : Config) (cs : Nat) (b : Build) (fuel pfuel mpirank : Nat)
    (st : Driver) (line : List Char) (h : MAX_LINE ≤ line.length) :
    process_line cfg cs b fuel pfuel mpirank st line = .error .outOfBounds := by
  rw [process_line, if_pos (by omega)]

/-- The symbol of the letter that is printed for a symbol. -/
theorem code_trt (i : Fin 5) : code (trt i) = i := by
  revert i
  decide

/-- The symbols of the text of a symbol string. -/
theorem codes_text (p : List (Fin 5)) : codes (text p) = p := by
  induction p with
  | nil => rfl
  | cons i p ih =>
    show code (trt i) :: codes (text p) = i :: p
    rw [code_trt, ih]

/-- A list without repetition whose only member is `x` is `[x]`. -/
theorem eq_singleton_of_nodup {α : Type} (l : List α) (x : α) (hnd : l.Nodup)
    (hmem : ∀ y, y ∈ l ↔ y = x) : l = [x] := by
  cases l with
  | nil => exact absurd ((hmem x).2 rfl) (List.not_mem_nil x)
  | cons a t =>
    have ha : a = x := (hmem a).1 (List.mem_cons_self _ _)
    cases t with
    | nil => rw [ha]
    | cons b t2 =>
      have hb : b = x := (hmem b).1 (List.mem_cons_of_mem _ (List.mem_cons_self _ _))
      have hab : a ≠ b := by
        intro h
        have := (List.nodup_cons.1 hnd).1
        exact this (by rw [h]; exact List.mem_cons_self _ _)
      exact absurd (ha.trans hb.symm) hab

/-- What `maketrie` writes for a single clean read of `L < MAX_LINE` letters: construction
and the walk return, and the `-sorted` file holds the one line of the read with the
identifier 0. -/
theorem single_read_files (cfg : Config) (hk : 1 ≤ cfg.CHUNKBITS)
    (hsz : cfg.mpisize * 2 ^ cfg.CHUNKBITS ≤ 2 ^ 63) (hpeer : 1 ≤ cfg.mpisize)
    (p : List (Fin 5)) (hp1 : 1 ≤ p.length) (hp2 : p.length < MAX_LINE)
    (hroom : 2 + (p.length - 1) ≤ cfg.mpisize * 2 ^ cfg.CHUNKBITS) :
    ∃ W image W1, construct cfg [text p] = .ok W ∧
      dump_trie cfg (cfg.mpisize + 1) W 0 [] = .ok image ∧
      walk_and_print_trie cfg (List.replicate MAX_LINE 'x') p.length W = .ok W1 ∧
      (W1.peer (cfg.mpisize - 1)).sorted_and_unique_reads = [(text p, 0)] := by
  have hlen : ∀ r ∈ [text p], r.length = p.length := by
    intro r hr
    rw [List.mem_singleton.1 hr, text_length]
  have hclean : ∀ r ∈ [text p], Clean r := by
    intro r hr
    rw [List.mem_singleton.1 hr]
    exact text_clean p
  have hn : [text p].length ≤ 2 ^ 63 := by
    simp only [List.length_singleton]
    norm_num
  rcases construct_spec cfg hk hsz hpeer p.length hp1 [text p] hlen hclean hn with
    ⟨_, hlt⟩ | ⟨W, F, str, hW, hrel, inv, _⟩
  · simp only [List.length_singleton, Nat.one_mul] at hlt
    omega
  obtain ⟨W1, F2, str2, hwalk, hrel2, inv2, hfile⟩ := walk_file cfg p.length [text p]
    (List.replicate MAX_LINE 'x') p.length hk hsz hpeer hp1 hlen hclean hn
    (List.length_replicate _ _) hp2 (le_refl _) W hW
  refine ⟨W, _, W1, hW, dump_trie_image cfg hsz W F hrel [], hwalk, ?_⟩
  have hids : ([text p].map codes) = [p] := by
    simp only [List.map_cons, List.map_nil]
    rw [codes_text]
  rw [hids] at inv2
  have hleaves : leaves F2.mem p.length ROOT_CELL [] = [(p, 0)] := by
    apply eq_singleton_of_nodup _ _ (leaves_nodup _ _ _ _)
    rintro ⟨q, id⟩
    rw [mem_leaves_root inv2 (by simp) (by simp)]
    simp only [List.mem_singleton, Prod.mk.injEq]
    constructor
    · rintro ⟨h1, h2⟩
      subst h1
      exact ⟨rfl, by rw [h2]; simp [first_index]⟩
    · rintro ⟨h1, h2⟩
      subst h1
      exact ⟨rfl, by rw [h2]; simp [first_index]⟩
  rw [hfile, hleaves]
  rfl

/-- C15. For reads of `L ≥ 1011` letters the share of a group is not probed.  `maketrie`
takes reads of up to 1022 letters and writes a line of at least `L + 13` characters for
each to the `-sorted` file; the copy loop of the main loop of `findoverlaps` stores such a
line and its newline past the end of `char line[MAX_LINE]`.  On the first rank of every
group the main loop stops there at the first line of the file, whatever the state of the
group, although the read at position 1 is in the share of the group `1 mod R`. -/
theorem long_reads_stop_every_group (cfg : Config) (cs : Nat) (b : Build)
    (fuel pfuel mpirank L : Nat) (hL : MAX_LINE ≤ L + 13) (p : List (Fin 5))
    (hp : p.length = L) (a : Nat) (more : List (List (Fin 5) × Nat)) (st : Driver) :
    (1, (text p, a)) ∈ group_share (cfg.mpisize / cs) (1 % (cfg.mpisize / cs))
      (((p, a) :: more).map (fun r => (text r.1, r.2))) 0 ∧
    main_loop cfg cs b fuel pfuel mpirank
      (((p, a) :: more).map (fun r => sorted_line (text r.1, r.2))) st =
        .error .outOfBounds := by
  constructor
  · simp only [List.map_cons, group_share, Nat.zero_add, if_true]
    exact List.mem_append_left _ (List.mem_singleton_self _)
  · have hlong : MAX_LINE ≤ (sorted_line (text p, a)).length := by
      have := sorted_line_long (text p) a
      rw [text_length, hp] at this
      omega
    rewrite [List.map_cons, main_loop, process_long_line cfg cs b fuel pfuel mpirank st _ hlong]
    rfl

theorem long_reads_stop_every_group_witness :
    ∃ W image W1, construct ⟨16, 1⟩ [List.replicate 1011 'A'] = .ok W ∧
      dump_trie ⟨16, 1⟩ 2 W 0 [] = .ok image ∧
      walk_and_print_trie ⟨16, 1⟩ (List.replicate MAX_LINE 'x') 1011 W = .ok W1 ∧
      (W1.peer 0).sorted_and_unique_reads = [(List.replicate 1011 'A', 0)] ∧
      (1, (List.replicate 1011 'A', 0)) ∈
        group_share 1 0 (W1.peer 0).sorted_and_unique_reads 0 ∧
      main_loop ⟨16, 1⟩ 1 amos_build 4000 4000 0
        ((W1.peer 0).sorted_and_unique_reads.map sorted_line)
        ⟨0, 0, start_cluster ⟨16, 1⟩ image⟩ = .error .outOfBounds := by
  obtain ⟨W, image, W1, hW, himg, hwalk, hfile⟩ := single_read_files ⟨16, 1⟩ (by decide)
    (by decide) (by decide) (List.replicate 1011 0) (by rw [List.length_replicate]; decide)
    (by rw [List.length_replicate]; decide) (by rw [List.length_replicate]; decide)
  rw [List.length_replicate] at hwalk
  rw [text_replicate_A] at hW hfile
  obtain ⟨h1, h2⟩ := long_reads_stop_every_group ⟨16, 1⟩ 1 amos_build 4000 4000 0 1011
    (by decide) (List.replicate 1011 0) (List.length_replicate _ _) 0 []
    ⟨0, 0, start_cluster ⟨16, 1⟩ image⟩
  simp only [List.map_cons, List.map_nil, text_replicate_A] at h1 h2
  have hfile2 : (W1.peer 0).sorted_and_unique_reads = [(List.replicate 1011 'A', 0)] := hfile
  refine ⟨W, image, W1, hW, himg, hwalk, hfile2, ?_, ?_⟩
  · rw [hfile2]
    exact h1
  · rw [hfile2]
    exact h2

/-- C22. For a read of `L ≥ 1011` letters no probe is issued.  The round of the main loop
of `findoverlaps` for the line of such a read stops in the copy loop, which stores the
line and its newline past the end of `char line[MAX_LINE]`, before `read_length` is set
and before the loop of the probes is reached, on every rank and in every state; the loop
of the probes would make `L - MIN_OVERLAP` calls. -/
theorem long_read_gets_no_probe (cfg : Config) (cs : Nat) (b : Build)
    (fuel pfuel mpirank L : Nat) (hL : MAX_LINE ≤ L + 13) (p : List (Fin 5))
    (hp : p.length = L) (a : Nat) (st : Driver) :
    process_line cfg cs b fuel pfuel mpirank st (sorted_line (text p, a)) =
      .error .outOfBounds ∧
    MAX_LINE < (sorted_line (text p, a)).length + 1 ∧
    (probe_lengths b L).length = L - b.MIN_OVERLAP := by
  have hlong : MAX_LINE ≤ (sorted_line (text p, a)).length := by
    have := sorted_line_long (text p) a
    rw [text_length, hp] at this
    omega
  refine ⟨process_long_line cfg cs b fuel pfuel mpirank st _ hlong, by omega, ?_⟩
  simp [probe_lengths]

theorem long_read_gets_no_probe_witness :
    ∃ W image, construct ⟨16, 1⟩ [List.replicate 1011 'A'] = .ok W ∧
      dump_trie ⟨16, 1⟩ 2 W 0 [] = .ok image ∧
      process_line ⟨16, 1⟩ 1 amos_build 4000 4000 0 ⟨0, 0, start_cluster ⟨16, 1⟩ image⟩
        (sorted_line (List.replicate 1011 'A', 0)) = .error .outOfBounds ∧
      (sorted_line (List.replicate 1011 'A', 0)).length = 1024 ∧
      (probe_lengths amos_build 1011).length = 997 := by
  obtain ⟨W, image, _, hW, himg, _, _⟩ := single_read_files ⟨16, 1⟩ (by decide)
    (by decide) (by decide) (List.replicate 1011 0) (by rw [List.length_replicate]; decide)
    (by rw [List.length_replicate]; decide) (by rw [List.length_replicate]; decide)
  rw [text_replicate_A] at hW
  obtain ⟨h1, _, h3⟩ := long_read_gets_no_probe ⟨16, 1⟩ 1 amos_build 4000 4000 0 1011
    (by decide) (List.replicate 1011 0) (List.length_replicate _ _) 0
    ⟨0, 0, start_cluster ⟨16, 1⟩ image⟩
  rw [text_replicate_A] at h1
  refine ⟨W, image, hW, himg, h1, ?_, h3⟩
  have := (sorted_line_shape (List.replicate 1011 0) 0 (by norm_num)).1
  rw [text_replicate_A, List.length_replicate] at this
  exact this


/-! ## The overlap phase on a trie file whose last cell is the first cell of the second shard

When `last_used_edge` equals the shard size, `cluster_size = (last_used_edge +
(CHUNKSIZE - 1)) / CHUNKSIZE` is 1: every rank is a group of its own and loads
`(last_used_edge & CHUNKMASK) + 1 = 1` cell, so that the root cell, at offset 1, is outside
the segment of every rank. -/

theorem image_last_of_length (image : List CELL) (n : Nat) (hlen : image.length = n + 1)
    (hn : n < 2 ^ 63) : image_last_used_edge image = n := by
  have h64 : (2 : Nat) ^ 64 = 2 ^ 63 + 2 ^ 63 := by norm_num
  unfold image_last_used_edge
  rw [hlen]
  have : n + 1 + 2 ^ 64 - 1 = n + 2 ^ 64 := by omega
  rw [this, Nat.add_mod_right, Nat.mod_eq_of_lt (by omega)]

/-- The group size that start-up computes when `last_used_edge` is the shard size. -/
theorem cluster_size_pow (cfg : Config) (hk : cfg.CHUNKBITS ≤ 63) :
    cluster_size cfg (2 ^ cfg.CHUNKBITS) = 1 := by
  have hS : 0 < 2 ^ cfg.CHUNKBITS := Nat.two_pow_pos _
  have hS2 : 2 ^ cfg.CHUNKBITS ≤ 2 ^ 63 := Nat.pow_le_pow_right (by norm_num) hk
  have h64 : (2 : Nat) ^ 64 = 2 ^ 63 + 2 ^ 63 := by norm_num
  unfold cluster_size
  rw [chunksize_eq, Nat.mod_eq_of_lt (by omega)]
  exact Nat.div_eq_of_lt_le (by omega) (by omega)

/-- The segment that a rank has after start-up on such a file holds at most one cell. -/
theorem startup_short_segment (cfg : Config) (image : List CELL) (hk : cfg.CHUNKBITS ≤ 63)
    (hlue : image_last_used_edge image = 2 ^ cfg.CHUNKBITS) (q : Nat) :
    ((start_cluster cfg image).rank q).trie_cell.length ≤ 1 := by
  have hc := cluster_size_pow cfg hk
  have hm : (2 ^ cfg.CHUNKBITS &&& cfg.CHUNKMASK) + 1 = 1 := by
    rw [mask_eq, Nat.mod_self]
  have key : ∀ s, startup cfg image q = s →
      (match s with
        | .run f => f
        | _ => ({ trie_cell := [], overlaps := [] } : Finder)).trie_cell.length ≤ 1 := by
    intro s hs
    rw [startup, hlue] at hs
    simp only [hc, hm, Nat.mod_one, Nat.sub_self, Nat.lt_irrefl, if_false] at hs
    split_ifs at hs <;> subst hs <;> simp only [List.length_nil, Nat.zero_le]
    exact List.length_take_le _ _
  exact key _ rfl

/-- A probe from the root on a rank whose segment holds at most one cell, in a group of
one rank: the root cell is read outside the segment. -/
theorem locate_root_unloaded (cfg : Config) (hk1 : 1 ≤ cfg.CHUNKBITS) (b : Build)
    (W : Cluster) (q : Nat) (hW : (W.rank q).trie_cell.length ≤ 1) (fuel pfuel : Nat)
    (ch : Char) (s1 : List Char) (a mo : Nat) :
    locate_overlaps cfg 1 b (fuel + 1) pfuel W q (ch :: s1) ROOT_CELL a mo =
      .error .outOfBounds := by
  have hS : 2 ^ 1 ≤ 2 ^ cfg.CHUNKBITS := Nat.pow_le_pow_right (by norm_num) hk1
  have hs : signed_rank cfg ROOT_CELL = some 0 := by
    rw [signed_rank_of_lt cfg ROOT_CELL (by decide)]
    congr 1
    exact Nat.div_eq_of_lt (by show 1 < 2 ^ cfg.CHUNKBITS; omega)
  have hidx : ROOT_CELL &&& cfg.CHUNKMASK = 1 := by
    rw [mask_eq]
    exact Nat.mod_eq_of_lt (by show 1 < 2 ^ cfg.CHUNKBITS; omega)
  have hcell : (W.rank q).trie_cell[1]? = none := by
    rw [List.getElem?_eq_none]; exact hW
  rw [locate_overlaps, hs]
  simp only [Nat.mod_one, if_true]
  rw [local_locate_overlaps, hidx, hcell]

/-- The same probe under the monitor on the edge words. -/
theorem locate_chk_root_unloaded (cfg : Config) (hk1 : 1 ≤ cfg.CHUNKBITS) (b : Build)
    (G : Nat) (W : Cluster) (q : Nat) (hW : (W.rank q).trie_cell.length ≤ 1)
    (fuel pfuel : Nat) (ch : Char) (s1 : List Char) (a mo : Nat) :
    locate_overlaps_chk cfg 1 b G (fuel + 1) pfuel W q (ch :: s1) ROOT_CELL a mo =
      .error .outOfBounds := by
  have hS : 2 ^ 1 ≤ 2 ^ cfg.CHUNKBITS := Nat.pow_le_pow_right (by norm_num) hk1
  have hs : signed_rank cfg ROOT_CELL = some 0 := by
    rw [signed_rank_of_lt cfg ROOT_CELL (by decide)]
    congr 1
    exact Nat.div_eq_of_lt (by show 1 < 2 ^ cfg.CHUNKBITS; omega)
  have hidx : ROOT_CELL &&& cfg.CHUNKMASK = 1 := by
    rw [mask_eq]
    exact Nat.mod_eq_of_lt (by show 1 < 2 ^ cfg.CHUNKBITS; omega)
  have hcell : (W.rank q).trie_cell[1]? = none := by
    rw [List.getElem?_eq_none]; exact hW
  rw [locate_overlaps_chk, hs]
  simp only [Nat.mod_one, if_true]
  rw [local_locate_overlaps_chk, hidx, hcell]

/-- The walk of the leaves below a cell `1 ≤ c ≤ 2^CHUNKBITS` on a rank whose segment
holds at most one cell, in a group of one rank: the cell is read outside the segment, or
(for `c = 2^CHUNKBITS`) handed to a rank that the group does not have. -/
theorem print_unloaded (cfg : Config) (b : Build) (hamos : b.AMOS_OVERLAPS = true)
    (hmx : 0 < b.MAX_OVERLAPS) (W : Cluster) (q : Nat)
    (hW : (W.rank q).trie_cell.length ≤ 1) (fuel c rn mo : Nat) (hc1 : 1 ≤ c)
    (hc2 : c ≤ 2 ^ cfg.CHUNKBITS) (hk : cfg.CHUNKBITS ≤ 62) :
    print_overlaps cfg 1 b (fuel + 1) W q c rn mo 0 =
      if c < 2 ^ cfg.CHUNKBITS then .error .outOfBounds else .error .noSuchRank := by
  have hS2 : 2 ^ cfg.CHUNKBITS ≤ 2 ^ 62 := Nat.pow_le_pow_right (by norm_num) hk
  have h63 : (2 : Nat) ^ 63 = 2 ^ 62 + 2 ^ 62 := by norm_num
  have hs : signed_rank cfg c = some (c / 2 ^ cfg.CHUNKBITS) :=
    signed_rank_of_lt cfg c (by omega)
  rw [print_overlaps, if_pos hamos, hs]
  simp only [Nat.mod_one]
  by_cases hlt : c < 2 ^ cfg.CHUNKBITS
  · have hidx : c &&& cfg.CHUNKMASK = c := by
      rw [mask_eq]; exact Nat.mod_eq_of_lt hlt
    have hcell : (W.rank q).trie_cell[c]? = none := by
      rw [List.getElem?_eq_none]; omega
    rw [Nat.div_eq_of_lt hlt, if_pos rfl, local_print_overlaps, if_neg (by omega), hidx, hcell,
      if_pos hlt]
  · have hceq : c = 2 ^ cfg.CHUNKBITS := by omega
    have hdiv : c / 2 ^ cfg.CHUNKBITS = 1 := by
      rw [hceq]; exact Nat.div_self (Nat.two_pow_pos _)
    rw [hdiv, if_neg (by decide), if_neg hlt]
    have hd : dispatches cfg 1 (1 + cluster_base 1 q) = false := by
      simp [dispatches, Nat.mod_one]
    rw [hd]
    rfl

theorem tree_cells_length : ∀ (h base id : Nat), (tree_cells h base id).length = tree_size h := by
  intro h
  induction h with
  | zero => intro base id; rfl
  | succ h ih =>
    intro base id
    simp only [tree_cells, List.length_cons, List.length_append, ih, tree_size]
    omega

theorem tree_image_length (h : Nat) : (tree_image h).length = 2 + 3 * tree_size h := by
  simp only [tree_image, List.length_cons, List.length_append, tree_cells_length]
  omega

theorem full_tree_image_last : image_last_used_edge full_tree_image = 2 ^ 16 := by
  have h7 : tree_size 7 = 21845 := by decide
  apply image_last_of_length _ _ _ (by norm_num)
  show (tree_image 7).length = 2 ^ 16 + 1
  rw [tree_image_length, h7]
  norm_num

/-- The trie files of the shape `tree_image` for the trees with 2 and 3 levels of cells
are the files that construction writes for the reads `tree_reads`. -/
theorem tree_image_small :
    (∃ W, construct ⟨16, 1⟩ (tree_reads 1) = .ok W ∧
      dump_trie ⟨16, 1⟩ 2 W 0 [] = .ok (tree_image 1)) ∧
    ∃ W, construct ⟨16, 1⟩ (tree_reads 2) = .ok W ∧
      dump_trie ⟨16, 1⟩ 2 W 0 [] = .ok (tree_image 2) := by
  have h1 : ((construct ⟨16, 1⟩ (tree_reads 1)).toOption.bind fun W =>
      (dump_trie ⟨16, 1⟩ 2 W 0 []).toOption.bind fun image =>
        if image = tree_image 1 then some image else none) = some (tree_image 1) := by decide!
  have h2 : ((construct ⟨16, 1⟩ (tree_reads 2)).toOption.bind fun W =>
      (dump_trie ⟨16, 1⟩ 2 W 0 []).toOption.bind fun image =>
        if image = tree_image 2 then some image else none) = some (tree_image 2) := by decide!
  constructor
  · obtain ⟨W, hW, h⟩ := toOption_bind_some _ _ _ h1
    obtain ⟨image, himg, h3⟩ := toOption_bind_some _ _ _ h
    refine ⟨W, hW, ?_⟩
    by_cases he : image = tree_image 1
    · rw [← he]; exact himg
    · rw [if_neg he] at h3; exact absurd h3 (by simp)
  · obtain ⟨W, hW, h⟩ := toOption_bind_some _ _ _ h2
    obtain ⟨image, himg, h3⟩ := toOption_bind_some _ _ _ h
    refine ⟨W, hW, ?_⟩
    by_cases he : image = tree_image 2
    · rw [← he]; exact himg
    · rw [if_neg he] at h3; exact absurd h3 (by simp)

/-- C6. On a trie file whose `last_used_edge` equals the shard size of the overlap phase
(a trie of `2^CHUNKBITS` cells besides cell 0), start-up computes a group size of 1, every
rank loads one cell, and `locate_overlaps` from the root reads the root cell outside the
segment of the rank, in the default build and for every probe string: no line
`r:d @c` is written for a string that labels a path from the root to a cell `c`, and the
run does not go on as it is to do for a string that labels no path. -/
theorem line_missing_on_short_segment (cfg2 : Config) (image : List CELL)
    (hk1 : 1 ≤ cfg2.CHUNKBITS) (hk2 : cfg2.CHUNKBITS ≤ 63)
    (hlue : image_last_used_edge image = 2 ^ cfg2.CHUNKBITS) (x : List Char) (hx : x ≠ [])
    (fuel pfuel base r d : Nat) (done : List (Nat × Record)) :
    cluster_size cfg2 (image_last_used_edge image) = 1 ∧
    ((emit_all (start_cluster cfg2 image) done).rank base).trie_cell.length ≤ 1 ∧
    locate_overlaps cfg2 (cluster_size cfg2 (image_last_used_edge image)) default_build
      (fuel + 1) pfuel (emit_all (start_cluster cfg2 image) done) base x ROOT_CELL r d =
        .error .outOfBounds := by
  have hc : cluster_size cfg2 (image_last_used_edge image) = 1 := by
    rw [hlue]; exact cluster_size_pow cfg2 hk2
  have hW : ((emit_all (start_cluster cfg2 image) done).rank base).trie_cell.length ≤ 1 := by
    rw [emit_all_trie_cell]
    exact startup_short_segment cfg2 image hk2 hlue base
  refine ⟨hc, hW, ?_⟩
  rw [hc]
  cases x with
  | nil => exact absurd rfl hx
  | cons ch s1 =>
    exact locate_root_unloaded cfg2 hk1 default_build _ base hW fuel pfuel ch s1 r d

theorem line_missing_on_short_segment_witness :
    image_last_used_edge full_tree_image = 2 ^ 16 ∧
    reach (fun i => full_tree_image.getD i empty) ROOT_CELL (codes ['A', 'C']) 5464 ∧
    locate_overlaps ⟨16, 1⟩ (cluster_size ⟨16, 1⟩ (image_last_used_edge full_tree_image))
      default_build 8 8 (start_cluster ⟨16, 1⟩ full_tree_image) 0 ['A', 'C'] ROOT_CELL 0 7 =
        .error .outOfBounds :=
  ⟨full_tree_image_last, by decide!,
    (line_missing_on_short_segment ⟨16, 1⟩ full_tree_image (by decide) (by decide)
      full_tree_image_last ['A', 'C'] (by simp) 7 8 0 0 7 []).2.2⟩

/-- C5. On a trie file whose `last_used_edge` equals the shard size of the overlap phase,
with `AMOS_OVERLAPS`: start-up computes a group size of 1 and every rank loads one cell, so
that a probe from the root reads the root cell outside the segment of the rank, and the
walk of the leaves below any cell `1 ≤ c ≤ last_used_edge` reads that cell outside the
segment or (for the last cell) hands it to a rank that the group does not have.  The
probe writes no record, whatever the number of leaves below its anchor cell. -/
theorem leaves_not_listed_on_short_segment (cfg2 : Config) (image : List CELL)
    (hk1 : 1 ≤ cfg2.CHUNKBITS) (hk2 : cfg2.CHUNKBITS ≤ 62)
    (hlue : image_last_used_edge image = 2 ^ cfg2.CHUNKBITS) (x : List Char) (hx : x ≠ [])
    (fuel pfuel base rn mo c : Nat) (hc1 : 1 ≤ c) (hc2 : c ≤ image_last_used_edge image)
    (done : List (Nat × Record)) :
    locate_overlaps cfg2 (cluster_size cfg2 (image_last_used_edge image)) amos_build
      (fuel + 1) pfuel (emit_all (start_cluster cfg2 image) done) base x ROOT_CELL rn mo =
        .error .outOfBounds ∧
    print_overlaps cfg2 (cluster_size cfg2 (image_last_used_edge image)) amos_build
      (pfuel + 1) (emit_all (start_cluster cfg2 image) done) base c rn mo 0 =
        if c < image_last_used_edge image then .error .outOfBounds
        else .error .noSuchRank := by
  have hc : cluster_size cfg2 (image_last_used_edge image) = 1 := by
    rw [hlue]; exact cluster_size_pow cfg2 (by omega)
  have hW : ((emit_all (start_cluster cfg2 image) done).rank base).trie_cell.length ≤ 1 := by
    rw [emit_all_trie_cell]
    exact startup_short_segment cfg2 image (by omega) hlue base
  rw [hc]
  constructor
  · cases x with
    | nil => exact absurd rfl hx
    | cons ch s1 =>
      exact locate_root_unloaded cfg2 hk1 amos_build _ base hW fuel pfuel ch s1 rn mo
  · rw [hlue] at hc2 ⊢
    exact print_unloaded cfg2 amos_build rfl (by decide) _ base hW pfuel c rn mo hc1 hc2 hk2

theorem leaves_not_listed_on_short_segment_witness :
    image_last_used_edge full_tree_image = 2 ^ 16 ∧
    reach (fun i => full_tree_image.getD i empty) ROOT_CELL
      (codes (List.replicate 7 'A')) 8 ∧
    (leaves (fun i => full_tree_image.getD i empty) 2 8 (codes (List.replicate 7 'A'))).length
      = 4 ∧
    locate_overlaps ⟨16, 1⟩ (cluster_size ⟨16, 1⟩ (image_last_used_edge full_tree_image))
      amos_build 16 15 (start_cluster ⟨16, 1⟩ full_tree_image) 0 (List.replicate 7 'A')
      ROOT_CELL 0 2 = .error .outOfBounds ∧
    print_overlaps ⟨16, 1⟩ (cluster_size ⟨16, 1⟩ (image_last_used_edge full_tree_image))
      amos_build 16 (start_cluster ⟨16, 1⟩ full_tree_image) 0 8 0 2 0 =
        .error .outOfBounds := by
  have h8 : 8 ≤ image_last_used_edge full_tree_image := by
    rw [full_tree_image_last]; decide
  obtain ⟨h1, h2⟩ := leaves_not_listed_on_short_segment ⟨16, 1⟩ full_tree_image (by decide)
    (by decide) full_tree_image_last (List.replicate 7 'A') (by decide) 15 15 0 0 2 8
    (by decide) h8 []
  rw [if_pos (by rw [full_tree_image_last]; decide)] at h2
  exact ⟨full_tree_image_last, by decide!, by decide!, h1, h2⟩

/-- C3. On a trie file whose `last_used_edge` equals the shard size of the overlap phase,
with `AMOS_OVERLAPS`: the probe of a source read `A` at an offset `d` below its length
reads the root cell outside the one-cell segment that the rank has loaded.  What the C
program reads there is not a cell of the trie, so that the records of the probe are not
those of reads whose first letters are the last letters of `A`. -/
theorem probe_leaves_trie_on_short_segment (cfg2 : Config) (image : List CELL)
    (hk1 : 1 ≤ cfg2.CHUNKBITS) (hk2 : cfg2.CHUNKBITS ≤ 63)
    (hlue : image_last_used_edge image = 2 ^ cfg2.CHUNKBITS) (A : List Char) (d : Nat)
    (hd : d < A.length) (fuel pfuel base rn : Nat) (done : List (Nat × Record)) :
    ((emit_all (start_cluster cfg2 image) done).rank base).trie_cell[ROOT_CELL &&&
      cfg2.CHUNKMASK]? = none ∧
    locate_overlaps cfg2 (cluster_size cfg2 (image_last_used_edge image)) amos_build
      (fuel + 1) pfuel (emit_all (start_cluster cfg2 image) done) base (A.drop d) ROOT_CELL
      rn d = .error .outOfBounds := by
  have hc : cluster_size cfg2 (image_last_used_edge image) = 1 := by
    rw [hlue]; exact cluster_size_pow cfg2 hk2
  have hW : ((emit_all (start_cluster cfg2 image) done).rank base).trie_cell.length ≤ 1 := by
    rw [emit_all_trie_cell]
    exact startup_short_segment cfg2 image hk2 hlue base
  have hS : 2 ^ 1 ≤ 2 ^ cfg2.CHUNKBITS := Nat.pow_le_pow_right (by norm_num) hk1
  have hidx : ROOT_CELL &&& cfg2.CHUNKMASK = 1 := by
    rw [mask_eq]
    exact Nat.mod_eq_of_lt (by show 1 < 2 ^ cfg2.CHUNKBITS; omega)
  constructor
  · rw [hidx, List.getElem?_eq_none]; exact hW
  · rw [hc]
    cases hx : A.drop d with
    | nil =>
      have := congrArg List.length hx
      rw [List.length_drop, List.length_nil] at this
      omega
    | cons ch s1 =>
      exact locate_root_unloaded cfg2 hk1 amos_build _ base hW fuel pfuel ch s1 rn d

theorem probe_leaves_trie_on_short_segment_witness :
    image_last_used_edge full_tree_image = 2 ^ 16 ∧
    tree_reads 7 ≠ [] ∧
    locate_overlaps ⟨16, 1⟩ (cluster_size ⟨16, 1⟩ (image_last_used_edge full_tree_image))
      amos_build 32 32 (start_cluster ⟨16, 1⟩ full_tree_image) 0
      ((List.replicate 9 'A').drop 1) ROOT_CELL 0 1 = .error .outOfBounds :=
  ⟨full_tree_image_last, by decide!,
    (probe_leaves_trie_on_short_segment ⟨16, 1⟩ full_tree_image (by decide) (by decide)
      full_tree_image_last (List.replicate 9 'A') 1 (by decide) 31 32 0 0 []).2⟩

/-- C27. On a trie file whose `last_used_edge` equals the shard size of the overlap
phase, the first edge word that `local_locate_overlaps` looks up, the word of the first
letter in the root cell, lies outside the one-cell segment that the rank has loaded, for
every probe string: the word that the C program follows is not a word of the trie, and
the monitor on the edge words has no cell to check. -/
theorem locator_reads_outside_segment (cfg2 : Config) (image : List CELL)
    (hk1 : 1 ≤ cfg2.CHUNKBITS) (hk2 : cfg2.CHUNKBITS ≤ 63)
    (hlue : image_last_used_edge image = 2 ^ cfg2.CHUNKBITS) (b : Build) (x : List Char)
    (hx : x ≠ []) (fuel pfuel base rn mo : Nat) (done : List (Nat × Record)) :
    ((emit_all (start_cluster cfg2 image) done).rank base).trie_cell.length ≤ 1 ∧
    ROOT_CELL &&& cfg2.CHUNKMASK = 1 ∧
    local_locate_overlaps cfg2 (cluster_size cfg2 (image_last_used_edge image))
      (locate_overlaps cfg2 (cluster_size cfg2 (image_last_used_edge image)) b fuel pfuel)
      (print_overlaps cfg2 (cluster_size cfg2 (image_last_used_edge image)) b pfuel) x
      (emit_all (start_cluster cfg2 image) done) base ROOT_CELL rn mo = .error .outOfBounds ∧
    locate_overlaps_chk cfg2 (cluster_size cfg2 (image_last_used_edge image)) b
      (image_last_used_edge image) (fuel + 1) pfuel
      (emit_all (start_cluster cfg2 image) done) base x ROOT_CELL rn mo =
        .error .outOfBounds := by
  have hc : cluster_size cfg2 (image_last_used_edge image) = 1 := by
    rw [hlue]; exact cluster_size_pow cfg2 hk2
  have hW : ((emit_all (start_cluster cfg2 image) done).rank base).trie_cell.length ≤ 1 := by
    rw [emit_all_trie_cell]
    exact startup_short_segment cfg2 image hk2 hlue base
  have hS : 2 ^ 1 ≤ 2 ^ cfg2.CHUNKBITS := Nat.pow_le_pow_right (by norm_num) hk1
  have hidx : ROOT_CELL &&& cfg2.CHUNKMASK = 1 := by
    rw [mask_eq]
    exact Nat.mod_eq_of_lt (by show 1 < 2 ^ cfg2.CHUNKBITS; omega)
  have hcell : ((emit_all (start_cluster cfg2 image) done).rank base).trie_cell[1]? = none := by
    rw [List.getElem?_eq_none]; exact hW
  refine ⟨hW, hidx, ?_, ?_⟩
  · cases x with
    | nil => exact absurd rfl hx
    | cons ch s1 => rw [local_locate_overlaps, hidx, hcell]
  · rw [hc]
    cases x with
    | nil => exact absurd rfl hx
    | cons ch s1 =>
      exact locate_chk_root_unloaded cfg2 hk1 b _ _ base hW fuel pfuel ch s1 rn mo

theorem locator_reads_outside_segment_witness :
    image_last_used_edge full_tree_image = 2 ^ 16 ∧
    ((start_cluster ⟨16, 1⟩ full_tree_image).rank 0).trie_cell.length ≤ 1 ∧
    (full_tree_image.getD 1 empty).edge (code 'G') = 43692 ∧
    locate_overlaps_chk ⟨16, 1⟩ (cluster_size ⟨16, 1⟩ (image_last_used_edge full_tree_image))
      default_build (image_last_used_edge full_tree_image) 8 8
      (start_cluster ⟨16, 1⟩ full_tree_image) 0 ['G', 'T'] ROOT_CELL 0 7 =
        .error .outOfBounds := by
  obtain ⟨_, _, _, h4⟩ := locator_reads_outside_segment ⟨16, 1⟩ full_tree_image (by decide)
    (by decide) full_tree_image_last default_build ['G', 'T'] (by simp) 7 8 0 0 7 []
  exact ⟨full_tree_image_last,
    startup_short_segment ⟨16, 1⟩ full_tree_image (by decide) full_tree_image_last 0,
    by decide!, h4⟩


/-! ## The reads `periodic_reads` -/

theorem word3_length (i : Nat) : (word3 i).length = 3 := rfl

theorem word3_inj (i j : Nat) (hi : i < 125) (hj : j < 125) (h : word3 i = word3 j) :
    i = j := by
  simp only [word3, List.cons.injEq, and_true] at h
  obtain ⟨h1, h2, h3⟩ := h
  have e1 := congrArg Fin.val h1
  have e2 := congrArg Fin.val h2
  have e3 := congrArg Fin.val h3
  simp only [Fin.ofNat] at e1 e2 e3
  omega

theorem periodic_length (w : List (Fin 5)) (k : Nat) :
    (periodic w k).length = k * w.length := by
  induction k with
  | zero => simp [periodic]
  | succ k ih =>
    simp only [periodic, List.length_append, ih]
    ring

/-- Repeating a word: the copy may be put in front or at the end. -/
theorem periodic_comm (w : List (Fin 5)) (k : Nat) :
    periodic w k ++ w = w ++ periodic w k := by
  induction k with
  | zero => simp [periodic]
  | succ k ih =>
    simp only [periodic, List.append_assoc]
    rw [ih]

/-- A read that repeats a word of three letters overlaps itself at offset 3: without its
first three letters it is the read without its last three letters. -/
theorem periodic_shift (w : List (Fin 5)) (hw : w.length = 3) (k : Nat) :
    (periodic w (k + 1)).drop 3 = (periodic w (k + 1)).take (3 * k) := by
  have h1 : (periodic w (k + 1)).drop 3 = periodic w k := by
    rw [periodic, List.drop_left' hw]
  have h2 : (periodic w (k + 1)).take (3 * k) = periodic w k := by
    rw [periodic, ← periodic_comm, List.take_left' (by rw [periodic_length, hw]; ring)]
  rw [h1, h2]

theorem periodic_take3 (w : List (Fin 5)) (hw : w.length = 3) (k : Nat) :
    (periodic w (k + 1)).take 3 = w := by
  rw [periodic, List.take_left' hw]

theorem periodic_reads_length : periodic_reads.length = 66 := by
  simp [periodic_reads]

theorem periodic_reads_len : ∀ r ∈ periodic_reads, r.length = 999 := by
  intro r hr
  simp only [periodic_reads, List.mem_map, List.mem_range] at hr
  obtain ⟨i, _, rfl⟩ := hr
  rw [text_length, periodic_length, word3_length]

theorem periodic_reads_clean : ∀ r ∈ periodic_reads, Clean r := by
  intro r hr
  simp only [periodic_reads, List.mem_map, List.mem_range] at hr
  obtain ⟨i, _, rfl⟩ := hr
  exact text_clean _

theorem periodic_reads_codes :
    periodic_reads.map codes = (List.range 66).map (fun i => periodic (word3 i) 333) := by
  simp only [periodic_reads, List.map_map]
  apply List.map_congr_left
  intro i _
  exact codes_text _


/-! ## Counting the cells of a trie -/

/-- Following child edges above the leaves leads to cells with larger indices. -/
theorem reach_mono {L : Nat} {ids : List (List (Fin 5))} {F : Flat}
    {str : Nat → List (Fin 5)} (inv : TrieInv L ids F str) (hs : F.last < 2 ^ 63) :
    ∀ (cs : List (Fin 5)) (e c : Nat), 1 ≤ e → e ≤ F.last →
      (str e).length + cs.length < L → reach F.mem e cs c → e ≤ c := by
  intro cs
  induction cs with
  | nil =>
    intro e c _ _ _ h
    simp only [reach] at h
    omega
  | cons x cs ih =>
    intro e c h1 h2 hlen h
    simp only [reach] at h
    obtain ⟨hz, _, hr⟩ := h
    simp only [List.length_cons] at hlen
    obtain ⟨_, _, hchild⟩ := child_word inv hs e x h1 h2 (by omega)
    obtain ⟨hlt, hle, hstr⟩ := hchild hz
    have := ih _ c (by omega) hle
      (by rw [hstr]; simp only [List.length_append, List.length_cons, List.length_nil]; omega) hr
    omega

/-- A path of child edges splits at every position. -/
theorem reach_append (mem : Nat → CELL) :
    ∀ (pre : List (Fin 5)) (e : Nat) (cs : List (Fin 5)) (c : Nat),
      reach mem e (pre ++ cs) c ↔ ∃ m, reach mem e pre m ∧ reach mem m cs c := by
  intro pre
  induction pre with
  | nil =>
    intro e cs c
    simp only [List.nil_append, reach]
    constructor
    · intro h; exact ⟨e, rfl, h⟩
    · rintro ⟨m, hm, h⟩; rw [hm] at h; exact h
  | cons x pre ih =>
    intro e cs c
    constructor
    · intro h
      have h0 : reach mem e (x :: (pre ++ cs)) c := h
      simp only [reach] at h0
      obtain ⟨h1, h2, h3⟩ := h0
      obtain ⟨m, h4, h5⟩ := (ih _ cs c).1 h3
      refine ⟨m, ?_, h5⟩
      simp only [reach]
      exact ⟨h1, h2, h4⟩
    · rintro ⟨m, h0, h4⟩
      simp only [reach] at h0
      obtain ⟨h1, h2, h3⟩ := h0
      show reach mem e (x :: (pre ++ cs)) c
      simp only [reach]
      exact ⟨h1, h2, (ih _ cs c).2 ⟨m, h3, h4⟩⟩

/-- Every proper beginning of a read of the trie leads from the root to a cell. -/
theorem path_cell {L : Nat} {ids : List (List (Fin 5))} {F : Flat}
    {str : Nat → List (Fin 5)} (inv : TrieInv L ids F str) (x : List (Fin 5)) (hx : x ∈ ids)
    (hxl : x.length = L) (d : Nat) (hd : d < L) :
    ∃ e, reach F.mem ROOT_CELL (x.take d) e := by
  obtain ⟨path, w, hsp⟩ := inv.present x hx
  have hne : x.drop d ≠ [] := by
    intro h
    have := congrArg List.length h
    rw [List.length_drop, List.length_nil] at this
    omega
  rw [← List.take_append_drop d x] at hsp
  obtain ⟨c, _, hreach, _⟩ := spells_split _ _ ROOT_CELL _ path w hne hsp
  exact ⟨c, hreach⟩

/-- A list of different numbers from 1 to `B - 1` has at most `B - 1` entries. -/
theorem nodup_below (es : List Nat) (B : Nat) (hnd : es.Nodup)
    (hb : ∀ e ∈ es, 1 ≤ e ∧ e < B) : es.length ≤ B - 1 := by
  have hsub : es.toFinset ⊆ Finset.Icc 1 (B - 1) := by
    intro e he
    rw [List.mem_toFinset] at he
    rw [Finset.mem_Icc]
    have := hb e he
    omega
  have hcard := Finset.card_le_card hsub
  rw [List.toFinset_card_of_nodup hnd, Nat.card_Icc] at hcard
  omega

/-- Different strings that lead from the root to cells lead to different cells; so among
`B` such strings one leads to a cell with an index of at least `B`. -/
theorem exists_high_cell {L : Nat} {ids : List (List (Fin 5))} {F : Flat}
    {str : Nat → List (Fin 5)} (inv : TrieInv L ids F str) (ps : List (List (Fin 5)))
    (hnd : ps.Nodup) (hps : ∀ p ∈ ps, ∃ e, reach F.mem ROOT_CELL p e) (B : Nat)
    (hB1 : 1 ≤ B) (hB : B ≤ ps.length) :
    ∃ p ∈ ps, ∃ e, reach F.mem ROOT_CELL p e ∧ B ≤ e := by
  by_contra hcon
  have hlow : ∀ p ∈ ps, ∀ e, reach F.mem ROOT_CELL p e → e < B := by
    intro p hp e he
    by_contra h
    exact hcon ⟨p, hp, e, he, by omega⟩
  have hcell : ∀ y : {p // p ∈ ps}, ∃ e, reach F.mem ROOT_CELL y.1 e := fun y => hps y.1 y.2
  let f : {p // p ∈ ps} → Nat := fun y => Classical.choose (hcell y)
  have hf : ∀ y, reach F.mem ROOT_CELL y.1 (f y) := fun y => Classical.choose_spec (hcell y)
  have hinj : Function.Injective f := by
    intro y z hyz
    have h1 := (reach_cell inv y.1 ROOT_CELL (f y) (le_refl _) inv.root_le (hf y)).2.2
    have h2 := (reach_cell inv z.1 ROOT_CELL (f z) (le_refl _) inv.root_le (hf z)).2.2
    rw [inv.str_root, List.nil_append] at h1 h2
    apply Subtype.ext
    rw [← h1, ← h2, hyz]
  have hes : (ps.attach.map f).Nodup := (List.nodup_attach.2 hnd).map hinj
  have hlt := nodup_below (ps.attach.map f) B hes (by
    intro e he
    obtain ⟨y, _, rfl⟩ := List.mem_map.1 he
    exact ⟨(reach_cell inv y.1 ROOT_CELL (f y) (le_refl _) inv.root_le (hf y)).1,
      hlow y.1 y.2 _ (hf y)⟩)
  rw [List.length_map, List.length_attach] at hlt
  omega


/-! ## The rank that writes the line of a probe (default build) -/

/-- Without `AMOS_OVERLAPS`: the loop of `local_locate_overlaps` on the rank that holds the
cell, for a clean string that labels a path to a cell `c`.  The line of `c` is written by
the rank that holds the cell `p` before `c` on the path. -/
theorem local_locate_rank (cfg : Config) (cs : Nat) (b : Build) (base L : Nat)
    (ids : List (List (Fin 5))) (F : Flat) (str : Nat → List (Fin 5))
    (inv : TrieInv L ids F str) (g : Group cfg cs base F) (hdef : b.AMOS_OVERLAPS = false)
    (pfuel : Nat) (hpf : 1 ≤ pfuel)
    (locate : Cluster → Nat → List Char → Nat → Nat → Nat → Except Fault Cluster) (m : Nat)
    (hloc : ∀ (W : Cluster) (r : Nat) (s : List Char) (e rn mo p c : Nat),
      1 ≤ e → e ≤ F.last → r ≤ e / 2 ^ cfg.CHUNKBITS → Clean s → s ≠ [] →
      s.length ≤ m → (str e).length + s.length < L → s.length < MAX_LINE →
      reach F.mem e (codes s).dropLast p → reach F.mem e (codes s) c → Holds cfg base F W →
      locate W (base + r) s e rn mo =
        .ok (emit W (base + p / 2 ^ cfg.CHUNKBITS) (Record.node rn mo c)))
    (rn mo : Nat) :
    ∀ (s : List Char) (W : Cluster) (e p c : Nat), Holds cfg base F W → 1 ≤ e → e ≤ F.last →
      Clean s → s ≠ [] → s.length ≤ m + 1 → (str e).length + s.length < L →
      s.length < MAX_LINE →
      reach F.mem e (codes s).dropLast p → reach F.mem e (codes s) c →
      local_locate_overlaps cfg cs locate (print_overlaps cfg cs b pfuel) s W
          (base + e / 2 ^ cfg.CHUNKBITS) e rn mo =
        .ok (emit W (base + p / 2 ^ cfg.CHUNKBITS) (Record.node rn mo c)) := by
  intro s
  induction s with
  | nil => intro W e p c _ _ _ _ h; exact absurd rfl h
  | cons ch s1 ih =>
    intro W e p c hW h1 h2 hclean _ hm hlen hline hp hc
    have hrank := group_rank_lt g e h2
    simp only [List.length_cons] at hm hlen hline
    obtain ⟨hnt, hmask, hchild⟩ := child_word inv g.small e (code ch) h1 h2 (by omega)
    have hc0 : reach F.mem e (code ch :: codes s1) c := hc
    simp only [reach] at hc0
    obtain ⟨hz, _, hrc⟩ := hc0
    obtain ⟨hlt, hle, hstr⟩ := hchild hz
    have hdiv : e / 2 ^ cfg.CHUNKBITS ≤ (F.mem e).edge (code ch) / 2 ^ cfg.CHUNKBITS :=
      Nat.div_le_div_right (le_of_lt hlt)
    rw [local_locate_overlaps, holds_lookup hW e h2]
    simp only
    rw [hmask, if_neg hz]
    cases s1 with
    | nil =>
      have hp0 : reach F.mem e [] p := hp
      have hrc0 : reach F.mem ((F.mem e).edge (code ch)) [] c := hrc
      simp only [reach] at hp0 hrc0
      obtain ⟨f, rfl⟩ : ∃ f, pfuel = f + 1 := ⟨pfuel - 1, by omega⟩
      rw [at_end_nil, if_pos rfl, print_overlaps_node cfg cs b hdef, hp0, hrc0]
    | cons ch2 s2 =>
      have hc1 := clean_tail hclean
      have hp0 : reach F.mem e (code ch :: (codes (ch2 :: s2)).dropLast) p := hp
      simp only [reach] at hp0
      obtain ⟨_, _, hrp⟩ := hp0
      rw [clean_head_not_end hc1]
      simp only [Bool.false_eq_true, if_false]
      rw [group_mod g.base_mod _ hrank, shr_eq]
      simp only [List.length_cons] at hm hlen hline
      have hlen2 : (str ((F.mem e).edge (code ch))).length + (ch2 :: s2).length < L := by
        rw [hstr]
        simp only [List.length_append, List.length_cons, List.length_nil]
        omega
      by_cases hhop : (F.mem e).edge (code ch) / 2 ^ cfg.CHUNKBITS ≠ e / 2 ^ cfg.CHUNKBITS
      · rw [if_pos hhop]
        exact hloc W (e / 2 ^ cfg.CHUNKBITS) (ch2 :: s2) ((F.mem e).edge (code ch)) rn mo p c
          (by omega) hle hdiv hc1 (by simp) (by simp only [List.length_cons]; omega) hlen2
          (by simp only [List.length_cons]; omega) hrp hrc hW
      · rw [if_neg hhop]
        have heq : e / 2 ^ cfg.CHUNKBITS = (F.mem e).edge (code ch) / 2 ^ cfg.CHUNKBITS :=
          (not_not.1 hhop).symm
        rw [heq]
        exact ih W ((F.mem e).edge (code ch)) p c hW (by omega) hle hc1 (by simp)
          (by simp only [List.length_cons]; omega) hlen2
          (by simp only [List.length_cons]; omega) hrp hrc

/-- Without `AMOS_OVERLAPS`: `locate_overlaps` for a clean string that labels a path from
cell `e` to a cell `c` returns, and the one line it writes, the line of `c`, is written by
the rank that holds the cell `p` before `c` on the path. -/
theorem locate_default_rank (cfg : Config) (cs : Nat) (b : Build) (base L : Nat)
    (ids : List (List (Fin 5))) (F : Flat) (str : Nat → List (Fin 5))
    (inv : TrieInv L ids F str) (g : Group cfg cs base F) (hdef : b.AMOS_OVERLAPS = false)
    (pfuel : Nat) (hpf : 1 ≤ pfuel) :
    ∀ (m fuel : Nat), 2 * m ≤ fuel →
      ∀ (W : Cluster) (r : Nat) (s : List Char) (e rn mo p c : Nat),
        1 ≤ e → e ≤ F.last → r ≤ e / 2 ^ cfg.CHUNKBITS → Clean s → s ≠ [] →
        s.length ≤ m → (str e).length + s.length < L → s.length < MAX_LINE →
        reach F.mem e (codes s).dropLast p → reach F.mem e (codes s) c →
        Holds cfg base F W →
        locate_overlaps cfg cs b fuel pfuel W (base + r) s e rn mo =
          .ok (emit W (base + p / 2 ^ cfg.CHUNKBITS) (Record.node rn mo c)) := by
  intro m
  induction m with
  | zero =>
    intro fuel _ W r s e rn mo p c _ _ _ _ hne hm
    cases s with
    | nil => exact absurd rfl hne
    | cons c s => simp at hm
  | succ m ih =>
    intro fuel hf W r s e rn mo p c h1 h2 hr hclean hne hm hlen hline hp hc hW
    have hrank := group_rank_lt g e h2
    have howner : ∀ f, 2 * m ≤ f →
        locate_overlaps cfg cs b (f + 1) pfuel W (base + e / 2 ^ cfg.CHUNKBITS) s e rn mo =
          .ok (emit W (base + p / 2 ^ cfg.CHUNKBITS) (Record.node rn mo c)) := by
      intro f hf2
      rw [locate_overlaps, signed_rank_of_lt cfg e (lt_of_le_of_lt h2 g.small)]
      simp only
      rw [if_pos (group_mod g.base_mod _ hrank).symm]
      exact local_locate_rank cfg cs b base L ids F str inv g hdef pfuel hpf _ m (ih f hf2)
        rn mo s W e p c hW h1 h2 hclean hne hm hlen hline hp hc
    by_cases hown : r = e / 2 ^ cfg.CHUNKBITS
    · obtain ⟨f, rfl⟩ : ∃ f, fuel = f + 1 := ⟨fuel - 1, by omega⟩
      rw [hown]
      exact howner f (by omega)
    · obtain ⟨f, rfl⟩ : ∃ f, fuel = f + 1 + 1 := ⟨fuel - 2, by omega⟩
      have hr2 : r < cs := by omega
      rw [locate_overlaps, signed_rank_of_lt cfg e (lt_of_le_of_lt h2 g.small)]
      simp only
      rw [group_mod g.base_mod r hr2, if_neg (fun h => hown h.symm),
        group_base g.base_mod r hr2, Nat.add_comm (e / 2 ^ cfg.CHUNKBITS) base,
        if_pos (group_dispatches g _ hrank (by omega)), if_neg (by omega)]
      exact howner f (by omega)


/-! ## The file in which the line of one probe ends up (default build) -/

/-- The main loop over two parts of a file. -/
theorem main_loop_append (cfg : Config) (cs : Nat) (b : Build) (fuel pfuel mpirank : Nat) :
    ∀ (xs ys : List (List Char)) (st : Driver),
      main_loop cfg cs b fuel pfuel mpirank (xs ++ ys) st =
        match main_loop cfg cs b fuel pfuel mpirank xs st with
        | .error e => .error e
        | .ok st1 => main_loop cfg cs b fuel pfuel mpirank ys st1 := by
  intro xs
  induction xs with
  | nil => intro ys st; rfl
  | cons x xs ih =>
    intro ys st
    rw [List.cons_append, main_loop, main_loop]
    cases process_line cfg cs b fuel pfuel mpirank st x with
    | error e => rfl
    | ok st1 => exact ih ys st1

/-- The loop of the probes over two parts of the list of lengths. -/
theorem probe_loop_append (cfg : Config) (cs : Nat) (b : Build) (fuel pfuel mpirank : Nat)
    (line : List Char) (L a : Nat) :
    ∀ (xs ys : List Nat) (W : Cluster),
      probe_loop cfg cs b fuel pfuel mpirank line L a (xs ++ ys) W =
        match probe_loop cfg cs b fuel pfuel mpirank line L a xs W with
        | .error e => .error e
        | .ok W1 => probe_loop cfg cs b fuel pfuel mpirank line L a ys W1 := by
  intro xs
  induction xs with
  | nil => intro ys W; rfl
  | cons x xs ih =>
    intro ys W
    rw [List.cons_append, probe_loop, probe_loop]
    cases locate_overlaps cfg cs b fuel pfuel W mpirank (line.drop (L - x)) ROOT_CELL a
        (L - x) with
    | error e => rfl
    | ok W1 => exact ih ys W1

/-- The counters of the main loop after lines of the `-sorted` file. -/
theorem main_loop_state (cfg : Config) (cs : Nat) (b : Build) (fuel pfuel mpirank L : Nat)
    (hL : 1 ≤ L) (hmax : L + 13 < MAX_LINE) :
    ∀ (recs : List (List (Fin 5) × Nat)), (∀ r ∈ recs, r.1.length = L ∧ r.2 < 10 ^ 12) →
      ∀ (st st1 : Driver), (st.read_length = 0 ∨ st.read_length = L) →
        main_loop cfg cs b fuel pfuel mpirank
          (recs.map (fun r => sorted_line (text r.1, r.2))) st = .ok st1 →
        (st1.read_length = 0 ∨ st1.read_length = L) ∧
          st1.read_number = st.read_number + recs.length := by
  intro recs
  induction recs with
  | nil =>
    intro _ st st1 hst h
    simp only [List.map_nil, main_loop, Except.ok.injEq] at h
    rw [← h]
    exact ⟨hst, rfl⟩
  | cons r more ih =>
    intro hrecs st st1 hst h
    obtain ⟨hr1, hr2⟩ := hrecs r (List.mem_cons_self _ _)
    have hmore : ∀ x ∈ more, x.1.length = L ∧ x.2 < 10 ^ 12 :=
      fun x hx => hrecs x (List.mem_cons_of_mem _ hx)
    simp only [List.map_cons, List.length_cons] at h ⊢
    rw [main_loop, process_sorted_line cfg cs b fuel pfuel mpirank L hL hmax r.1 hr1 r.2 hr2 st
      hst] at h
    by_cases hsel : (st.read_number + 1) % (cfg.mpisize / cs) = cluster_base cs mpirank / cs
    · rw [if_pos hsel] at h
      cases hp : probe_loop cfg cs b fuel pfuel mpirank (text r.1) L r.2 (probe_lengths b L)
          st.cluster with
      | error e => rw [hp] at h; exact absurd h (by simp)
      | ok W1 =>
        rw [hp] at h
        obtain ⟨h1, h2⟩ := ih hmore _ st1 (Or.inr rfl) h
        exact ⟨h1, by rw [h2]; simp only; omega⟩
    · rw [if_neg hsel] at h
      obtain ⟨h1, h2⟩ := ih hmore _ st1 (Or.inr rfl) h
      exact ⟨h1, by rw [h2]; simp only; omega⟩

/-- A record that a rank has in its file stays there. -/
theorem mem_emitted {base cs : Nat} {W W1 : Cluster} {recs : List Record}
    (h : Emits base cs W W1 recs) (q : Nat) (r : Record) (hr : r ∈ (W.rank q).overlaps) :
    r ∈ (W1.rank q).overlaps := by
  obtain ⟨prs, e, _, _⟩ := h
  rw [e]
  exact mem_emit_all_overlaps prs W q r hr

/-- A record that is not among the records written does not come into a file. -/
theorem not_mem_emitted {base cs : Nat} {W W1 : Cluster} {recs : List Record}
    (h : Emits base cs W W1 recs) (q : Nat) (r : Record) (hr : r ∉ (W.rank q).overlaps)
    (hrecs : r ∉ recs) : r ∉ (W1.rank q).overlaps := by
  obtain ⟨prs, e, hmap, _⟩ := h
  rw [e, emit_all_overlaps, List.mem_append]
  rintro (h1 | h1)
  · exact hr h1
  · apply hrecs
    rw [← hmap]
    obtain ⟨p, hp, hpr⟩ := List.mem_map.1 h1
    exact List.mem_map.2 ⟨p, List.mem_of_mem_filter hp, hpr⟩

/-- Without `AMOS_OVERLAPS` a record of a pass is the line `a:d @c` of a line of the file
with the identifier `a` and of a probe at the offset `d = L - l`. -/
theorem pass_records_node (b : Build) (hdef : b.AMOS_OVERLAPS = false) (mem : Nat → CELL)
    (L R g : Nat) (recs : List (List Char × Nat)) (n : Nat) (x : Record)
    (h : x ∈ pass_records b mem L R g recs n) :
    ∃ rec0 ∈ recs, ∃ l c, b.MIN_OVERLAP ≤ l ∧ l < L ∧ x = Record.node rec0.2 (L - l) c := by
  obtain ⟨j, rec0, hj, _, hline⟩ := mem_pass_records_inv _ _ _ _ _ _ _ _ h
  obtain ⟨l, hl1, hl2, hprobe⟩ := mem_line_records_inv _ _ _ _ _ _ hline
  obtain ⟨c, _, hcase⟩ := mem_probe_records_inv _ _ _ _ _ _ _ hprobe
  rcases hcase with ⟨hamos, _⟩ | ⟨_, hnode⟩
  · rw [hdef] at hamos; exact absurd hamos (by simp)
  · exact ⟨rec0, List.getElem?_mem hj, l, c, hl1, hl2, hnode⟩


/-- Without `AMOS_OVERLAPS` no line of a probe of another length has the offset of the
probe of length `l`. -/
theorem line_not_in_probes (b : Build) (hdef : b.AMOS_OVERLAPS = false) (mem : Nat → CELL)
    (L : Nat) (t : List Char) (a l c : Nat) (hl : l ≤ L - 1) (hL : 1 ≤ L) (lens : List Nat)
    (hlens : ∀ len ∈ lens, 1 ≤ len ∧ len ≤ L - 1) (hnot : l ∉ lens) :
    Record.node a (L - l) c ∉ lens.flatMap (fun len =>
      probe_records b mem L [] ROOT_CELL (codes (t.drop (L - len))) a (L - len)) := by
  intro h
  obtain ⟨len, hlen, hrec⟩ := List.mem_flatMap.1 h
  obtain ⟨c2, _, hcase⟩ := mem_probe_records_inv _ _ _ _ _ _ _ hrec
  rcases hcase with ⟨hamos, _⟩ | ⟨_, hnode⟩
  · rw [hdef] at hamos; exact absurd hamos (by simp)
  · simp only [Record.node.injEq] at hnode
    have := hlens len hlen
    have hll : l = len := by omega
    exact hnot (by rw [hll]; exact hlen)

/-- Without `AMOS_OVERLAPS` no line of a pass over lines with other identifiers has the
identifier `a`. -/
theorem line_not_in_pass (b : Build) (hdef : b.AMOS_OVERLAPS = false) (mem : Nat → CELL)
    (L R g : Nat) (recs : List (List (Fin 5) × Nat)) (n a d c : Nat)
    (hnot : ∀ r ∈ recs, r.2 ≠ a) :
    Record.node a d c ∉ pass_records b mem L R g (recs.map (fun r => (text r.1, r.2))) n := by
  intro h
  obtain ⟨rec0, hrec0, l, c2, _, _, hnode⟩ := pass_records_node b hdef mem L R g _ n _ h
  obtain ⟨r, hr, hrr⟩ := List.mem_map.1 hrec0
  simp only [Record.node.injEq] at hnode
  have : r.2 = rec0.2 := congrArg Prod.snd hrr
  exact hnot r hr (by omega)

/-- Without `AMOS_OVERLAPS`, for a line of the `-sorted` file that the group takes and a
probe length `l` for which the last `l` letters of the read label a path from the root to
a cell `c`: the main loop returns, and the line `a:(L-l) @c` of the probe is in the
overlaps file of the rank that holds the cell `p` before `c` on the path, and in the file
of no other rank. -/
theorem probe_line_file (cfg : Config) (cs : Nat) (b : Build) (base L : Nat)
    (ids : List (List (Fin 5))) (F : Flat) (str : Nat → List (Fin 5))
    (inv : TrieInv L ids F str) (g : Group cfg cs base F) (hdef : b.AMOS_OVERLAPS = false)
    (fuel pfuel : Nat) (hf : 2 * L ≤ fuel) (hpf : 2 * L ≤ pfuel) (hL : 1 ≤ L)
    (hmax : L + 13 < MAX_LINE) (hmin : 1 ≤ b.MIN_OVERLAP)
    (recs : List (List (Fin 5) × Nat)) (hrecs : ∀ r ∈ recs, r.1.length = L ∧ r.2 < 10 ^ 12)
    (hnd : recs.Nodup) (j : Nat) (r0 : List (Fin 5) × Nat) (hj : recs[j]? = some r0)
    (hid : ∀ r ∈ recs, r.2 = r0.2 → r = r0)
    (hsel : (j + 1) % (cfg.mpisize / cs) = cluster_base cs base / cs)
    (l : Nat) (hl1 : b.MIN_OVERLAP ≤ l) (hl2 : l ≤ L - 1) (p c : Nat)
    (hp : reach F.mem ROOT_CELL (codes ((text r0.1).drop (L - l))).dropLast p)
    (hc : reach F.mem ROOT_CELL (codes ((text r0.1).drop (L - l))) c)
    (W0 : Cluster) (hW0 : Holds cfg base F W0) (hempty : ∀ q, (W0.rank q).overlaps = []) :
    ∃ st3, main_loop cfg cs b fuel pfuel base
        (recs.map (fun r => sorted_line (text r.1, r.2))) ⟨0, 0, W0⟩ = .ok st3 ∧
      Record.node r0.2 (L - l) c ∈
        (st3.cluster.rank (base + p / 2 ^ cfg.CHUNKBITS)).overlaps ∧
      ∀ q, q ≠ base + p / 2 ^ cfg.CHUNKBITS →
        Record.node r0.2 (L - l) c ∉ (st3.cluster.rank q).overlaps := by
  obtain ⟨hjlt, hjeq⟩ := List.getElem?_eq_some_iff.1 hj
  have hsplit : recs = recs.take j ++ r0 :: recs.drop (j + 1) := by
    rw [← hjeq, ← List.drop_eq_getElem_cons hjlt, List.take_append_drop]
  have hprelen : (recs.take j).length = j := by
    rw [List.length_take]; omega
  have hnd2 : (recs.take j ++ r0 :: recs.drop (j + 1)).Nodup := by rw [← hsplit]; exact hnd
  have hnotpre : ∀ r ∈ recs.take j, r.2 ≠ r0.2 := by
    intro r hr h
    have hr0 := hid r (List.mem_of_mem_take hr) h
    rw [hr0] at hr
    have := (List.nodup_append.1 hnd2).2.2
    exact this hr (List.mem_cons_self _ _)
  have hnotpost : ∀ r ∈ recs.drop (j + 1), r.2 ≠ r0.2 := by
    intro r hr h
    have hr0 := hid r (List.mem_of_mem_drop hr) h
    rw [hr0] at hr
    have := (List.nodup_cons.1 (List.nodup_append.1 hnd2).2.1).1
    exact this hr
  have hr0 := hrecs r0 (List.getElem?_mem hj)
  -- the lines before
  obtain ⟨st1, hrun1, hem1⟩ := main_loop_spec cfg cs b base L ids F str inv g fuel pfuel hf hpf
    hL hmax hmin (recs.take j) (fun r hr => hrecs r (List.mem_of_mem_take hr))
    ⟨0, 0, W0⟩ (Or.inl rfl) hW0
  obtain ⟨hst1, hnum1⟩ := main_loop_state cfg cs b fuel pfuel base L hL hmax (recs.take j)
    (fun r hr => hrecs r (List.mem_of_mem_take hr)) ⟨0, 0, W0⟩ st1 (Or.inl rfl) hrun1
  simp only [hprelen, Nat.zero_add] at hnum1
  have hV1 : Holds cfg base F st1.cluster := holds_of_emits hW0 hem1
  -- the probes of the line
  have hbounds := probe_lengths_bounds b hmin L
  have hlmem : l ∈ probe_lengths b L := by
    simp only [probe_lengths, List.mem_reverse, List.mem_range'_1]
    omega
  obtain ⟨hi, lo, hlens⟩ := List.append_of_mem hlmem
  have hlnd : (hi ++ l :: lo).Nodup := by
    rw [← hlens, probe_lengths]
    exact List.nodup_reverse.2 (List.nodup_range' _ _)
  have hnothi : l ∉ hi := fun h => (List.nodup_append.1 hlnd).2.2 h (List.mem_cons_self _ _)
  have hnotlo : l ∉ lo := (List.nodup_cons.1 (List.nodup_append.1 hlnd).2.1).1
  have hhi : ∀ len ∈ hi, 1 ≤ len ∧ len ≤ L - 1 := fun len h =>
    hbounds len (by rw [hlens]; exact List.mem_append_left _ h)
  have hlo : ∀ len ∈ lo, 1 ≤ len ∧ len ≤ L - 1 := fun len h =>
    hbounds len (by rw [hlens]; exact List.mem_append_right _ (List.mem_cons_of_mem _ h))
  have htl : (text r0.1).length = L := by rw [text_length, hr0.1]
  obtain ⟨V2, hrun2, hem2⟩ := probe_loop_spec cfg cs b base L ids F str inv g fuel pfuel hf hpf
    (by omega) (text r0.1) (text_clean r0.1) htl r0.2 hi hhi st1.cluster hV1
  have hV2 : Holds cfg base F V2 := holds_of_emits hV1 hem2
  have hxl : ((text r0.1).drop (L - l)).length = l := by
    rw [List.length_drop, htl]; omega
  have hne : (text r0.1).drop (L - l) ≠ [] := by
    intro h; rw [h] at hxl; simp only [List.length_nil] at hxl; omega
  have hloc := locate_default_rank cfg cs b base L ids F str inv g hdef pfuel (by omega) l fuel
    (by omega) V2 0 ((text r0.1).drop (L - l)) ROOT_CELL r0.2 (L - l) p c (le_refl _)
    inv.root_le (Nat.zero_le _) (clean_drop (text_clean r0.1) _) hne (by omega)
    (by rw [inv.str_root, hxl]; simp only [List.length_nil]; omega) (by omega) hp hc hV2
  rw [Nat.add_zero] at hloc
  have hV3 : Holds cfg base F (emit V2 (base + p / 2 ^ cfg.CHUNKBITS)
      (Record.node r0.2 (L - l) c)) :=
    holds_emitted hV2 [(base + p / 2 ^ cfg.CHUNKBITS, Record.node r0.2 (L - l) c)]
  obtain ⟨V4, hrun4, hem4⟩ := probe_loop_spec cfg cs b base L ids F str inv g fuel pfuel hf hpf
    (by omega) (text r0.1) (text_clean r0.1) htl r0.2 lo hlo _ hV3
  have hV4 : Holds cfg base F V4 := holds_of_emits hV3 hem4
  have hprobes : probe_loop cfg cs b fuel pfuel base (text r0.1) L r0.2 (probe_lengths b L)
      st1.cluster = .ok V4 := by
    rewrite [hlens, probe_loop_append, hrun2]
    simp only
    rewrite [probe_loop, hloc]
    exact hrun4
  -- the lines after
  obtain ⟨st3, hrun3, hem3⟩ := main_loop_spec cfg cs b base L ids F str inv g fuel pfuel hf hpf
    hL hmax hmin (recs.drop (j + 1)) (fun r hr => hrecs r (List.mem_of_mem_drop hr))
    ⟨L, st1.read_number + 1, V4⟩ (Or.inr rfl) hV4
  have hline : process_line cfg cs b fuel pfuel base st1 (sorted_line (text r0.1, r0.2)) =
      .ok ⟨L, st1.read_number + 1, V4⟩ := by
    rewrite [process_sorted_line cfg cs b fuel pfuel base L hL hmax r0.1 hr0.1 r0.2 hr0.2 st1
      hst1, if_pos (by rw [hnum1]; exact hsel), hprobes]
    rfl
  have hlines : recs.map (fun r => sorted_line (text r.1, r.2)) =
      (recs.take j).map (fun r => sorted_line (text r.1, r.2)) ++
        (sorted_line (text r0.1, r0.2) ::
          (recs.drop (j + 1)).map (fun r => sorted_line (text r.1, r.2))) := by
    conv_lhs => rw [hsplit]
    rw [List.map_append, List.map_cons]
  refine ⟨st3, ?_, ?_, ?_⟩
  · rewrite [hlines, main_loop_append, hrun1]
    simp only
    rewrite [main_loop, hline]
    exact hrun3
  · apply mem_emitted hem3
    apply mem_emitted hem4
    rw [emit_overlaps, if_pos rfl]
    exact List.mem_append_right _ (List.mem_singleton_self _)
  · intro q hq
    apply not_mem_emitted hem3
    · apply not_mem_emitted hem4
      · rw [emit_overlaps, if_neg (fun h => hq h.symm), List.append_nil]
        apply not_mem_emitted hem2
        · apply not_mem_emitted hem1
          · rw [hempty]; exact List.not_mem_nil _
          · exact line_not_in_pass b hdef _ _ _ _ _ _ _ _ _ hnotpre
        · exact line_not_in_probes b hdef _ L _ _ l c hl2 hL hi hhi hnothi
      · exact line_not_in_probes b hdef _ L _ _ l c hl2 hL lo hlo hnotlo
    · exact line_not_in_pass b hdef _ _ _ _ _ _ _ _ _ hnotpost


/-! ## The trie of `periodic_reads` on two ranks with shards of `2^16` cells -/

/-- After start-up the overlaps file of every rank is empty. -/
theorem start_overlaps_empty (cfg : Config) (image : List CELL) (q : Nat) :
    ((start_cluster cfg image).rank q).overlaps = [] := by
  simp only [start_cluster]
  cases h : startup cfg image q with
  | run f =>
    simp only
    unfold startup at h
    simp only at h
    split_ifs at h <;> (simp only [Start.run.injEq] at h; rw [← h])
  | exit s => rfl
  | crash => rfl

theorem periodic_mem (i : Nat) (hi : i < 66) :
    periodic (word3 i) 333 ∈ periodic_reads.map codes := by
  rw [periodic_reads_codes]
  exact List.mem_map.2 ⟨i, List.mem_range.2 hi, rfl⟩

theorem periodic_ids_len : ∀ x ∈ periodic_reads.map codes, x.length = 999 := by
  intro x hx
  rw [periodic_reads_codes] at hx
  obtain ⟨i, _, rfl⟩ := List.mem_map.1 hx
  rw [periodic_length, word3_length]

/-- In a list without repetition the first position of an entry is its position. -/
theorem first_index_of_nodup {α : Type} [DecidableEq α] (x : α) :
    ∀ (l : List α), l.Nodup → ∀ (i : Nat), l[i]? = some x → first_index x l = i := by
  intro l
  induction l with
  | nil => intro _ i h; simp at h
  | cons y ys ih =>
    intro hnd i h
    cases i with
    | zero =>
      simp only [List.getElem?_cons_zero, Option.some.injEq] at h
      simp only [first_index, h, if_true]
    | succ i =>
      simp only [List.getElem?_cons_succ] at h
      have hx : x ∈ ys := List.getElem?_mem h
      have hy : ¬ y = x := by
        intro hyx
        rw [← hyx] at hx
        exact (List.nodup_cons.1 hnd).1 hx
      simp only [first_index, if_neg hy]
      rw [ih (List.nodup_cons.1 hnd).2 i h]

/-- The 66 reads are pairwise different. -/
theorem periodic_ids_nodup : (periodic_reads.map codes).Nodup := by
  rw [periodic_reads_codes]
  apply List.Nodup.map_on
  · intro i hi j hj heq
    rw [List.mem_range] at hi hj
    have h3 := congrArg (List.take 3) heq
    rw [periodic_take3 _ (word3_length _) 332, periodic_take3 _ (word3_length _) 332] at h3
    exact word3_inj i j (by omega) (by omega) h3
  · exact List.nodup_range _

/-- The identifier of the read number `i`. -/
theorem periodic_first_index (i : Nat) (hi : i < 66) :
    first_index (periodic (word3 i) 333) (periodic_reads.map codes) = i := by
  apply first_index_of_nodup _ _ periodic_ids_nodup
  rw [periodic_reads_codes, List.getElem?_map, List.getElem?_range hi]
  rfl

theorem periodic_reads_get (i : Nat) (hi : i < 66) :
    periodic_reads[i]? = some (text (periodic (word3 i) 333)) := by
  rw [periodic_reads, List.getElem?_map, List.getElem?_range hi]
  rfl

/-- The beginnings of 3 to 995 letters of the 66 reads are 65538 different strings. -/
theorem periodic_prefixes_nodup :
    ((List.product (List.range 66) (List.range' 3 993)).map
      (fun q => (periodic (word3 q.1) 333).take q.2)).Nodup := by
  apply List.Nodup.map_on
  · rintro ⟨i, d⟩ h1 ⟨j, e⟩ h2 heq
    have h1a := List.mem_product.1 h1
    have h2a := List.mem_product.1 h2
    simp only [List.mem_range, List.mem_range'_1] at h1a h2a
    simp only at heq
    have hl := congrArg List.length heq
    simp only [List.length_take, periodic_length, word3_length] at hl
    have hde : d = e := by omega
    subst hde
    have h3 := congrArg (List.take 3) heq
    rw [List.take_take, List.take_take, Nat.min_eq_left (by omega),
      periodic_take3 _ (word3_length _) 332, periodic_take3 _ (word3_length _) 332] at h3
    rw [word3_inj i j (by omega) (by omega) h3]
  · exact List.Nodup.product (List.nodup_range _) (List.nodup_range' 3 993)

/-- A trie of the reads `periodic_reads` has more than `2^16` cells: for one of the reads,
the cell that its first 995 letters lead to has an index above `2^16`. -/
theorem periodic_high_cell {F : Flat} {str : Nat → List (Fin 5)}
    (inv : TrieInv 999 (periodic_reads.map codes) F str) (hs : F.last < 2 ^ 63) :
    ∃ i, i < 66 ∧ ∃ p, reach F.mem ROOT_CELL ((periodic (word3 i) 333).take 995) p ∧
      65537 ≤ p ∧ p ≤ F.last := by
  have hps : ∀ s ∈ (List.product (List.range 66) (List.range' 3 993)).map
      (fun q => (periodic (word3 q.1) 333).take q.2), ∃ e, reach F.mem ROOT_CELL s e := by
    intro s hsm
    obtain ⟨⟨i, d⟩, hq, rfl⟩ := List.mem_map.1 hsm
    have hq2 := List.mem_product.1 hq
    simp only [List.mem_range, List.mem_range'_1] at hq2
    exact path_cell inv _ (periodic_mem i hq2.1) (periodic_ids_len _ (periodic_mem i hq2.1)) d
      (by omega)
  have hcount : ((List.range 66).product (List.range' 3 993)).length = 65538 := by
    have h := List.length_product (List.range 66) (List.range' 3 993)
    rw [List.length_range, List.length_range'] at h
    exact h.trans (by norm_num)
  obtain ⟨s, hsm, e, he, hbig⟩ := exists_high_cell inv _ periodic_prefixes_nodup hps 65537
    (by norm_num) (by rw [List.length_map, hcount]; norm_num)
  obtain ⟨⟨i, d⟩, hq, rfl⟩ := List.mem_map.1 hsm
  have hq2 := List.mem_product.1 hq
  simp only [List.mem_range, List.mem_range'_1] at hq2
  simp only at he
  have hx := periodic_mem i hq2.1
  have hxl := periodic_ids_len _ hx
  obtain ⟨p, hp⟩ := path_cell inv _ hx hxl 995 (by norm_num)
  have hsplit : (periodic (word3 i) 333).take 995 =
      (periodic (word3 i) 333).take d ++ ((periodic (word3 i) 333).take 995).drop d := by
    conv_lhs => rw [← List.take_append_drop d ((periodic (word3 i) 333).take 995)]
    rw [List.take_take, Nat.min_eq_left (by omega)]
  have hp2 := hp
  rw [hsplit, reach_append] at hp2
  obtain ⟨m, hm1, hm2⟩ := hp2
  have hme := reach_unique F.mem _ _ _ _ hm1 he
  subst hme
  obtain ⟨h1, h2, hstr⟩ := reach_cell inv _ ROOT_CELL m (le_refl _) inv.root_le he
  obtain ⟨_, hp3, _⟩ := reach_cell inv _ ROOT_CELL p (le_refl _) inv.root_le hp
  have hmono := reach_mono inv hs _ m p h1 h2 (by
    rw [hstr, inv.str_root, List.nil_append, List.length_take, List.length_drop,
      List.length_take, hxl]
    omega) hm2
  exact ⟨i, hq2.1, p, hp, by omega, hp3⟩


/-- What `maketrie` writes for `periodic_reads` on two ranks with shards of `2^16` cells:
construction and the walk return, the trie file holds the cells `0 .. last` with
`2^16 < last < 2^16 + 334`, the `-sorted` file lists the leaves, and for one of the reads
the cell that its first 995 letters lead to is held by the second rank. -/
theorem periodic_files :
    ∃ W F str W1, construct ⟨16, 2⟩ periodic_reads = .ok W ∧ Rel ⟨16, 2⟩ W F ∧
      TrieInv 999 (periodic_reads.map codes) F str ∧ 65537 ≤ F.last ∧ F.last ≤ 65869 ∧
      dump_trie ⟨16, 2⟩ 3 W 0 [] = .ok ((List.range (F.last + 1)).map F.mem) ∧
      walk_and_print_trie ⟨16, 2⟩ (List.replicate MAX_LINE 'x') 999 W = .ok W1 ∧
      (W1.peer 1).sorted_and_unique_reads = sorted_lines (leaves F.mem 999 ROOT_CELL []) ∧
      ∃ i, i < 66 ∧ ∃ p, reach F.mem ROOT_CELL ((periodic (word3 i) 333).take 995) p ∧
        65537 ≤ p ∧ p ≤ F.last := by
  have hn : periodic_reads.length ≤ 2 ^ 63 := by
    rw [periodic_reads_length]; norm_num
  rcases construct_spec ⟨16, 2⟩ (by decide) (by decide) (by decide) 999 (by decide)
      periodic_reads periodic_reads_len periodic_reads_clean hn with
    ⟨_, hlt⟩ | ⟨W, F, str, hW, hrel, inv, hbound⟩
  · rw [periodic_reads_length] at hlt
    exact absurd hlt (by decide)
  rw [periodic_reads_length] at hbound
  obtain ⟨W1, F2, str2, hwalk, hrel2, _, hfile⟩ := walk_file ⟨16, 2⟩ 999 periodic_reads
    (List.replicate MAX_LINE 'x') 999 (by decide) (by decide) (by decide) (by decide)
    periodic_reads_len periodic_reads_clean hn (List.length_replicate _ _) (by decide)
    (le_refl _) W hW
  have hmem : F2.mem = F.mem := hrel2.2.trans hrel.2.symm
  rw [hmem] at hfile
  have hlt : F.last < 2 ^ 63 := lt_of_lt_of_le hrel.1.lt_max (by decide)
  obtain ⟨i, hi, p, hp, hbig, hple⟩ := periodic_high_cell inv hlt
  exact ⟨W, F, str, W1, hW, hrel, inv, by omega, by omega,
    dump_trie_image ⟨16, 2⟩ (by decide) W F hrel [], hwalk, hfile, i, hi, p, hp, hbig, hple⟩

/-- On the files that `maketrie` writes for `periodic_reads`, two ranks with shards of
`2^16` cells form one cluster-group, and the default build of `findoverlaps` on it
returns; for one read `t`, number `a` of the input, which overlaps itself at offset 3, the
last 996 letters lead from the root to a cell `c`, and the line `a:3 @c` of this probe is
in the overlaps file of rank 1 and not in the file of the driver, rank 0. -/
theorem periodic_pass :
    ∃ W F str W1 V a t c, construct ⟨16, 2⟩ periodic_reads = .ok W ∧ Rel ⟨16, 2⟩ W F ∧
      TrieInv 999 (periodic_reads.map codes) F str ∧ 65537 ≤ F.last ∧ F.last ≤ 65869 ∧
      dump_trie ⟨16, 2⟩ 3 W 0 [] = .ok ((List.range (F.last + 1)).map F.mem) ∧
      walk_and_print_trie ⟨16, 2⟩ (List.replicate MAX_LINE 'x') 999 W = .ok W1 ∧
      cluster_size ⟨16, 2⟩ (image_last_used_edge ((List.range (F.last + 1)).map F.mem)) = 2 ∧
      overlap_pass ⟨16, 2⟩ default_build 2000 2000 0 ((List.range (F.last + 1)).map F.mem)
        ((W1.peer 1).sorted_and_unique_reads.map sorted_line) = .ok V ∧
      periodic_reads[a]? = some t ∧ t.drop 3 = t.take 996 ∧
      reach (cell_at ⟨16, 2⟩ W) ROOT_CELL (codes (t.drop 3)) c ∧
      Record.node a 3 c ∈ (V.rank 1).overlaps ∧ Record.node a 3 c ∉ (V.rank 0).overlaps := by
  obtain ⟨W, F, str, W1, hW, hrel, inv, hlo, hhi, himg, hwalk, hfile, i, hi, p, hp, hbig,
    hple⟩ := periodic_files
  have hlt : F.last < 2 ^ 63 := by omega
  have h216 : (2 : Nat) ^ (⟨16, 2⟩ : Config).CHUNKBITS = 65536 := by norm_num
  have hmod : F.last % 2 ^ (⟨16, 2⟩ : Config).CHUNKBITS ≠ 0 := by
    rw [h216]; omega
  have hcs : cluster_size ⟨16, 2⟩ F.last = 2 := by
    rw [cluster_size_eq ⟨16, 2⟩ F.last hlt (by decide) hmod, h216]
    omega
  have hlast := image_last F.mem F.last hlt
  have hb : 0 % cluster_size ⟨16, 2⟩ F.last = 0 := Nat.zero_mod _
  have hbl : 0 + cluster_size ⟨16, 2⟩ F.last ≤
      ((⟨16, 2⟩ : Config).mpisize / cluster_size ⟨16, 2⟩ F.last) *
        cluster_size ⟨16, 2⟩ F.last := by
    rw [hcs]; decide
  have hstart := holds_start ⟨16, 2⟩ F hlt (by decide) hmod 0 hb hbl
  have hgroup := group_start ⟨16, 2⟩ F hlt (by decide) hmod 0 hb hbl
  rw [hcs] at hgroup
  have hx := periodic_mem i hi
  have hidn : (periodic_reads.map codes).length ≤ 2 ^ 63 := by
    rw [List.length_map, periodic_reads_length]; norm_num
  have hleaf := mem_leaves_root inv hidn periodic_ids_len
  have hr0 : (periodic (word3 i) 333, first_index (periodic (word3 i) 333)
      (periodic_reads.map codes)) ∈ leaves F.mem 999 ROOT_CELL [] :=
    (hleaf _ _).2 ⟨hx, rfl⟩
  obtain ⟨j, hj⟩ := List.getElem?_of_mem hr0
  have hrecs : ∀ r ∈ leaves F.mem 999 ROOT_CELL [], r.1.length = 999 ∧ r.2 < 10 ^ 12 := by
    rintro ⟨x, id⟩ hr
    obtain ⟨h1, h2⟩ := (hleaf x id).1 hr
    refine ⟨periodic_ids_len x h1, ?_⟩
    have := first_index_le x (periodic_reads.map codes)
    rw [List.length_map, periodic_reads_length] at this
    show id < 10 ^ 12
    rw [h2]
    exact lt_of_le_of_lt this (by norm_num)
  have hid : ∀ r ∈ leaves F.mem 999 ROOT_CELL [],
      r.2 = first_index (periodic (word3 i) 333) (periodic_reads.map codes) →
      r = (periodic (word3 i) 333, first_index (periodic (word3 i) 333)
        (periodic_reads.map codes)) := by
    rintro ⟨x, id⟩ hr heq
    obtain ⟨h1, h2⟩ := (hleaf x id).1 hr
    simp only at heq
    have hxe := first_index_inj x _ _ h1 hx (h2.symm.trans heq)
    rw [hxe, heq]
  obtain ⟨c, hc⟩ := path_cell inv _ hx (periodic_ids_len _ hx) 996 (by norm_num)
  have hcodes : codes ((text (periodic (word3 i) 333)).drop (999 - 996)) =
      (periodic (word3 i) 333).take 996 := by
    have h3 : (999 : Nat) - 996 = 3 := rfl
    rw [h3, codes, List.map_drop]
    have := codes_text (periodic (word3 i) 333)
    rw [codes] at this
    rw [this]
    exact periodic_shift (word3 i) (word3_length i) 332
  have hdl : ((periodic (word3 i) 333).take 996).dropLast =
      (periodic (word3 i) 333).take 995 := by
    rw [List.dropLast_eq_take, List.take_take, List.length_take, periodic_length,
      word3_length]
    rfl
  obtain ⟨st3, hrun, hin, hout⟩ := probe_line_file ⟨16, 2⟩ 2 default_build 0 999 _ F str inv
    hgroup rfl 2000 2000 (by decide) (by decide) (by decide) (by decide) (by decide)
    (leaves F.mem 999 ROOT_CELL []) hrecs (leaves_nodup _ _ _ _) j _ hj hid
    (by show (j + 1) % (2 / 2) = cluster_base 2 0 / 2
        rw [show (2 : Nat) / 2 = 1 from rfl, Nat.mod_one]; rfl)
    996 (by decide) (by decide) p c (by rw [hcodes, hdl]; exact hp) (by rw [hcodes]; exact hc)
    (start_cluster ⟨16, 2⟩ ((List.range (F.last + 1)).map F.mem)) hstart
    (start_overlaps_empty _ _)
  have hrank : 0 + p / 2 ^ (⟨16, 2⟩ : Config).CHUNKBITS = 1 := by
    rw [h216]; omega
  rw [hrank] at hin
  have hout0 := hout 0 (by rw [hrank]; decide)
  rw [periodic_first_index i hi] at hin hout0
  have hself : (text (periodic (word3 i) 333)).drop 3 =
      (text (periodic (word3 i) 333)).take 996 := by
    rw [text, ← List.map_drop, ← List.map_take]
    exact congrArg _ (periodic_shift (word3 i) (word3_length i) 332)
  have hc2 : reach (cell_at ⟨16, 2⟩ W) ROOT_CELL
      (codes ((text (periodic (word3 i) 333)).drop 3)) c := by
    rw [← hrel.2]
    have h := hcodes
    rw [show (999 : Nat) - 996 = 3 from rfl] at h
    rw [h]
    exact hc
  refine ⟨W, F, str, W1, st3.cluster, i, _, c, hW, hrel, inv, hlo, hhi, himg, hwalk,
    by rw [hlast]; exact hcs, ?_, periodic_reads_get i hi, hself, hc2, hin, hout0⟩
  have hlines : (W1.peer 1).sorted_and_unique_reads.map sorted_line =
      (leaves F.mem 999 ROOT_CELL []).map (fun r => sorted_line (text r.1, r.2)) := by
    rw [hfile, sorted_lines, List.map_map]
    rfl
  rewrite [overlap_pass, hlast, hcs, hlines, hrun]
  rfl


theorem records_stay_in_group_witness :
    ∃ W image V1 prs c,
      construct ⟨16, 2⟩ periodic_reads = .ok W ∧
      dump_trie ⟨16, 2⟩ 3 W 0 [] = .ok image ∧
      cluster_size ⟨16, 2⟩ (image_last_used_edge image) = 2 ∧
      locate_overlaps ⟨16, 2⟩ 2 default_build 4 2000 (start_cluster ⟨16, 2⟩ image) 0
        ['A', 'A'] ROOT_CELL 1 997 = .ok V1 ∧
      V1.log = prs ∧ prs.map Prod.snd = [Record.node 1 997 c] ∧ (∀ p ∈ prs, p.1 < 2) ∧
      ∀ q, 2 ≤ q → (V1.rank q).overlaps = [] := by
  obtain ⟨W, F, str, _, _, _, _, _, hW, hrel, inv, hlo, hhi, himg, _, hcs, _⟩ := periodic_pass
  have hlt : F.last < 2 ^ 63 := by omega
  have hlast := image_last F.mem F.last hlt
  obtain ⟨c, hc⟩ := path_cell inv _ (periodic_mem 0 (by decide))
    (periodic_ids_len _ (periodic_mem 0 (by decide))) 2 (by decide)
  have htake : (periodic (word3 0) 333).take 2 = codes ['A', 'A'] := rfl
  rw [htake] at hc
  have hanchor := (anchor_iff_reach inv hlt (codes ['A', 'A']) ROOT_CELL c (le_refl _)
    inv.root_le (by decide) (by rw [inv.str_root]; decide)).2 hc
  rw [hrel.2] at hanchor
  generalize (List.range (F.last + 1)).map F.mem = image at himg hcs hlast
  have h216 : (2 : Nat) ^ (⟨16, 2⟩ : Config).CHUNKBITS = 65536 := by norm_num
  have hmod : image_last_used_edge image % 2 ^ (⟨16, 2⟩ : Config).CHUNKBITS ≠ 0 := by
    rw [hlast, h216]; omega
  obtain ⟨V1, prs, hrun, hrecs, hlog, hranks, _, _, hout⟩ := records_stay_in_group ⟨16, 2⟩
    ⟨16, 2⟩ 999 periodic_reads (by decide) (by decide) (by decide) (by decide)
    periodic_reads_len periodic_reads_clean (by rw [periodic_reads_length]; norm_num) W hW []
    image himg (by decide) (by decide) hmod 0 (Nat.zero_mod _) (by rw [hcs]; decide)
    default_build ['A', 'A'] (by simp [Clean, at_end]) (by decide) (by decide) (by decide) 4
    2000 (by decide) (by decide) [] 1 997
  have e0 : ∀ V : Cluster, emit_all V [] = V := fun _ => rfl
  rw [e0, hcs] at hrun
  rw [e0] at hlog
  refine ⟨W, image, V1, prs, c, hW, himg, hcs, hrun, ?_, ?_, ?_, ?_⟩
  · rw [hlog]
    show ([] : List (Nat × Record)) ++ prs = prs
    exact List.nil_append _
  · rw [hrecs, probe_records, hanchor]
    rfl
  · intro p hp
    have := hranks p hp
    rw [hcs] at this
    omega
  · intro q hq
    rw [hout q (Or.inr (by rw [hcs]; omega)), e0]
    exact start_overlaps_empty _ _ _

/-- C24 as stated does not hold.  The 66 reads `periodic_reads` of 999 letters differ in
their first three letters, so that their trie has more than `66 * 993 > 2^16` cells:
`maketrie` on two ranks with shards of `2^16` cells writes a trie file for which the two
ranks of `findoverlaps` form one cluster-group, with rank 0 as its driver.  Each read
repeats a word of three letters and so overlaps itself at offset 3.  The overlap pass of
the default build returns; for one read `t`, number `a` of the input, the descent of the
probe at offset 3 ends on rank 1 in the cell `c` that the last 996 letters of `t` lead to,
and the line `a:3 @c` is in the overlaps file of rank 1 and not in the file of the
driver. -/
theorem record_in_file_of_second_rank :
    ∃ W image W1 V a t c, construct ⟨16, 2⟩ periodic_reads = .ok W ∧
      dump_trie ⟨16, 2⟩ 3 W 0 [] = .ok image ∧
      walk_and_print_trie ⟨16, 2⟩ (List.replicate MAX_LINE 'x') 999 W = .ok W1 ∧
      cluster_size ⟨16, 2⟩ (image_last_used_edge image) = 2 ∧
      overlap_pass ⟨16, 2⟩ default_build 2000 2000 0 image
        ((W1.peer 1).sorted_and_unique_reads.map sorted_line) = .ok V ∧
      periodic_reads[a]? = some t ∧ t.drop 3 = t.take 996 ∧
      reach (cell_at ⟨16, 2⟩ W) ROOT_CELL (codes (t.drop 3)) c ∧
      Record.node a 3 c ∈ (V.rank 1).overlaps ∧ Record.node a 3 c ∉ (V.rank 0).overlaps := by
  obtain ⟨W, F, _, W1, V, a, t, c, hW, _, _, _, _, himg, hwalk, hcs, hV, ht, hself, hc, hin,
    hout⟩ := periodic_pass
  exact ⟨W, _, W1, V, a, t, c, hW, himg, hwalk, hcs, hV, ht, hself, hc, hin, hout⟩

end ReadTrie
